import Mathlib

/-! CPU scheduling simulator (`src/scheduling/scheduling.cpp`).

A shallow embedding of the six scheduling routines of the simulator
(`FCFS`, `SJF_NonPreemptive`, `SJF_Preemptive`, `Priority_NonPreemptive`,
`Priority_Preemptive`, `RoundRobin`) and of `printGantt`.

Modelling conventions.

* A C++ `int` is modelled in two layers.  The definitions `fcfsStep`,
  `npBody`, `preBody`, `rrBody` and the routines built on them compute with
  exact integers (`Int`): they describe the program on the runs on which
  every computed value fits in an `int`.  The namespace `Int32` holds the
  same routines with every addition and subtraction reduced to 32 bits
  (`wrap`): they describe the program on every input.  What depends on the
  range of `int` (reported numbers, clock values, termination) is stated of
  the `Int32` routines; `runPolicy_int32` proves that the two layers
  coincide on a valid batch whose largest arrival time plus the sum of its
  burst times is at most `INT_MAX`.  The sentinel `INT_MAX` used by the
  selection scans is kept in both layers, because it changes which process
  is selected.
* `vector<Process> p(n)` is a `List Process`; `p[i]` is `p.getD i default`;
  `n` is the length of the list.
* A `while` loop is run with a fuel bound: `none` means that the loop did
  not reach its exit test within the given number of iterations.
* The unchecked read `p[idx].at` with `idx = -1` in `Priority_Preemptive`
  has no defined value; the scan returns `none` when it happens.
* `double totalWT, totalTAT` hold sums of `int`s; they are kept as exact
  integers and the printed averages as rationals.
* `std::sort` is library code: `FCFS` takes it as a parameter `S : Sorter`
  that carries what the language guarantees of it.
-/

namespace Scheduling

/-- The C++ constant `INT_MAX` for a 32-bit `int`. -/
def INT_MAX : Int := 2147483647

/-- The record `struct Process` (source lines 4-8); the field `at` is
spelled `at_` because `at` is reserved in Lean. -/
structure Process where
  pid : Int := 0
  at_ : Int := 0
  bt : Int := 0
  pr : Int := 0
  ct : Int := 0
  tat : Int := 0
  wt : Int := 0
  rt : Int := 0
  start : Int := 0
deriving DecidableEq

instance : Inhabited Process := ⟨{}⟩

/-- One line of console input for a process: `AT BT` and, for the two
priority routines, `PRIORITY`. -/
structure Input where
  at_ : Int
  bt : Int
  pr : Int := 0
deriving DecidableEq

/-- The input loop shared by the six routines: `p[i].pid = i + 1`, the
arrival and burst times are read, the priority is read only by the priority
routines (`withPr`), and `p[i].rt = p[i].bt` is executed only by the
routines that use the remaining time (`withRt`). -/
def readProcs (withPr withRt : Bool) : Nat → List Input → List Process
  | _, [] => []
  | i, x :: xs =>
    { pid := (i : Int) + 1, at_ := x.at_, bt := x.bt,
      pr := if withPr then x.pr else 0,
      rt := if withRt then x.bt else 0 } :: readProcs withPr withRt (i + 1) xs

/-- What a routine prints after its loop: the table rows, the two totals
with the divisor `n` of the averages, and the arguments of `printGantt`. -/
structure Report where
  rows : List Process
  totalWT : Int
  totalTAT : Int
  n : Nat
  gantt : List (Int × Int)
  end_time : Int
deriving DecidableEq

/-- The printed `Average WT`, `totalWT / n`, as an exact quotient.  For
`n = 0` the C++ division `0.0 / 0` is a NaN while the rational quotient is
0 by convention; the statements about the empty batch therefore speak of
the totals and of the divisor `n`, not of this quotient. -/
def Report.avgWT (r : Report) : ℚ := (r.totalWT : ℚ) / (r.n : ℚ)

/-- The printed `Average TAT`, `totalTAT / n`. -/
def Report.avgTAT (r : Report) : ℚ := (r.totalTAT : ℚ) / (r.n : ℚ)

/-- What `printGantt` writes: either the line
"No execution segments to display", or the process sequence, the start
labels and the closing `end_time`. -/
inductive GanttOutput where
  | noSegments
  | chart (ids : List Int) (labels : List Int) (end_time : Int)
deriving DecidableEq

/-- The routine `printGantt` (source lines 11-34). -/
def printGantt (gantt : List (Int × Int)) (end_time : Int) : GanttOutput :=
  if gantt.isEmpty then GanttOutput.noSegments
  else GanttOutput.chart (gantt.map Prod.fst) (gantt.map Prod.snd) end_time

/-- A `while (guard) body` loop run for at most `fuel` iterations; a body
that returns `none` (undefined behaviour) stops the run without a result. -/
def whileLoop {σ : Type} (guard : σ → Bool) (body : σ → Option σ) : Nat → σ → Option σ
  | 0, s => if guard s then none else some s
  | fuel + 1, s =>
    if guard s then
      match body s with
      | none => none
      | some s' => whileLoop guard body fuel s'
    else some s

/-! ## FCFS (source lines 37-83) -/

/-- Insertion of `x` into a list ordered by the comparator of line 51-52,
`a.at < b.at`: `x` passes the elements that compare before it. -/
def insertByAt (x : Process) : List Process → List Process
  | [] => [x]
  | y :: ys => if y.at_ < x.at_ then y :: insertByAt x ys else x :: y :: ys

/-- An insertion sort with the comparator of line 51-52: equal arrival
times stay in input order.  It returns what `std::sort` of libstdc++
returns on a vector of at most 16 elements. -/
def sortByAt : List Process → List Process
  | [] => []
  | x :: xs => insertByAt x (sortByAt xs)

/-- The call `sort(p.begin(), p.end(), a.at < b.at)` of line 51 is a call
into the C++ library.  What the language guarantees of `std::sort` is kept
here: the result is a permutation of the vector and no element compares
before an earlier one.  The relative order of processes with equal arrival
time is left open, as `std::sort` leaves it. -/
structure Sorter where
  sort : List Process → List Process
  perm : ∀ l, (sort l).Perm l
  sorted : ∀ l, (sort l).Pairwise (fun a b => ¬ b.at_ < a.at_)

/-- The insertion sort is one admissible `std::sort`. -/
def insertionSorter : Sorter where
  sort := sortByAt
  perm := by
    have hins : ∀ (x : Process) (l : List Process), (insertByAt x l).Perm (x :: l) := by
      intro x l
      induction l with
      | nil => exact List.Perm.refl _
      | cons y ys ih =>
        unfold insertByAt
        split
        · exact (List.Perm.cons y ih).trans (List.Perm.swap x y ys)
        · exact List.Perm.refl _
    intro l
    induction l with
    | nil => exact List.Perm.refl _
    | cons x xs ih => exact (hins x (sortByAt xs)).trans (List.Perm.cons x ih)
  sorted := by
    have hmem : ∀ (x : Process) (l : List Process) (z : Process),
        z ∈ insertByAt x l → z = x ∨ z ∈ l := by
      intro x l
      induction l with
      | nil => intro z hz; simpa [insertByAt] using hz
      | cons y ys ih =>
        intro z hz
        unfold insertByAt at hz
        split at hz
        · rcases List.mem_cons.mp hz with h | h
          · exact Or.inr (h ▸ List.mem_cons_self _ _)
          · rcases ih z h with h | h
            · exact Or.inl h
            · exact Or.inr (List.mem_cons_of_mem _ h)
        · rcases List.mem_cons.mp hz with h | h
          · exact Or.inl h
          · exact Or.inr h
    have hins : ∀ (x : Process) (l : List Process),
        l.Pairwise (fun a b => ¬ b.at_ < a.at_) →
        (insertByAt x l).Pairwise (fun a b => ¬ b.at_ < a.at_) := by
      intro x l
      induction l with
      | nil => intro _; simp [insertByAt]
      | cons y ys ih =>
        intro hp
        obtain ⟨hy, hys⟩ := List.pairwise_cons.mp hp
        unfold insertByAt
        split
        · rename_i hlt
          refine List.pairwise_cons.mpr ⟨?_, ih hys⟩
          intro z hz
          rcases hmem x ys z hz with h | h
          · rw [h]; omega
          · exact hy z h
        · rename_i hge
          refine List.pairwise_cons.mpr ⟨?_, hp⟩
          intro z hz
          rcases List.mem_cons.mp hz with h | h
          · rw [h]; exact hge
          · have := hy z h
            omega
    intro l
    induction l with
    | nil => exact List.Pairwise.nil
    | cons x xs ih => exact hins x (sortByAt xs) ih

/-- The variables of the FCFS loop; `p` holds the processes already
handled, in order. -/
structure FState where
  p : List Process
  time : Int
  totalWT : Int
  totalTAT : Int
  gantt : List (Int × Int)
deriving DecidableEq

/-- One iteration of `for (auto &pr : p)` (lines 58-71). -/
def fcfsStep (s : FState) (pr : Process) : FState :=
  let t0 := if s.time < pr.at_ then pr.at_ else s.time
  let time := t0 + pr.bt
  let ct := time
  let tat := ct - pr.at_
  let wt := tat - pr.bt
  { p := s.p ++ [{ pr with ct := ct, tat := tat, wt := wt }],
    time := time,
    totalWT := s.totalWT + wt,
    totalTAT := s.totalTAT + tat,
    gantt := s.gantt ++ [(pr.pid, t0)] }

/-- The FCFS loop over the sorted vector. -/
def fcfsLoop (p : List Process) : FState :=
  p.foldl fcfsStep { p := [], time := 0, totalWT := 0, totalTAT := 0, gantt := [] }

/-- The routine `FCFS`, over the library sort `S`. -/
def FCFS (S : Sorter) (batch : List Input) : Report :=
  let s := fcfsLoop (S.sort (readProcs false false 0 batch))
  { rows := s.p, totalWT := s.totalWT, totalTAT := s.totalTAT,
    n := batch.length, gantt := s.gantt, end_time := s.time }

/-! ## SJF non-preemptive (lines 86-146) and Priority non-preemptive (lines 218-278)

The two routines are the same text up to the field compared with the
running minimum (`bt` with `mn`, `pr` with `best`); `key` is that field. -/

/-- The variables of a non-preemptive loop. -/
structure NPState where
  p : List Process
  done : List Bool
  time : Int
  completed : Nat
  totalWT : Int
  totalTAT : Int
  gantt : List (Int × Int)
deriving DecidableEq

/-- One iteration of the selection scan (lines 109-114, 241-246):
`if (!done[i] && p[i].at <= time && key(p[i]) < mn) { idx = i; mn = key(p[i]); }`. -/
def npScanStep (key : Process → Int) (p : List Process) (done : List Bool) (time : Int)
    (acc : Option Nat × Int) (i : Nat) : Option Nat × Int :=
  let q := p.getD i default
  if done.getD i false = false ∧ q.at_ ≤ time ∧ key q < acc.2 then (some i, key q) else acc

/-- The selection scan, from `idx = -1` (here `none`) and `mn = INT_MAX`. -/
def npScan (key : Process → Int) (p : List Process) (done : List Bool) (time : Int) :
    Option Nat × Int :=
  (List.range p.length).foldl (npScanStep key p done time) (none, INT_MAX)

/-- The body of `while (completed < n)` (lines 106-134, 238-266). -/
def npBody (key : Process → Int) (s : NPState) : NPState :=
  match (npScan key s.p s.done s.time).1 with
  | none => { s with time := s.time + 1 }
  | some idx =>
    let q := s.p.getD idx default
    let time := s.time + q.bt
    let ct := time
    let tat := ct - q.at_
    let wt := tat - q.bt
    { p := s.p.set idx { q with ct := ct, tat := tat, wt := wt },
      done := s.done.set idx true,
      time := time,
      completed := s.completed + 1,
      totalWT := s.totalWT + wt,
      totalTAT := s.totalTAT + tat,
      gantt := s.gantt ++ [(q.pid, s.time)] }

/-- The state before the loop. -/
def npInit (p : List Process) : NPState :=
  { p := p, done := List.replicate p.length false, time := 0, completed := 0,
    totalWT := 0, totalTAT := 0, gantt := [] }

/-- The loop `while (completed < n)`. -/
def npLoop (key : Process → Int) (fuel : Nat) (s : NPState) : Option NPState :=
  whileLoop (fun s => decide (s.completed < s.p.length)) (fun s => some (npBody key s)) fuel s

/-- The report printed after a non-preemptive loop. -/
def npReport (n : Nat) (s : NPState) : Report :=
  { rows := s.p, totalWT := s.totalWT, totalTAT := s.totalTAT, n := n,
    gantt := s.gantt, end_time := s.time }

/-- The routine `SJF_NonPreemptive`. -/
def SJF_NonPreemptive (fuel : Nat) (batch : List Input) : Option Report :=
  (npLoop (fun q => q.bt) fuel (npInit (readProcs false false 0 batch))).map
    (npReport batch.length)

/-- The routine `Priority_NonPreemptive`. -/
def Priority_NonPreemptive (fuel : Nat) (batch : List Input) : Option Report :=
  (npLoop (fun q => q.pr) fuel (npInit (readProcs true false 0 batch))).map
    (npReport batch.length)

/-! ## SJF preemptive (lines 149-215) and Priority preemptive (lines 281-356)

The two routines share everything but the selection scan. -/

/-- The variables of a preemptive loop. -/
structure PState where
  p : List Process
  time : Int
  completed : Nat
  prev : Int
  totalWT : Int
  totalTAT : Int
  gantt : List (Int × Int)
deriving DecidableEq

/-- One iteration of the SRTF scan (lines 171-176):
`if (p[i].at <= time && p[i].rt > 0 && p[i].rt < mn) { idx = i; mn = p[i].rt; }`. -/
def srtfScanStep (p : List Process) (time : Int) (acc : Option Nat × Int) (i : Nat) :
    Option Nat × Int :=
  let q := p.getD i default
  if q.at_ ≤ time ∧ 0 < q.rt ∧ q.rt < acc.2 then (some i, q.rt) else acc

/-- The SRTF selection scan; it reads no element out of range. -/
def srtfScan (p : List Process) (time : Int) : Option (Option Nat) :=
  some ((List.range p.length).foldl (srtfScanStep p time) (none, INT_MAX)).1

/-- One iteration of the Priority-preemptive scan (lines 304-314).  The
right operand of `||` is evaluated only when `p[i].pr < best` is false, and
`p[idx].at` only when `p[i].pr == best`; with `idx = -1` that read has no
defined value and the step yields `none`. -/
def prioScanStep (p : List Process) (time : Int) (acc : Option (Option Nat × Int)) (i : Nat) :
    Option (Option Nat × Int) :=
  match acc with
  | none => none
  | some (idx, best) =>
    let q := p.getD i default
    if q.at_ ≤ time ∧ 0 < q.rt then
      if q.pr < best then some (some i, q.pr)
      else if q.pr = best then
        match idx with
        | none => none
        | some j => if q.at_ < (p.getD j default).at_ then some (some i, q.pr) else some (idx, best)
      else some (idx, best)
    else some (idx, best)

/-- The Priority-preemptive selection scan. -/
def prioScan (p : List Process) (time : Int) : Option (Option Nat) :=
  ((List.range p.length).foldl (prioScanStep p time) (some (none, INT_MAX))).map Prod.fst

/-- The body of `while (completed < n)` (lines 169-202, 301-343). -/
def preBody (scan : List Process → Int → Option (Option Nat)) (s : PState) : Option PState :=
  match scan s.p s.time with
  | none => none
  | some none => some { s with time := s.time + 1 }
  | some (some idx) =>
    let q := s.p.getD idx default
    let switched := decide (s.prev ≠ q.pid)
    let gantt := if switched then s.gantt ++ [(q.pid, s.time)] else s.gantt
    let prev := if switched then q.pid else s.prev
    let q1 := { q with rt := q.rt - 1 }
    let time := s.time + 1
    if q1.rt = 0 then
      let ct := time
      let tat := ct - q1.at_
      let wt := tat - q1.bt
      some { p := s.p.set idx { q1 with ct := ct, tat := tat, wt := wt },
             time := time, completed := s.completed + 1, prev := prev,
             totalWT := s.totalWT + wt, totalTAT := s.totalTAT + tat, gantt := gantt }
    else
      some { s with p := s.p.set idx q1, time := time, prev := prev, gantt := gantt }

/-- The state before the loop (`prev = -1`). -/
def preInit (p : List Process) : PState :=
  { p := p, time := 0, completed := 0, prev := -1, totalWT := 0, totalTAT := 0, gantt := [] }

/-- The loop `while (completed < n)`. -/
def preLoop (scan : List Process → Int → Option (Option Nat)) (fuel : Nat) (s : PState) :
    Option PState :=
  whileLoop (fun s => decide (s.completed < s.p.length)) (preBody scan) fuel s

/-- The report printed after a preemptive loop. -/
def preReport (n : Nat) (s : PState) : Report :=
  { rows := s.p, totalWT := s.totalWT, totalTAT := s.totalTAT, n := n,
    gantt := s.gantt, end_time := s.time }

/-- The routine `SJF_Preemptive`. -/
def SJF_Preemptive (fuel : Nat) (batch : List Input) : Option Report :=
  (preLoop srtfScan fuel (preInit (readProcs false true 0 batch))).map (preReport batch.length)

/-- The routine `Priority_Preemptive`. -/
def Priority_Preemptive (fuel : Nat) (batch : List Input) : Option Report :=
  (preLoop prioScan fuel (preInit (readProcs true true 0 batch))).map (preReport batch.length)

/-! ## Round Robin (lines 359-441) -/

/-- The variables of the Round Robin loop; `q` is the ready queue, front
first. -/
structure RRState where
  p : List Process
  q : List Nat
  inQ : List Bool
  gantt : List (Int × Int)
  time : Int
  completed : Nat
deriving DecidableEq

/-- One iteration of the enqueue scan (lines 385-390, 406-411):
`if (!inQ[i] && p[i].at <= time && p[i].rt > 0) { q.push(i); inQ[i] = true; }`. -/
def rrEnqStep (p : List Process) (time : Int) (acc : List Nat × List Bool) (i : Nat) :
    List Nat × List Bool :=
  let x := p.getD i default
  if acc.2.getD i false = false ∧ x.at_ ≤ time ∧ 0 < x.rt then (acc.1 ++ [i], acc.2.set i true)
  else acc

/-- The enqueue scan over `i = 0 .. n-1`. -/
def rrEnqueue (p : List Process) (time : Int) (q : List Nat) (inQ : List Bool) :
    List Nat × List Bool :=
  (List.range p.length).foldl (rrEnqStep p time) (q, inQ)

/-- The body of `while (completed < n)` (lines 384-421). -/
def rrBody (tq : Int) (s : RRState) : RRState :=
  let e1 := rrEnqueue s.p s.time s.q s.inQ
  match e1.1 with
  | [] => { s with q := e1.1, inQ := e1.2, time := s.time + 1 }
  | idx :: rest =>
    let x := s.p.getD idx default
    let gantt := s.gantt ++ [(x.pid, s.time)]
    let exec := min tq x.rt
    let x1 := { x with rt := x.rt - exec }
    let p1 := s.p.set idx x1
    let time := s.time + exec
    let e2 := rrEnqueue p1 time rest e1.2
    if 0 < x1.rt then
      { p := p1, q := e2.1 ++ [idx], inQ := e2.2, gantt := gantt, time := time,
        completed := s.completed }
    else
      let ct := time
      let tat := ct - x1.at_
      let wt := tat - x1.bt
      { p := p1.set idx { x1 with ct := ct, tat := tat, wt := wt },
        q := e2.1, inQ := e2.2, gantt := gantt, time := time,
        completed := s.completed + 1 }

/-- The state before the loop. -/
def rrInit (p : List Process) : RRState :=
  { p := p, q := [], inQ := List.replicate p.length false, gantt := [], time := 0,
    completed := 0 }

/-- The loop `while (completed < n)`. -/
def rrLoop (tq : Int) (fuel : Nat) (s : RRState) : Option RRState :=
  whileLoop (fun s => decide (s.completed < s.p.length)) (fun s => some (rrBody tq s)) fuel s

/-- The report printed after the loop; the totals are summed over the
table rows (lines 425-434). -/
def rrReport (n : Nat) (s : RRState) : Report :=
  { rows := s.p,
    totalWT := (s.p.map fun x => x.wt).sum,
    totalTAT := (s.p.map fun x => x.tat).sum,
    n := n, gantt := s.gantt, end_time := s.time }

/-- The routine `RoundRobin`. -/
def RoundRobin (fuel : Nat) (batch : List Input) (tq : Int) : Option Report :=
  (rrLoop tq fuel (rrInit (readProcs false true 0 batch))).map (rrReport batch.length)

/-! ## The menu of `main` (lines 444-487) -/

/-- The menu choices 1 to 6 of `main`. -/
inductive Policy where
  | FCFS
  | SJF_NP
  | SJF_P
  | PRIO_NP
  | RR
  | PRIO_P
deriving DecidableEq

/-- The `switch` of `main`: the routine run for a menu choice.  The time
quantum `tq` is read by `RoundRobin` only, the library sort `S` is used by
`FCFS` only. -/
def runPolicy (S : Sorter) (ch : Policy) (fuel : Nat) (batch : List Input) (tq : Int) :
    Option Report :=
  match ch with
  | Policy.FCFS => some (FCFS S batch)
  | Policy.SJF_NP => SJF_NonPreemptive fuel batch
  | Policy.SJF_P => SJF_Preemptive fuel batch
  | Policy.PRIO_NP => Priority_NonPreemptive fuel batch
  | Policy.RR => RoundRobin fuel batch tq
  | Policy.PRIO_P => Priority_Preemptive fuel batch

end Scheduling


/-! ## Vocabulary of the statements -/

namespace Scheduling

/-- The sum of the burst times of a batch. -/
def sumBt (batch : List Input) : Int := (batch.map fun x => x.bt).sum

/-- The largest arrival time of a batch (0 for the empty batch). -/
def maxAt (batch : List Input) : Int := (batch.map fun x => x.at_).foldr max 0

/-- A valid batch: non-empty, every arrival time at least 0 and every burst
time at least 1. -/
def ValidBatch (batch : List Input) : Prop :=
  batch ≠ [] ∧ ∀ x ∈ batch, 0 ≤ x.at_ ∧ 1 ≤ x.bt

/-- The metric formulas: turnaround = completion - arrival and
waiting = turnaround - burst. -/
def MetricsOK (x : Process) : Prop := x.tat = x.ct - x.at_ ∧ x.wt = x.tat - x.bt

/-- The part of a process record that the input loop fills in and the
simulation never writes. -/
def Process.inp (x : Process) : Int × Int × Int × Int := (x.pid, x.at_, x.bt, x.pr)

/-- The metric identities of a report over a batch: every row satisfies the
two formulas, and the turnaround minus waiting times add up to the burst
times of the batch. -/
def ReportMetrics (batch : List Input) (r : Report) : Prop :=
  (∀ x ∈ r.rows, MetricsOK x) ∧
  (r.rows.map fun x => x.tat - x.wt).sum = sumBt batch

/-- The bounds of a row: completion no earlier than arrival + burst,
turnaround at least the burst, burst at least 1, waiting at least 0. -/
def RowBounds (x : Process) : Prop :=
  x.at_ + x.bt ≤ x.ct ∧ x.bt ≤ x.tat ∧ 1 ≤ x.bt ∧ 0 ≤ x.wt

end Scheduling

namespace Scheduling

/-- The invariant of a non-preemptive loop started on the vector `p0`: the
input fields are untouched, `completed` counts the `done` flags, every
process flagged done has its metrics, with completion no earlier than
arrival + burst, and every dispatch has left one Gantt segment. -/
structure NPInv (p0 : List Process) (s : NPState) : Prop where
  inp : s.p.map Process.inp = p0.map Process.inp
  len : s.done.length = s.p.length
  cnt : s.completed = s.done.countP fun b => b
  met : ∀ z ∈ s.p.zip s.done, z.2 = true → MetricsOK z.1 ∧ z.1.at_ + z.1.bt ≤ z.1.ct
  gl : s.gantt.length = s.completed

/-- The burst time still to be dispatched in a non-preemptive loop. -/
def npTodo (s : NPState) : Int :=
  ((s.p.zip s.done).map fun z => if z.2 = true then 0 else z.1.bt).sum

/-- The additional invariant of a non-preemptive loop on a valid batch whose
keys are below the sentinel: `M` bounds the arrival times and `B` is the sum
of the burst times. -/
structure NPValid (key : Process → Int) (M B : Int) (s : NPState) : Prop where
  ok : ∀ x ∈ s.p, 0 ≤ x.at_ ∧ x.at_ ≤ M ∧ 1 ≤ x.bt ∧ key x < INT_MAX
  sum : (s.p.map fun x => x.bt).sum = B
  t0 : 0 ≤ s.time
  bound : s.time + npTodo s ≤ M + B
  ctle : ∀ z ∈ s.p.zip s.done, z.2 = true → z.1.ct ≤ s.time

end Scheduling

namespace Scheduling

/-- A process of a remaining-time loop is finished: it had work to do and
its remaining time is 0. -/
def Process.finished (x : Process) : Bool := decide (0 < x.bt ∧ x.rt = 0)

/-- What holds of every process record at clock value `time` in the loops
that keep a remaining time: the remaining time stays between 0 and the
burst time (and is never touched when the burst is not positive), the time
already consumed was consumed after the arrival, and a finished process has
its metrics. -/
def RowInv (time : Int) (x : Process) : Prop :=
  (x.bt ≤ 0 → x.rt = x.bt) ∧
  (0 < x.bt → 0 ≤ x.rt ∧ x.rt ≤ x.bt) ∧
  (x.rt < x.bt → x.at_ + (x.bt - x.rt) ≤ time) ∧
  (x.finished = true → MetricsOK x ∧ x.at_ + x.bt ≤ x.ct ∧ x.ct ≤ time)

/-- The invariant of a preemptive loop started on the vector `p0`. -/
structure PInv (p0 : List Process) (s : PState) : Prop where
  inp : s.p.map Process.inp = p0.map Process.inp
  row : ∀ x ∈ s.p, RowInv s.time x
  cnt : s.completed = s.p.countP Process.finished

/-- The additional invariant of a preemptive loop on a valid batch: `M`
bounds the arrival times and `B` is the sum of the burst times. -/
structure PValid (M B : Int) (s : PState) : Prop where
  t0 : 0 ≤ s.time
  bound : s.time + (s.p.map fun x => x.rt).sum ≤ M + B

/-- A selection scan only ever selects an index in range of a process that
has arrived and has remaining time. -/
def ScanSound (scan : List Process → Int → Option (Option Nat)) : Prop :=
  ∀ p time idx, scan p time = some (some idx) →
    idx < p.length ∧ (p.getD idx default).at_ ≤ time ∧ 0 < (p.getD idx default).rt

/-- On vectors satisfying `C`, a selection scan is defined and finds a
process whenever one has arrived with remaining time. -/
def ScanComplete (C : List Process → Prop) (scan : List Process → Int → Option (Option Nat)) :
    Prop :=
  ∀ p time, C p → scan p time ≠ none ∧
    (scan p time = some none → ∀ i, i < p.length → (p.getD i default).at_ ≤ time →
      (p.getD i default).rt ≤ 0)

end Scheduling

namespace Scheduling

/-- The test of the Round Robin enqueue scan at index `i`:
`!inQ[i] && p[i].at <= time && p[i].rt > 0`. -/
def rrCond (p : List Process) (time : Int) (inQ : List Bool) (i : Nat) : Bool :=
  decide (inQ.getD i false = false ∧ (p.getD i default).at_ ≤ time ∧ 0 < (p.getD i default).rt)

/-- The index that the next iteration of the Round Robin body dispatches:
the front of the ready queue after the first enqueue scan (line 398), if
there is one. -/
def rrDispatch (s : RRState) : Option Nat :=
  (rrEnqueue s.p s.time s.q s.inQ).1.head?

/-- The queue discipline of Round Robin: the flags cover the vector, the
queue holds distinct indices of flagged, arrived processes with remaining
time, and an unflagged process has not run yet. -/
structure QInv (p : List Process) (time : Int) (q : List Nat) (inQ : List Bool) : Prop where
  len : inQ.length = p.length
  nodup : q.Nodup
  mem : ∀ i ∈ q, i < p.length ∧ inQ.getD i false = true ∧ 0 < (p.getD i default).rt ∧
    (p.getD i default).at_ ≤ time
  fresh : ∀ i, i < p.length → inQ.getD i false = false →
    (p.getD i default).rt = (p.getD i default).bt

/-- Every flagged process with remaining time is in the queue. -/
def QAll (p : List Process) (q : List Nat) (inQ : List Bool) : Prop :=
  ∀ i, i < p.length → inQ.getD i false = true → 0 < (p.getD i default).rt → i ∈ q

/-- The invariant of the Round Robin loop started on the vector `p0`. -/
structure RRInv (p0 : List Process) (s : RRState) : Prop where
  inp : s.p.map Process.inp = p0.map Process.inp
  row : ∀ x ∈ s.p, RowInv s.time x
  cnt : s.completed = s.p.countP Process.finished
  que : QInv s.p s.time s.q s.inQ
  all : QAll s.p s.q s.inQ

/-- The additional invariant of the Round Robin loop on a valid batch. -/
structure RRValid (M B : Int) (s : RRState) : Prop where
  t0 : 0 ≤ s.time
  bound : s.time + (s.p.map fun x => x.rt).sum ≤ M + B

end Scheduling

namespace Scheduling

/-- The state after exactly `k` iterations of a `while (guard) body` loop
whose guard holds before each of them. -/
def iterLoop {σ : Type} (guard : σ → Bool) (body : σ → Option σ) : Nat → σ → Option σ
  | 0, s => some s
  | k + 1, s =>
    if guard s then
      match body s with
      | none => none
      | some s' => iterLoop guard body k s'
    else none

end Scheduling

namespace Scheduling

/-- The smallest arrival time of a batch (0 for the empty batch). -/
def minAt : List Input → Int
  | [] => 0
  | [x] => x.at_
  | x :: y :: ys => min x.at_ (minAt (y :: ys))

/-- The clock, the process vector and the Gantt vector of a routine at the
head of its loop. -/
structure Snap where
  p : List Process
  time : Int
  gantt : List (Int × Int)
deriving DecidableEq

/-- The guard `completed < n` of the five `while` loops, on the variables
of a non-preemptive loop. -/
def npGuard (s : NPState) : Bool := decide (s.completed < s.p.length)

/-- The guard `completed < n` on the variables of a preemptive loop. -/
def preGuard (s : PState) : Bool := decide (s.completed < s.p.length)

/-- The guard `completed < n` on the variables of the Round Robin loop. -/
def rrGuard (s : RRState) : Bool := decide (s.completed < s.p.length)

/-- The variables of SJF non-preemptive or Priority non-preemptive after
exactly `n` iterations of the loop (`none` if the loop has left before, or
for another policy). -/
def npAfter (ch : Policy) (n : Nat) (batch : List Input) : Option NPState :=
  match ch with
  | Policy.SJF_NP =>
    iterLoop npGuard (fun s => some (npBody (fun q => q.bt) s)) n
      (npInit (readProcs false false 0 batch))
  | Policy.PRIO_NP =>
    iterLoop npGuard (fun s => some (npBody (fun q => q.pr) s)) n
      (npInit (readProcs true false 0 batch))
  | _ => none

/-- The variables of SJF preemptive or Priority preemptive after exactly `n`
iterations of the loop. -/
def preAfter (ch : Policy) (n : Nat) (batch : List Input) : Option PState :=
  match ch with
  | Policy.SJF_P => iterLoop preGuard (preBody srtfScan) n (preInit (readProcs false true 0 batch))
  | Policy.PRIO_P => iterLoop preGuard (preBody prioScan) n (preInit (readProcs true true 0 batch))
  | _ => none

/-- The variables of Round Robin after exactly `n` iterations of the loop. -/
def rrAfter (n : Nat) (batch : List Input) (tq : Int) : Option RRState :=
  iterLoop rrGuard (fun s => some (rrBody tq s)) n (rrInit (readProcs false true 0 batch))

/-- The variables of FCFS after `n` iterations of its `for` loop over the
sorted vector: the processes handled so far followed by the others. -/
def fcfsAfter (S : Sorter) (n : Nat) (batch : List Input) : Option Snap :=
  if n ≤ batch.length then
    let l := S.sort (readProcs false false 0 batch)
    let s := (l.take n).foldl fcfsStep
      { p := [], time := 0, totalWT := 0, totalTAT := 0, gantt := [] }
    some { p := s.p ++ l.drop n, time := s.time, gantt := s.gantt }
  else none

/-- The clock, the process vector and the Gantt vector of the routine chosen
by `ch` after exactly `n` iterations of its loop. -/
def snapAfter (S : Sorter) (ch : Policy) (n : Nat) (batch : List Input) (tq : Int) :
    Option Snap :=
  match ch with
  | Policy.FCFS => fcfsAfter S n batch
  | Policy.RR => (rrAfter n batch tq).map fun s => { p := s.p, time := s.time, gantt := s.gantt }
  | Policy.SJF_NP =>
    (npAfter Policy.SJF_NP n batch).map fun s => { p := s.p, time := s.time, gantt := s.gantt }
  | Policy.PRIO_NP =>
    (npAfter Policy.PRIO_NP n batch).map fun s => { p := s.p, time := s.time, gantt := s.gantt }
  | Policy.SJF_P =>
    (preAfter Policy.SJF_P n batch).map fun s => { p := s.p, time := s.time, gantt := s.gantt }
  | Policy.PRIO_P =>
    (preAfter Policy.PRIO_P n batch).map fun s => { p := s.p, time := s.time, gantt := s.gantt }

/-- A Gantt segment `(pid, t)` names a process of the batch that has arrived
by `t`: the process in input position `i` has id `i + 1`. -/
def SegArrived (batch : List Input) (seg : Int × Int) : Prop :=
  ∃ (i : Nat) (x : Input), batch[i]? = some x ∧ seg.1 = (i : Int) + 1 ∧ x.at_ ≤ seg.2

end Scheduling

namespace Scheduling

/-- Read `a.2 ≤ b.2`: the start time of segment `a` is not after that of `b`. -/
def StartLe (a b : Int × Int) : Prop := a.2 ≤ b.2

/-- Read `a.2 < b.2`: segment `a` starts before segment `b`. -/
def StartLt (a b : Int × Int) : Prop := a.2 < b.2

/-- The Gantt vector of a non-preemptive loop against its process vector:
every segment is the single run of a completed process, which had arrived
when the segment starts and completes one burst time later; every completed
process has its segment; no id occurs twice. -/
structure NPGantt (s : NPState) : Prop where
  seg : ∀ g ∈ s.gantt, ∃ i, i < s.p.length ∧ s.done.getD i false = true ∧
    g.1 = (s.p.getD i default).pid ∧
    (s.p.getD i default).ct = g.2 + (s.p.getD i default).bt ∧ (s.p.getD i default).at_ ≤ g.2
  all : ∀ i, i < s.p.length → s.done.getD i false = true →
    ((s.p.getD i default).pid, (s.p.getD i default).ct - (s.p.getD i default).bt) ∈ s.gantt
  nodup : (s.gantt.map Prod.fst).Nodup

/-- The start times of a Gantt vector against the clock: in non-decreasing
order and none after the clock. -/
structure GanttTimes (gantt : List (Int × Int)) (time : Int) : Prop where
  sorted : gantt.Pairwise StartLe
  le : ∀ g ∈ gantt, g.2 ≤ time

/-- The first segment of a Gantt vector against the smallest arrival time
`m`: while no segment is recorded the clock has not passed `m`, and the
first segment starts at `m`. -/
structure GanttFirst (m : Int) (gantt : List (Int × Int)) (time : Int) : Prop where
  before : gantt = [] → time ≤ m
  first : ∀ g, gantt.head? = some g → g.2 = m

end Scheduling
namespace Scheduling

/-- The start times of a Gantt vector against the clock: in increasing
order and all before the clock. -/
structure GanttStrict (gantt : List (Int × Int)) (time : Int) : Prop where
  sorted : gantt.Pairwise StartLt
  lt : ∀ g ∈ gantt, g.2 < time

/-- Two consecutive segments carry different process ids. -/
def IdNe (a b : Int × Int) : Prop := a.1 ≠ b.1

/-- Two consecutive Round Robin segments: the second starts later, and
exactly one quantum later when it carries the same process id. -/
def SliceNext (tq : Int) (a b : Int × Int) : Prop := a.2 < b.2 ∧ (a.1 = b.1 → b.2 = a.2 + tq)

end Scheduling

namespace Scheduling

/-- What Round Robin keeps for any quantum that is not negative, against
the smallest arrival time `m`: remaining times are not negative, queued
processes have arrived, every segment names a process that had arrived when
the segment starts, the first segment starts at `m`, and before the first
segment nothing is queued, flagged or executed. -/
structure RRArr (m : Int) (s : RRState) : Prop where
  len : s.inQ.length = s.p.length
  rt : ∀ x ∈ s.p, 0 ≤ x.rt
  mem : ∀ i ∈ s.q, i < s.p.length ∧ (s.p.getD i default).at_ ≤ s.time
  seg : ∀ g ∈ s.gantt, ∃ i, i < s.p.length ∧ g.1 = (s.p.getD i default).pid ∧
    (s.p.getD i default).at_ ≤ g.2
  first : GanttFirst m s.gantt s.time
  fresh : s.gantt = [] → s.q = [] ∧ (∀ i, s.inQ.getD i false = false) ∧ ∀ x ∈ s.p, x.rt = x.bt

end Scheduling

namespace Scheduling

/-- One iteration of a loop that keeps remaining times, seen on one process
record (`x` before, `y` after, `t` the clock after): the remaining time
does not increase and is not negative; a record whose remaining time is 0
is left alone; the completion time is written at the iteration that takes
the remaining time from positive to 0, with the value `t`, and at no other
iteration. -/
def RtStep (t : Int) (x y : Process) : Prop :=
  0 ≤ y.rt ∧ y.rt ≤ x.rt ∧ (x.rt = 0 → y = x) ∧ (0 < x.rt → y.rt = 0 → y.ct = t) ∧
  (y.ct ≠ x.ct → 0 < x.rt ∧ y.rt = 0 ∧ y.ct = t)

end Scheduling

namespace Scheduling

/-- The total waiting time of jobs that are all ready at time 0 and are
executed back to back in the order of the list of their burst times: every
job is waited for by all the jobs behind it. -/
def waitSum : List Int → Int
  | [] => 0
  | b :: bs => b * (bs.length : Int) + waitSum bs

/-- The burst times of the processes flagged in `done`. -/
def doneBursts : List Process → List Bool → List Int
  | x :: xs, d :: ds => if d then x.bt :: doneBursts xs ds else doneBursts xs ds
  | _, _ => []

end Scheduling

namespace Scheduling

end Scheduling

/-! # Memory placement (`src/memory_placement/6.cpp`)

The four allocation routines of the menu.  Each receives its own copy of
the vector `blocks` (passed by value) and the vector `process`, fills the
vector `allocation`, and prints it.  `int` sizes are unbounded integers. -/

namespace MemoryPlacement

/-- A memory block (lines 6-10). -/
structure Block where
  size : Int
  allocated : Bool
deriving DecidableEq

instance : Inhabited Block := ⟨⟨0, false⟩⟩

/-- The vector `blocks` as `main` fills it (lines 136-142): the sizes in
input order, every block free. -/
def readBlocks (sizes : List Int) : List Block :=
  sizes.map fun sz => { size := sz, allocated := false }

/-- The variables of `firstFit`, `bestFit` and `worstFit`: the routine's
copy of `blocks` and the vector `allocation`. -/
structure MState where
  blocks : List Block
  allocation : List Int
deriving DecidableEq

/-- The variables of `nextFit`, which also keeps `pos`. -/
structure NState where
  blocks : List Block
  allocation : List Int
  pos : Nat
deriving DecidableEq

/-- The test `!blocks[j].allocated && blocks[j].size >= process[i]`. -/
def fitsAt (blocks : List Block) (j : Nat) (need : Int) : Bool :=
  !(blocks.getD j default).allocated && decide ((blocks.getD j default).size ≥ need)

/-- The assignment `blocks[j].allocated = true`. -/
def markAt (blocks : List Block) (j : Nat) : List Block :=
  blocks.set j { blocks.getD j default with allocated := true }

/-- The inner loop of `firstFit` (lines 52-60) from index `j` on, with `k`
indices left: the first fitting block is taken and the loop is left. -/
def firstFitInner (need : Int) (i : Nat) (s : MState) : Nat → Nat → MState
  | 0, _ => s
  | k + 1, j =>
    if fitsAt s.blocks j need then
      { blocks := markAt s.blocks j, allocation := s.allocation.set i (j : Int) }
    else firstFitInner need i s k (j + 1)

/-- The routine `firstFit` (lines 46-63), up to the call of `displayResult`. -/
def firstFit (blocks : List Block) (process : List Int) : MState :=
  (List.range process.length).foldl
    (fun s i => firstFitInner (process.getD i 0) i s s.blocks.length 0)
    { blocks := blocks, allocation := List.replicate process.length (-1) }

/-- The inner loop of `bestFit` (lines 71-79) and of `worstFit` (lines
92-100), which are the same text up to the comparison of the two sizes:
`better a b` is `a < b` in `bestFit` and `a > b` in `worstFit`.  The result
is `bestIdx` (`worstIdx`), -1 when no block fits. -/
def fitScan (better : Int → Int → Bool) (blocks : List Block) (need : Int) : Int :=
  (List.range blocks.length).foldl
    (fun idx j =>
      if fitsAt blocks j need then
        if decide (idx = -1) ||
            better (blocks.getD j default).size (blocks.getD idx.toNat default).size then
          (j : Int)
        else idx
      else idx)
    (-1)

/-- One iteration of the outer loop of `bestFit` or `worstFit`. -/
def fitBody (better : Int → Int → Bool) (process : List Int) (s : MState) (i : Nat) : MState :=
  let idx := fitScan better s.blocks (process.getD i 0)
  if idx ≠ -1 then
    { blocks := markAt s.blocks idx.toNat, allocation := s.allocation.set i idx }
  else s

/-- The routine `bestFit` (lines 65-84). -/
def bestFit (blocks : List Block) (process : List Int) : MState :=
  (List.range process.length).foldl (fitBody (fun a b => decide (a < b)) process)
    { blocks := blocks, allocation := List.replicate process.length (-1) }

/-- The routine `worstFit` (lines 86-105). -/
def worstFit (blocks : List Block) (process : List Int) : MState :=
  (List.range process.length).foldl (fitBody (fun a b => decide (a > b)) process)
    { blocks := blocks, allocation := List.replicate process.length (-1) }

/-- The inner loop of `nextFit` (lines 115-125) from `j` on, with `k`
values of `j` left; the index tried is `(pos + j) % blocks.size()`. -/
def nextFitInner (need : Int) (i : Nat) (s : NState) : Nat → Nat → NState
  | 0, _ => s
  | k + 1, j =>
    if fitsAt s.blocks ((s.pos + j) % s.blocks.length) need then
      { blocks := markAt s.blocks ((s.pos + j) % s.blocks.length),
        allocation := s.allocation.set i (((s.pos + j) % s.blocks.length : Nat) : Int),
        pos := (s.pos + j) % s.blocks.length }
    else nextFitInner need i s k (j + 1)

/-- The routine `nextFit` (lines 107-128). -/
def nextFit (blocks : List Block) (process : List Int) : NState :=
  (List.range process.length).foldl
    (fun s i => nextFitInner (process.getD i 0) i s s.blocks.length 0)
    { blocks := blocks, allocation := List.replicate process.length (-1), pos := 0 }

/-- What one iteration of an outer loop does to `blocks` and `allocation`
for process `i` of size `need`: either it takes a free block `j` that is
large enough, or no block is free and large enough and nothing changes. -/
def StepOK (need : Int) (i : Nat) (b : List Block) (a : List Int) (b' : List Block)
    (a' : List Int) : Prop :=
  (∃ j, j < b.length ∧ fitsAt b j need = true ∧ b' = markAt b j ∧ a' = a.set i (j : Int)) ∨
  (b' = b ∧ a' = a ∧ ∀ j, j < b.length → fitsAt b j need = false)

/-- The state of `blocks` and `allocation` after the first `k` processes:
the sizes are untouched, the entries from `k` on are still -1, a block is
marked exactly when one of the first `k` processes holds it, and the
entries below `k` satisfy the properties of `Sound`. -/
structure Inv (sizes process : List Int) (k : Nat) (b : List Block) (a : List Int) : Prop where
  bsz : b.map (fun x => x.size) = sizes
  alen : a.length = process.length
  rest : ∀ i, k ≤ i → a.getD i (-1) = -1
  flag : ∀ j, j < sizes.length →
    ((b.getD j default).allocated = true ↔ ∃ i, i < k ∧ a.getD i (-1) = (j : Int))
  ok : ∀ i, i < k → a.getD i (-1) = -1 ∨
    ∃ j, j < sizes.length ∧ a.getD i (-1) = (j : Int) ∧ process.getD i 0 ≤ sizes.getD j 0
  inj : ∀ i i', i < k → i' < k → a.getD i' (-1) = a.getD i (-1) → a.getD i (-1) ≠ -1 → i' = i
  unplaced : ∀ i, i < k → a.getD i (-1) = -1 → ∀ j, j < sizes.length →
    (∃ i', i' < i ∧ a.getD i' (-1) = (j : Int)) ∨ sizes.getD j 0 < process.getD i 0

/-- The properties of a printed allocation `a` for the block sizes `sizes`
and the process sizes `process`: one entry per process; an entry is -1 or
the index of a block at least as large as the process; no block is the
entry of two processes; and when the entry of process `i` is -1, every
block is held by an earlier process or is smaller than process `i`. -/
def Sound (sizes process : List Int) (a : List Int) : Prop :=
  a.length = process.length ∧
  ∀ i, i < process.length →
    (a.getD i (-1) = -1 ∨
      ∃ j, j < sizes.length ∧ a.getD i (-1) = (j : Int) ∧ process.getD i 0 ≤ sizes.getD j 0) ∧
    (∀ i', i' < process.length → a.getD i' (-1) = a.getD i (-1) → a.getD i (-1) ≠ -1 →
      i' = i) ∧
    (a.getD i (-1) = -1 → ∀ j, j < sizes.length →
      (∃ i', i' < i ∧ a.getD i' (-1) = (j : Int)) ∨ sizes.getD j 0 < process.getD i 0)

end MemoryPlacement

/-! # Page replacement (`src/page_replacement/page_replacement.cpp`)

The three routines `fifo`, `lru` and `optimal`.  A `std::set<int>` is the
ascending list of its elements (the order in which the range-for loops
visit it), the `std::queue<int>` is a list with its front at the head, and
the `std::unordered_map<int, int>` of `lru`, which is read with
`operator[]` only, is the function from keys to values with 0 for an
absent key.  Counters and times are unbounded integers, indices into
`pages` are natural numbers; `frames` is the `int` parameter. -/

namespace PageReplacement

/-- The constant `INT_MAX` of `<climits>`. -/
def INT_MAX : Int := 2147483647

/-- The result `struct Result` (lines 10-13). -/
structure Result where
  hits : Int
  faults : Int
deriving DecidableEq

/-- The call `s.insert(page)` on a `std::set<int>`. -/
def setInsert (p : Int) (s : List Int) : List Int :=
  if p ∈ s then s else s.orderedInsert (fun a b => a ≤ b) p

/-- The call `s.erase(page)` on a `std::set<int>`. -/
def setErase (p : Int) (s : List Int) : List Int := s.erase p

/-! ## FIFO (lines 29-50) -/

/-- The variables of `fifo`. -/
structure FifoState where
  q : List Int
  s : List Int
  faults : Int
  hits : Int
deriving DecidableEq

/-- One iteration of the loop of `fifo`; `none` is `q.front()` on an empty
queue. -/
def fifoStep (frames : Int) (st : FifoState) (page : Int) : Option FifoState :=
  if page ∉ st.s then
    if (st.s.length : Int) = frames then
      match st.q with
      | [] => none
      | oldest :: q' =>
        some { q := q' ++ [page], s := setInsert page (setErase oldest st.s),
               faults := st.faults + 1, hits := st.hits }
    else
      some { q := st.q ++ [page], s := setInsert page st.s, faults := st.faults + 1,
             hits := st.hits }
  else some { st with hits := st.hits + 1 }

/-- The routine `fifo`. -/
def fifo (pages : List Int) (frames : Int) : Option Result :=
  (pages.foldlM (fifoStep frames) { q := [], s := [], faults := 0, hits := 0 }).map
    fun st => { hits := st.hits, faults := st.faults }

/-! ## LRU (lines 52-81) -/

/-- The variables of `lru`. -/
structure LruState where
  indexes : Int → Int
  s : List Int
  faults : Int
  hits : Int
  time : Int

/-- The scan of lines 63-69: the pair `(lru_page, min_time)` after the loop
over the set. -/
def lruScan (indexes : Int → Int) (s : List Int) : Int × Int :=
  s.foldl (fun acc p => if indexes p < acc.2 then (p, indexes p) else acc) (-1, INT_MAX)

/-- One iteration of the loop of `lru`. -/
def lruStep (frames : Int) (st : LruState) (page : Int) : LruState :=
  let st1 : LruState :=
    if page ∉ st.s then
      if (st.s.length : Int) = frames then
        { st with
          s := setInsert page (setErase (lruScan st.indexes st.s).1 st.s),
          indexes := Function.update st.indexes (lruScan st.indexes st.s).1 0,
          faults := st.faults + 1 }
      else { st with s := setInsert page st.s, faults := st.faults + 1 }
    else { st with hits := st.hits + 1 }
  { st1 with indexes := Function.update st1.indexes page st1.time, time := st1.time + 1 }

/-- The routine `lru`. -/
def lru (pages : List Int) (frames : Int) : Result :=
  let st := pages.foldl (lruStep frames)
    { indexes := fun _ => 0, s := [], faults := 0, hits := 0, time := 0 }
  { hits := st.hits, faults := st.faults }

/-! ## Optimal (lines 83-119) -/

/-- The variables of `optimal`. -/
structure OptState where
  s : List Int
  faults : Int
  hits : Int
deriving DecidableEq

/-- The search of lines 97-99 from index `j` on, with `f` indices left: the
first index from `j` on at which `pages` holds `p`, or `pages.size()`. -/
def nextUse (pages : List Int) (p : Int) : Nat → Nat → Nat
  | 0, j => j
  | f + 1, j => if pages.getD j 0 = p then j else nextUse pages p f (j + 1)

/-- The loop of lines 95-108 over the rest of the set, from the values
`farthest` and `page_to_remove`; the result is `page_to_remove`. -/
def optScan (pages : List Int) (i : Nat) : List Int → Nat → Int → Int
  | [], _, page_to_remove => page_to_remove
  | p :: ps, farthest, page_to_remove =>
    if nextUse pages p (pages.length - (i + 1)) (i + 1) = pages.length then p
    else if nextUse pages p (pages.length - (i + 1)) (i + 1) > farthest then
      optScan pages i ps (nextUse pages p (pages.length - (i + 1)) (i + 1)) p
    else optScan pages i ps farthest page_to_remove

/-- One iteration of the loop of `optimal` at index `i`; `none` is
`*s.begin()` on an empty set. -/
def optimalStep (pages : List Int) (frames : Int) (i : Nat) (st : OptState) : Option OptState :=
  if pages.getD i 0 ∉ st.s then
    if (st.s.length : Int) = frames then
      if optScan pages i st.s (i + 1) (-1) = -1 then
        match st.s with
        | [] => none
        | b :: _ =>
          some { s := setInsert (pages.getD i 0) (setErase b st.s), faults := st.faults + 1,
                 hits := st.hits }
      else
        some { s := setInsert (pages.getD i 0)
                 (setErase (optScan pages i st.s (i + 1) (-1)) st.s),
               faults := st.faults + 1, hits := st.hits }
    else some { s := setInsert (pages.getD i 0) st.s, faults := st.faults + 1, hits := st.hits }
  else some { st with hits := st.hits + 1 }

/-- The loop of `optimal` from index `i` on, with `f` iterations left. -/
def optimalLoop (pages : List Int) (frames : Int) : Nat → Nat → OptState → Option OptState
  | 0, _, st => some st
  | f + 1, i, st => (optimalStep pages frames i st).bind (optimalLoop pages frames f (i + 1))

/-- The routine `optimal`. -/
def optimal (pages : List Int) (frames : Int) : Option Result :=
  (optimalLoop pages frames pages.length 0 { s := [], faults := 0, hits := 0 }).map
    fun st => { hits := st.hits, faults := st.faults }

/-! ## Replacement with `k` frames in general -/

/-- A run of demand paging with `k` frames from the resident set `S` over
the references `l` that takes `n` faults: a resident page is a hit, an
absent page is loaded into a free frame while there is one, and replaces a
resident page `x` of the run's choice otherwise. -/
inductive Run (k : Nat) : Finset Int → List Int → Nat → Prop
  | done (S : Finset Int) : Run k S [] 0
  | hit (S : Finset Int) (r : Int) (l : List Int) (n : Nat) :
      r ∈ S → Run k S l n → Run k S (r :: l) n
  | load (S : Finset Int) (r : Int) (l : List Int) (n : Nat) :
      r ∉ S → S.card < k → Run k (insert r S) l n → Run k S (r :: l) (n + 1)
  | evict (S : Finset Int) (r x : Int) (l : List Int) (n : Nat) :
      r ∉ S → ¬ S.card < k → x ∈ S → Run k (insert r (S.erase x)) l n →
      Run k S (r :: l) (n + 1)

end PageReplacement

/-! ## The routines with 32-bit `int` arithmetic

The definitions of the namespace `Scheduling` given so far compute with
exact integers.  The definitions of this section are the same routines with
every `int` addition and subtraction of the source reduced to the range of a
32-bit `int`: the value that is stored when the exact result does not fit
is the two's complement wrap-around, as the compiled program exhibits (the
language leaves signed overflow undefined).  The selection scans, the enqueue scan and the comparisons have
no arithmetic and are shared.  `double totalWT, totalTAT` stay exact sums
of the stored `int` values. -/

namespace Scheduling

/-- The value a 32-bit `int` holds when the exact result of an operation is
`x`: `x` itself between -2147483648 and 2147483647, and `x` reduced modulo
2^32 into that range otherwise. -/
def wrap (x : Int) : Int := (x + 2147483648) % 4294967296 - 2147483648

/-- The largest arrival time plus the sum of the burst times of the batch
fits in an `int`. -/
def FitsInt (batch : List Input) : Prop := maxAt batch + sumBt batch ≤ INT_MAX

instance (batch : List Input) : Decidable (FitsInt batch) :=
  inferInstanceAs (Decidable (maxAt batch + sumBt batch ≤ INT_MAX))

namespace Int32

/-- One iteration of `for (auto &pr : p)` of `FCFS` (lines 58-71). -/
def fcfsStep (s : FState) (pr : Process) : FState :=
  let t0 := if s.time < pr.at_ then pr.at_ else s.time
  let time := wrap (t0 + pr.bt)
  let ct := time
  let tat := wrap (ct - pr.at_)
  let wt := wrap (tat - pr.bt)
  { p := s.p ++ [{ pr with ct := ct, tat := tat, wt := wt }],
    time := time,
    totalWT := s.totalWT + wt,
    totalTAT := s.totalTAT + tat,
    gantt := s.gantt ++ [(pr.pid, t0)] }

/-- The FCFS loop over the sorted vector. -/
def fcfsLoop (p : List Process) : FState :=
  p.foldl fcfsStep { p := [], time := 0, totalWT := 0, totalTAT := 0, gantt := [] }

/-- The routine `FCFS`, over the library sort `S`. -/
def FCFS (S : Sorter) (batch : List Input) : Report :=
  let s := fcfsLoop (S.sort (readProcs false false 0 batch))
  { rows := s.p, totalWT := s.totalWT, totalTAT := s.totalTAT,
    n := batch.length, gantt := s.gantt, end_time := s.time }

/-- The body of `while (completed < n)` of the two non-preemptive routines
(lines 106-134, 238-266). -/
def npBody (key : Process → Int) (s : NPState) : NPState :=
  match (npScan key s.p s.done s.time).1 with
  | none => { s with time := wrap (s.time + 1) }
  | some idx =>
    let q := s.p.getD idx default
    let time := wrap (s.time + q.bt)
    let ct := time
    let tat := wrap (ct - q.at_)
    let wt := wrap (tat - q.bt)
    { p := s.p.set idx { q with ct := ct, tat := tat, wt := wt },
      done := s.done.set idx true,
      time := time,
      completed := s.completed + 1,
      totalWT := s.totalWT + wt,
      totalTAT := s.totalTAT + tat,
      gantt := s.gantt ++ [(q.pid, s.time)] }

/-- The loop `while (completed < n)`. -/
def npLoop (key : Process → Int) (fuel : Nat) (s : NPState) : Option NPState :=
  whileLoop (fun s => decide (s.completed < s.p.length)) (fun s => some (npBody key s)) fuel s

/-- The routine `SJF_NonPreemptive`. -/
def SJF_NonPreemptive (fuel : Nat) (batch : List Input) : Option Report :=
  (npLoop (fun q => q.bt) fuel (npInit (readProcs false false 0 batch))).map
    (npReport batch.length)

/-- The routine `Priority_NonPreemptive`. -/
def Priority_NonPreemptive (fuel : Nat) (batch : List Input) : Option Report :=
  (npLoop (fun q => q.pr) fuel (npInit (readProcs true false 0 batch))).map
    (npReport batch.length)

/-- The body of `while (completed < n)` of the two preemptive routines
(lines 169-202, 301-343). -/
def preBody (scan : List Process → Int → Option (Option Nat)) (s : PState) : Option PState :=
  match scan s.p s.time with
  | none => none
  | some none => some { s with time := wrap (s.time + 1) }
  | some (some idx) =>
    let q := s.p.getD idx default
    let switched := decide (s.prev ≠ q.pid)
    let gantt := if switched then s.gantt ++ [(q.pid, s.time)] else s.gantt
    let prev := if switched then q.pid else s.prev
    let q1 := { q with rt := wrap (q.rt - 1) }
    let time := wrap (s.time + 1)
    if q1.rt = 0 then
      let ct := time
      let tat := wrap (ct - q1.at_)
      let wt := wrap (tat - q1.bt)
      some { p := s.p.set idx { q1 with ct := ct, tat := tat, wt := wt },
             time := time, completed := s.completed + 1, prev := prev,
             totalWT := s.totalWT + wt, totalTAT := s.totalTAT + tat, gantt := gantt }
    else
      some { s with p := s.p.set idx q1, time := time, prev := prev, gantt := gantt }

/-- The loop `while (completed < n)`. -/
def preLoop (scan : List Process → Int → Option (Option Nat)) (fuel : Nat) (s : PState) :
    Option PState :=
  whileLoop (fun s => decide (s.completed < s.p.length)) (preBody scan) fuel s

/-- The routine `SJF_Preemptive`. -/
def SJF_Preemptive (fuel : Nat) (batch : List Input) : Option Report :=
  (preLoop srtfScan fuel (preInit (readProcs false true 0 batch))).map (preReport batch.length)

/-- The routine `Priority_Preemptive`. -/
def Priority_Preemptive (fuel : Nat) (batch : List Input) : Option Report :=
  (preLoop prioScan fuel (preInit (readProcs true true 0 batch))).map (preReport batch.length)

/-- The body of `while (completed < n)` of `RoundRobin` (lines 384-421). -/
def rrBody (tq : Int) (s : RRState) : RRState :=
  let e1 := rrEnqueue s.p s.time s.q s.inQ
  match e1.1 with
  | [] => { s with q := e1.1, inQ := e1.2, time := wrap (s.time + 1) }
  | idx :: rest =>
    let x := s.p.getD idx default
    let gantt := s.gantt ++ [(x.pid, s.time)]
    let exec := min tq x.rt
    let x1 := { x with rt := wrap (x.rt - exec) }
    let p1 := s.p.set idx x1
    let time := wrap (s.time + exec)
    let e2 := rrEnqueue p1 time rest e1.2
    if 0 < x1.rt then
      { p := p1, q := e2.1 ++ [idx], inQ := e2.2, gantt := gantt, time := time,
        completed := s.completed }
    else
      let ct := time
      let tat := wrap (ct - x1.at_)
      let wt := wrap (tat - x1.bt)
      { p := p1.set idx { x1 with ct := ct, tat := tat, wt := wt },
        q := e2.1, inQ := e2.2, gantt := gantt, time := time,
        completed := s.completed + 1 }

/-- The loop `while (completed < n)`. -/
def rrLoop (tq : Int) (fuel : Nat) (s : RRState) : Option RRState :=
  whileLoop (fun s => decide (s.completed < s.p.length)) (fun s => some (rrBody tq s)) fuel s

/-- The routine `RoundRobin`. -/
def RoundRobin (fuel : Nat) (batch : List Input) (tq : Int) : Option Report :=
  (rrLoop tq fuel (rrInit (readProcs false true 0 batch))).map (rrReport batch.length)

/-- The routine selected by the menu choice `ch`. -/
def runPolicy (S : Sorter) (ch : Policy) (fuel : Nat) (batch : List Input) (tq : Int) :
    Option Report :=
  match ch with
  | Policy.FCFS => some (FCFS S batch)
  | Policy.SJF_NP => SJF_NonPreemptive fuel batch
  | Policy.SJF_P => SJF_Preemptive fuel batch
  | Policy.PRIO_NP => Priority_NonPreemptive fuel batch
  | Policy.RR => RoundRobin fuel batch tq
  | Policy.PRIO_P => Priority_Preemptive fuel batch

/-- The variables of SJF non-preemptive or Priority non-preemptive after
exactly `n` iterations of the loop. -/
def npAfter (ch : Policy) (n : Nat) (batch : List Input) : Option NPState :=
  match ch with
  | Policy.SJF_NP =>
    iterLoop npGuard (fun s => some (npBody (fun q => q.bt) s)) n
      (npInit (readProcs false false 0 batch))
  | Policy.PRIO_NP =>
    iterLoop npGuard (fun s => some (npBody (fun q => q.pr) s)) n
      (npInit (readProcs true false 0 batch))
  | _ => none

/-- The variables of SJF preemptive or Priority preemptive after exactly `n`
iterations of the loop. -/
def preAfter (ch : Policy) (n : Nat) (batch : List Input) : Option PState :=
  match ch with
  | Policy.SJF_P => iterLoop preGuard (preBody srtfScan) n (preInit (readProcs false true 0 batch))
  | Policy.PRIO_P => iterLoop preGuard (preBody prioScan) n (preInit (readProcs true true 0 batch))
  | _ => none

/-- The variables of Round Robin after exactly `n` iterations of the loop. -/
def rrAfter (n : Nat) (batch : List Input) (tq : Int) : Option RRState :=
  iterLoop rrGuard (fun s => some (rrBody tq s)) n (rrInit (readProcs false true 0 batch))

/-- The variables of FCFS after `n` iterations of its `for` loop over the
sorted vector: the processes handled so far followed by the others. -/
def fcfsAfter (S : Sorter) (n : Nat) (batch : List Input) : Option Snap :=
  if n ≤ batch.length then
    let l := S.sort (readProcs false false 0 batch)
    let s := (l.take n).foldl fcfsStep
      { p := [], time := 0, totalWT := 0, totalTAT := 0, gantt := [] }
    some { p := s.p ++ l.drop n, time := s.time, gantt := s.gantt }
  else none

/-- The clock, the process vector and the Gantt vector of the routine chosen
by `ch` after exactly `n` iterations of its loop. -/
def snapAfter (S : Sorter) (ch : Policy) (n : Nat) (batch : List Input) (tq : Int) :
    Option Snap :=
  match ch with
  | Policy.FCFS => fcfsAfter S n batch
  | Policy.RR => (rrAfter n batch tq).map fun s => { p := s.p, time := s.time, gantt := s.gantt }
  | Policy.SJF_NP =>
    (npAfter Policy.SJF_NP n batch).map fun s => { p := s.p, time := s.time, gantt := s.gantt }
  | Policy.PRIO_NP =>
    (npAfter Policy.PRIO_NP n batch).map fun s => { p := s.p, time := s.time, gantt := s.gantt }
  | Policy.SJF_P =>
    (preAfter Policy.SJF_P n batch).map fun s => { p := s.p, time := s.time, gantt := s.gantt }
  | Policy.PRIO_P =>
    (preAfter Policy.PRIO_P n batch).map fun s => { p := s.p, time := s.time, gantt := s.gantt }

end Int32

end Scheduling

namespace Scheduling

/-! ## The loop combinator -/

theorem whileLoop_inv {σ : Type} (guard : σ → Bool) (body : σ → Option σ) (I : σ → Prop)
    (hstep : ∀ s s', I s → guard s = true → body s = some s' → I s') :
    ∀ (fuel : Nat) (s r : σ), I s → whileLoop guard body fuel s = some r →
      I r ∧ guard r = false := by
  intro fuel
  induction fuel with
  | zero =>
    intro s r hI h
    unfold whileLoop at h
    by_cases hg : guard s = true
    · simp [hg] at h
    · simp [hg] at h
      subst h
      exact ⟨hI, by simpa using hg⟩
  | succ f ih =>
    intro s r hI h
    unfold whileLoop at h
    by_cases hg : guard s = true
    · simp only [hg, if_true] at h
      cases hb : body s with
      | none => simp [hb] at h
      | some s' =>
        simp only [hb] at h
        exact ih s' r (hstep s s' hI hg hb) h
    · simp [hg] at h
      subst h
      exact ⟨hI, by simpa using hg⟩

theorem whileLoop_succ {σ : Type} (guard : σ → Bool) (body : σ → Option σ) :
    ∀ (fuel : Nat) (s r : σ), whileLoop guard body fuel s = some r →
      whileLoop guard body (fuel + 1) s = some r := by
  intro fuel
  induction fuel with
  | zero =>
    intro s r h
    unfold whileLoop at h
    by_cases hg : guard s = true
    · simp [hg] at h
    · simp [hg] at h
      subst h
      simp [whileLoop, hg]
  | succ f ih =>
    intro s r h
    rw [whileLoop] at h
    rw [whileLoop]
    by_cases hg : guard s = true
    · simp only [hg, if_true] at h ⊢
      cases hb : body s with
      | none => simp [hb] at h
      | some s' =>
        simp only [hb] at h ⊢
        exact ih s' r h
    · simp [hg] at h ⊢
      exact h

theorem whileLoop_mono {σ : Type} (guard : σ → Bool) (body : σ → Option σ)
    (fuel k : Nat) (s r : σ) (h : whileLoop guard body fuel s = some r) :
    whileLoop guard body (fuel + k) s = some r := by
  induction k with
  | zero => simpa using h
  | succ k ih => exact whileLoop_succ guard body (fuel + k) s r ih

theorem whileLoop_term {σ : Type} (guard : σ → Bool) (body : σ → Option σ) (I : σ → Prop)
    (μ : σ → Nat)
    (hstep : ∀ s, I s → guard s = true → ∃ s', body s = some s' ∧ I s' ∧ μ s' < μ s) :
    ∀ (fuel : Nat) (s : σ), I s → μ s ≤ fuel →
      ∃ r, whileLoop guard body fuel s = some r ∧ I r ∧ guard r = false := by
  intro fuel
  induction fuel with
  | zero =>
    intro s hI hμ
    by_cases hg : guard s = true
    · obtain ⟨s', _, _, hlt⟩ := hstep s hI hg
      omega
    · exact ⟨s, by simp [whileLoop, hg], hI, by simpa using hg⟩
  | succ f ih =>
    intro s hI hμ
    by_cases hg : guard s = true
    · obtain ⟨s', hb, hI', hlt⟩ := hstep s hI hg
      obtain ⟨r, hr, hIr, hgr⟩ := ih s' hI' (by omega)
      exact ⟨r, by simp [whileLoop, hg, hb, hr], hIr, hgr⟩
    · exact ⟨s, by simp [whileLoop, hg], hI, by simpa using hg⟩

theorem whileLoop_diverge {σ : Type} (guard : σ → Bool) (body : σ → Option σ) (I : σ → Prop)
    (hstep : ∀ s, I s → guard s = true ∧ ∀ s', body s = some s' → I s') :
    ∀ (fuel : Nat) (s : σ), I s → whileLoop guard body fuel s = none := by
  intro fuel
  induction fuel with
  | zero =>
    intro s hI
    simp [whileLoop, (hstep s hI).1]
  | succ f ih =>
    intro s hI
    rw [whileLoop]
    simp only [(hstep s hI).1, if_true]
    cases hb : body s with
    | none => rfl
    | some s' => exact ih s' ((hstep s hI).2 s' hb)

end Scheduling

namespace Scheduling

/-! ## The input loop -/

theorem readProcs_length (a b : Bool) (batch : List Input) :
    ∀ i, (readProcs a b i batch).length = batch.length := by
  induction batch with
  | nil => intro i; rfl
  | cons x xs ih => intro i; simp [readProcs, ih]

theorem readProcs_bt (a b : Bool) (batch : List Input) :
    ∀ i, (readProcs a b i batch).map (fun x => x.bt) = batch.map fun x => x.bt := by
  induction batch with
  | nil => intro i; rfl
  | cons x xs ih => intro i; simp [readProcs, ih]

theorem readProcs_mem (a b : Bool) (batch : List Input) :
    ∀ i, ∀ x ∈ readProcs a b i batch, ∃ y ∈ batch, x.at_ = y.at_ ∧ x.bt = y.bt ∧
      x.pr = (if a then y.pr else 0) ∧ x.rt = (if b then y.bt else 0) ∧ x.ct = 0 := by
  induction batch with
  | nil => intro i x hx; simp [readProcs] at hx
  | cons y ys ih =>
    intro i x hx
    simp only [readProcs, List.mem_cons] at hx
    rcases hx with rfl | hx
    · exact ⟨y, List.mem_cons_self _ _, rfl, rfl, rfl, rfl, rfl⟩
    · obtain ⟨z, hz, h⟩ := ih (i + 1) x hx
      exact ⟨z, List.mem_cons_of_mem _ hz, h⟩

theorem le_maxAt (batch : List Input) : ∀ x ∈ batch, x.at_ ≤ maxAt batch := by
  induction batch with
  | nil => intro x hx; simp at hx
  | cons y ys ih =>
    intro x hx
    simp only [List.mem_cons] at hx
    have e : maxAt (y :: ys) = max y.at_ (maxAt ys) := rfl
    rw [e]
    rcases hx with rfl | hx
    · exact le_max_left _ _
    · exact le_trans (ih x hx) (le_max_right _ _)

theorem maxAt_nonneg (batch : List Input) : 0 ≤ maxAt batch := by
  induction batch with
  | nil => exact le_refl _
  | cons y ys ih =>
    have e : maxAt (y :: ys) = max y.at_ (maxAt ys) := rfl
    rw [e]
    exact le_trans ih (le_max_right _ _)

/-! ## Lists updated in one place -/

theorem getD_set_self {α : Type} (l : List α) (i : Nat) (a d : α) (h : i < l.length) :
    (l.set i a).getD i d = a := by
  simp [List.getD_eq_getElem?_getD, List.getElem?_set, h]

theorem getD_set_other {α : Type} (l : List α) (i j : Nat) (a d : α) (h : i ≠ j) :
    (l.set i a).getD j d = l.getD j d := by
  simp [List.getD_eq_getElem?_getD, List.getElem?_set, h]

theorem getD_mem {α : Type} (l : List α) (i : Nat) (d : α) (h : i < l.length) :
    l.getD i d ∈ l := by
  rw [List.getD_eq_getElem l d h]
  exact List.getElem_mem h

theorem exists_getD_of_mem {α : Type} (l : List α) (d : α) (x : α) (h : x ∈ l) :
    ∃ i, i < l.length ∧ l.getD i d = x := by
  obtain ⟨i, hi, e⟩ := List.getElem_of_mem h
  exact ⟨i, hi, by rw [List.getD_eq_getElem l d hi]; exact e⟩

theorem mem_set_cases {α : Type} (l : List α) (i : Nat) (a x : α) (h : x ∈ l.set i a) :
    x ∈ l ∨ x = a := by
  induction l generalizing i with
  | nil => simp at h
  | cons y ys ih =>
    cases i with
    | zero =>
      simp only [List.set_cons_zero, List.mem_cons] at h
      rcases h with h | h
      · exact Or.inr h
      · exact Or.inl (List.mem_cons_of_mem _ h)
    | succ i =>
      simp only [List.set_cons_succ, List.mem_cons] at h
      rcases h with h | h
      · exact Or.inl (h ▸ List.mem_cons_self _ _)
      · rcases ih i h with h | h
        · exact Or.inl (List.mem_cons_of_mem _ h)
        · exact Or.inr h

theorem map_set_same {α β : Type} (f : α → β) (l : List α) (i : Nat) (a d : α)
    (h : f a = f (l.getD i d)) : (l.set i a).map f = l.map f := by
  induction l generalizing i with
  | nil => rfl
  | cons y ys ih =>
    cases i with
    | zero => simpa using h
    | succ i => simpa using ih i (by simpa using h)

theorem countP_set_gain {α : Type} (P : α → Bool) (l : List α) (i : Nat) (a d : α)
    (h : i < l.length) (h0 : P (l.getD i d) = false) (h1 : P a = true) :
    (l.set i a).countP P = l.countP P + 1 := by
  induction l generalizing i with
  | nil => simp at h
  | cons y ys ih =>
    cases i with
    | zero =>
      simp only [List.getD_cons_zero] at h0
      simp [List.countP_cons, h0, h1]
    | succ i =>
      have := ih i (by simpa using h) (by simpa using h0)
      simp only [List.set_cons_succ, List.countP_cons, this]
      omega

theorem countP_set_keep {α : Type} (P : α → Bool) (l : List α) (i : Nat) (a d : α)
    (h : P a = P (l.getD i d)) : (l.set i a).countP P = l.countP P := by
  induction l generalizing i with
  | nil => rfl
  | cons y ys ih =>
    cases i with
    | zero =>
      simp only [List.getD_cons_zero] at h
      simp [List.countP_cons, h]
    | succ i =>
      have := ih i (by simpa using h)
      simp only [List.set_cons_succ, List.countP_cons, this]

theorem all_of_countP_ge {α : Type} (P : α → Bool) (l : List α) (h : l.length ≤ l.countP P) :
    ∀ x ∈ l, P x = true := by
  have e : l.countP P = l.length := le_antisymm (List.countP_le_length P) h
  exact List.countP_eq_length.mp e

theorem exists_of_countP_lt {α : Type} (P : α → Bool) (l : List α) (h : l.countP P < l.length) :
    ∃ x ∈ l, P x = false := by
  by_contra hc
  push_neg at hc
  have : l.countP P = l.length := List.countP_eq_length.mpr (fun x hx => by simpa using hc x hx)
  omega

end Scheduling

namespace Scheduling

theorem foldl_range_inv {β : Type} (f : β → Nat → β) (I : Nat → β → Prop) (b0 : β) (n : Nat)
    (h0 : I 0 b0) (hs : ∀ k b, k < n → I k b → I (k + 1) (f b k)) :
    I n ((List.range n).foldl f b0) := by
  have key : ∀ m, m ≤ n → I m ((List.range m).foldl f b0) := by
    intro m
    induction m with
    | zero => intro _; simpa using h0
    | succ m ih =>
      intro hm
      rw [List.range_succ, List.foldl_append]
      exact hs m _ (by omega) (ih (by omega))
  exact key n (le_refl n)

theorem zip_set {α β : Type} (l : List α) (d : List β) (i : Nat) (a : α) (b : β) :
    (l.set i a).zip (d.set i b) = (l.zip d).set i (a, b) := by
  induction l generalizing d i with
  | nil => simp
  | cons x xs ih =>
    cases d with
    | nil => simp
    | cons y ys =>
      cases i with
      | zero => simp
      | succ i => simp [ih]

theorem getD_zip {α β : Type} (l : List α) (d : List β) (i : Nat) (da : α) (db : β)
    (h : d.length = l.length) (hi : i < l.length) :
    (l.zip d).getD i (da, db) = (l.getD i da, d.getD i db) := by
  induction l generalizing d i with
  | nil => simp at hi
  | cons x xs ih =>
    cases d with
    | nil => simp at h
    | cons y ys =>
      cases i with
      | zero => simp
      | succ i =>
        simp only [List.zip_cons_cons, List.getD_cons_succ]
        exact ih ys i (by simpa using h) (by simpa using hi)

theorem length_zip_same {α β : Type} (l : List α) (d : List β) (h : d.length = l.length) :
    (l.zip d).length = l.length := by
  simp [List.length_zip, h]

theorem sum_map_set {α : Type} (f : α → Int) (l : List α) (i : Nat) (a d : α)
    (h : i < l.length) :
    ((l.set i a).map f).sum = (l.map f).sum - f (l.getD i d) + f a := by
  induction l generalizing i with
  | nil => simp at h
  | cons y ys ih =>
    cases i with
    | zero => simp; ring
    | succ i =>
      have := ih i (by simpa using h)
      simp only [List.set_cons_succ, List.map_cons, List.sum_cons, List.getD_cons_succ, this]
      ring

theorem sum_map_nonneg {α : Type} (f : α → Int) (l : List α) (h : ∀ x ∈ l, 0 ≤ f x) :
    0 ≤ (l.map f).sum := by
  induction l with
  | nil => simp
  | cons y ys ih =>
    have h1 := h y (List.mem_cons_self _ _)
    have h2 := ih (fun x hx => h x (List.mem_cons_of_mem _ hx))
    simp only [List.map_cons, List.sum_cons]
    omega

theorem sum_map_le {α : Type} (f g : α → Int) (l : List α) (h : ∀ x ∈ l, f x ≤ g x) :
    (l.map f).sum ≤ (l.map g).sum := by
  induction l with
  | nil => simp
  | cons y ys ih =>
    have h1 := h y (List.mem_cons_self _ _)
    have h2 := ih (fun x hx => h x (List.mem_cons_of_mem _ hx))
    simp only [List.map_cons, List.sum_cons]
    omega

theorem le_sum_map_of_mem {α : Type} (f : α → Int) (l : List α) (h : ∀ x ∈ l, 0 ≤ f x)
    (z : α) (hz : z ∈ l) : f z ≤ (l.map f).sum := by
  induction l with
  | nil => simp at hz
  | cons y ys ih =>
    simp only [List.map_cons, List.sum_cons]
    have h1 := h y (List.mem_cons_self _ _)
    have h2 := sum_map_nonneg f ys (fun x hx => h x (List.mem_cons_of_mem _ hx))
    rcases List.mem_cons.mp hz with rfl | hz
    · omega
    · have := ih (fun x hx => h x (List.mem_cons_of_mem _ hx)) hz
      omega

end Scheduling

namespace Scheduling

/-! ## FCFS -/

theorem fcfsStep_p (s : FState) (x : Process) :
    (fcfsStep s x).p =
      s.p ++ [{ x with
                ct := (fcfsStep s x).time
                tat := (fcfsStep s x).time - x.at_
                wt := (fcfsStep s x).time - x.at_ - x.bt }] := rfl

theorem fcfsStep_time (s : FState) (x : Process) :
    (fcfsStep s x).time = (if s.time < x.at_ then x.at_ else s.time) + x.bt := rfl

theorem fcfsStep_gantt (s : FState) (x : Process) :
    (fcfsStep s x).gantt = s.gantt ++ [(x.pid, if s.time < x.at_ then x.at_ else s.time)] := rfl

theorem fcfs_fold_rows (Q : Process → Prop) (l : List Process) :
    ∀ s : FState, (∀ x ∈ s.p, Q x) →
      (∀ x ∈ l, ∀ c : Int, x.at_ + x.bt ≤ c →
        Q { x with ct := c, tat := c - x.at_, wt := c - x.at_ - x.bt }) →
      ∀ x ∈ (l.foldl fcfsStep s).p, Q x := by
  induction l with
  | nil => intro s h _ x hx; exact h x hx
  | cons y ys ih =>
    intro s h hq
    rw [List.foldl_cons]
    apply ih
    · intro x hx
      rw [fcfsStep_p, List.mem_append, List.mem_singleton] at hx
      rcases hx with hx | rfl
      · exact h x hx
      · apply hq y (List.mem_cons_self _ _)
        rw [fcfsStep_time]
        split <;> omega
    · intro x hx
      exact hq x (List.mem_cons_of_mem _ hx)

theorem fcfs_fold_map (f : Process → Int) (hf : ∀ (x : Process) (c t w : Int),
    f { x with ct := c, tat := t, wt := w } = f x) (l : List Process) :
    ∀ s : FState, (l.foldl fcfsStep s).p.map f = s.p.map f ++ l.map f := by
  induction l with
  | nil => intro s; simp
  | cons y ys ih =>
    intro s
    rw [List.foldl_cons, ih, fcfsStep_p]
    simp [hf]

theorem fcfs_fold_gantt (l : List Process) :
    ∀ s : FState, (l.foldl fcfsStep s).gantt.length = s.gantt.length + l.length := by
  induction l with
  | nil => intro s; simp
  | cons y ys ih =>
    intro s
    rw [List.foldl_cons, ih, fcfsStep_gantt]
    simp
    omega

theorem fcfs_fold_time (M : Int) (l : List Process) :
    ∀ (s : FState) (W : Int), 0 ≤ W → s.time ≤ M + W → (∀ x ∈ l, x.at_ ≤ M ∧ 0 ≤ x.bt) →
      (l.foldl fcfsStep s).time ≤ M + W + (l.map fun x => x.bt).sum := by
  induction l with
  | nil => intro s W _ h _; simpa using h
  | cons y ys ih =>
    intro s W hW h hl
    rw [List.foldl_cons]
    have hy := hl y (List.mem_cons_self _ _)
    have := ih (fcfsStep s y) (W + y.bt) (by omega)
      (by rw [fcfsStep_time]; split <;> omega)
      (fun x hx => hl x (List.mem_cons_of_mem _ hx))
    simp only [List.map_cons, List.sum_cons]
    omega

theorem fcfs_fold_ct_le (l : List Process) :
    ∀ s : FState, (∀ x ∈ s.p, x.ct ≤ s.time) → (∀ x ∈ l, 0 ≤ x.bt) →
      ∀ x ∈ (l.foldl fcfsStep s).p, x.ct ≤ (l.foldl fcfsStep s).time := by
  induction l with
  | nil => intro s h _ x hx; exact h x hx
  | cons y ys ih =>
    intro s h hl
    rw [List.foldl_cons]
    have hy := hl y (List.mem_cons_self _ _)
    apply ih
    · intro x hx
      rw [fcfsStep_p, List.mem_append, List.mem_singleton] at hx
      rcases hx with hx | rfl
      · have := h x hx
        rw [fcfsStep_time]
        split <;> omega
      · exact le_refl _
    · intro x hx
      exact hl x (List.mem_cons_of_mem _ hx)

theorem sum_tat_sub_wt (l : List Process) (h : ∀ x ∈ l, MetricsOK x) :
    (l.map fun x => x.tat - x.wt).sum = (l.map fun x => x.bt).sum := by
  congr 1
  apply List.map_congr_left
  intro x hx
  obtain ⟨_, h2⟩ := h x hx
  omega

theorem mem_sorted_read (S : Sorter) (a b : Bool) (batch : List Input) (x : Process)
    (hx : x ∈ S.sort (readProcs a b 0 batch)) :
    ∃ y ∈ batch, x.at_ = y.at_ ∧ x.bt = y.bt := by
  have hx' := (S.perm _).mem_iff.mp hx
  obtain ⟨y, hy, h1, h2, _⟩ := readProcs_mem a b batch 0 x hx'
  exact ⟨y, hy, h1, h2⟩

theorem fcfs_bounds (S : Sorter) (batch : List Input) (hv : ∀ x ∈ batch, 1 ≤ x.bt) :
    ∀ x ∈ (FCFS S batch).rows, RowBounds x := by
  unfold FCFS fcfsLoop
  simp only
  apply fcfs_fold_rows RowBounds
  · intro x hx; simp at hx
  · intro x hx c hc
    obtain ⟨y, hy, _, h2⟩ := mem_sorted_read S _ _ batch x hx
    have := hv y hy
    unfold RowBounds
    simp only
    omega

theorem fcfs_end_time (S : Sorter) (batch : List Input) (hv : ∀ x ∈ batch, 0 ≤ x.bt) :
    (FCFS S batch).end_time ≤ sumBt batch + maxAt batch := by
  unfold FCFS fcfsLoop
  simp only
  have := fcfs_fold_time (maxAt batch) (S.sort (readProcs false false 0 batch))
    { p := [], time := 0, totalWT := 0, totalTAT := 0, gantt := [] } 0 (le_refl _)
    (by simpa using maxAt_nonneg batch)
    (by
      intro x hx
      obtain ⟨y, hy, h1, h2⟩ := mem_sorted_read S _ _ batch x hx
      exact ⟨h1 ▸ le_maxAt batch y hy, h2 ▸ hv y hy⟩)
  rw [((S.perm _).map _).sum_eq, readProcs_bt] at this
  unfold sumBt
  omega

theorem fcfs_ct_le_end (S : Sorter) (batch : List Input) (hv : ∀ x ∈ batch, 0 ≤ x.bt) :
    ∀ x ∈ (FCFS S batch).rows, x.ct ≤ (FCFS S batch).end_time := by
  unfold FCFS fcfsLoop
  simp only
  apply fcfs_fold_ct_le
  · intro x hx; simp at hx
  · intro x hx
    obtain ⟨y, hy, _, h2⟩ := mem_sorted_read S _ _ batch x hx
    exact h2 ▸ hv y hy

theorem fcfs_rows_length (S : Sorter) (batch : List Input) : (FCFS S batch).rows.length = batch.length := by
  have := congrArg List.length
    (fcfs_fold_map (fun x => x.bt) (fun _ _ _ _ => rfl) (S.sort (readProcs false false 0 batch))
      { p := [], time := 0, totalWT := 0, totalTAT := 0, gantt := [] })
  simp only [List.length_map, List.map_nil, List.nil_append] at this
  rw [(S.perm _).length_eq, readProcs_length] at this
  exact this

theorem fcfs_gantt_length (S : Sorter) (batch : List Input) : (FCFS S batch).gantt.length = batch.length := by
  unfold FCFS fcfsLoop
  simp only
  rw [fcfs_fold_gantt, (S.perm _).length_eq, readProcs_length]
  simp

theorem Sorter.sort_eq_self (S : Sorter) (l : List Process)
    (h : l.Pairwise (fun a b => a.at_ < b.at_)) : S.sort l = l := by
  have hne : (S.sort l).Pairwise (fun a b => a.at_ ≠ b.at_) :=
    (List.Perm.pairwise_iff (fun {x y} (hxy : x.at_ ≠ y.at_) => Ne.symm hxy) (S.perm l)).mpr
      (h.imp (fun hab => ne_of_lt hab))
  have hlt : (S.sort l).Pairwise (fun a b => a.at_ < b.at_) :=
    ((S.sorted l).and hne).imp (fun hab => by
      obtain ⟨h1, h2⟩ := hab
      omega)
  haveI : IsAntisymm Process (fun a b => a.at_ < b.at_) :=
    ⟨fun a b h1 h2 => absurd h1 (not_lt.mpr (le_of_lt h2))⟩
  exact List.eq_of_perm_of_sorted (S.perm l) hlt h

theorem Sorter.sort_nil (S : Sorter) : S.sort [] = [] := List.perm_nil.mp (S.perm [])

end Scheduling

namespace Scheduling

/-! ## The non-preemptive loops -/

theorem npScan_spec (key : Process → Int) (p : List Process) (done : List Bool) (time : Int) :
    (∀ i, (npScan key p done time).1 = some i →
      i < p.length ∧ done.getD i false = false ∧ (p.getD i default).at_ ≤ time) ∧
    ((npScan key p done time).1 = none → ∀ i, i < p.length → done.getD i false = false →
      (p.getD i default).at_ ≤ time → INT_MAX ≤ key (p.getD i default)) := by
  have h := foldl_range_inv (npScanStep key p done time)
    (fun k acc =>
      (∀ i, acc.1 = some i →
        i < k ∧ done.getD i false = false ∧ (p.getD i default).at_ ≤ time) ∧
      (acc.1 = none → acc.2 = INT_MAX) ∧
      (∀ j, j < k → done.getD j false = false → (p.getD j default).at_ ≤ time →
        acc.2 ≤ key (p.getD j default)))
    (none, INT_MAX) p.length
    ⟨by intro i hi; simp at hi, fun _ => rfl, by intro j hj; omega⟩
    (by
      intro k acc _ ⟨h1, h2, h3⟩
      unfold npScanStep
      simp only
      split
      · rename_i hc
        refine ⟨?_, ?_, ?_⟩
        · intro i hi
          simp only [Option.some.injEq] at hi
          subst hi
          exact ⟨by omega, hc.1, hc.2.1⟩
        · intro hn; simp at hn
        · intro j hj hd ha
          simp only
          rcases Nat.lt_succ_iff_lt_or_eq.mp hj with hj | rfl
          · have := h3 j hj hd ha
            omega
          · exact le_refl _
      · rename_i hc
        refine ⟨?_, h2, ?_⟩
        · intro i hi
          obtain ⟨a, b⟩ := h1 i hi
          exact ⟨by omega, b⟩
        · intro j hj hd ha
          rcases Nat.lt_succ_iff_lt_or_eq.mp hj with hj | rfl
          · exact h3 j hj hd ha
          · by_contra hlt
            exact hc ⟨hd, ha, by omega⟩)
  obtain ⟨h1, h2, h3⟩ := h
  refine ⟨h1, ?_⟩
  intro hn i hi hd ha
  have := h3 i hi hd ha
  rw [h2 hn] at this
  exact this

theorem npBody_idle (key : Process → Int) (s : NPState)
    (h : (npScan key s.p s.done s.time).1 = none) :
    npBody key s = { s with time := s.time + 1 } := by
  unfold npBody
  rw [h]

theorem npBody_run (key : Process → Int) (s : NPState) (idx : Nat)
    (h : (npScan key s.p s.done s.time).1 = some idx) :
    npBody key s =
      { p := s.p.set idx { (s.p.getD idx default) with
                           ct := s.time + (s.p.getD idx default).bt
                           tat := s.time + (s.p.getD idx default).bt - (s.p.getD idx default).at_
                           wt := s.time + (s.p.getD idx default).bt - (s.p.getD idx default).at_
                                  - (s.p.getD idx default).bt },
        done := s.done.set idx true,
        time := s.time + (s.p.getD idx default).bt,
        completed := s.completed + 1,
        totalWT := s.totalWT + (s.time + (s.p.getD idx default).bt - (s.p.getD idx default).at_
                                  - (s.p.getD idx default).bt),
        totalTAT := s.totalTAT + (s.time + (s.p.getD idx default).bt
                                  - (s.p.getD idx default).at_),
        gantt := s.gantt ++ [((s.p.getD idx default).pid, s.time)] } := by
  unfold npBody
  rw [h]

theorem npInit_inv (p0 : List Process) : NPInv p0 (npInit p0) := by
  refine ⟨rfl, by simp [npInit], ?_, ?_, rfl⟩
  · show 0 = List.countP (fun b => b) (List.replicate p0.length false)
    symm
    rw [List.countP_eq_zero]
    intro b hb
    rw [(List.mem_replicate.mp hb).2]
    decide
  · intro z hz hd
    have := (List.of_mem_zip hz).2
    simp only [npInit, List.mem_replicate] at this
    rw [this.2] at hd
    exact absurd hd (by decide)

theorem npBody_inv (key : Process → Int) (p0 : List Process) (s : NPState) (h : NPInv p0 s) :
    NPInv p0 (npBody key s) := by
  cases hs : (npScan key s.p s.done s.time).1 with
  | none =>
    rw [npBody_idle key s hs]
    exact ⟨h.inp, h.len, h.cnt, h.met, h.gl⟩
  | some idx =>
    obtain ⟨hi, hd, ha⟩ := (npScan_spec key s.p s.done s.time).1 idx hs
    rw [npBody_run key s idx hs]
    refine ⟨?_, ?_, ?_, ?_, by simp [h.gl]⟩
    · simp only
      rw [map_set_same Process.inp s.p idx _ default (by rfl)]
      exact h.inp
    · simp [h.len]
    · simp only
      rw [countP_set_gain (fun b => b) s.done idx true false (by rw [h.len]; exact hi) hd rfl,
        h.cnt]
    · intro z hz hzd
      simp only at hz
      rw [zip_set] at hz
      rcases mem_set_cases _ _ _ _ hz with hz | rfl
      · exact h.met z hz hzd
      · refine ⟨⟨rfl, rfl⟩, ?_⟩
        simp only
        omega

theorem npLoop_inv (key : Process → Int) (p0 : List Process) (fuel : Nat) (r : NPState)
    (h : npLoop key fuel (npInit p0) = some r) :
    NPInv p0 r ∧ ∀ x ∈ r.p, MetricsOK x ∧ x.at_ + x.bt ≤ x.ct := by
  obtain ⟨hI, hg⟩ := whileLoop_inv _ _ (NPInv p0)
    (by
      intro s s' hI _ hb
      simp only [Option.some.injEq] at hb
      subst hb
      exact npBody_inv key p0 s hI)
    fuel (npInit p0) r (npInit_inv p0) h
  refine ⟨hI, ?_⟩
  simp only [decide_eq_false_iff_not, not_lt] at hg
  have hall := all_of_countP_ge (fun b => b) r.done (by rw [hI.len, ← hI.cnt]; exact hg)
  intro x hx
  obtain ⟨i, hi, e⟩ := exists_getD_of_mem r.p default x hx
  have hz : (r.p.zip r.done).getD i (default, false) ∈ r.p.zip r.done :=
    getD_mem _ _ _ (by rw [length_zip_same _ _ hI.len]; exact hi)
  rw [getD_zip _ _ _ _ _ hI.len hi] at hz
  have := hI.met _ hz (hall _ (getD_mem _ _ _ (by rw [hI.len]; exact hi)))
  rw [e] at this
  exact this

theorem map_bt_of_inp (p p0 : List Process) (h : p.map Process.inp = p0.map Process.inp) :
    p.map (fun x => x.bt) = p0.map fun x => x.bt := by
  have := congrArg (List.map fun t : Int × Int × Int × Int => t.2.2.1) h
  simpa [List.map_map, Function.comp_def, Process.inp] using this

end Scheduling

namespace Scheduling

theorem map_zip_fst_bt (p : List Process) (d : List Bool) (h : d.length = p.length) :
    (p.zip d).map (fun z => z.1.bt) = p.map fun x => x.bt := by
  induction p generalizing d with
  | nil => simp
  | cons x xs ih =>
    cases d with
    | nil => simp at h
    | cons y ys => simp [ih ys (by simpa using h)]

theorem npTodo_le (s : NPState) (hl : s.done.length = s.p.length) (h : ∀ x ∈ s.p, 0 ≤ x.bt) :
    npTodo s ≤ (s.p.map fun x => x.bt).sum := by
  rw [← map_zip_fst_bt s.p s.done hl]
  apply sum_map_le
  intro z hz
  have := h z.1 (List.of_mem_zip hz).1
  split <;> omega

theorem npTodo_nonneg (s : NPState) (h : ∀ x ∈ s.p, 0 ≤ x.bt) : 0 ≤ npTodo s := by
  apply sum_map_nonneg
  intro z hz
  have := h z.1 (List.of_mem_zip hz).1
  split <;> omega

theorem np_exists_undone (s : NPState) (hl : s.done.length = s.p.length)
    (hc : s.completed = s.done.countP fun b => b) (hg : s.completed < s.p.length) :
    ∃ i, i < s.p.length ∧ s.done.getD i false = false ∧
      (s.p.getD i default, false) ∈ s.p.zip s.done := by
  obtain ⟨b, hb, hf⟩ := exists_of_countP_lt (fun b => b) s.done (by rw [← hc, hl]; exact hg)
  obtain ⟨i, hi, e⟩ := exists_getD_of_mem s.done false b hb
  rw [hl] at hi
  refine ⟨i, hi, by rw [e, hf], ?_⟩
  have hz : (s.p.zip s.done).getD i (default, false) ∈ s.p.zip s.done :=
    getD_mem _ _ _ (by rw [length_zip_same _ _ hl]; exact hi)
  rw [getD_zip _ _ _ _ _ hl hi, e, hf] at hz
  exact hz

theorem npInit_valid (key : Process → Int) (M : Int) (p0 : List Process) (hM : 0 ≤ M)
    (hok : ∀ x ∈ p0, 0 ≤ x.at_ ∧ x.at_ ≤ M ∧ 1 ≤ x.bt ∧ key x < INT_MAX) :
    NPValid key M (p0.map fun x => x.bt).sum (npInit p0) := by
  refine ⟨hok, rfl, le_refl _, ?_, ?_⟩
  · have := npTodo_le (npInit p0) (by simp [npInit]) (fun x hx => by have := hok x hx; omega)
    simp only [npInit] at this ⊢
    omega
  · intro z hz hd
    have := (List.of_mem_zip hz).2
    simp only [npInit, List.mem_replicate] at this
    rw [this.2] at hd
    exact absurd hd (by decide)

theorem npBody_valid (key : Process → Int)
    (hkey : ∀ (x : Process) (c t w : Int), key { x with ct := c, tat := t, wt := w } = key x)
    (M B : Int) (p0 : List Process) (s : NPState) (hI : NPInv p0 s) (hV : NPValid key M B s)
    (hg : s.completed < s.p.length) :
    NPValid key M B (npBody key s) ∧ s.time < (npBody key s).time ∧ s.time < M + B := by
  obtain ⟨u, hu, hud, huz⟩ := np_exists_undone s hI.len hI.cnt hg
  have hbt : ∀ x ∈ s.p, 0 ≤ x.bt := fun x hx => by have := hV.ok x hx; omega
  have hukey := hV.ok _ (getD_mem s.p u default hu)
  have htodo : (s.p.getD u default).bt ≤ npTodo s := by
    have := le_sum_map_of_mem (fun z : Process × Bool => if z.2 = true then 0 else z.1.bt)
      (s.p.zip s.done)
      (by intro z hz; have := hbt z.1 (List.of_mem_zip hz).1; simp only; split <;> omega)
      _ huz
    simpa using this
  have hlt : s.time < M + B := by have := hV.bound; omega
  cases hs : (npScan key s.p s.done s.time).1 with
  | none =>
    rw [npBody_idle key s hs]
    have hne := (npScan_spec key s.p s.done s.time).2 hs u hu hud
    have hat : s.time < (s.p.getD u default).at_ := by
      by_contra hc
      have := hne (by omega)
      omega
    refine ⟨⟨hV.ok, hV.sum, ?_, ?_, ?_⟩, by simp, hlt⟩
    · have := hV.t0
      simp only
      omega
    · have h1 := npTodo_le s hI.len hbt
      rw [hV.sum] at h1
      have : npTodo { s with time := s.time + 1 } = npTodo s := rfl
      rw [this]
      simp only
      omega
    · intro z hz hd
      have := hV.ctle z hz hd
      simp only
      omega
  | some idx =>
    obtain ⟨hi, hd, ha⟩ := (npScan_spec key s.p s.done s.time).1 idx hs
    have hq := hV.ok _ (getD_mem s.p idx default hi)
    rw [npBody_run key s idx hs]
    refine ⟨⟨?_, ?_, ?_, ?_, ?_⟩, by simp only; omega, hlt⟩
    · intro x hx
      rcases mem_set_cases _ _ _ _ hx with hx | rfl
      · exact hV.ok x hx
      · rw [hkey]
        exact hq
    · simp only
      rw [map_set_same (fun x : Process => x.bt) s.p idx _ default (by rfl)]
      exact hV.sum
    · have := hV.t0
      simp only
      omega
    · have e : npTodo
          { p := s.p.set idx { (s.p.getD idx default) with
                           ct := s.time + (s.p.getD idx default).bt
                           tat := s.time + (s.p.getD idx default).bt - (s.p.getD idx default).at_
                           wt := s.time + (s.p.getD idx default).bt - (s.p.getD idx default).at_
                                  - (s.p.getD idx default).bt },
            done := s.done.set idx true,
            time := s.time + (s.p.getD idx default).bt,
            completed := s.completed + 1,
            totalWT := s.totalWT + (s.time + (s.p.getD idx default).bt
                                  - (s.p.getD idx default).at_ - (s.p.getD idx default).bt),
            totalTAT := s.totalTAT + (s.time + (s.p.getD idx default).bt
                                  - (s.p.getD idx default).at_),
            gantt := s.gantt ++ [((s.p.getD idx default).pid, s.time)] }
          = npTodo s - (s.p.getD idx default).bt := by
        unfold npTodo
        simp only
        rw [zip_set, sum_map_set _ _ idx _ (default, false)
          (by rw [length_zip_same _ _ hI.len]; exact hi), getD_zip _ _ _ _ _ hI.len hi, hd]
        simp
      rw [e]
      have := hV.bound
      simp only
      omega
    · intro z hz hzd
      simp only at hz
      rw [zip_set] at hz
      simp only
      rcases mem_set_cases _ _ _ _ hz with hz | rfl
      · have := hV.ctle z hz hzd
        omega
      · exact le_refl _

theorem np_terminates (key : Process → Int)
    (hkey : ∀ (x : Process) (c t w : Int), key { x with ct := c, tat := t, wt := w } = key x)
    (M : Int) (p0 : List Process) (hM : 0 ≤ M)
    (hok : ∀ x ∈ p0, 0 ≤ x.at_ ∧ x.at_ ≤ M ∧ 1 ≤ x.bt ∧ key x < INT_MAX) :
    ∃ r, npLoop key (M + (p0.map fun x => x.bt).sum).toNat (npInit p0) = some r ∧
      NPInv p0 r ∧ NPValid key M (p0.map fun x => x.bt).sum r ∧
      ¬ r.completed < r.p.length := by
  obtain ⟨r, hr, ⟨h1, h2⟩, hg⟩ := whileLoop_term
    (fun s : NPState => decide (s.completed < s.p.length)) (fun s => some (npBody key s))
    (fun s => NPInv p0 s ∧ NPValid key M (p0.map fun x => x.bt).sum s)
    (fun s => (M + (p0.map fun x => x.bt).sum - s.time).toNat)
    (by
      intro s ⟨hI, hV⟩ hg
      simp only [decide_eq_true_eq] at hg
      obtain ⟨a, b, c⟩ := npBody_valid key hkey M _ p0 s hI hV hg
      exact ⟨_, rfl, ⟨npBody_inv key p0 s hI, a⟩, by simp only; omega⟩)
    (M + (p0.map fun x => x.bt).sum).toNat (npInit p0)
    ⟨npInit_inv p0, npInit_valid key M p0 hM hok⟩
    (by simp [npInit])
  exact ⟨r, hr, h1, h2, by simpa using hg⟩

end Scheduling

namespace Scheduling

/-! ## The selection scans of the preemptive loops -/

theorem srtfScan_fold (p : List Process) (time : Int) :
    (∀ i, ((List.range p.length).foldl (srtfScanStep p time) (none, INT_MAX)).1 = some i →
      i < p.length ∧ (p.getD i default).at_ ≤ time ∧ 0 < (p.getD i default).rt ∧
      (p.getD i default).rt = ((List.range p.length).foldl (srtfScanStep p time)
        (none, INT_MAX)).2) ∧
    (((List.range p.length).foldl (srtfScanStep p time) (none, INT_MAX)).1 = none →
      ((List.range p.length).foldl (srtfScanStep p time) (none, INT_MAX)).2 = INT_MAX) ∧
    (∀ j, j < p.length → (p.getD j default).at_ ≤ time → 0 < (p.getD j default).rt →
      ((List.range p.length).foldl (srtfScanStep p time) (none, INT_MAX)).2
        ≤ (p.getD j default).rt) := by
  exact foldl_range_inv (srtfScanStep p time)
    (fun k acc =>
      (∀ i, acc.1 = some i → i < k ∧ (p.getD i default).at_ ≤ time ∧ 0 < (p.getD i default).rt ∧
        (p.getD i default).rt = acc.2) ∧
      (acc.1 = none → acc.2 = INT_MAX) ∧
      (∀ j, j < k → (p.getD j default).at_ ≤ time → 0 < (p.getD j default).rt →
        acc.2 ≤ (p.getD j default).rt))
    (none, INT_MAX) p.length
    ⟨by intro i hi; simp at hi, fun _ => rfl, by intro j hj; omega⟩
    (by
      intro k acc _ ⟨h1, h2, h3⟩
      unfold srtfScanStep
      simp only
      split
      · rename_i hc
        refine ⟨?_, ?_, ?_⟩
        · intro i hi
          simp only [Option.some.injEq] at hi
          subst hi
          exact ⟨by omega, hc.1, hc.2.1, rfl⟩
        · intro hn; simp at hn
        · intro j hj ha hr
          simp only
          rcases Nat.lt_succ_iff_lt_or_eq.mp hj with hj | rfl
          · have := h3 j hj ha hr
            omega
          · exact le_refl _
      · rename_i hc
        refine ⟨?_, h2, ?_⟩
        · intro i hi
          obtain ⟨a, b⟩ := h1 i hi
          exact ⟨by omega, b⟩
        · intro j hj ha hr
          rcases Nat.lt_succ_iff_lt_or_eq.mp hj with hj | rfl
          · exact h3 j hj ha hr
          · by_contra hlt
            exact hc ⟨ha, hr, by omega⟩)

theorem srtfScan_sound : ScanSound srtfScan := by
  intro p time idx h
  unfold srtfScan at h
  simp only [Option.some.injEq] at h
  obtain ⟨a, b, c, _⟩ := (srtfScan_fold p time).1 idx h
  exact ⟨a, b, c⟩

theorem srtfScan_complete :
    ScanComplete (fun p => ∀ x ∈ p, x.rt < INT_MAX) srtfScan := by
  intro p time hC
  refine ⟨by simp [srtfScan], ?_⟩
  intro h i hi ha
  unfold srtfScan at h
  simp only [Option.some.injEq] at h
  obtain ⟨_, h2, h3⟩ := srtfScan_fold p time
  by_contra hr
  have := h3 i hi ha (by omega)
  rw [h2 h] at this
  have := hC _ (getD_mem p i default hi)
  omega

theorem prioScan_fold (p : List Process) (time : Int) :
    (((List.range p.length).foldl (prioScanStep p time) (some (none, INT_MAX))) = none →
      ∃ j, j < p.length ∧ (p.getD j default).pr = INT_MAX) ∧
    (∀ idx best, ((List.range p.length).foldl (prioScanStep p time) (some (none, INT_MAX)))
        = some (idx, best) →
      (∀ i, idx = some i → i < p.length ∧ (p.getD i default).at_ ≤ time ∧
        0 < (p.getD i default).rt ∧ (p.getD i default).pr = best) ∧
      (idx = none → best = INT_MAX) ∧
      (∀ j, j < p.length → (p.getD j default).at_ ≤ time → 0 < (p.getD j default).rt →
        best ≤ (p.getD j default).pr)) := by
  exact foldl_range_inv (prioScanStep p time)
    (fun k acc =>
      (acc = none → ∃ j, j < k ∧ (p.getD j default).pr = INT_MAX) ∧
      (∀ idx best, acc = some (idx, best) →
        (∀ i, idx = some i → i < k ∧ (p.getD i default).at_ ≤ time ∧
          0 < (p.getD i default).rt ∧ (p.getD i default).pr = best) ∧
        (idx = none → best = INT_MAX) ∧
        (∀ j, j < k → (p.getD j default).at_ ≤ time → 0 < (p.getD j default).rt →
          best ≤ (p.getD j default).pr)))
    (some (none, INT_MAX)) p.length
    ⟨by intro h; simp at h, by
      intro idx best h
      simp only [Option.some.injEq, Prod.mk.injEq] at h
      obtain ⟨rfl, rfl⟩ := h
      exact ⟨by intro i hi; simp at hi, fun _ => rfl, by intro j hj; omega⟩⟩
    (by
      intro k acc _ ⟨h1, h2⟩
      cases acc with
      | none =>
        obtain ⟨j, hj, e⟩ := h1 rfl
        exact ⟨fun _ => ⟨j, by omega, e⟩, by intro idx best h; simp [prioScanStep] at h⟩
      | some ib =>
        obtain ⟨idx, best⟩ := ib
        obtain ⟨a1, a2, a3⟩ := h2 idx best rfl
        have keep : ∀ idx' best', some (idx, best) = some (idx', best') →
            ¬ ((p.getD k default).at_ ≤ time ∧ 0 < (p.getD k default).rt ∧
              (p.getD k default).pr < best) →
            ((p.getD k default).at_ ≤ time → 0 < (p.getD k default).rt →
              best ≤ (p.getD k default).pr) →
            (∀ i, idx' = some i → i < k + 1 ∧ (p.getD i default).at_ ≤ time ∧
              0 < (p.getD i default).rt ∧ (p.getD i default).pr = best') ∧
            (idx' = none → best' = INT_MAX) ∧
            (∀ j, j < k + 1 → (p.getD j default).at_ ≤ time → 0 < (p.getD j default).rt →
              best' ≤ (p.getD j default).pr) := by
          intro idx' best' h _ hk
          simp only [Option.some.injEq, Prod.mk.injEq] at h
          obtain ⟨rfl, rfl⟩ := h
          refine ⟨?_, a2, ?_⟩
          · intro i hi
            obtain ⟨x, y⟩ := a1 i hi
            exact ⟨by omega, y⟩
          · intro j hj ha hr
            rcases Nat.lt_succ_iff_lt_or_eq.mp hj with hj | rfl
            · exact a3 j hj ha hr
            · exact hk ha hr
        have take : ∀ idx' best', some (some k, (p.getD k default).pr) = some (idx', best') →
            (p.getD k default).at_ ≤ time → 0 < (p.getD k default).rt →
            (p.getD k default).pr ≤ best →
            (∀ i, idx' = some i → i < k + 1 ∧ (p.getD i default).at_ ≤ time ∧
              0 < (p.getD i default).rt ∧ (p.getD i default).pr = best') ∧
            (idx' = none → best' = INT_MAX) ∧
            (∀ j, j < k + 1 → (p.getD j default).at_ ≤ time → 0 < (p.getD j default).rt →
              best' ≤ (p.getD j default).pr) := by
          intro idx' best' h ha hr hle
          simp only [Option.some.injEq, Prod.mk.injEq] at h
          obtain ⟨rfl, rfl⟩ := h
          refine ⟨?_, by intro hn; simp at hn, ?_⟩
          · intro i hi
            simp only [Option.some.injEq] at hi
            subst hi
            exact ⟨by omega, ha, hr, rfl⟩
          · intro j hj ha' hr'
            rcases Nat.lt_succ_iff_lt_or_eq.mp hj with hj | rfl
            · have := a3 j hj ha' hr'
              omega
            · exact le_refl _
        unfold prioScanStep
        simp only
        by_cases hel : (p.getD k default).at_ ≤ time ∧ 0 < (p.getD k default).rt
        · rw [if_pos hel]
          by_cases hlt : (p.getD k default).pr < best
          · rw [if_pos hlt]
            exact ⟨by intro h; simp at h,
              fun idx' best' h => take idx' best' h hel.1 hel.2 (by omega)⟩
          · rw [if_neg hlt]
            by_cases heq : (p.getD k default).pr = best
            · rw [if_pos heq]
              cases idx with
              | none =>
                simp only
                exact ⟨fun _ => ⟨k, by omega, by rw [heq, a2 rfl]⟩,
                  by intro idx' best' h; simp at h⟩
              | some j =>
                simp only
                split
                · exact ⟨by intro h; simp at h,
                    fun idx' best' h => take idx' best' h hel.1 hel.2 (by omega)⟩
                · exact ⟨by intro h; simp at h,
                    fun idx' best' h => keep idx' best' h (by omega) (fun _ _ => by omega)⟩
            · rw [if_neg heq]
              exact ⟨by intro h; simp at h,
                fun idx' best' h => keep idx' best' h (by omega) (fun _ _ => by omega)⟩
        · rw [if_neg hel]
          exact ⟨by intro h; simp at h,
            fun idx' best' h => keep idx' best' h (fun c => hel ⟨c.1, c.2.1⟩)
              (fun a b => absurd ⟨a, b⟩ hel)⟩)

theorem prioScan_sound : ScanSound prioScan := by
  intro p time idx h
  unfold prioScan at h
  cases hf : (List.range p.length).foldl (prioScanStep p time) (some (none, INT_MAX)) with
  | none => rw [hf] at h; simp at h
  | some ib =>
    obtain ⟨i, best⟩ := ib
    rw [hf] at h
    simp only [Option.map_some', Option.some.injEq] at h
    obtain ⟨a, b, c, _⟩ := ((prioScan_fold p time).2 i best hf).1 idx h
    exact ⟨a, b, c⟩

theorem prioScan_complete :
    ScanComplete (fun p => ∀ x ∈ p, x.pr < INT_MAX) prioScan := by
  intro p time hC
  unfold prioScan
  cases hf : (List.range p.length).foldl (prioScanStep p time) (some (none, INT_MAX)) with
  | none =>
    obtain ⟨j, hj, e⟩ := (prioScan_fold p time).1 hf
    have := hC _ (getD_mem p j default hj)
    omega
  | some ib =>
    obtain ⟨idx, best⟩ := ib
    refine ⟨by simp, ?_⟩
    intro h i hi ha
    simp only [Option.map_some', Option.some.injEq] at h
    obtain ⟨_, h2, h3⟩ := (prioScan_fold p time).2 idx best hf
    by_contra hr
    have := h3 i hi ha (by omega)
    rw [h2 h] at this
    have := hC _ (getD_mem p i default hi)
    omega

end Scheduling

namespace Scheduling

/-! ## The preemptive loops -/

theorem finished_iff (x : Process) : x.finished = true ↔ 0 < x.bt ∧ x.rt = 0 := by
  simp [Process.finished]

theorem finished_false_iff (x : Process) : x.finished = false ↔ ¬ (0 < x.bt ∧ x.rt = 0) := by
  simp [Process.finished]

theorem RowInv_mono (t t' : Int) (x : Process) (h : t ≤ t') (hx : RowInv t x) : RowInv t' x := by
  obtain ⟨h1, h2, h3, h4⟩ := hx
  refine ⟨h1, h2, fun a => le_trans (h3 a) h, fun a => ?_⟩
  obtain ⟨b, c, d⟩ := h4 a
  exact ⟨b, c, le_trans d h⟩

theorem RowInv_init (t : Int) (x : Process) (h : x.rt = x.bt) : RowInv t x := by
  refine ⟨fun _ => h, fun _ => by omega, fun a => by omega, fun a => ?_⟩
  rw [finished_iff] at a
  omega

theorem inp_transfer (p p0 : List Process) (h : p.map Process.inp = p0.map Process.inp)
    (Q : Int × Int × Int × Int → Prop) (hQ : ∀ y ∈ p0, Q y.inp) : ∀ x ∈ p, Q x.inp := by
  intro x hx
  have : x.inp ∈ p0.map Process.inp := h ▸ List.mem_map_of_mem Process.inp hx
  obtain ⟨y, hy, e⟩ := List.mem_map.mp this
  exact e ▸ hQ y hy

theorem preInit_inv (p0 : List Process) (h : ∀ x ∈ p0, x.rt = x.bt) : PInv p0 (preInit p0) := by
  refine ⟨rfl, fun x hx => RowInv_init 0 x (h x hx), ?_⟩
  show 0 = List.countP Process.finished p0
  symm
  rw [List.countP_eq_zero]
  intro x hx
  have := h x hx
  simp only [Bool.not_eq_true, finished_false_iff]
  omega

theorem preBody_cases (scan : List Process → Int → Option (Option Nat)) (s s' : PState)
    (hb : preBody scan s = some s') :
    (scan s.p s.time = some none ∧ s' = { s with time := s.time + 1 }) ∨
    (∃ idx, scan s.p s.time = some (some idx) ∧
      s'.time = s.time + 1 ∧
      s'.gantt = (if s.prev ≠ (s.p.getD idx default).pid
        then s.gantt ++ [((s.p.getD idx default).pid, s.time)] else s.gantt) ∧
      s'.prev = (s.p.getD idx default).pid ∧
      (((s.p.getD idx default).rt - 1 = 0 ∧ s'.completed = s.completed + 1 ∧
        s'.p = s.p.set idx { (s.p.getD idx default) with
                             rt := (s.p.getD idx default).rt - 1
                             ct := s.time + 1
                             tat := s.time + 1 - (s.p.getD idx default).at_
                             wt := s.time + 1 - (s.p.getD idx default).at_
                                    - (s.p.getD idx default).bt }) ∨
       ((s.p.getD idx default).rt - 1 ≠ 0 ∧ s'.completed = s.completed ∧
        s'.p = s.p.set idx { (s.p.getD idx default) with
                             rt := (s.p.getD idx default).rt - 1 }))) := by
  unfold preBody at hb
  cases hsc : scan s.p s.time with
  | none => rw [hsc] at hb; simp at hb
  | some o =>
    cases o with
    | none =>
      rw [hsc] at hb
      simp only [Option.some.injEq] at hb
      exact Or.inl ⟨rfl, hb.symm⟩
    | some idx =>
      rw [hsc] at hb
      simp only at hb
      refine Or.inr ⟨idx, rfl, ?_⟩
      by_cases hr : (s.p.getD idx default).rt - 1 = 0
      · rw [if_pos hr] at hb
        simp only [Option.some.injEq] at hb
        subst hb
        refine ⟨rfl, ?_, ?_, Or.inl ⟨hr, rfl, rfl⟩⟩
        · by_cases hp : s.prev = (s.p.getD idx default).pid <;> simp [hp]
        · by_cases hp : s.prev = (s.p.getD idx default).pid <;> simp [hp]
      · rw [if_neg hr] at hb
        simp only [Option.some.injEq] at hb
        subst hb
        refine ⟨rfl, ?_, ?_, Or.inr ⟨hr, rfl, rfl⟩⟩
        · by_cases hp : s.prev = (s.p.getD idx default).pid <;> simp [hp]
        · by_cases hp : s.prev = (s.p.getD idx default).pid <;> simp [hp]

theorem preBody_inv (scan : List Process → Int → Option (Option Nat)) (hs : ScanSound scan)
    (p0 : List Process) (s s' : PState) (hI : PInv p0 s) (hb : preBody scan s = some s') :
    PInv p0 s' := by
  rcases preBody_cases scan s s' hb with ⟨_, rfl⟩ | ⟨idx, hsc, ht, _, _, hcase⟩
  · exact ⟨hI.inp, fun x hx => RowInv_mono _ _ x (by simp) (hI.row x hx), hI.cnt⟩
  · obtain ⟨hi, ha, hr⟩ := hs _ _ _ hsc
    have hq := hI.row _ (getD_mem s.p idx default hi)
    obtain ⟨q1, q2, q3, q4⟩ := hq
    have hbt : 0 < (s.p.getD idx default).bt := by
      by_contra hc
      have := q1 (by omega)
      omega
    have hfin : (s.p.getD idx default).finished = false := by
      rw [finished_false_iff]; omega
    rcases hcase with ⟨hz, hc, hp⟩ | ⟨hz, hc, hp⟩
    · refine ⟨?_, ?_, ?_⟩
      · rw [hp, map_set_same Process.inp s.p idx _ default (by rfl)]
        exact hI.inp
      · intro x hx
        rw [ht]
        rw [hp] at hx
        rcases mem_set_cases _ _ _ _ hx with hx | rfl
        · exact RowInv_mono _ _ x (by omega) (hI.row x hx)
        · have := q2 hbt
          refine ⟨fun a => by simp only at a; omega, fun _ => by simp only; omega,
            fun a => ?_, fun _ => ⟨⟨rfl, rfl⟩, ?_, le_refl _⟩⟩
          · simp only at a ⊢
            by_cases hlt : (s.p.getD idx default).rt < (s.p.getD idx default).bt
            · have := q3 hlt; omega
            · omega
          · simp only
            by_cases hlt : (s.p.getD idx default).rt < (s.p.getD idx default).bt
            · have := q3 hlt; omega
            · omega
      · rw [hc, hp, countP_set_gain Process.finished s.p idx _ default hi hfin
          (by rw [finished_iff]; exact ⟨hbt, hz⟩), hI.cnt]
    · refine ⟨?_, ?_, ?_⟩
      · rw [hp, map_set_same Process.inp s.p idx _ default (by rfl)]
        exact hI.inp
      · intro x hx
        rw [ht]
        rw [hp] at hx
        rcases mem_set_cases _ _ _ _ hx with hx | rfl
        · exact RowInv_mono _ _ x (by omega) (hI.row x hx)
        · have := q2 hbt
          refine ⟨fun a => by simp only at a; omega, fun _ => by simp only; omega,
            fun a => ?_, fun a => ?_⟩
          · simp only at a ⊢
            by_cases hlt : (s.p.getD idx default).rt < (s.p.getD idx default).bt
            · have := q3 hlt; omega
            · omega
          · rw [finished_iff] at a
            exact absurd a.2 hz
      · rw [hc, hp, countP_set_keep Process.finished s.p idx _ default
          (by rw [hfin, finished_false_iff]; exact fun a => hz a.2), hI.cnt]

theorem preBody_time (scan : List Process → Int → Option (Option Nat)) (s s' : PState)
    (hb : preBody scan s = some s') : s'.time = s.time + 1 := by
  rcases preBody_cases scan s s' hb with ⟨_, rfl⟩ | ⟨idx, _, ht, _⟩
  · rfl
  · exact ht

theorem preLoop_inv (scan : List Process → Int → Option (Option Nat)) (hs : ScanSound scan)
    (p0 : List Process) (h0 : ∀ x ∈ p0, x.rt = x.bt) (fuel : Nat) (r : PState)
    (h : preLoop scan fuel (preInit p0) = some r) :
    PInv p0 r ∧ ∀ x ∈ r.p, (0 < x.bt ∧ x.rt = 0) ∧ MetricsOK x ∧ x.at_ + x.bt ≤ x.ct ∧
      x.ct ≤ r.time := by
  obtain ⟨hI, hg⟩ := whileLoop_inv _ _ (PInv p0)
    (fun s s' hI _ hb => preBody_inv scan hs p0 s s' hI hb)
    fuel (preInit p0) r (preInit_inv p0 h0) h
  refine ⟨hI, ?_⟩
  simp only [decide_eq_false_iff_not, not_lt] at hg
  have hall := all_of_countP_ge Process.finished r.p (by rw [← hI.cnt]; exact hg)
  intro x hx
  exact ⟨(finished_iff x).mp (hall x hx), (hI.row x hx).2.2.2 (hall x hx)⟩

end Scheduling

namespace Scheduling

theorem pre_exists_unfinished (p : List Process) (c : Nat) (hc : c = p.countP Process.finished)
    (hg : c < p.length) : ∃ i, i < p.length ∧ (p.getD i default).finished = false := by
  obtain ⟨x, hx, hf⟩ := exists_of_countP_lt Process.finished p (by rw [← hc]; exact hg)
  obtain ⟨i, hi, e⟩ := exists_getD_of_mem p default x hx
  exact ⟨i, hi, by rw [e]; exact hf⟩

theorem rt_facts (time : Int) (p : List Process) (hrow : ∀ x ∈ p, RowInv time x)
    (hok : ∀ x ∈ p, 1 ≤ x.bt) :
    (∀ x ∈ p, 0 ≤ x.rt ∧ x.rt ≤ x.bt) ∧
    (p.map fun x => x.rt).sum ≤ (p.map fun x => x.bt).sum := by
  have h : ∀ x ∈ p, 0 ≤ x.rt ∧ x.rt ≤ x.bt := fun x hx =>
    (hrow x hx).2.1 (by have := hok x hx; omega)
  exact ⟨h, sum_map_le _ _ p (fun x hx => (h x hx).2)⟩

theorem preBody_valid (scan : List Process → Int → Option (Option Nat)) (hs : ScanSound scan)
    (C : List Process → Prop) (hc : ScanComplete C scan)
    (M B : Int) (p0 : List Process) (s : PState) (hI : PInv p0 s) (hV : PValid M B s)
    (hC : C s.p) (hok : ∀ x ∈ s.p, x.at_ ≤ M ∧ 1 ≤ x.bt)
    (hB : (s.p.map fun x => x.bt).sum = B) (hg : s.completed < s.p.length) :
    ∃ s', preBody scan s = some s' ∧ PValid M B s' ∧ s.time < M + B := by
  obtain ⟨u, hu, huf⟩ := pre_exists_unfinished s.p s.completed hI.cnt hg
  obtain ⟨hrt, hsum⟩ := rt_facts s.time s.p hI.row (fun x hx => (hok x hx).2)
  have hum := getD_mem s.p u default hu
  have hurt : 1 ≤ (s.p.getD u default).rt := by
    rw [finished_false_iff] at huf
    have := hrt _ hum
    have := hok _ hum
    omega
  have hge := le_sum_map_of_mem (fun x : Process => x.rt) s.p (fun x hx => (hrt x hx).1) _ hum
  simp only at hge
  have hlt : s.time < M + B := by have := hV.bound; omega
  obtain ⟨hdef, hnone⟩ := hc s.p s.time hC
  cases hb : preBody scan s with
  | none =>
    unfold preBody at hb
    cases hsc : scan s.p s.time with
    | none => exact absurd hsc hdef
    | some o =>
      rw [hsc] at hb
      cases o with
      | none => simp at hb
      | some idx =>
        simp only at hb
        split at hb <;> simp at hb
  | some s' =>
    refine ⟨s', rfl, ?_, hlt⟩
    rcases preBody_cases scan s s' hb with ⟨hsc, rfl⟩ | ⟨idx, hsc, ht, _, _, hcase⟩
    · have hat : s.time < (s.p.getD u default).at_ := by
        by_contra hcon
        have := hnone hsc u hu (by omega)
        omega
      have := (hok _ hum).1
      refine ⟨by have := hV.t0; simp only; omega, ?_⟩
      simp only
      rw [hB] at hsum
      omega
    · obtain ⟨hi, ha, hr⟩ := hs _ _ _ hsc
      refine ⟨by have := hV.t0; omega, ?_⟩
      have hb' := hV.bound
      rcases hcase with ⟨_, _, hp⟩ | ⟨_, _, hp⟩
      · rw [hp, ht, sum_map_set (fun x : Process => x.rt) s.p idx _ default hi]
        simp only
        omega
      · rw [hp, ht, sum_map_set (fun x : Process => x.rt) s.p idx _ default hi]
        simp only
        omega

theorem pre_terminates (scan : List Process → Int → Option (Option Nat)) (hs : ScanSound scan)
    (C : List Process → Prop) (hc : ScanComplete C scan)
    (M : Int) (p0 : List Process) (hM : 0 ≤ M) (h0 : ∀ x ∈ p0, x.rt = x.bt)
    (hok : ∀ x ∈ p0, x.at_ ≤ M ∧ 1 ≤ x.bt)
    (hC : ∀ s, PInv p0 s → C s.p) :
    ∃ r, preLoop scan (M + (p0.map fun x => x.bt).sum).toNat (preInit p0) = some r ∧
      PInv p0 r ∧ PValid M (p0.map fun x => x.bt).sum r ∧ ¬ r.completed < r.p.length := by
  have hB0 : 0 ≤ (p0.map fun x => x.bt).sum :=
    sum_map_nonneg _ p0 (fun x hx => by have := hok x hx; omega)
  obtain ⟨r, hr, ⟨h1, h2⟩, hg⟩ := whileLoop_term
    (fun s : PState => decide (s.completed < s.p.length)) (preBody scan)
    (fun s => PInv p0 s ∧ PValid M (p0.map fun x => x.bt).sum s)
    (fun s => (M + (p0.map fun x => x.bt).sum - s.time).toNat)
    (by
      intro s ⟨hI, hV⟩ hg
      simp only [decide_eq_true_eq] at hg
      have hok' : ∀ x ∈ s.p, x.at_ ≤ M ∧ 1 ≤ x.bt :=
        inp_transfer s.p p0 hI.inp (fun t => t.2.1 ≤ M ∧ 1 ≤ t.2.2.1) hok
      obtain ⟨s', hb, hV', hlt⟩ := preBody_valid scan hs C hc M _ p0 s hI hV (hC s hI) hok'
        (by rw [map_bt_of_inp _ _ hI.inp]) hg
      have := preBody_time scan s s' hb
      exact ⟨s', hb, ⟨preBody_inv scan hs p0 s s' hI hb, hV'⟩, by simp only; omega⟩)
    (M + (p0.map fun x => x.bt).sum).toNat (preInit p0)
    ⟨preInit_inv p0 h0, ⟨le_refl _, by
      have : (p0.map fun x => x.rt).sum = (p0.map fun x => x.bt).sum := by
        congr 1
        exact List.map_congr_left h0
      simp only [preInit]
      omega⟩⟩
    (by simp [preInit])
  exact ⟨r, hr, h1, h2, by simpa using hg⟩

theorem srtf_cond (p0 : List Process) (hok : ∀ x ∈ p0, 1 ≤ x.bt ∧ x.bt < INT_MAX) (s : PState)
    (hI : PInv p0 s) : ∀ x ∈ s.p, x.rt < INT_MAX := by
  intro x hx
  have h1 := inp_transfer s.p p0 hI.inp (fun t => 1 ≤ t.2.2.1 ∧ t.2.2.1 < INT_MAX) hok x hx
  have h2 := (hI.row x hx).2.1 (by have := h1.1; exact this)
  have h3 : x.bt < INT_MAX := h1.2
  omega

theorem prio_cond (p0 : List Process) (hok : ∀ x ∈ p0, x.pr < INT_MAX) (s : PState)
    (hI : PInv p0 s) : ∀ x ∈ s.p, x.pr < INT_MAX :=
  inp_transfer s.p p0 hI.inp (fun t => t.2.2.2 < INT_MAX) hok

end Scheduling

namespace Scheduling

/-! ## The enqueue scan of Round Robin -/

theorem rrCond_iff (p : List Process) (time : Int) (inQ : List Bool) (i : Nat) :
    rrCond p time inQ i = true ↔
      inQ.getD i false = false ∧ (p.getD i default).at_ ≤ time ∧ 0 < (p.getD i default).rt := by
  simp [rrCond]

theorem rrEnqueue_spec (p : List Process) (time : Int) (q : List Nat) (inQ : List Bool)
    (hl : inQ.length = p.length) :
    (rrEnqueue p time q inQ).1 = q ++ (List.range p.length).filter (rrCond p time inQ) ∧
    (rrEnqueue p time q inQ).2.length = inQ.length ∧
    (∀ i, (rrEnqueue p time q inQ).2.getD i false = true ↔
      (inQ.getD i false = true ∨ (i < p.length ∧ rrCond p time inQ i = true))) := by
  exact foldl_range_inv (rrEnqStep p time)
    (fun k acc =>
      acc.1 = q ++ (List.range k).filter (rrCond p time inQ) ∧
      acc.2.length = inQ.length ∧
      (∀ i, acc.2.getD i false = true ↔
        (inQ.getD i false = true ∨ (i < k ∧ rrCond p time inQ i = true))))
    (q, inQ) p.length
    ⟨by simp, rfl, by intro i; simp⟩
    (by
      intro k acc hkn ⟨h1, h2, h3⟩
      have hk : acc.2.getD k false = inQ.getD k false := by
        have := h3 k
        simp only [lt_irrefl, false_and, or_false] at this
        exact Bool.eq_iff_iff.mpr this
      unfold rrEnqStep
      simp only
      rw [hk, List.range_succ, List.filter_append]
      by_cases hc : rrCond p time inQ k = true
      · have hc' := (rrCond_iff p time inQ k).mp hc
        rw [if_pos hc']
        refine ⟨by simp [h1, hc], by simp [h2], ?_⟩
        intro i
        by_cases hik : i = k
        · subst hik
          have hlen : i < acc.2.length := by omega
          rw [getD_set_self _ _ _ _ hlen]
          simp [hc]
        · rw [getD_set_other _ _ _ _ _ (Ne.symm hik), h3 i]
          constructor
          · rintro (h | ⟨h, h'⟩)
            · exact Or.inl h
            · exact Or.inr ⟨by omega, h'⟩
          · rintro (h | ⟨h, h'⟩)
            · exact Or.inl h
            · exact Or.inr ⟨by omega, h'⟩
      · have hc' : ¬ (inQ.getD k false = false ∧ (p.getD k default).at_ ≤ time ∧
            0 < (p.getD k default).rt) := fun h => hc ((rrCond_iff p time inQ k).mpr h)
        rw [if_neg hc']
        refine ⟨by simp [h1, hc], h2, ?_⟩
        intro i
        rw [h3 i]
        constructor
        · rintro (h | ⟨h, h'⟩)
          · exact Or.inl h
          · exact Or.inr ⟨by omega, h'⟩
        · rintro (h | ⟨h, h'⟩)
          · exact Or.inl h
          · rcases Nat.lt_succ_iff_lt_or_eq.mp h with h | rfl
            · exact Or.inr ⟨h, h'⟩
            · exact absurd h' hc)

end Scheduling

namespace Scheduling

/-! ## The Round Robin loop -/

theorem rrEnqueue_mem (p : List Process) (time : Int) (q : List Nat) (inQ : List Bool)
    (hl : inQ.length = p.length) (i : Nat) :
    i ∈ (rrEnqueue p time q inQ).1 ↔ i ∈ q ∨ (i < p.length ∧ rrCond p time inQ i = true) := by
  rw [(rrEnqueue_spec p time q inQ hl).1, List.mem_append, List.mem_filter, List.mem_range]

theorem rrEnqueue_QInv (p : List Process) (time : Int) (q : List Nat) (inQ : List Bool)
    (h : QInv p time q inQ) :
    QInv p time (rrEnqueue p time q inQ).1 (rrEnqueue p time q inQ).2 := by
  obtain ⟨s1, s2, s3⟩ := rrEnqueue_spec p time q inQ h.len
  refine ⟨by rw [s2, h.len], ?_, ?_, ?_⟩
  · rw [s1, List.nodup_append]
    refine ⟨h.nodup, (List.nodup_range _).filter _, ?_⟩
    intro i hi hi'
    have a := (h.mem i hi).2.1
    have b := ((rrCond_iff p time inQ i).mp (List.mem_filter.mp hi').2).1
    rw [a] at b
    exact absurd b (by decide)
  · intro i hi
    rcases (rrEnqueue_mem p time q inQ h.len i).mp hi with hi | ⟨hi, hc⟩
    · obtain ⟨a, b, c⟩ := h.mem i hi
      exact ⟨a, (s3 i).mpr (Or.inl b), c⟩
    · have hc' := (rrCond_iff p time inQ i).mp hc
      exact ⟨hi, (s3 i).mpr (Or.inr ⟨hi, hc⟩), hc'.2.2, hc'.2.1⟩
  · intro i hi hf
    apply h.fresh i hi
    cases hb : inQ.getD i false with
    | false => rfl
    | true =>
      have := (s3 i).mpr (Or.inl hb)
      rw [this] at hf
      exact absurd hf (by decide)

theorem rrEnqueue_QAll (p : List Process) (time : Int) (q : List Nat) (inQ : List Bool)
    (hl : inQ.length = p.length) (h : QAll p q inQ) :
    QAll p (rrEnqueue p time q inQ).1 (rrEnqueue p time q inQ).2 := by
  intro i hi hf hr
  rw [rrEnqueue_mem p time q inQ hl i]
  rcases ((rrEnqueue_spec p time q inQ hl).2.2 i).mp hf with hf | hf
  · exact Or.inl (h i hi hf hr)
  · exact Or.inr hf

theorem rrBody_idle (tq : Int) (s : RRState) (h : (rrEnqueue s.p s.time s.q s.inQ).1 = []) :
    rrBody tq s = { s with q := [], inQ := (rrEnqueue s.p s.time s.q s.inQ).2,
                           time := s.time + 1 } := by
  unfold rrBody
  simp only [h]

theorem rrBody_again (tq : Int) (s : RRState) (idx : Nat) (rest : List Nat)
    (h : (rrEnqueue s.p s.time s.q s.inQ).1 = idx :: rest)
    (hr : 0 < (s.p.getD idx default).rt - min tq (s.p.getD idx default).rt) :
    rrBody tq s =
      { p := s.p.set idx { (s.p.getD idx default) with
              rt := (s.p.getD idx default).rt - min tq (s.p.getD idx default).rt },
        q := (rrEnqueue
              (s.p.set idx { (s.p.getD idx default) with
                rt := (s.p.getD idx default).rt - min tq (s.p.getD idx default).rt })
              (s.time + min tq (s.p.getD idx default).rt) rest
              (rrEnqueue s.p s.time s.q s.inQ).2).1 ++ [idx],
        inQ := (rrEnqueue
              (s.p.set idx { (s.p.getD idx default) with
                rt := (s.p.getD idx default).rt - min tq (s.p.getD idx default).rt })
              (s.time + min tq (s.p.getD idx default).rt) rest
              (rrEnqueue s.p s.time s.q s.inQ).2).2,
        gantt := s.gantt ++ [((s.p.getD idx default).pid, s.time)],
        time := s.time + min tq (s.p.getD idx default).rt,
        completed := s.completed } := by
  unfold rrBody
  simp only [h]
  rw [if_pos hr]

theorem rrBody_finish (tq : Int) (s : RRState) (idx : Nat) (rest : List Nat)
    (h : (rrEnqueue s.p s.time s.q s.inQ).1 = idx :: rest)
    (hr : ¬ 0 < (s.p.getD idx default).rt - min tq (s.p.getD idx default).rt) :
    rrBody tq s =
      { p := s.p.set idx { (s.p.getD idx default) with
              rt := (s.p.getD idx default).rt - min tq (s.p.getD idx default).rt
              ct := s.time + min tq (s.p.getD idx default).rt
              tat := s.time + min tq (s.p.getD idx default).rt - (s.p.getD idx default).at_
              wt := s.time + min tq (s.p.getD idx default).rt - (s.p.getD idx default).at_
                      - (s.p.getD idx default).bt },
        q := (rrEnqueue
              (s.p.set idx { (s.p.getD idx default) with
                rt := (s.p.getD idx default).rt - min tq (s.p.getD idx default).rt })
              (s.time + min tq (s.p.getD idx default).rt) rest
              (rrEnqueue s.p s.time s.q s.inQ).2).1,
        inQ := (rrEnqueue
              (s.p.set idx { (s.p.getD idx default) with
                rt := (s.p.getD idx default).rt - min tq (s.p.getD idx default).rt })
              (s.time + min tq (s.p.getD idx default).rt) rest
              (rrEnqueue s.p s.time s.q s.inQ).2).2,
        gantt := s.gantt ++ [((s.p.getD idx default).pid, s.time)],
        time := s.time + min tq (s.p.getD idx default).rt,
        completed := s.completed + 1 } := by
  unfold rrBody
  simp only [h]
  rw [if_neg hr]
  simp only [List.set_set]

end Scheduling

namespace Scheduling

theorem rr_slice (p : List Process) (time t1 : Int) (idx : Nat) (rest : List Nat)
    (inQ1 : List Bool) (a : Process) (E1 : QInv p time (idx :: rest) inQ1)
    (A1 : QAll p (idx :: rest) inQ1) (ht : time ≤ t1) :
    QInv (p.set idx a) t1 (rrEnqueue (p.set idx a) t1 rest inQ1).1
      (rrEnqueue (p.set idx a) t1 rest inQ1).2 ∧
    idx ∉ (rrEnqueue (p.set idx a) t1 rest inQ1).1 ∧
    (rrEnqueue (p.set idx a) t1 rest inQ1).2.getD idx false = true ∧
    (∀ i, i < p.length → i ≠ idx →
      (rrEnqueue (p.set idx a) t1 rest inQ1).2.getD i false = true →
      0 < (p.getD i default).rt → i ∈ (rrEnqueue (p.set idx a) t1 rest inQ1).1) := by
  obtain ⟨hidx, hflag, _, _⟩ := E1.mem idx (List.mem_cons_self _ _)
  have hnot : idx ∉ rest := (List.nodup_cons.mp E1.nodup).1
  have hlen : inQ1.length = (p.set idx a).length := by rw [List.length_set]; exact E1.len
  have Q1 : QInv (p.set idx a) t1 rest inQ1 := by
    refine ⟨hlen, (List.nodup_cons.mp E1.nodup).2, ?_, ?_⟩
    · intro i hi
      have hne : idx ≠ i := fun e => hnot (e ▸ hi)
      obtain ⟨a1, a2, a3, a4⟩ := E1.mem i (List.mem_cons_of_mem _ hi)
      rw [getD_set_other _ _ _ _ _ hne, List.length_set]
      exact ⟨a1, a2, a3, le_trans a4 ht⟩
    · intro i hi hf
      have hne : idx ≠ i := by
        intro e
        rw [← e, hflag] at hf
        exact absurd hf (by decide)
      rw [getD_set_other _ _ _ _ _ hne]
      exact E1.fresh i (by simpa using hi) hf
  obtain ⟨_, _, s3⟩ := rrEnqueue_spec (p.set idx a) t1 rest inQ1 hlen
  refine ⟨rrEnqueue_QInv _ _ _ _ Q1, ?_, (s3 idx).mpr (Or.inl hflag), ?_⟩
  · intro hmem
    rcases (rrEnqueue_mem _ t1 rest inQ1 hlen idx).mp hmem with h | ⟨_, h⟩
    · exact hnot h
    · have := ((rrCond_iff _ _ _ _).mp h).1
      rw [hflag] at this
      exact absurd this (by decide)
  · intro i hi hne hf hr
    rw [rrEnqueue_mem _ t1 rest inQ1 hlen i]
    rcases (s3 i).mp hf with h | h
    · have := A1 i hi h hr
      rcases List.mem_cons.mp this with e | h'
      · exact absurd e hne
      · exact Or.inl h'
    · exact Or.inr h

theorem QInv_push (p : List Process) (t : Int) (q : List Nat) (inQ : List Bool) (idx : Nat)
    (h : QInv p t q inQ) (hn : idx ∉ q) (hi : idx < p.length) (hf : inQ.getD idx false = true)
    (hr : 0 < (p.getD idx default).rt) (ha : (p.getD idx default).at_ ≤ t) :
    QInv p t (q ++ [idx]) inQ := by
  refine ⟨h.len, ?_, ?_, h.fresh⟩
  · rw [List.nodup_append]
    refine ⟨h.nodup, List.nodup_singleton _, ?_⟩
    intro i hi1 hi2
    rw [List.mem_singleton] at hi2
    exact hn (hi2 ▸ hi1)
  · intro i hi'
    rcases List.mem_append.mp hi' with hi' | hi'
    · exact h.mem i hi'
    · rw [List.mem_singleton] at hi'
      subst hi'
      exact ⟨hi, hf, hr, ha⟩

theorem QInv_set (p : List Process) (t : Int) (q : List Nat) (inQ : List Bool) (idx : Nat)
    (b : Process) (h : QInv p t q inQ) (hn : idx ∉ q) (hf : inQ.getD idx false = true) :
    QInv (p.set idx b) t q inQ := by
  refine ⟨by rw [List.length_set]; exact h.len, h.nodup, ?_, ?_⟩
  · intro i hi
    have hne : idx ≠ i := fun e => hn (e ▸ hi)
    rw [getD_set_other _ _ _ _ _ hne, List.length_set]
    exact h.mem i hi
  · intro i hi hfi
    have hne : idx ≠ i := by
      intro e
      rw [← e, hf] at hfi
      exact absurd hfi (by decide)
    rw [getD_set_other _ _ _ _ _ hne]
    exact h.fresh i (by simpa using hi) hfi

theorem RowInv_slice (t e : Int) (x : Process) (hx : RowInv t x) (ha : x.at_ ≤ t)
    (hr : 0 < x.rt) (he1 : 1 ≤ e) :
    0 < x.bt ∧ x.finished = false ∧
    (0 < x.rt - e → RowInv (t + e) { x with rt := x.rt - e }) ∧
    (x.rt - e = 0 → RowInv (t + e) { x with
        rt := x.rt - e
        ct := t + e
        tat := t + e - x.at_
        wt := t + e - x.at_ - x.bt }) := by
  obtain ⟨q1, q2, q3, q4⟩ := hx
  have hbt : 0 < x.bt := by
    by_contra hc
    have := q1 (by omega)
    omega
  have := q2 hbt
  have hfin : x.finished = false := by rw [finished_false_iff]; omega
  have h3 : x.rt - e < x.bt → x.at_ + (x.bt - (x.rt - e)) ≤ t + e := by
    intro _
    by_cases hlt : x.rt < x.bt
    · have := q3 hlt; omega
    · omega
  refine ⟨hbt, hfin, fun hpos => ⟨fun a => by simp only at a; omega, fun _ => by simp only; omega,
    fun a => by simp only at a ⊢; exact h3 a, fun a => ?_⟩, fun hz =>
    ⟨fun a => by simp only at a; omega, fun _ => by simp only; omega,
      fun a => by simp only at a ⊢; exact h3 a, fun _ => ⟨⟨rfl, rfl⟩, ?_, le_refl _⟩⟩⟩
  · rw [finished_iff] at a
    simp only at a
    omega
  · simp only
    have := h3 (by omega)
    omega

theorem rrBody_inv (tq : Int) (htq : 1 ≤ tq) (p0 : List Process) (s : RRState)
    (hI : RRInv p0 s) : RRInv p0 (rrBody tq s) ∧ s.time < (rrBody tq s).time := by
  have E1 := rrEnqueue_QInv s.p s.time s.q s.inQ hI.que
  have A1 := rrEnqueue_QAll s.p s.time s.q s.inQ hI.que.len hI.all
  cases hq : (rrEnqueue s.p s.time s.q s.inQ).1 with
  | nil =>
    rw [rrBody_idle tq s hq]
    rw [hq] at E1 A1
    refine ⟨⟨hI.inp, fun x hx => RowInv_mono _ _ x (by simp) (hI.row x hx), hI.cnt,
      ⟨E1.len, E1.nodup, ?_, E1.fresh⟩, A1⟩, by simp⟩
    intro i hi
    simp at hi
  | cons idx rest =>
    rw [hq] at E1 A1
    obtain ⟨hidx, hflag, hrt, hat⟩ := E1.mem idx (List.mem_cons_self _ _)
    have hrow := hI.row _ (getD_mem s.p idx default hidx)
    have he1 : 1 ≤ min tq (s.p.getD idx default).rt := le_min htq (by omega)
    have he2 : min tq (s.p.getD idx default).rt ≤ (s.p.getD idx default).rt := min_le_right _ _
    obtain ⟨hbt, hfin, hR1, hR2⟩ := RowInv_slice s.time _ _ hrow hat hrt he1
    by_cases hr : 0 < (s.p.getD idx default).rt - min tq (s.p.getD idx default).rt
    · rw [rrBody_again tq s idx rest hq hr]
      obtain ⟨E2, hnot, hflag2, hall⟩ := rr_slice s.p s.time
        (s.time + min tq (s.p.getD idx default).rt) idx rest _
        { (s.p.getD idx default) with
          rt := (s.p.getD idx default).rt - min tq (s.p.getD idx default).rt } E1 A1 (by omega)
      refine ⟨⟨?_, ?_, ?_, ?_, ?_⟩, by simp only; omega⟩
      · simp only
        rw [map_set_same Process.inp s.p idx _ default (by rfl)]
        exact hI.inp
      · intro x hx
        simp only at hx ⊢
        rcases mem_set_cases _ _ _ _ hx with hx | rfl
        · exact RowInv_mono _ _ x (by omega) (hI.row x hx)
        · exact hR1 hr
      · simp only
        rw [countP_set_keep Process.finished s.p idx _ default
          (by rw [hfin, finished_false_iff]; simp only; omega), hI.cnt]
      · simp only
        apply QInv_push _ _ _ _ idx E2 hnot (by rw [List.length_set]; exact hidx) hflag2
        · rw [getD_set_self _ _ _ _ hidx]; exact hr
        · rw [getD_set_self _ _ _ _ hidx]; simp only; omega
      · intro i hi hf hri
        simp only at hi hf hri ⊢
        rw [List.length_set] at hi
        by_cases hne : i = idx
        · exact List.mem_append.mpr (Or.inr (by simp [hne]))
        · rw [getD_set_other _ _ _ _ _ (Ne.symm hne)] at hri
          exact List.mem_append.mpr (Or.inl (hall i hi hne hf hri))
    · rw [rrBody_finish tq s idx rest hq hr]
      obtain ⟨E2, hnot, hflag2, hall⟩ := rr_slice s.p s.time
        (s.time + min tq (s.p.getD idx default).rt) idx rest _
        { (s.p.getD idx default) with
          rt := (s.p.getD idx default).rt - min tq (s.p.getD idx default).rt } E1 A1 (by omega)
      have hz : (s.p.getD idx default).rt - min tq (s.p.getD idx default).rt = 0 := by omega
      refine ⟨⟨?_, ?_, ?_, ?_, ?_⟩, by simp only; omega⟩
      · simp only
        rw [map_set_same Process.inp s.p idx _ default (by rfl)]
        exact hI.inp
      · intro x hx
        simp only at hx ⊢
        rcases mem_set_cases _ _ _ _ hx with hx | rfl
        · exact RowInv_mono _ _ x (by omega) (hI.row x hx)
        · exact hR2 hz
      · simp only
        rw [countP_set_gain Process.finished s.p idx _ default hidx hfin
          (by rw [finished_iff]; exact ⟨hbt, hz⟩), hI.cnt]
      · simp only
        have := QInv_set _ _ _ _ idx
          { (s.p.getD idx default) with
            rt := (s.p.getD idx default).rt - min tq (s.p.getD idx default).rt
            ct := s.time + min tq (s.p.getD idx default).rt
            tat := s.time + min tq (s.p.getD idx default).rt - (s.p.getD idx default).at_
            wt := s.time + min tq (s.p.getD idx default).rt - (s.p.getD idx default).at_
                    - (s.p.getD idx default).bt } E2 hnot hflag2
        rw [List.set_set] at this
        exact this
      · intro i hi hf hri
        simp only at hi hf hri ⊢
        rw [List.length_set] at hi
        by_cases hne : i = idx
        · subst hne
          rw [getD_set_self _ _ _ _ hidx] at hri
          simp only at hri
          omega
        · rw [getD_set_other _ _ _ _ _ (Ne.symm hne)] at hri
          exact hall i hi hne hf hri

theorem rrInit_inv (p0 : List Process) (h : ∀ x ∈ p0, x.rt = x.bt) : RRInv p0 (rrInit p0) := by
  have hfl : ∀ i, (List.replicate p0.length false).getD i false = false := by
    intro i
    rw [List.getD_eq_getElem?_getD, List.getElem?_replicate]
    split <;> rfl
  refine ⟨rfl, fun x hx => RowInv_init 0 x (h x hx), ?_, ⟨by simp [rrInit], List.nodup_nil,
    by intro i hi; simp [rrInit] at hi, fun i hi _ => h _ (getD_mem _ i default hi)⟩, ?_⟩
  · show 0 = List.countP Process.finished p0
    symm
    rw [List.countP_eq_zero]
    intro x hx
    have := h x hx
    simp only [Bool.not_eq_true, finished_false_iff]
    omega
  · intro i _ hf
    simp only [rrInit] at hf
    rw [hfl i] at hf
    exact absurd hf (by decide)

theorem rrLoop_inv (tq : Int) (htq : 1 ≤ tq) (p0 : List Process) (h0 : ∀ x ∈ p0, x.rt = x.bt)
    (fuel : Nat) (r : RRState) (h : rrLoop tq fuel (rrInit p0) = some r) :
    RRInv p0 r ∧ ∀ x ∈ r.p, (0 < x.bt ∧ x.rt = 0) ∧ MetricsOK x ∧ x.at_ + x.bt ≤ x.ct ∧
      x.ct ≤ r.time := by
  obtain ⟨hI, hg⟩ := whileLoop_inv _ _ (RRInv p0)
    (by
      intro s s' hI _ hb
      simp only [Option.some.injEq] at hb
      subst hb
      exact (rrBody_inv tq htq p0 s hI).1)
    fuel (rrInit p0) r (rrInit_inv p0 h0) h
  refine ⟨hI, ?_⟩
  simp only [decide_eq_false_iff_not, not_lt] at hg
  have hall := all_of_countP_ge Process.finished r.p (by rw [← hI.cnt]; exact hg)
  intro x hx
  exact ⟨(finished_iff x).mp (hall x hx), (hI.row x hx).2.2.2 (hall x hx)⟩

end Scheduling

namespace Scheduling

theorem rrBody_valid (tq : Int) (htq : 1 ≤ tq) (M B : Int) (p0 : List Process) (s : RRState)
    (hI : RRInv p0 s) (hV : RRValid M B s) (hok : ∀ x ∈ s.p, x.at_ ≤ M ∧ 1 ≤ x.bt)
    (hB : (s.p.map fun x => x.bt).sum = B) (hg : s.completed < s.p.length) :
    RRValid M B (rrBody tq s) ∧ s.time < M + B := by
  obtain ⟨u, hu, huf⟩ := pre_exists_unfinished s.p s.completed hI.cnt hg
  obtain ⟨hrt, hsum⟩ := rt_facts s.time s.p hI.row (fun x hx => (hok x hx).2)
  have hum := getD_mem s.p u default hu
  have hurt : 1 ≤ (s.p.getD u default).rt := by
    rw [finished_false_iff] at huf
    have := hrt _ hum
    have := hok _ hum
    omega
  have hge := le_sum_map_of_mem (fun x : Process => x.rt) s.p (fun x hx => (hrt x hx).1) _ hum
  simp only at hge
  have hlt : s.time < M + B := by have := hV.bound; omega
  refine ⟨?_, hlt⟩
  have E1 := rrEnqueue_QInv s.p s.time s.q s.inQ hI.que
  have A1 := rrEnqueue_QAll s.p s.time s.q s.inQ hI.que.len hI.all
  cases hq : (rrEnqueue s.p s.time s.q s.inQ).1 with
  | nil =>
    rw [rrBody_idle tq s hq]
    have hat : s.time < (s.p.getD u default).at_ := by
      by_contra hcon
      have hmem : u ∈ (rrEnqueue s.p s.time s.q s.inQ).1 := by
        rw [rrEnqueue_mem s.p s.time s.q s.inQ hI.que.len u]
        cases hf : s.inQ.getD u false with
        | true => exact Or.inl (hI.all u hu hf (by omega))
        | false => exact Or.inr ⟨hu, (rrCond_iff _ _ _ _).mpr ⟨hf, by omega, by omega⟩⟩
      rw [hq] at hmem
      simp at hmem
    have := (hok _ hum).1
    refine ⟨by have := hV.t0; simp only; omega, ?_⟩
    simp only
    rw [hB] at hsum
    omega
  | cons idx rest =>
    rw [hq] at E1
    obtain ⟨hidx, _, hrtx, _⟩ := E1.mem idx (List.mem_cons_self _ _)
    have he1 : 1 ≤ min tq (s.p.getD idx default).rt := le_min htq (by omega)
    have hb := hV.bound
    have ht0 := hV.t0
    by_cases hr : 0 < (s.p.getD idx default).rt - min tq (s.p.getD idx default).rt
    · rw [rrBody_again tq s idx rest hq hr]
      refine ⟨by simp only; omega, ?_⟩
      simp only
      rw [sum_map_set (fun x : Process => x.rt) s.p idx _ default hidx]
      simp only
      omega
    · rw [rrBody_finish tq s idx rest hq hr]
      refine ⟨by simp only; omega, ?_⟩
      simp only
      rw [sum_map_set (fun x : Process => x.rt) s.p idx _ default hidx]
      simp only
      omega

theorem rr_terminates (tq : Int) (htq : 1 ≤ tq) (M : Int) (p0 : List Process) (hM : 0 ≤ M)
    (h0 : ∀ x ∈ p0, x.rt = x.bt) (hok : ∀ x ∈ p0, x.at_ ≤ M ∧ 1 ≤ x.bt) :
    ∃ r, rrLoop tq (M + (p0.map fun x => x.bt).sum).toNat (rrInit p0) = some r ∧
      RRInv p0 r ∧ RRValid M (p0.map fun x => x.bt).sum r ∧ ¬ r.completed < r.p.length := by
  have hB0 : 0 ≤ (p0.map fun x => x.bt).sum :=
    sum_map_nonneg _ p0 (fun x hx => by have := hok x hx; omega)
  obtain ⟨r, hr, ⟨h1, h2⟩, hg⟩ := whileLoop_term
    (fun s : RRState => decide (s.completed < s.p.length)) (fun s => some (rrBody tq s))
    (fun s => RRInv p0 s ∧ RRValid M (p0.map fun x => x.bt).sum s)
    (fun s => (M + (p0.map fun x => x.bt).sum - s.time).toNat)
    (by
      intro s ⟨hI, hV⟩ hg
      simp only [decide_eq_true_eq] at hg
      have hok' : ∀ x ∈ s.p, x.at_ ≤ M ∧ 1 ≤ x.bt :=
        inp_transfer s.p p0 hI.inp (fun t => t.2.1 ≤ M ∧ 1 ≤ t.2.2.1) hok
      obtain ⟨hV', hlt⟩ := rrBody_valid tq htq M _ p0 s hI hV hok'
        (by rw [map_bt_of_inp _ _ hI.inp]) hg
      obtain ⟨hI', ht⟩ := rrBody_inv tq htq p0 s hI
      exact ⟨_, rfl, ⟨hI', hV'⟩, by simp only; omega⟩)
    (M + (p0.map fun x => x.bt).sum).toNat (rrInit p0)
    ⟨rrInit_inv p0 h0, ⟨le_refl _, by
      have : (p0.map fun x => x.rt).sum = (p0.map fun x => x.bt).sum := by
        congr 1
        exact List.map_congr_left h0
      simp only [rrInit]
      omega⟩⟩
    (by simp [rrInit])
  exact ⟨r, hr, h1, h2, by simpa using hg⟩

/-! ### Runs that never leave the loop -/

theorem rr_diverges (tq : Int) (htq : tq ≤ 0) (p0 : List Process) (hne : p0 ≠ []) (fuel : Nat) :
    rrLoop tq fuel (rrInit p0) = none := by
  apply whileLoop_diverge _ _
    (fun s : RRState => s.completed = 0 ∧ 0 < s.p.length ∧ s.inQ.length = s.p.length ∧
      ∀ i ∈ s.q, 0 < (s.p.getD i default).rt)
  · intro s ⟨hc, hl, hq, hr⟩
    refine ⟨by simp [hc, hl], ?_⟩
    intro s' hb
    simp only [Option.some.injEq] at hb
    subst hb
    have hmem1 : ∀ i ∈ (rrEnqueue s.p s.time s.q s.inQ).1, 0 < (s.p.getD i default).rt := by
      intro i hi
      rcases (rrEnqueue_mem s.p s.time s.q s.inQ hq i).mp hi with h | ⟨_, h⟩
      · exact hr i h
      · exact ((rrCond_iff _ _ _ _).mp h).2.2
    have hl1 := (rrEnqueue_spec s.p s.time s.q s.inQ hq).2.1
    cases hq1 : (rrEnqueue s.p s.time s.q s.inQ).1 with
    | nil =>
      rw [rrBody_idle tq s hq1]
      exact ⟨hc, hl, by simp only; rw [hl1, hq], by intro i hi; simp at hi⟩
    | cons idx rest =>
      rw [hq1] at hmem1
      have hx := hmem1 idx (List.mem_cons_self _ _)
      have hidx : idx < s.p.length := by
        by_contra hcon
        rw [List.getD_eq_default _ _ (by omega)] at hx
        exact absurd hx (by decide)
      have hmin : min tq (s.p.getD idx default).rt = tq := min_eq_left (by omega)
      have hpos : 0 < (s.p.getD idx default).rt - min tq (s.p.getD idx default).rt := by
        rw [hmin]; omega
      rw [rrBody_again tq s idx rest hq1 hpos]
      have hlen2 : (rrEnqueue s.p s.time s.q s.inQ).2.length
          = (s.p.set idx { (s.p.getD idx default) with
              rt := (s.p.getD idx default).rt - min tq (s.p.getD idx default).rt }).length := by
        rw [List.length_set, hl1, hq]
      refine ⟨hc, by simp only [List.length_set]; exact hl, ?_, ?_⟩
      · simp only
        rw [(rrEnqueue_spec _ _ _ _ hlen2).2.1, hlen2]
      · intro i hi
        simp only at hi ⊢
        by_cases hie : i = idx
        · subst hie
          rw [getD_set_self _ _ _ _ hidx]
          exact hpos
        · rcases List.mem_append.mp hi with hi | hi
          · rcases (rrEnqueue_mem _ _ _ _ hlen2 i).mp hi with h | ⟨_, h⟩
            · rw [getD_set_other _ _ _ _ _ (Ne.symm hie)]
              exact hmem1 i (List.mem_cons_of_mem _ h)
            · exact ((rrCond_iff _ _ _ _).mp h).2.2
          · exact absurd (List.mem_singleton.mp hi) hie
  · exact ⟨rfl, List.length_pos.mpr hne, by simp [rrInit], by intro i hi; simp [rrInit] at hi⟩

theorem countP_lt_of_mem {α : Type} (P : α → Bool) (l : List α) (x : α) (hx : x ∈ l)
    (h : P x = false) : l.countP P < l.length := by
  by_contra hc
  have := all_of_countP_ge P l (by omega) x hx
  rw [h] at this
  exact absurd this (by decide)

end Scheduling

namespace Scheduling

/-! ## From the loops to the printed reports -/

theorem readProcs_rt (a : Bool) (batch : List Input) :
    ∀ x ∈ readProcs a true 0 batch, x.rt = x.bt := by
  intro x hx
  obtain ⟨y, _, _, h2, _, h4, _⟩ := readProcs_mem a true batch 0 x hx
  rw [h4, h2]
  rfl

theorem length_of_inp (p p0 : List Process) (h : p.map Process.inp = p0.map Process.inp) :
    p.length = p0.length := by
  have := congrArg List.length h
  simpa using this

theorem rows_of_batch (a b : Bool) (batch : List Input) (p : List Process)
    (h : p.map Process.inp = (readProcs a b 0 batch).map Process.inp) :
    p.length = batch.length ∧
    ∀ x ∈ p, ∃ y ∈ batch, x.at_ = y.at_ ∧ x.bt = y.bt ∧ x.pr = (if a then y.pr else 0) := by
  refine ⟨by rw [length_of_inp _ _ h, readProcs_length], ?_⟩
  intro x hx
  have : x.inp ∈ (readProcs a b 0 batch).map Process.inp :=
    h ▸ List.mem_map_of_mem Process.inp hx
  obtain ⟨z, hz, e⟩ := List.mem_map.mp this
  obtain ⟨y, hy, h1, h2, h3, _⟩ := readProcs_mem a b batch 0 z hz
  have e1 : z.at_ = x.at_ := congrArg (fun t : Int × Int × Int × Int => t.2.1) e
  have e2 : z.bt = x.bt := congrArg (fun t : Int × Int × Int × Int => t.2.2.1) e
  have e3 : z.pr = x.pr := congrArg (fun t : Int × Int × Int × Int => t.2.2.2) e
  exact ⟨y, hy, by rw [← e1, h1], by rw [← e2, h2], by rw [← e3, h3]⟩

theorem sum_rows_bt (a b : Bool) (batch : List Input) (p : List Process)
    (h : p.map Process.inp = (readProcs a b 0 batch).map Process.inp) :
    (p.map fun x => x.bt).sum = sumBt batch := by
  rw [map_bt_of_inp _ _ h, readProcs_bt]
  rfl

theorem np_report (key : Process → Int) (a : Bool) (batch : List Input) (fuel : Nat)
    (r : Report)
    (h : (npLoop key fuel (npInit (readProcs a false 0 batch))).map (npReport batch.length)
      = some r) :
    ReportMetrics batch r ∧ (∀ x ∈ r.rows, x.at_ + x.bt ≤ x.ct) ∧
    r.rows.map Process.inp = (readProcs a false 0 batch).map Process.inp ∧
    r.gantt.length = batch.length := by
  cases hl : npLoop key fuel (npInit (readProcs a false 0 batch)) with
  | none => rw [hl] at h; simp at h
  | some s =>
    rw [hl] at h
    simp only [Option.map_some', Option.some.injEq] at h
    subst h
    obtain ⟨hI, hm⟩ := npLoop_inv key _ fuel s hl
    obtain ⟨_, hg⟩ := whileLoop_inv _ _ (fun _ : NPState => True)
      (fun _ _ _ _ _ => trivial) fuel _ s trivial hl
    simp only [decide_eq_false_iff_not, not_lt] at hg
    refine ⟨⟨fun x hx => (hm x hx).1, ?_⟩, fun x hx => (hm x hx).2, hI.inp, ?_⟩
    · show (s.p.map fun x => x.tat - x.wt).sum = sumBt batch
      rw [sum_tat_sub_wt _ (fun x hx => (hm x hx).1), sum_rows_bt a false batch s.p hI.inp]
    · show s.gantt.length = batch.length
      have h1 := hI.gl
      have h2 := @List.countP_le_length Bool (fun b => b) s.done
      have h3 := hI.cnt
      have h4 := hI.len
      have h5 := (rows_of_batch a false batch s.p hI.inp).1
      omega

theorem pre_report (scan : List Process → Int → Option (Option Nat)) (hs : ScanSound scan)
    (a : Bool) (batch : List Input) (fuel : Nat) (r : Report)
    (h : (preLoop scan fuel (preInit (readProcs a true 0 batch))).map (preReport batch.length)
      = some r) :
    ReportMetrics batch r ∧
    (∀ x ∈ r.rows, x.at_ + x.bt ≤ x.ct ∧ x.ct ≤ r.end_time ∧ x.rt = 0) ∧
    r.rows.map Process.inp = (readProcs a true 0 batch).map Process.inp := by
  cases hl : preLoop scan fuel (preInit (readProcs a true 0 batch)) with
  | none => rw [hl] at h; simp at h
  | some s =>
    rw [hl] at h
    simp only [Option.map_some', Option.some.injEq] at h
    subst h
    obtain ⟨hI, hm⟩ := preLoop_inv scan hs _ (readProcs_rt a batch) fuel s hl
    refine ⟨⟨fun x hx => (hm x hx).2.1, ?_⟩,
      fun x hx => ⟨(hm x hx).2.2.1, (hm x hx).2.2.2, (hm x hx).1.2⟩, hI.inp⟩
    show (s.p.map fun x => x.tat - x.wt).sum = sumBt batch
    rw [sum_tat_sub_wt _ (fun x hx => (hm x hx).2.1), sum_rows_bt a true batch s.p hI.inp]

theorem rr_report (tq : Int) (htq : 1 ≤ tq) (batch : List Input) (fuel : Nat) (r : Report)
    (h : RoundRobin fuel batch tq = some r) :
    ReportMetrics batch r ∧
    (∀ x ∈ r.rows, x.at_ + x.bt ≤ x.ct ∧ x.ct ≤ r.end_time ∧ x.rt = 0) ∧
    r.rows.map Process.inp = (readProcs false true 0 batch).map Process.inp := by
  unfold RoundRobin at h
  cases hl : rrLoop tq fuel (rrInit (readProcs false true 0 batch)) with
  | none => rw [hl] at h; simp at h
  | some s =>
    rw [hl] at h
    simp only [Option.map_some', Option.some.injEq] at h
    subst h
    obtain ⟨hI, hm⟩ := rrLoop_inv tq htq _ (readProcs_rt false batch) fuel s hl
    refine ⟨⟨fun x hx => (hm x hx).2.1, ?_⟩,
      fun x hx => ⟨(hm x hx).2.2.1, (hm x hx).2.2.2, (hm x hx).1.2⟩, hI.inp⟩
    show (s.p.map fun x => x.tat - x.wt).sum = sumBt batch
    rw [sum_tat_sub_wt _ (fun x hx => (hm x hx).2.1), sum_rows_bt false true batch s.p hI.inp]

theorem np_report_term (key : Process → Int)
    (hkey : ∀ (x : Process) (c t w : Int), key { x with ct := c, tat := t, wt := w } = key x)
    (a : Bool) (batch : List Input) (hv : ValidBatch batch)
    (hmax : ∀ x ∈ readProcs a false 0 batch, key x < INT_MAX) :
    ∃ r, (∀ k, (npLoop key ((maxAt batch + sumBt batch).toNat + k)
        (npInit (readProcs a false 0 batch))).map (npReport batch.length) = some r) ∧
      r.rows.length = batch.length ∧
      (∀ x ∈ r.rows, x.at_ + x.bt ≤ x.ct ∧ x.ct ≤ r.end_time) ∧
      r.end_time ≤ sumBt batch + maxAt batch := by
  have hsum : ((readProcs a false 0 batch).map fun x => x.bt).sum = sumBt batch := by
    rw [readProcs_bt]; rfl
  obtain ⟨s, hs, hI, hV, hg⟩ := np_terminates key hkey (maxAt batch)
    (readProcs a false 0 batch) (maxAt_nonneg batch)
    (by
      intro x hx
      obtain ⟨y, hy, h1, h2, _⟩ := readProcs_mem a false batch 0 x hx
      have := hv.2 y hy
      have := le_maxAt batch y hy
      exact ⟨by omega, by omega, by omega, hmax x hx⟩)
  rw [hsum] at hs hV
  refine ⟨npReport batch.length s, ?_, ?_, ?_, ?_⟩
  · intro k
    have := whileLoop_mono _ _ _ k _ _ hs
    unfold npLoop
    rw [this]
    rfl
  · exact (rows_of_batch a false batch s.p hI.inp).1
  · obtain ⟨hI', hm⟩ := npLoop_inv key _ _ s hs
    have hall := all_of_countP_ge (fun b => b) s.done
      (by rw [hI.len, ← hI.cnt]; omega)
    intro x hx
    refine ⟨(hm x hx).2, ?_⟩
    obtain ⟨i, hi, e⟩ := exists_getD_of_mem s.p default x hx
    have hz : (s.p.zip s.done).getD i (default, false) ∈ s.p.zip s.done :=
      getD_mem _ _ _ (by rw [length_zip_same _ _ hI.len]; exact hi)
    rw [getD_zip _ _ _ _ _ hI.len hi] at hz
    have := hV.ctle _ hz (hall _ (getD_mem _ _ _ (by rw [hI.len]; exact hi)))
    rw [e] at this
    exact this
  · have h1 := hV.bound
    have h2 := npTodo_nonneg s (fun x hx => by have := hV.ok x hx; omega)
    show s.time ≤ sumBt batch + maxAt batch
    omega

theorem pre_report_term (scan : List Process → Int → Option (Option Nat)) (hs : ScanSound scan)
    (C : List Process → Prop) (hc : ScanComplete C scan)
    (a : Bool) (batch : List Input) (hv : ValidBatch batch)
    (hC : ∀ s, PInv (readProcs a true 0 batch) s → C s.p) :
    ∃ r, (∀ k, (preLoop scan ((maxAt batch + sumBt batch).toNat + k)
        (preInit (readProcs a true 0 batch))).map (preReport batch.length) = some r) ∧
      r.rows.length = batch.length ∧
      (∀ x ∈ r.rows, x.at_ + x.bt ≤ x.ct ∧ x.ct ≤ r.end_time ∧ x.rt = 0) ∧
      r.end_time ≤ sumBt batch + maxAt batch := by
  have hsum : ((readProcs a true 0 batch).map fun x => x.bt).sum = sumBt batch := by
    rw [readProcs_bt]; rfl
  obtain ⟨s, hs', hI, hV, hg⟩ := pre_terminates scan hs C hc (maxAt batch)
    (readProcs a true 0 batch) (maxAt_nonneg batch) (readProcs_rt a batch)
    (by
      intro x hx
      obtain ⟨y, hy, h1, h2, _⟩ := readProcs_mem a true batch 0 x hx
      have := hv.2 y hy
      have := le_maxAt batch y hy
      exact ⟨by omega, by omega⟩)
    hC
  rw [hsum] at hs' hV
  refine ⟨preReport batch.length s, ?_, ?_, ?_, ?_⟩
  · intro k
    have := whileLoop_mono _ _ _ k _ _ hs'
    unfold preLoop
    rw [this]
    rfl
  · exact (rows_of_batch a true batch s.p hI.inp).1
  · obtain ⟨_, hm⟩ := preLoop_inv scan hs _ (readProcs_rt a batch) _ s hs'
    exact fun x hx => ⟨(hm x hx).2.2.1, (hm x hx).2.2.2, (hm x hx).1.2⟩
  · have h1 := hV.bound
    have h2 := sum_map_nonneg (fun x : Process => x.rt) s.p (fun x hx => by
      obtain ⟨_, hm⟩ := preLoop_inv scan hs _ (readProcs_rt a batch) _ s hs'
      have := (hm x hx).1.2
      simp only
      omega)
    show s.time ≤ sumBt batch + maxAt batch
    omega

theorem rr_report_term (tq : Int) (htq : 1 ≤ tq) (batch : List Input) (hv : ValidBatch batch) :
    ∃ r, (∀ k, RoundRobin ((maxAt batch + sumBt batch).toNat + k) batch tq = some r) ∧
      r.rows.length = batch.length ∧
      (∀ x ∈ r.rows, x.at_ + x.bt ≤ x.ct ∧ x.ct ≤ r.end_time ∧ x.rt = 0) ∧
      r.end_time ≤ sumBt batch + maxAt batch := by
  have hsum : ((readProcs false true 0 batch).map fun x => x.bt).sum = sumBt batch := by
    rw [readProcs_bt]; rfl
  obtain ⟨s, hs', hI, hV, hg⟩ := rr_terminates tq htq (maxAt batch)
    (readProcs false true 0 batch) (maxAt_nonneg batch) (readProcs_rt false batch)
    (by
      intro x hx
      obtain ⟨y, hy, h1, h2, _⟩ := readProcs_mem false true batch 0 x hx
      have := hv.2 y hy
      have := le_maxAt batch y hy
      exact ⟨by omega, by omega⟩)
  rw [hsum] at hs' hV
  refine ⟨rrReport batch.length s, ?_, ?_, ?_, ?_⟩
  · intro k
    have := whileLoop_mono _ _ _ k _ _ hs'
    unfold RoundRobin rrLoop
    rw [this]
    rfl
  · exact (rows_of_batch false true batch s.p hI.inp).1
  · obtain ⟨_, hm⟩ := rrLoop_inv tq htq _ (readProcs_rt false batch) _ s hs'
    exact fun x hx => ⟨(hm x hx).2.2.1, (hm x hx).2.2.2, (hm x hx).1.2⟩
  · have h1 := hV.bound
    have h2 := sum_map_nonneg (fun x : Process => x.rt) s.p (fun x hx => by
      obtain ⟨_, hm⟩ := rrLoop_inv tq htq _ (readProcs_rt false batch) _ s hs'
      have := (hm x hx).1.2
      simp only
      omega)
    show s.time ≤ sumBt batch + maxAt batch
    omega

end Scheduling

namespace Scheduling

/-! ## The properties of the scheduling routines -/

/-- C1: FCFS on arrivals [0,1,2] and bursts [5,3,2] (ids 1,2,3) yields the
completion times [5,8,10], turnaround times [5,7,8] and waiting times
[0,4,6]; the total waiting time is 10 over 3 processes, so the mean waiting
time is exactly 10/3.  The arrival times are distinct, so this holds for
every library sort `S` within the contract of `std::sort`. -/
theorem fcfs_worked_example (S : Sorter) :
    (FCFS S [⟨0, 5, 0⟩, ⟨1, 3, 0⟩, ⟨2, 2, 0⟩]).rows.map (fun x => (x.pid, x.ct, x.tat, x.wt))
      = [(1, 5, 5, 0), (2, 8, 7, 4), (3, 10, 8, 6)] ∧
    (FCFS S [⟨0, 5, 0⟩, ⟨1, 3, 0⟩, ⟨2, 2, 0⟩]).totalWT = 10 ∧
    (FCFS S [⟨0, 5, 0⟩, ⟨1, 3, 0⟩, ⟨2, 2, 0⟩]).n = 3 ∧
    (FCFS S [⟨0, 5, 0⟩, ⟨1, 3, 0⟩, ⟨2, 2, 0⟩]).avgWT = 10 / 3 := by
  have hs : S.sort (readProcs false false 0 [⟨0, 5, 0⟩, ⟨1, 3, 0⟩, ⟨2, 2, 0⟩])
      = readProcs false false 0 [⟨0, 5, 0⟩, ⟨1, 3, 0⟩, ⟨2, 2, 0⟩] :=
    S.sort_eq_self _ (by decide)
  have h0 : FCFS S [⟨0, 5, 0⟩, ⟨1, 3, 0⟩, ⟨2, 2, 0⟩]
      = { rows := [{ pid := 1, at_ := 0, bt := 5, ct := 5, tat := 5, wt := 0 },
                   { pid := 2, at_ := 1, bt := 3, ct := 8, tat := 7, wt := 4 },
                   { pid := 3, at_ := 2, bt := 2, ct := 10, tat := 8, wt := 6 }],
          totalWT := 10, totalTAT := 20, n := 3,
          gantt := [(1, 0), (2, 5), (3, 8)], end_time := 10 } := by
    unfold FCFS
    rw [hs]
    decide
  rw [h0]
  refine ⟨by decide, rfl, rfl, ?_⟩
  unfold Report.avgWT
  norm_num

theorem RoundRobin_mono (fuel k : Nat) (batch : List Input) (tq : Int) (r : Report)
    (h : RoundRobin fuel batch tq = some r) : RoundRobin (fuel + k) batch tq = some r := by
  unfold RoundRobin rrLoop at h ⊢
  cases hl : whileLoop (fun s : RRState => decide (s.completed < s.p.length))
      (fun s => some (rrBody tq s)) fuel (rrInit (readProcs false true 0 batch)) with
  | none => rw [hl] at h; simp at h
  | some s =>
    rw [hl] at h
    rw [whileLoop_mono _ _ fuel k _ s hl]
    exact h

theorem RoundRobin_unique (f₁ f₂ : Nat) (batch : List Input) (tq : Int) (r₁ r₂ : Report)
    (h₁ : RoundRobin f₁ batch tq = some r₁) (h₂ : RoundRobin f₂ batch tq = some r₂) :
    r₁ = r₂ := by
  have a := RoundRobin_mono f₁ f₂ batch tq r₁ h₁
  have b := RoundRobin_mono f₂ f₁ batch tq r₂ h₂
  rw [Nat.add_comm] at b
  rw [a] at b
  exact Option.some.inj b

/-- C2, as the spec states it, fails: on arrivals [0,0,0], bursts [5,3,2]
and quantum 2 no run of Round Robin yields a Gantt sequence beginning
P1@0, P2@2, P3@4, P1@6, P2@7 with completion times [9,8,10]. -/
theorem roundRobin_spec_example_fails :
    ¬ ∃ fuel r, RoundRobin fuel [⟨0, 5, 0⟩, ⟨0, 3, 0⟩, ⟨0, 2, 0⟩] 2 = some r ∧
      r.gantt.take 5 = [(1, 0), (2, 2), (3, 4), (1, 6), (2, 7)] ∧
      r.rows.map (fun x => x.ct) = [9, 8, 10] := by
  rintro ⟨fuel, r, h, hg, _⟩
  have h6 : RoundRobin 6 [⟨0, 5, 0⟩, ⟨0, 3, 0⟩, ⟨0, 2, 0⟩] 2 = some
      { rows := [{ pid := 1, at_ := 0, bt := 5, ct := 10, tat := 10, wt := 5 },
                 { pid := 2, at_ := 0, bt := 3, ct := 9, tat := 9, wt := 6 },
                 { pid := 3, at_ := 0, bt := 2, ct := 6, tat := 6, wt := 4 }],
        totalWT := 15, totalTAT := 25, n := 3,
        gantt := [(1, 0), (2, 2), (3, 4), (1, 6), (2, 8), (1, 9)], end_time := 10 } := by
    decide
  have e := RoundRobin_unique fuel 6 _ 2 _ _ h h6
  rw [e] at hg
  revert hg
  decide

/-- C2, amended: on arrivals [0,0,0], bursts [5,3,2] (ids 1,2,3) and
quantum 2, Round Robin leaves its loop after 6 iterations with the Gantt
sequence P1@0, P2@2, P3@4, P1@6, P2@8, P1@9, end time 10, and the
completion times 10, 9, 6 for the ids 1, 2, 3. -/
theorem roundRobin_worked_example (k : Nat) :
    (RoundRobin (6 + k) [⟨0, 5, 0⟩, ⟨0, 3, 0⟩, ⟨0, 2, 0⟩] 2).map
        (fun r => (r.gantt, r.end_time, r.rows.map fun x => (x.pid, x.ct)))
      = some ([(1, 0), (2, 2), (3, 4), (1, 6), (2, 8), (1, 9)], 10, [(1, 10), (2, 9), (3, 6)]) := by
  have h6 : RoundRobin 6 [⟨0, 5, 0⟩, ⟨0, 3, 0⟩, ⟨0, 2, 0⟩] 2 = some
      { rows := [{ pid := 1, at_ := 0, bt := 5, ct := 10, tat := 10, wt := 5 },
                 { pid := 2, at_ := 0, bt := 3, ct := 9, tat := 9, wt := 6 },
                 { pid := 3, at_ := 0, bt := 2, ct := 6, tat := 6, wt := 4 }],
        totalWT := 15, totalTAT := 25, n := 3,
        gantt := [(1, 0), (2, 2), (3, 4), (1, 6), (2, 8), (1, 9)], end_time := 10 } := by
    decide
  rw [RoundRobin_mono 6 k _ 2 _ h6]
  rfl

end Scheduling

namespace Scheduling

theorem rowBounds_of (x : Process) (hm : MetricsOK x) (hc : x.at_ + x.bt ≤ x.ct)
    (hb : 1 ≤ x.bt) : x.at_ + x.bt ≤ x.ct ∧ x.bt ≤ x.tat ∧ 1 ≤ x.bt ∧ 0 ≤ x.wt := by
  obtain ⟨h1, h2⟩ := hm
  exact ⟨hc, by omega, hb, by omega⟩

theorem rows_bt_pos (a b : Bool) (batch : List Input) (hv : ValidBatch batch) (p : List Process)
    (h : p.map Process.inp = (readProcs a b 0 batch).map Process.inp) :
    ∀ x ∈ p, 1 ≤ x.bt := by
  intro x hx
  obtain ⟨y, hy, _, h2, _⟩ := (rows_of_batch a b batch p h).2 x hx
  rw [h2]
  exact (hv.2 y hy).2

/-- The completion bounds over exact integers: for every valid batch
(non-empty, arrivals at least 0, bursts at
least 1, and quantum at least 1 for Round Robin) and each of the six
policies, the report has one row per process and every row satisfies
completion ≥ arrival + burst, turnaround ≥ burst ≥ 1 and waiting ≥ 0. -/
theorem completion_bounds (S : Sorter) (ch : Policy) (fuel : Nat) (batch : List Input)
    (tq : Int) (r : Report) (hv : ValidBatch batch) (htq : ch = Policy.RR → 1 ≤ tq)
    (h : runPolicy S ch fuel batch tq = some r) :
    r.rows.length = batch.length ∧
    ∀ x ∈ r.rows, x.at_ + x.bt ≤ x.ct ∧ x.bt ≤ x.tat ∧ 1 ≤ x.bt ∧ 0 ≤ x.wt := by
  cases ch with
  | FCFS =>
    simp only [runPolicy, Option.some.injEq] at h
    subst h
    exact ⟨fcfs_rows_length S batch, fcfs_bounds S batch (fun x hx => (hv.2 x hx).2)⟩
  | SJF_NP =>
    obtain ⟨h1, h2, h3, _⟩ := np_report _ false batch fuel r h
    exact ⟨(rows_of_batch _ _ batch _ h3).1, fun x hx =>
      rowBounds_of x (h1.1 x hx) (h2 x hx) (rows_bt_pos _ _ batch hv _ h3 x hx)⟩
  | SJF_P =>
    obtain ⟨h1, h2, h3⟩ := pre_report srtfScan srtfScan_sound false batch fuel r h
    exact ⟨(rows_of_batch _ _ batch _ h3).1, fun x hx =>
      rowBounds_of x (h1.1 x hx) (h2 x hx).1 (rows_bt_pos _ _ batch hv _ h3 x hx)⟩
  | PRIO_NP =>
    obtain ⟨h1, h2, h3, _⟩ := np_report _ true batch fuel r h
    exact ⟨(rows_of_batch _ _ batch _ h3).1, fun x hx =>
      rowBounds_of x (h1.1 x hx) (h2 x hx) (rows_bt_pos _ _ batch hv _ h3 x hx)⟩
  | RR =>
    obtain ⟨h1, h2, h3⟩ := rr_report tq (htq rfl) batch fuel r h
    exact ⟨(rows_of_batch _ _ batch _ h3).1, fun x hx =>
      rowBounds_of x (h1.1 x hx) (h2 x hx).1 (rows_bt_pos _ _ batch hv _ h3 x hx)⟩
  | PRIO_P =>
    obtain ⟨h1, h2, h3⟩ := pre_report prioScan prioScan_sound true batch fuel r h
    exact ⟨(rows_of_batch _ _ batch _ h3).1, fun x hx =>
      rowBounds_of x (h1.1 x hx) (h2 x hx).1 (rows_bt_pos _ _ batch hv _ h3 x hx)⟩

/-- Termination over exact integers: for every valid batch (non-empty,
arrivals at least 0,
bursts at least 1, quantum at least 1 for Round Robin) in which moreover
every burst time is below INT_MAX when the policy is one of the two SJF
routines and every priority value is below INT_MAX when it is one of the
two priority routines, the loop of each of the six policies terminates
within (maximum arrival + sum of bursts) iterations with every process
completed (completion time between arrival + burst and the end time,
remaining time 0 where it is kept), and the final clock value is at most
the sum of the burst times plus the maximum arrival time. -/
theorem terminates_within_bound (S : Sorter) (ch : Policy) (batch : List Input) (tq : Int)
    (hv : ValidBatch batch) (htq : ch = Policy.RR → 1 ≤ tq)
    (hbt : ch = Policy.SJF_NP ∨ ch = Policy.SJF_P → ∀ x ∈ batch, x.bt < INT_MAX)
    (hpr : ch = Policy.PRIO_NP ∨ ch = Policy.PRIO_P → ∀ x ∈ batch, x.pr < INT_MAX) :
    ∃ r, (∀ k, runPolicy S ch ((maxAt batch + sumBt batch).toNat + k) batch tq = some r) ∧
      r.rows.length = batch.length ∧
      (∀ x ∈ r.rows, x.at_ + x.bt ≤ x.ct ∧ x.ct ≤ r.end_time) ∧
      (ch = Policy.SJF_P ∨ ch = Policy.PRIO_P ∨ ch = Policy.RR → ∀ x ∈ r.rows, x.rt = 0) ∧
      r.end_time ≤ sumBt batch + maxAt batch := by
  cases ch with
  | FCFS =>
    have hb0 : ∀ x ∈ batch, 0 ≤ x.bt := fun x hx => by have := (hv.2 x hx).2; omega
    refine ⟨FCFS S batch, fun _ => rfl, fcfs_rows_length S batch, fun x hx =>
      ⟨(fcfs_bounds S batch (fun x hx => (hv.2 x hx).2) x hx).1, fcfs_ct_le_end S batch hb0 x hx⟩,
      ?_, fcfs_end_time S batch hb0⟩
    intro h
    rcases h with h | h | h <;> exact absurd h (by decide)
  | SJF_NP =>
    obtain ⟨r, h1, h2, h3, h4⟩ := np_report_term (fun q => q.bt) (fun _ _ _ _ => rfl) false
      batch hv (by
        intro x hx
        obtain ⟨y, hy, _, e, _⟩ := readProcs_mem false false batch 0 x hx
        simp only
        rw [e]
        exact hbt (Or.inl rfl) y hy)
    refine ⟨r, h1, h2, h3, ?_, h4⟩
    intro h
    rcases h with h | h | h <;> exact absurd h (by decide)
  | SJF_P =>
    obtain ⟨r, h1, h2, h3, h4⟩ := pre_report_term srtfScan srtfScan_sound _ srtfScan_complete
      false batch hv (by
        intro s hI
        apply srtf_cond _ _ s hI
        intro x hx
        obtain ⟨y, hy, _, e, _⟩ := readProcs_mem false true batch 0 x hx
        rw [e]
        exact ⟨(hv.2 y hy).2, hbt (Or.inr rfl) y hy⟩)
    exact ⟨r, h1, h2, fun x hx => ⟨(h3 x hx).1, (h3 x hx).2.1⟩, fun _ x hx => (h3 x hx).2.2, h4⟩
  | PRIO_NP =>
    obtain ⟨r, h1, h2, h3, h4⟩ := np_report_term (fun q => q.pr) (fun _ _ _ _ => rfl) true
      batch hv (by
        intro x hx
        obtain ⟨y, hy, _, _, e, _⟩ := readProcs_mem true false batch 0 x hx
        simp only
        rw [e]
        exact hpr (Or.inl rfl) y hy)
    refine ⟨r, h1, h2, h3, ?_, h4⟩
    intro h
    rcases h with h | h | h <;> exact absurd h (by decide)
  | RR =>
    obtain ⟨r, h1, h2, h3, h4⟩ := rr_report_term tq (htq rfl) batch hv
    exact ⟨r, h1, h2, fun x hx => ⟨(h3 x hx).1, (h3 x hx).2.1⟩, fun _ x hx => (h3 x hx).2.2, h4⟩
  | PRIO_P =>
    obtain ⟨r, h1, h2, h3, h4⟩ := pre_report_term prioScan prioScan_sound _ prioScan_complete
      true batch hv (by
        intro s hI
        apply prio_cond _ _ s hI
        intro x hx
        obtain ⟨y, hy, _, _, e, _⟩ := readProcs_mem true true batch 0 x hx
        rw [e]
        exact hpr (Or.inr rfl) y hy)
    exact ⟨r, h1, h2, fun x hx => ⟨(h3 x hx).1, (h3 x hx).2.1⟩, fun _ x hx => (h3 x hx).2.2, h4⟩

end Scheduling

namespace Scheduling

/-- C7, as stated, fails: FCFS does not reject the batch of zero processes;
it goes on to print its report, whose averages are the totals 0 divided by
the process count n = 0. -/
theorem fcfs_empty_batch_is_reported :
    runPolicy insertionSorter Policy.FCFS 0 [] 1 = some
      { rows := [], totalWT := 0, totalTAT := 0, n := 0, gantt := [], end_time := 0 } := by
  decide

/-- C7, amended: a batch of zero processes is not rejected.  Each of the
six routines leaves its loop at once and prints an empty table, the two
averages computed from the totals 0 and the divisor n = 0, and no Gantt
segment: `printGantt` receives the empty sequence with end time 0 and prints
"No execution segments to display". -/
theorem empty_batch_report (S : Sorter) (ch : Policy) (fuel : Nat) (tq : Int) :
    runPolicy S ch fuel [] tq = some
      { rows := [], totalWT := 0, totalTAT := 0, n := 0, gantt := [], end_time := 0 } ∧
    printGantt [] 0 = GanttOutput.noSegments := by
  refine ⟨?_, rfl⟩
  cases ch with
  | FCFS =>
    simp only [runPolicy, FCFS, readProcs, S.sort_nil]
    rfl
  | SJF_NP => cases fuel <;> rfl
  | SJF_P => cases fuel <;> rfl
  | PRIO_NP => cases fuel <;> rfl
  | RR => cases fuel <;> rfl
  | PRIO_P => cases fuel <;> rfl

end Scheduling

namespace Scheduling

/-! ## SRTF on two processes -/

theorem whileLoop_iter {σ : Type} (guard : σ → Bool) (body : σ → Option σ) (f : Nat) :
    ∀ (k : Nat) (s s' : σ), iterLoop guard body k s = some s' →
      whileLoop guard body (k + f) s = whileLoop guard body f s' := by
  intro k
  induction k with
  | zero =>
    intro s s' h
    simp only [iterLoop, Option.some.injEq] at h
    subst h
    simp
  | succ k ih =>
    intro s s' h
    rw [iterLoop] at h
    have e : k + 1 + f = (k + f) + 1 := by omega
    rw [e, whileLoop]
    by_cases hg : guard s = true
    · simp only [hg, if_true] at h ⊢
      cases hb : body s with
      | none => rw [hb] at h; simp at h
      | some s1 =>
        rw [hb] at h
        simp only at h ⊢
        exact ih s1 s' h
    · simp [hg] at h

theorem iterLoop_add {σ : Type} (guard : σ → Bool) (body : σ → Option σ) (k₂ : Nat) :
    ∀ (k₁ : Nat) (s s₁ s₂ : σ), iterLoop guard body k₁ s = some s₁ →
      iterLoop guard body k₂ s₁ = some s₂ → iterLoop guard body (k₁ + k₂) s = some s₂ := by
  intro k₁
  induction k₁ with
  | zero =>
    intro s s₁ s₂ h₁ h₂
    simp only [iterLoop, Option.some.injEq] at h₁
    subst h₁
    simpa using h₂
  | succ k ih =>
    intro s s₁ s₂ h₁ h₂
    have e : k + 1 + k₂ = (k + k₂) + 1 := by omega
    rw [e, iterLoop]
    rw [iterLoop] at h₁
    by_cases hg : guard s = true
    · simp only [hg, if_true] at h₁ ⊢
      cases hb : body s with
      | none => rw [hb] at h₁; simp at h₁
      | some s' =>
        rw [hb] at h₁
        simp only at h₁ ⊢
        exact ih s' s₁ s₂ h₁ h₂
    · simp [hg] at h₁

theorem srtfScan_two (x1 x2 : Process) (t : Int) :
    srtfScan [x1, x2] t =
      some (if x1.at_ ≤ t ∧ 0 < x1.rt ∧ x1.rt < INT_MAX then
              (if x2.at_ ≤ t ∧ 0 < x2.rt ∧ x2.rt < x1.rt then some 1 else some 0)
            else (if x2.at_ ≤ t ∧ 0 < x2.rt ∧ x2.rt < INT_MAX then some 1 else none)) := by
  simp only [srtfScan, List.length_cons, List.length_nil, List.range_succ, List.range_zero,
    List.nil_append, List.cons_append, List.foldl_cons, List.foldl_nil, srtfScanStep,
    List.getD_cons_zero, List.getD_cons_succ]
  by_cases h1 : x1.at_ ≤ t ∧ 0 < x1.rt ∧ x1.rt < INT_MAX
  · rw [if_pos h1, if_pos h1]
    simp only
    by_cases h2 : x2.at_ ≤ t ∧ 0 < x2.rt ∧ x2.rt < x1.rt
    · rw [if_pos h2, if_pos h2]
    · rw [if_neg h2, if_neg h2]
  · rw [if_neg h1, if_neg h1]
    simp only
    by_cases h2 : x2.at_ ≤ t ∧ 0 < x2.rt ∧ x2.rt < INT_MAX
    · rw [if_pos h2, if_pos h2]
    · rw [if_neg h2, if_neg h2]

theorem srtf_step_first (x1 x2 : Process) (t : Int) (c : Nat) (pv tw tt : Int)
    (g : List (Int × Int))
    (h1 : x1.at_ ≤ t ∧ 0 < x1.rt ∧ x1.rt < INT_MAX)
    (h2 : ¬ (x2.at_ ≤ t ∧ 0 < x2.rt ∧ x2.rt < x1.rt)) (hnf : x1.rt - 1 ≠ 0) :
    preBody srtfScan { p := [x1, x2], time := t, completed := c, prev := pv, totalWT := tw,
                       totalTAT := tt, gantt := g } =
      some { p := [{ x1 with rt := x1.rt - 1 }, x2], time := t + 1, completed := c,
             prev := x1.pid, totalWT := tw, totalTAT := tt,
             gantt := if pv ≠ x1.pid then g ++ [(x1.pid, t)] else g } := by
  unfold preBody
  simp only [srtfScan_two, if_pos h1, if_neg h2, List.getD_cons_zero, if_neg hnf,
    List.set_cons_zero]
  by_cases hp : pv = x1.pid <;> simp [hp]

theorem srtf_finish_first (x1 x2 : Process) (t : Int) (c : Nat) (pv tw tt : Int)
    (g : List (Int × Int))
    (h1 : x1.at_ ≤ t ∧ 0 < x1.rt ∧ x1.rt < INT_MAX)
    (h2 : ¬ (x2.at_ ≤ t ∧ 0 < x2.rt ∧ x2.rt < x1.rt)) (hf : x1.rt - 1 = 0) :
    preBody srtfScan { p := [x1, x2], time := t, completed := c, prev := pv, totalWT := tw,
                       totalTAT := tt, gantt := g } =
      some { p := [{ x1 with rt := x1.rt - 1, ct := t + 1, tat := t + 1 - x1.at_,
                             wt := t + 1 - x1.at_ - x1.bt }, x2],
             time := t + 1, completed := c + 1,
             prev := x1.pid, totalWT := tw + (t + 1 - x1.at_ - x1.bt),
             totalTAT := tt + (t + 1 - x1.at_),
             gantt := if pv ≠ x1.pid then g ++ [(x1.pid, t)] else g } := by
  unfold preBody
  simp only [srtfScan_two, if_pos h1, if_neg h2, List.getD_cons_zero, if_pos hf,
    List.set_cons_zero]
  by_cases hp : pv = x1.pid <;> simp [hp]

theorem srtf_step_second (x1 x2 : Process) (t : Int) (c : Nat) (pv tw tt : Int)
    (g : List (Int × Int))
    (h1 : x1.at_ ≤ t ∧ 0 < x1.rt ∧ x1.rt < INT_MAX)
    (h2 : x2.at_ ≤ t ∧ 0 < x2.rt ∧ x2.rt < x1.rt) (hnf : x2.rt - 1 ≠ 0) :
    preBody srtfScan { p := [x1, x2], time := t, completed := c, prev := pv, totalWT := tw,
                       totalTAT := tt, gantt := g } =
      some { p := [x1, { x2 with rt := x2.rt - 1 }], time := t + 1, completed := c,
             prev := x2.pid, totalWT := tw, totalTAT := tt,
             gantt := if pv ≠ x2.pid then g ++ [(x2.pid, t)] else g } := by
  unfold preBody
  simp only [srtfScan_two, if_pos h1, if_pos h2, List.getD_cons_succ, List.getD_cons_zero,
    if_neg hnf, List.set_cons_succ, List.set_cons_zero]
  by_cases hp : pv = x2.pid <;> simp [hp]

theorem srtf_finish_second (x1 x2 : Process) (t : Int) (c : Nat) (pv tw tt : Int)
    (g : List (Int × Int))
    (h1 : x1.at_ ≤ t ∧ 0 < x1.rt ∧ x1.rt < INT_MAX)
    (h2 : x2.at_ ≤ t ∧ 0 < x2.rt ∧ x2.rt < x1.rt) (hf : x2.rt - 1 = 0) :
    preBody srtfScan { p := [x1, x2], time := t, completed := c, prev := pv, totalWT := tw,
                       totalTAT := tt, gantt := g } =
      some { p := [x1, { x2 with rt := x2.rt - 1, ct := t + 1, tat := t + 1 - x2.at_,
                                 wt := t + 1 - x2.at_ - x2.bt }],
             time := t + 1, completed := c + 1,
             prev := x2.pid, totalWT := tw + (t + 1 - x2.at_ - x2.bt),
             totalTAT := tt + (t + 1 - x2.at_),
             gantt := if pv ≠ x2.pid then g ++ [(x2.pid, t)] else g } := by
  unfold preBody
  simp only [srtfScan_two, if_pos h1, if_pos h2, List.getD_cons_succ, List.getD_cons_zero,
    if_pos hf, List.set_cons_succ, List.set_cons_zero]
  by_cases hp : pv = x2.pid <;> simp [hp]


theorem srtf_run_first (x2 : Process) (c : Nat) (hc : c < 2) (tw tt : Int) (k : Nat) :
    ∀ (x1 : Process) (t pv : Int) (g : List (Int × Int)),
      x1.at_ ≤ t → (k : Int) + 1 < x1.rt → x1.rt < INT_MAX →
      (∀ j : Nat, j ≤ k → ¬ (x2.at_ ≤ t + j ∧ 0 < x2.rt ∧ x2.rt < x1.rt - j)) →
      iterLoop (fun s : PState => decide (s.completed < s.p.length)) (preBody srtfScan) (k + 1)
          { p := [x1, x2], time := t, completed := c, prev := pv, totalWT := tw,
            totalTAT := tt, gantt := g } =
        some { p := [{ x1 with rt := x1.rt - ((k : Int) + 1) }, x2], time := t + ((k : Int) + 1),
               completed := c, prev := x1.pid, totalWT := tw, totalTAT := tt,
               gantt := if pv ≠ x1.pid then g ++ [(x1.pid, t)] else g } := by
  induction k with
  | zero =>
    intro x1 t pv g ha hr hm hno
    have h2 := hno 0 (le_refl _)
    simp only [Nat.cast_zero, add_zero, sub_zero, zero_add] at h2 hr ⊢
    rw [iterLoop]
    simp only [List.length_cons, List.length_nil, show c < 0 + 1 + 1 from hc, decide_True,
      if_true]
    rw [srtf_step_first x1 x2 t c pv tw tt g ⟨ha, by omega, hm⟩ h2 (by omega)]
    rfl
  | succ k ih =>
    intro x1 t pv g ha hr hm hno
    have h2 := hno 0 (Nat.zero_le _)
    simp only [Nat.cast_zero, add_zero, sub_zero] at h2
    push_cast at hr
    rw [iterLoop]
    simp only [List.length_cons, List.length_nil, show c < 0 + 1 + 1 from hc, decide_True,
      if_true]
    rw [srtf_step_first x1 x2 t c pv tw tt g ⟨ha, by omega, hm⟩ h2 (by omega)]
    simp only
    rw [ih { x1 with rt := x1.rt - 1 } (t + 1) x1.pid _ (by simp only; omega)
      (by simp only; omega) (by simp only; omega) (by
        intro j hj
        have := hno (j + 1) (by omega)
        push_cast at this
        simp only
        intro hcon
        exact this ⟨by omega, hcon.2.1, by omega⟩)]
    simp only [ne_eq, not_true_eq_false, if_false, Option.some.injEq, PState.mk.injEq,
      List.cons.injEq, and_true, true_and, Process.mk.injEq]
    push_cast
    constructor <;> omega

theorem srtf_complete_second (x1 : Process) (c : Nat) (hc : c < 2) (k : Nat) :
    ∀ (x2 : Process) (t pv tw tt : Int) (g : List (Int × Int)),
      x1.at_ ≤ t → 0 < x1.rt → x1.rt < INT_MAX → x2.at_ ≤ t → x2.rt = (k : Int) + 1 →
      x2.rt < x1.rt →
      iterLoop (fun s : PState => decide (s.completed < s.p.length)) (preBody srtfScan) (k + 1)
          { p := [x1, x2], time := t, completed := c, prev := pv, totalWT := tw,
            totalTAT := tt, gantt := g } =
        some { p := [x1, { x2 with rt := 0, ct := t + ((k : Int) + 1),
                                   tat := t + ((k : Int) + 1) - x2.at_,
                                   wt := t + ((k : Int) + 1) - x2.at_ - x2.bt }],
               time := t + ((k : Int) + 1), completed := c + 1, prev := x2.pid,
               totalWT := tw + (t + ((k : Int) + 1) - x2.at_ - x2.bt),
               totalTAT := tt + (t + ((k : Int) + 1) - x2.at_),
               gantt := if pv ≠ x2.pid then g ++ [(x2.pid, t)] else g } := by
  induction k with
  | zero =>
    intro x2 t pv tw tt g ha hr hm ha2 hr2 hlt
    simp only [Nat.cast_zero, zero_add] at hr2 ⊢
    rw [iterLoop]
    simp only [List.length_cons, List.length_nil, show c < 0 + 1 + 1 from hc, decide_True,
      if_true]
    rw [srtf_finish_second x1 x2 t c pv tw tt g ⟨ha, hr, hm⟩ ⟨ha2, by omega, hlt⟩ (by omega)]
    simp only [iterLoop, Option.some.injEq, PState.mk.injEq, List.cons.injEq, and_true,
      true_and, Process.mk.injEq]
    omega
  | succ k ih =>
    intro x2 t pv tw tt g ha hr hm ha2 hr2 hlt
    push_cast at hr2
    rw [iterLoop]
    simp only [List.length_cons, List.length_nil, show c < 0 + 1 + 1 from hc, decide_True,
      if_true]
    rw [srtf_step_second x1 x2 t c pv tw tt g ⟨ha, hr, hm⟩ ⟨ha2, by omega, hlt⟩ (by omega)]
    simp only
    rw [ih { x2 with rt := x2.rt - 1 } (t + 1) x2.pid tw tt _ (by omega) hr hm
      (by simp only; omega) (by simp only; omega) (by simp only; omega)]
    simp only [ne_eq, not_true_eq_false, if_false, Option.some.injEq, PState.mk.injEq,
      List.cons.injEq, and_true, true_and, Process.mk.injEq]
    push_cast
    refine ⟨⟨?_, ?_, ?_⟩, ?_, ?_, ?_⟩ <;> omega

theorem srtf_complete_first (x2 : Process) (h2 : x2.rt = 0) (c : Nat) (hc : c < 2) (k : Nat) :
    ∀ (x1 : Process) (t pv tw tt : Int) (g : List (Int × Int)),
      x1.at_ ≤ t → x1.rt = (k : Int) + 1 → x1.rt < INT_MAX →
      iterLoop (fun s : PState => decide (s.completed < s.p.length)) (preBody srtfScan) (k + 1)
          { p := [x1, x2], time := t, completed := c, prev := pv, totalWT := tw,
            totalTAT := tt, gantt := g } =
        some { p := [{ x1 with rt := 0, ct := t + ((k : Int) + 1),
                               tat := t + ((k : Int) + 1) - x1.at_,
                               wt := t + ((k : Int) + 1) - x1.at_ - x1.bt }, x2],
               time := t + ((k : Int) + 1), completed := c + 1, prev := x1.pid,
               totalWT := tw + (t + ((k : Int) + 1) - x1.at_ - x1.bt),
               totalTAT := tt + (t + ((k : Int) + 1) - x1.at_),
               gantt := if pv ≠ x1.pid then g ++ [(x1.pid, t)] else g } := by
  have hno : ∀ (t r : Int), ¬ (x2.at_ ≤ t ∧ 0 < x2.rt ∧ x2.rt < r) := by
    intro t r hcon
    have := hcon.2.1
    omega
  induction k with
  | zero =>
    intro x1 t pv tw tt g ha hr hm
    simp only [Nat.cast_zero, zero_add] at hr ⊢
    rw [iterLoop]
    simp only [List.length_cons, List.length_nil, show c < 0 + 1 + 1 from hc, decide_True,
      if_true]
    rw [srtf_finish_first x1 x2 t c pv tw tt g ⟨ha, by omega, hm⟩ (hno _ _) (by omega)]
    simp only [iterLoop, Option.some.injEq, PState.mk.injEq, List.cons.injEq, and_true,
      true_and, Process.mk.injEq]
    omega
  | succ k ih =>
    intro x1 t pv tw tt g ha hr hm
    push_cast at hr
    rw [iterLoop]
    simp only [List.length_cons, List.length_nil, show c < 0 + 1 + 1 from hc, decide_True,
      if_true]
    rw [srtf_step_first x1 x2 t c pv tw tt g ⟨ha, by omega, hm⟩ (hno _ _) (by omega)]
    simp only
    rw [ih { x1 with rt := x1.rt - 1 } (t + 1) x1.pid tw tt _ (by simp only; omega)
      (by simp only; omega) (by simp only; omega)]
    simp only [ne_eq, not_true_eq_false, if_false, Option.some.injEq, PState.mk.injEq,
      List.cons.injEq, and_true, true_and, Process.mk.injEq]
    push_cast
    refine ⟨⟨?_, ?_, ?_⟩, ?_, ?_, ?_⟩ <;> omega

end Scheduling

namespace Scheduling

/-- Preemption at the arrival of a shorter job, over exact integers: for
every two-process batch where P1 arrives at 0 with
burst b1 below INT_MAX and P2 arrives at a with 0 < a < b1 and burst b2
with 1 ≤ b2 < b1 - a, SRTF leaves its loop after b1 + b2 iterations with the
Gantt sequence exactly [(P1,0),(P2,a),(P1,a+b2)], end time b1 + b2, and the
completion times b1 + b2 for P1 and a + b2 for P2. -/
theorem srtf_preempts_at_arrival (a b1 b2 pr1 pr2 : Int) (ha : 0 < a) (hab : a < b1)
    (hb2 : 1 ≤ b2) (hlt : b2 < b1 - a) (hmax : b1 < INT_MAX) (k : Nat) :
    (SJF_Preemptive ((b1 + b2).toNat + k) [⟨0, b1, pr1⟩, ⟨a, b2, pr2⟩]).map
        (fun r => (r.gantt, r.end_time, r.rows.map fun x => (x.pid, x.ct)))
      = some ([(1, 0), (2, a), (1, a + b2)], b1 + b2, [(1, b1 + b2), (2, a + b2)]) := by
  obtain ⟨ka, hka⟩ : ∃ ka : Nat, a = (ka : Int) + 1 := ⟨(a - 1).toNat, by omega⟩
  obtain ⟨k2, hk2⟩ : ∃ k2 : Nat, b2 = (k2 : Int) + 1 := ⟨(b2 - 1).toNat, by omega⟩
  obtain ⟨k3, hk3⟩ : ∃ k3 : Nat, b1 - a = (k3 : Int) + 1 := ⟨(b1 - a - 1).toNat, by omega⟩
  have hfuel : (b1 + b2).toNat + k = ((ka + 1) + (k2 + 1) + (k3 + 1)) + k := by omega
  have p1 := srtf_run_first { pid := 2, at_ := a, bt := b2, rt := b2 } 0 (by omega) 0 0 ka
    { pid := 1, at_ := 0, bt := b1, rt := b1 } 0 (-1) [] (le_refl _)
    (by simp only; omega) hmax
    (by
      intro j hj hcon
      have := hcon.1
      simp only at this
      omega)
  have p2 := srtf_complete_second { pid := 1, at_ := 0, bt := b1, rt := b1 - ((ka : Int) + 1) }
    0 (by omega) k2 { pid := 2, at_ := a, bt := b2, rt := b2 } (0 + ((ka : Int) + 1)) 1 0 0
    [(1, 0)] (by simp only; omega) (by simp only; omega) (by simp only; omega)
    (by simp only; omega) hk2 (by simp only; omega)
  have p3 := srtf_complete_first
    { pid := 2, at_ := a, bt := b2, rt := 0, ct := 0 + ((ka : Int) + 1) + ((k2 : Int) + 1),
      tat := 0 + ((ka : Int) + 1) + ((k2 : Int) + 1) - a,
      wt := 0 + ((ka : Int) + 1) + ((k2 : Int) + 1) - a - b2 } rfl 1 (by omega) k3
    { pid := 1, at_ := 0, bt := b1, rt := b1 - ((ka : Int) + 1) }
    (0 + ((ka : Int) + 1) + ((k2 : Int) + 1)) 2
    (0 + (0 + ((ka : Int) + 1) + ((k2 : Int) + 1) - a - b2))
    (0 + (0 + ((ka : Int) + 1) + ((k2 : Int) + 1) - a))
    [(1, 0), (2, 0 + ((ka : Int) + 1))]
    (by simp only; omega) (by simp only; omega) (by simp only; omega)
  have h12 := iterLoop_add _ _ (k2 + 1) (ka + 1) _ _ _ p1 p2
  have h123 := iterLoop_add _ _ (k3 + 1) (ka + 1 + (k2 + 1)) _ _ _ h12 p3
  have hrun := whileLoop_iter _ _ k _ _ _ h123
  unfold SJF_Preemptive preLoop
  rw [hfuel]
  have hinit : preInit (readProcs false true 0 [⟨0, b1, pr1⟩, ⟨a, b2, pr2⟩])
      = { p := [{ pid := 1, at_ := 0, bt := b1, rt := b1 }, { pid := 2, at_ := a, bt := b2, rt := b2 }],
          time := 0, completed := 0, prev := -1, totalWT := 0, totalTAT := 0, gantt := [] } := by
    simp [preInit, readProcs]
  rw [hinit, hrun]
  have hdone : ∀ s : PState, s.completed = 2 → s.p.length = 2 →
      whileLoop (fun s : PState => decide (s.completed < s.p.length)) (preBody srtfScan) k s
        = some s := by
    intro s h1 h2
    cases k <;> simp [whileLoop, h1, h2]
  rw [hdone]
  · simp only [Option.map_some', preReport, List.map_cons, List.map_nil, Option.some.injEq,
      Prod.mk.injEq, List.cons.injEq, and_true, true_and]
    rw [if_pos (by decide)]
    refine ⟨?_, ?_, ?_, ?_⟩
    · simp only [List.cons_append, List.nil_append, List.cons.injEq, Prod.mk.injEq, true_and,
        and_true]
      constructor <;> omega
    all_goals omega
  · rfl
  · rfl

end Scheduling

namespace Scheduling

/-! ## The order of the Round Robin ready queue -/

end Scheduling

namespace Scheduling

/-! ## States reached after a number of iterations -/

theorem iterLoop_inv {σ : Type} (guard : σ → Bool) (body : σ → Option σ) (I : σ → Prop)
    (hstep : ∀ s s', I s → guard s = true → body s = some s' → I s') :
    ∀ (n : Nat) (s r : σ), I s → iterLoop guard body n s = some r → I r := by
  intro n
  induction n with
  | zero =>
    intro s r hI h
    simp only [iterLoop, Option.some.injEq] at h
    exact h ▸ hI
  | succ n ih =>
    intro s r hI h
    rw [iterLoop] at h
    by_cases hg : guard s = true
    · simp only [hg, if_true] at h
      cases hb : body s with
      | none => rw [hb] at h; simp at h
      | some s' =>
        rw [hb] at h
        exact ih s' r (hstep s s' hI hg hb) h
    · simp [hg] at h

theorem iterLoop_last {σ : Type} (guard : σ → Bool) (body : σ → Option σ) :
    ∀ (n : Nat) (s r : σ), iterLoop guard body (n + 1) s = some r →
      ∃ m, iterLoop guard body n s = some m ∧ guard m = true ∧ body m = some r := by
  intro n
  induction n with
  | zero =>
    intro s r h
    rw [iterLoop] at h
    by_cases hg : guard s = true
    · simp only [hg, if_true] at h
      cases hb : body s with
      | none => rw [hb] at h; simp at h
      | some s' =>
        rw [hb] at h
        simp only [iterLoop, Option.some.injEq] at h
        exact ⟨s, rfl, hg, by rw [hb, h]⟩
    · simp [hg] at h
  | succ n ih =>
    intro s r h
    rw [iterLoop] at h
    by_cases hg : guard s = true
    · simp only [hg, if_true] at h
      cases hb : body s with
      | none => rw [hb] at h; simp at h
      | some s' =>
        rw [hb] at h
        obtain ⟨m, h1, h2, h3⟩ := ih s' r h
        refine ⟨m, ?_, h2, h3⟩
        rw [iterLoop]
        simp only [hg, if_true, hb]
        exact h1
    · simp [hg] at h

theorem whileLoop_reach {σ : Type} (guard : σ → Bool) (body : σ → Option σ) :
    ∀ (fuel : Nat) (s r : σ), whileLoop guard body fuel s = some r →
      ∃ n, iterLoop guard body n s = some r := by
  intro fuel
  induction fuel with
  | zero =>
    intro s r h
    unfold whileLoop at h
    by_cases hg : guard s = true
    · simp [hg] at h
    · simp [hg] at h
      exact ⟨0, by simp [iterLoop, h]⟩
  | succ f ih =>
    intro s r h
    rw [whileLoop] at h
    by_cases hg : guard s = true
    · simp only [hg, if_true] at h
      cases hb : body s with
      | none => rw [hb] at h; simp at h
      | some s' =>
        rw [hb] at h
        obtain ⟨n, hn⟩ := ih s' r h
        exact ⟨n + 1, by rw [iterLoop]; simp only [hg, if_true, hb]; exact hn⟩
    · simp [hg] at h
      exact ⟨0, by simp [iterLoop, h]⟩

end Scheduling

namespace Scheduling

/-! ## What the selection scans choose -/

theorem readProcs_getD (a b : Bool) (batch : List Input) :
    ∀ (k i : Nat), i < batch.length →
      ∃ x, batch[i]? = some x ∧
        ((readProcs a b k batch).getD i default).pid = (k : Int) + (i : Int) + 1 ∧
        ((readProcs a b k batch).getD i default).at_ = x.at_ ∧
        ((readProcs a b k batch).getD i default).bt = x.bt ∧
        ((readProcs a b k batch).getD i default).pr = (if a then x.pr else 0) := by
  induction batch with
  | nil => intro k i hi; simp at hi
  | cons y ys ih =>
    intro k i hi
    cases i with
    | zero => exact ⟨y, by simp, by simp [readProcs], by simp [readProcs], by simp [readProcs],
        by simp [readProcs]⟩
    | succ i =>
      obtain ⟨x, h1, h2, h3⟩ := ih (k + 1) i (by simpa using hi)
      refine ⟨x, by simpa using h1, ?_, h3⟩
      simp only [readProcs, List.getD_cons_succ]
      rw [h2]
      push_cast
      ring

theorem getD_inp_of_map (p p0 : List Process) (h : p.map Process.inp = p0.map Process.inp)
    (i : Nat) (hi : i < p.length) :
    (p.getD i default).inp = (p0.getD i default).inp := by
  have hl : p.length = p0.length := by simpa using congrArg List.length h
  have h1 : (p.map Process.inp)[i]? = (p0.map Process.inp)[i]? := by rw [h]
  rw [List.getElem?_map, List.getElem?_map, List.getElem?_eq_getElem hi,
    List.getElem?_eq_getElem (hl ▸ hi)] at h1
  simp only [Option.map_some', Option.some.injEq] at h1
  rw [List.getD_eq_getElem _ _ hi, List.getD_eq_getElem _ _ (hl ▸ hi)]
  exact h1

theorem rows_index (a b : Bool) (batch : List Input) (p : List Process)
    (h : p.map Process.inp = (readProcs a b 0 batch).map Process.inp) (i : Nat)
    (hi : i < p.length) :
    ∃ x, batch[i]? = some x ∧ (p.getD i default).pid = (i : Int) + 1 ∧
      (p.getD i default).at_ = x.at_ ∧ (p.getD i default).bt = x.bt ∧
      (p.getD i default).pr = (if a then x.pr else 0) := by
  have hl := (rows_of_batch a b batch p h).1
  obtain ⟨x, h1, h2, h3, h4, h5⟩ := readProcs_getD a b batch 0 i (hl ▸ hi)
  have e := getD_inp_of_map p _ h i hi
  have e0 : (p.getD i default).pid = ((readProcs a b 0 batch).getD i default).pid :=
    congrArg (fun t : Int × Int × Int × Int => t.1) e
  have e1 : (p.getD i default).at_ = ((readProcs a b 0 batch).getD i default).at_ :=
    congrArg (fun t : Int × Int × Int × Int => t.2.1) e
  have e2 : (p.getD i default).bt = ((readProcs a b 0 batch).getD i default).bt :=
    congrArg (fun t : Int × Int × Int × Int => t.2.2.1) e
  have e3 : (p.getD i default).pr = ((readProcs a b 0 batch).getD i default).pr :=
    congrArg (fun t : Int × Int × Int × Int => t.2.2.2) e
  refine ⟨x, h1, ?_, by rw [e1, h3], by rw [e2, h4], by rw [e3, h5]⟩
  rw [e0, h2]
  simp

theorem npScan_min (key : Process → Int) (p : List Process) (done : List Bool) (time : Int) :
    ∀ i, (npScan key p done time).1 = some i →
      ∀ j, j < p.length → done.getD j false = false → (p.getD j default).at_ ≤ time →
        key (p.getD i default) ≤ key (p.getD j default) ∧
        (key (p.getD j default) = key (p.getD i default) → i ≤ j) := by
  have h := foldl_range_inv (npScanStep key p done time)
    (fun k acc =>
      (∀ j, j < k → done.getD j false = false → (p.getD j default).at_ ≤ time →
        acc.2 ≤ key (p.getD j default)) ∧
      (∀ i, acc.1 = some i → i < k ∧ key (p.getD i default) = acc.2 ∧
        ∀ j, j < k → done.getD j false = false → (p.getD j default).at_ ≤ time →
          key (p.getD j default) = acc.2 → i ≤ j))
    (none, INT_MAX) p.length
    ⟨by intro j hj; omega, by intro i hi; simp at hi⟩
    (by
      intro k acc _ ⟨h1, h2⟩
      unfold npScanStep
      simp only
      split
      · rename_i hc
        refine ⟨?_, ?_⟩
        · intro j hj hd ha
          rcases Nat.lt_succ_iff_lt_or_eq.mp hj with hj | rfl
          · have := h1 j hj hd ha
            omega
          · exact le_refl _
        · intro i hi
          simp only [Option.some.injEq] at hi
          subst hi
          refine ⟨by omega, rfl, ?_⟩
          intro j hj hd ha he
          rcases Nat.lt_succ_iff_lt_or_eq.mp hj with hj | rfl
          · have := h1 j hj hd ha
            omega
          · exact le_refl _
      · rename_i hc
        refine ⟨?_, ?_⟩
        · intro j hj hd ha
          rcases Nat.lt_succ_iff_lt_or_eq.mp hj with hj | rfl
          · exact h1 j hj hd ha
          · by_contra hlt
            exact hc ⟨hd, ha, by omega⟩
        · intro i hi
          obtain ⟨a1, a2, a3⟩ := h2 i hi
          refine ⟨by omega, a2, ?_⟩
          intro j hj hd ha he
          rcases Nat.lt_succ_iff_lt_or_eq.mp hj with hj | rfl
          · exact a3 j hj hd ha he
          · omega)
  obtain ⟨h1, h2⟩ := h
  intro i hi j hj hd ha
  obtain ⟨_, a2, a3⟩ := h2 i hi
  have := h1 j hj hd ha
  change (List.foldl (npScanStep key p done time) (none, INT_MAX) (List.range p.length)).1
    = some i at hi
  exact ⟨by rw [a2]; exact this, fun he => a3 j hj hd ha (by rw [he, a2])⟩

end Scheduling

namespace Scheduling

/-! ## Invariants of the states reached after `n` iterations -/

theorem np_iter_inv (key : Process → Int) (p0 : List Process) (n : Nat) (s : NPState)
    (h : iterLoop npGuard (fun s => some (npBody key s)) n (npInit p0) = some s) :
    NPInv p0 s :=
  iterLoop_inv npGuard (fun s => some (npBody key s)) (NPInv p0)
    (fun a b ha _ hb => by
      simp only [Option.some.injEq] at hb
      exact hb ▸ npBody_inv key p0 a ha)
    n _ s (npInit_inv p0) h

theorem pre_iter_inv (scan : List Process → Int → Option (Option Nat)) (hs : ScanSound scan)
    (p0 : List Process) (h0 : ∀ x ∈ p0, x.rt = x.bt) (n : Nat) (s : PState)
    (h : iterLoop preGuard (preBody scan) n (preInit p0) = some s) : PInv p0 s :=
  iterLoop_inv preGuard (preBody scan) (PInv p0)
    (fun a b ha _ hb => preBody_inv scan hs p0 a b ha hb) n _ s (preInit_inv p0 h0) h

theorem rr_iter_inv (tq : Int) (htq : 1 ≤ tq) (p0 : List Process)
    (h0 : ∀ x ∈ p0, x.rt = x.bt) (n : Nat) (s : RRState)
    (h : iterLoop rrGuard (fun s => some (rrBody tq s)) n (rrInit p0) = some s) : RRInv p0 s :=
  iterLoop_inv rrGuard (fun s => some (rrBody tq s)) (RRInv p0)
    (fun a b ha _ hb => by
      simp only [Option.some.injEq] at hb
      exact hb ▸ (rrBody_inv tq htq p0 a ha).1)
    n _ s (rrInit_inv p0 h0) h

theorem npAfter_inv (ch : Policy) (n : Nat) (batch : List Input) (s : NPState)
    (h : npAfter ch n batch = some s) :
    NPInv (readProcs (decide (ch = Policy.PRIO_NP)) false 0 batch) s := by
  cases ch <;> first
    | (simp [npAfter] at h; done)
    | exact np_iter_inv _ _ n s h

theorem preAfter_inv (ch : Policy) (n : Nat) (batch : List Input) (s : PState)
    (h : preAfter ch n batch = some s) :
    PInv (readProcs (decide (ch = Policy.PRIO_P)) true 0 batch) s := by
  cases ch
  case SJF_P => exact pre_iter_inv _ srtfScan_sound _ (readProcs_rt _ batch) n s h
  case PRIO_P => exact pre_iter_inv _ prioScan_sound _ (readProcs_rt _ batch) n s h
  all_goals simp [preAfter] at h

/-- For any quantum, the Round Robin body leaves the input fields alone and
keeps one flag per process. -/
theorem rrBody_shape (tq : Int) (s : RRState) (hl : s.inQ.length = s.p.length) :
    (rrBody tq s).p.map Process.inp = s.p.map Process.inp ∧
    (rrBody tq s).inQ.length = (rrBody tq s).p.length := by
  have h1 := (rrEnqueue_spec s.p s.time s.q s.inQ hl).2.1
  cases hq : (rrEnqueue s.p s.time s.q s.inQ).1 with
  | nil =>
    rw [rrBody_idle tq s hq]
    exact ⟨rfl, by simp only; rw [h1, hl]⟩
  | cons idx rest =>
    have hl2 : (rrEnqueue s.p s.time s.q s.inQ).2.length
        = (s.p.set idx { (s.p.getD idx default) with
            rt := (s.p.getD idx default).rt - min tq (s.p.getD idx default).rt }).length := by
      rw [List.length_set, h1, hl]
    have h2 := (rrEnqueue_spec _ (s.time + min tq (s.p.getD idx default).rt) rest _ hl2).2.1
    by_cases hr : 0 < (s.p.getD idx default).rt - min tq (s.p.getD idx default).rt
    · rw [rrBody_again tq s idx rest hq hr]
      refine ⟨map_set_same _ _ _ _ _ rfl, ?_⟩
      simp only
      rw [h2, hl2]
    · rw [rrBody_finish tq s idx rest hq hr]
      refine ⟨map_set_same _ _ _ _ _ rfl, ?_⟩
      simp only
      rw [h2, hl2, List.length_set, List.length_set]

end Scheduling

namespace Scheduling

/-! ## Selection rules (C11, C12, C13) -/

end Scheduling

namespace Scheduling

/-- C13 (amended): in SJF non-preemptive scheduling, for every batch and
every state `s` at the head of the loop whose scan selects `idx`, the body
dispatches `idx` (it appends the segment of id `idx + 1` at the current
clock value); `idx` has arrived and is not completed, its burst time is the
smallest among the arrived, not-completed processes, and among those tied
on burst time it is the one with the lowest id (the process at index `j`
has id `j + 1`), whatever their arrival times. -/
theorem sjf_np_selection (batch : List Input) (n : Nat) (s : NPState) (idx : Nat)
    (hs : npAfter Policy.SJF_NP n batch = some s)
    (hsel : (npScan (fun q => q.bt) s.p s.done s.time).1 = some idx) :
    (npBody (fun q => q.bt) s).gantt = s.gantt ++ [((idx : Int) + 1, s.time)] ∧
    idx < s.p.length ∧ s.done.getD idx false = false ∧ (s.p.getD idx default).at_ ≤ s.time ∧
    (∀ j, j < s.p.length → s.done.getD j false = false → (s.p.getD j default).at_ ≤ s.time →
      (s.p.getD idx default).bt ≤ (s.p.getD j default).bt ∧
      ((s.p.getD j default).bt = (s.p.getD idx default).bt →
        (s.p.getD idx default).pid ≤ (s.p.getD j default).pid)) ∧
    (∀ j, j < s.p.length → ∃ x, batch[j]? = some x ∧
      (s.p.getD j default).pid = (j : Int) + 1 ∧ (s.p.getD j default).at_ = x.at_ ∧
      (s.p.getD j default).bt = x.bt) := by
  have hI : NPInv (readProcs false false 0 batch) s := npAfter_inv Policy.SJF_NP n batch s hs
  obtain ⟨hidx, hd, ha⟩ := (npScan_spec (fun q => q.bt) s.p s.done s.time).1 idx hsel
  have hrow : ∀ j, j < s.p.length → ∃ x, batch[j]? = some x ∧
      (s.p.getD j default).pid = (j : Int) + 1 ∧ (s.p.getD j default).at_ = x.at_ ∧
      (s.p.getD j default).bt = x.bt := by
    intro j hj
    obtain ⟨x, a, b, c, d, _⟩ := rows_index false false batch s.p hI.inp j hj
    exact ⟨x, a, b, c, d⟩
  refine ⟨?_, hidx, hd, ha, ?_, hrow⟩
  · rw [npBody_run (fun q => q.bt) s idx hsel]
    obtain ⟨_, _, h, _⟩ := hrow idx hidx
    simp only
    rw [h]
  · intro j hj hdj haj
    obtain ⟨m1, m2⟩ := npScan_min (fun q => q.bt) s.p s.done s.time idx hsel j hj hdj haj
    refine ⟨m1, fun he => ?_⟩
    obtain ⟨_, _, h, _⟩ := hrow idx hidx
    obtain ⟨_, _, h', _⟩ := hrow j hj
    have := m2 he
    rw [h, h']
    omega

/-- Witness of the amended C13: P1 (arrival 0, burst 2) and P2 (arrival 0,
burst 1) at the head of the first iteration, where the scan selects P2. -/
theorem sjf_np_selection_witness :
    npAfter Policy.SJF_NP 0 [⟨0, 2, 0⟩, ⟨0, 1, 0⟩]
      = some (npInit (readProcs false false 0 [⟨0, 2, 0⟩, ⟨0, 1, 0⟩])) ∧
    (npScan (fun q => q.bt) (npInit (readProcs false false 0 [⟨0, 2, 0⟩, ⟨0, 1, 0⟩])).p
      (npInit (readProcs false false 0 [⟨0, 2, 0⟩, ⟨0, 1, 0⟩])).done
      (npInit (readProcs false false 0 [⟨0, 2, 0⟩, ⟨0, 1, 0⟩])).time).1 = some 1 ∧
    (npBody (fun q => q.bt) (npInit (readProcs false false 0 [⟨0, 2, 0⟩, ⟨0, 1, 0⟩]))).gantt
      = (npInit (readProcs false false 0 [⟨0, 2, 0⟩, ⟨0, 1, 0⟩])).gantt
        ++ [(((1 : Nat) : Int) + 1,
            (npInit (readProcs false false 0 [⟨0, 2, 0⟩, ⟨0, 1, 0⟩])).time)] :=
  ⟨rfl, by decide,
    (sjf_np_selection [⟨0, 2, 0⟩, ⟨0, 1, 0⟩] 0
      (npInit (readProcs false false 0 [⟨0, 2, 0⟩, ⟨0, 1, 0⟩])) 1 rfl (by decide)).1⟩

/-- Counterexample to C13 as stated: on the batch P1 (arrival 1, burst 2),
P2 (arrival 0, burst 2), P3 (arrival 0, burst 1), after P3 has run from 0
to 1 both P1 and P2 have arrived and are tied on burst time 2; the scan
selects P1 (index 0, arrival 1) although P2 arrived strictly earlier, and
the Gantt vector continues with P1 at time 1. -/
theorem sjf_np_tie_not_by_arrival :
    ValidBatch [⟨1, 2, 0⟩, ⟨0, 2, 0⟩, ⟨0, 1, 0⟩] ∧
    (npAfter Policy.SJF_NP 1 [⟨1, 2, 0⟩, ⟨0, 2, 0⟩, ⟨0, 1, 0⟩]).map
        (fun s => (s.time, s.done, (npScan (fun q => q.bt) s.p s.done s.time).1,
          (npBody (fun q => q.bt) s).gantt))
      = some (1, [false, false, true], some 0, [(3, 0), (1, 1)]) ∧
    (npAfter Policy.SJF_NP 1 [⟨1, 2, 0⟩, ⟨0, 2, 0⟩, ⟨0, 1, 0⟩]).map
        (fun s => ((s.p.getD 0 default).at_, (s.p.getD 0 default).bt,
          (s.p.getD 1 default).at_, (s.p.getD 1 default).bt))
      = some (1, 2, 0, 2) ∧
    (SJF_NonPreemptive 3 [⟨1, 2, 0⟩, ⟨0, 2, 0⟩, ⟨0, 1, 0⟩]).map (fun r => r.gantt)
      = some [(3, 0), (1, 1), (2, 3)] := by
  refine ⟨⟨by decide, by decide⟩, by decide, by decide, by decide⟩

end Scheduling

namespace Scheduling

/-! ## The Gantt vector of FCFS -/

theorem fcfs_fold_gantt_rows (l : List Process) :
    ∀ s : FState, s.gantt = s.p.map (fun x => (x.pid, x.ct - x.bt)) →
      (l.foldl fcfsStep s).gantt = (l.foldl fcfsStep s).p.map (fun x => (x.pid, x.ct - x.bt)) := by
  induction l with
  | nil => intro s h; exact h
  | cons y ys ih =>
    intro s h
    rw [List.foldl_cons]
    apply ih
    rw [fcfsStep_gantt, fcfsStep_p, fcfsStep_time, h, List.map_append]
    simp

theorem fcfs_fold_map_inp (l : List Process) :
    ∀ s : FState, (l.foldl fcfsStep s).p.map Process.inp
      = s.p.map Process.inp ++ l.map Process.inp := by
  induction l with
  | nil => intro s; simp
  | cons y ys ih =>
    intro s
    rw [List.foldl_cons, ih, fcfsStep_p]
    simp [Process.inp]

theorem fcfs_gantt_rows (S : Sorter) (batch : List Input) :
    (FCFS S batch).gantt = (FCFS S batch).rows.map (fun x => (x.pid, x.ct - x.bt)) :=
  fcfs_fold_gantt_rows _ _ rfl

theorem fcfs_rows_inp (S : Sorter) (batch : List Input) :
    (FCFS S batch).rows.map Process.inp
      = (S.sort (readProcs false false 0 batch)).map Process.inp := by
  have := fcfs_fold_map_inp (S.sort (readProcs false false 0 batch))
    { p := [], time := 0, totalWT := 0, totalTAT := 0, gantt := [] }
  simpa using this

theorem fcfs_gantt_ids (S : Sorter) (batch : List Input) :
    (FCFS S batch).gantt.map Prod.fst
      = (S.sort (readProcs false false 0 batch)).map (fun x => x.pid) := by
  rw [fcfs_gantt_rows, List.map_map]
  have := fcfs_fold_map (fun x => x.pid) (fun _ _ _ _ => rfl)
    (S.sort (readProcs false false 0 batch))
    { p := [], time := 0, totalWT := 0, totalTAT := 0, gantt := [] }
  simpa using this

end Scheduling

namespace Scheduling

/-- C14 (the order among equal arrival times is the library's): `FCFS`
orders the vector with `std::sort` under the comparison `a.at < b.at`
alone, and the contract of `std::sort` (a permutation, sorted with respect
to the comparison) leaves the order of equal elements open.  On the batch
of 17 processes that all arrive at 0 with burst 1, a sort within that
contract yields the Gantt ids 9, 17, 16, ..., 10, 1, 8, 7, ..., 2, while a
stable sort yields 1, 2, ..., 17, the order that the claim describes. -/
theorem fcfs_tie_order_unspecified :
    ∃ S : Sorter,
      (FCFS S (List.replicate 17 ⟨0, 1, 0⟩)).gantt.map Prod.fst
        = [9, 17, 16, 15, 14, 13, 12, 11, 10, 1, 8, 7, 6, 5, 4, 3, 2] ∧
      (FCFS insertionSorter (List.replicate 17 ⟨0, 1, 0⟩)).gantt.map Prod.fst
        = [1, 2, 3, 4, 5, 6, 7, 8, 9, 10, 11, 12, 13, 14, 15, 16, 17] := by
  refine ⟨{ sort := fun l =>
              if l = readProcs false false 0 (List.replicate 17 ⟨0, 1, 0⟩) then
                ([9, 17, 16, 15, 14, 13, 12, 11, 10, 1, 8, 7, 6, 5, 4, 3, 2] : List Int).map
                  (fun i => { pid := i, at_ := 0, bt := 1 })
              else sortByAt l
            perm := ?_
            sorted := ?_ }, ?_, ?_⟩
  · intro l
    by_cases h : l = readProcs false false 0 (List.replicate 17 ⟨0, 1, 0⟩)
    · beta_reduce
      rw [if_pos h, h]
      decide
    · beta_reduce
      rw [if_neg h]
      exact insertionSorter.perm l
  · intro l
    by_cases h : l = readProcs false false 0 (List.replicate 17 ⟨0, 1, 0⟩)
    · beta_reduce
      rw [if_pos h]
      decide
    · beta_reduce
      rw [if_neg h]
      exact insertionSorter.sorted l
  · rw [fcfs_gantt_ids]
    simp only [if_true]
    decide
  · decide

end Scheduling

namespace Scheduling

/-! ## The Gantt vector of the non-preemptive loops -/

theorem le_minAt_iff (batch : List Input) (hne : batch ≠ []) (t : Int) :
    t ≤ minAt batch ↔ ∀ x ∈ batch, t ≤ x.at_ := by
  induction batch with
  | nil => exact absurd rfl hne
  | cons x xs ih =>
    cases xs with
    | nil => simp [minAt]
    | cons y ys =>
      have := ih (by simp)
      simp only [minAt, le_min_iff, this]
      simp

theorem minAt_le (batch : List Input) (x : Input) (hx : x ∈ batch) : minAt batch ≤ x.at_ :=
  (le_minAt_iff batch (List.ne_nil_of_mem hx) _).mp (le_refl _) x hx

theorem minAt_nonneg (batch : List Input) (hv : ValidBatch batch) : 0 ≤ minAt batch :=
  (le_minAt_iff batch hv.1 0).mpr (fun x hx => (hv.2 x hx).1)

theorem head?_append_single {α : Type} (l : List α) (x g : α)
    (h : (l ++ [x]).head? = some g) : (l = [] ∧ g = x) ∨ (l ≠ [] ∧ l.head? = some g) := by
  cases l with
  | nil => left; simpa using h.symm
  | cons y ys => right; simpa using h

theorem pairwise_append_single {α : Type} (R : α → α → Prop) (l : List α) (x : α)
    (h : l.Pairwise R) (hx : ∀ g ∈ l, R g x) : (l ++ [x]).Pairwise R := by
  rw [List.pairwise_append]
  exact ⟨h, List.pairwise_singleton R x, fun a ha b hb => by
    rw [List.mem_singleton] at hb
    exact hb ▸ hx a ha⟩

theorem npInit_gantt (p0 : List Process) : NPGantt (npInit p0) := by
  refine ⟨?_, ?_, ?_⟩
  · intro g hg; simp [npInit] at hg
  · intro i hi hd
    simp [npInit, List.getD_eq_getElem?_getD, List.getElem?_replicate] at hd
    split at hd <;> simp at hd
  · simp [npInit]

theorem npBody_gantt (key : Process → Int) (s : NPState) (hl : s.done.length = s.p.length)
    (hpid : ∀ i, i < s.p.length → (s.p.getD i default).pid = (i : Int) + 1)
    (hG : NPGantt s) : NPGantt (npBody key s) := by
  cases hsel : (npScan key s.p s.done s.time).1 with
  | none =>
    rw [npBody_idle key s hsel]
    exact ⟨hG.seg, hG.all, hG.nodup⟩
  | some idx =>
    obtain ⟨hidx, hd, ha⟩ := (npScan_spec key s.p s.done s.time).1 idx hsel
    rw [npBody_run key s idx hsel]
    refine ⟨?_, ?_, ?_⟩
    · intro g hg
      simp only [List.mem_append, List.mem_singleton] at hg
      rcases hg with hg | rfl
      · obtain ⟨i, hi, hdi, h1, h2, h3⟩ := hG.seg g hg
        have hne : idx ≠ i := by
          intro e
          rw [e, hdi] at hd
          exact absurd hd (by decide)
        refine ⟨i, by simpa using hi, ?_, ?_⟩
        · simp only
          rw [getD_set_other _ _ _ _ _ hne]
          exact hdi
        · simp only
          rw [getD_set_other _ _ _ _ _ hne]
          exact ⟨h1, h2, h3⟩
      · refine ⟨idx, by simpa using hidx, ?_, ?_⟩
        · simp only
          rw [getD_set_self _ _ _ _ (hl ▸ hidx)]
        · simp only
          rw [getD_set_self _ _ _ _ hidx]
          exact ⟨rfl, rfl, ha⟩
    · intro i hi hdi
      simp only [List.length_set] at hi
      simp only at hdi ⊢
      by_cases hne : idx = i
      · subst hne
        rw [getD_set_self _ _ _ _ hidx]
        simp
      · rw [getD_set_other _ _ _ _ _ hne] at hdi ⊢
        exact List.mem_append_left _ (hG.all i hi hdi)
    · simp only [List.map_append, List.map_cons, List.map_nil]
      rw [List.nodup_append]
      refine ⟨hG.nodup, List.nodup_singleton _, ?_⟩
      intro a ha1 ha2
      rw [List.mem_singleton] at ha2
      obtain ⟨g, hg, e⟩ := List.mem_map.mp ha1
      obtain ⟨i, hi, hdi, h1, _⟩ := hG.seg g hg
      rw [hpid i hi] at h1
      rw [hpid idx hidx] at ha2
      have : i = idx := by omega
      rw [this, hd] at hdi
      exact absurd hdi (by decide)

theorem npBody_times (key : Process → Int) (s : NPState) (hbt : ∀ x ∈ s.p, 0 ≤ x.bt)
    (hT : GanttTimes s.gantt s.time) :
    GanttTimes (npBody key s).gantt (npBody key s).time := by
  cases hsel : (npScan key s.p s.done s.time).1 with
  | none =>
    rw [npBody_idle key s hsel]
    exact ⟨hT.sorted, fun g hg => by have := hT.le g hg; simp only; omega⟩
  | some idx =>
    obtain ⟨hidx, _, _⟩ := (npScan_spec key s.p s.done s.time).1 idx hsel
    have := hbt _ (getD_mem s.p idx default hidx)
    rw [npBody_run key s idx hsel]
    refine ⟨pairwise_append_single _ _ _ hT.sorted (fun g hg => hT.le g hg), ?_⟩
    intro g hg
    simp only [List.mem_append, List.mem_singleton] at hg
    simp only
    rcases hg with hg | rfl
    · have := hT.le g hg
      omega
    · simp only
      omega

theorem npBody_first (key : Process → Int) (m : Int) (s : NPState)
    (hm : ∀ x ∈ s.p, m ≤ x.at_) (hmin : ∃ x ∈ s.p, x.at_ = m)
    (hkey : ∀ x ∈ s.p, key x < INT_MAX)
    (hF : GanttFirst m s.gantt s.time ∧ (s.gantt = [] → ∀ i, s.done.getD i false = false)) :
    GanttFirst m (npBody key s).gantt (npBody key s).time ∧
      ((npBody key s).gantt = [] → ∀ i, (npBody key s).done.getD i false = false) := by
  obtain ⟨hF, hD⟩ := hF
  cases hsel : (npScan key s.p s.done s.time).1 with
  | none =>
    rw [npBody_idle key s hsel]
    refine ⟨⟨fun hg => ?_, hF.first⟩, hD⟩
    simp only at hg ⊢
    obtain ⟨x, hx, e⟩ := hmin
    obtain ⟨i, hi, e'⟩ := exists_getD_of_mem s.p default x hx
    by_contra hc
    have := (npScan_spec key s.p s.done s.time).2 hsel i hi (hD hg i) (by rw [e', e]; omega)
    have := hkey _ (getD_mem s.p i default hi)
    omega
  | some idx =>
    obtain ⟨hidx, _, ha⟩ := (npScan_spec key s.p s.done s.time).1 idx hsel
    rw [npBody_run key s idx hsel]
    refine ⟨⟨fun hg => by simp at hg, fun g hg => ?_⟩, fun hg => by simp at hg⟩
    simp only at hg
    rcases head?_append_single _ _ _ hg with ⟨h1, rfl⟩ | ⟨_, h2⟩
    · have := hF.before h1
      have := hm _ (getD_mem s.p idx default hidx)
      simp only
      omega
    · exact hF.first g h2

end Scheduling

namespace Scheduling

/-! ## The Gantt vector of the preemptive loops -/

theorem getLast?_append_single {α : Type} (l : List α) (x : α) :
    (l ++ [x]).getLast? = some x := by
  simp

theorem chain_append_single {α : Type} (R : α → α → Prop) (l : List α) (x : α)
    (h : l.Chain' R) (hx : ∀ g, l.getLast? = some g → R g x) : (l ++ [x]).Chain' R := by
  apply List.Chain'.append h (List.chain'_singleton x)
  intro a ha b hb
  simp only [List.head?_cons, Option.mem_def, Option.some.injEq] at hb
  exact hb ▸ hx a ha

/-- The merge rule of the preemptive loops: `prev` is the id of the last
recorded segment (`-1` before the first), and consecutive segments carry
different ids. -/
theorem preBody_chain (scan : List Process → Int → Option (Option Nat)) (hs : ScanSound scan)
    (s s' : PState) (hb : preBody scan s = some s')
    (hpid : ∀ i, i < s.p.length → (s.p.getD i default).pid = (i : Int) + 1)
    (hC : (s.gantt = [] → s.prev = -1) ∧ (∀ g, s.gantt.getLast? = some g → s.prev = g.1) ∧
      s.gantt.Chain' IdNe) :
    (s'.gantt = [] → s'.prev = -1) ∧ (∀ g, s'.gantt.getLast? = some g → s'.prev = g.1) ∧
      s'.gantt.Chain' IdNe := by
  obtain ⟨c1, c2, c3⟩ := hC
  rcases preBody_cases scan s s' hb with ⟨_, e⟩ | ⟨idx, hsc, _, hg, hp, _⟩
  · subst e
    exact ⟨c1, c2, c3⟩
  · obtain ⟨hidx, _, _⟩ := hs s.p s.time idx hsc
    have hpos := hpid idx hidx
    by_cases hsw : s.prev ≠ (s.p.getD idx default).pid
    · rw [if_pos hsw] at hg
      rw [hg, hp]
      refine ⟨by simp, ?_, ?_⟩
      · intro g hgl
        rw [getLast?_append_single] at hgl
        simp only [Option.some.injEq] at hgl
        rw [← hgl]
      · apply chain_append_single _ _ _ c3
        intro g hgl
        have := c2 g hgl
        unfold IdNe
        rw [← this]
        exact hsw
    · rw [if_neg hsw] at hg
      have hsw' : s.prev = (s.p.getD idx default).pid := by
        by_contra h
        exact hsw h
      rw [hg, hp, ← hsw']
      refine ⟨c1, c2, c3⟩

theorem preBody_strict (scan : List Process → Int → Option (Option Nat))
    (s s' : PState) (hb : preBody scan s = some s') (hT : GanttStrict s.gantt s.time) :
    GanttStrict s'.gantt s'.time := by
  rcases preBody_cases scan s s' hb with ⟨_, e⟩ | ⟨idx, _, ht, hg, _, _⟩
  · subst e
    exact ⟨hT.sorted, fun g hg => by have := hT.lt g hg; simp only; omega⟩
  · rw [ht, hg]
    split
    · refine ⟨pairwise_append_single _ _ _ hT.sorted (fun g hg => hT.lt g hg), ?_⟩
      intro g hg
      simp only [List.mem_append, List.mem_singleton] at hg
      rcases hg with hg | rfl
      · have := hT.lt g hg
        omega
      · simp only
        omega
    · exact ⟨hT.sorted, fun g hg => by have := hT.lt g hg; omega⟩

theorem preBody_seg (scan : List Process → Int → Option (Option Nat)) (hs : ScanSound scan)
    (s s' : PState) (hb : preBody scan s = some s')
    (hS : ∀ g ∈ s.gantt, ∃ i, i < s.p.length ∧ g.1 = (s.p.getD i default).pid ∧
      (s.p.getD i default).at_ ≤ g.2) :
    ∀ g ∈ s'.gantt, ∃ i, i < s.p.length ∧ g.1 = (s.p.getD i default).pid ∧
      (s.p.getD i default).at_ ≤ g.2 := by
  rcases preBody_cases scan s s' hb with ⟨_, e⟩ | ⟨idx, hsc, _, hg, _, _⟩
  · subst e
    exact hS
  · obtain ⟨hidx, ha, _⟩ := hs s.p s.time idx hsc
    rw [hg]
    split
    · intro g hg
      simp only [List.mem_append, List.mem_singleton] at hg
      rcases hg with hg | rfl
      · exact hS g hg
      · exact ⟨idx, hidx, rfl, ha⟩
    · exact hS

theorem preBody_first (scan : List Process → Int → Option (Option Nat)) (hs : ScanSound scan)
    (C : List Process → Prop) (hc : ScanComplete C scan) (m : Int)
    (s s' : PState) (hb : preBody scan s = some s') (hC : C s.p)
    (hpid : ∀ i, i < s.p.length → (s.p.getD i default).pid = (i : Int) + 1)
    (hm : ∀ x ∈ s.p, m ≤ x.at_ ∧ 1 ≤ x.bt) (hmin : ∃ x ∈ s.p, x.at_ = m)
    (hprev : s.gantt = [] → s.prev = -1)
    (hF : GanttFirst m s.gantt s.time ∧ (s.gantt = [] → ∀ x ∈ s.p, x.rt = x.bt)) :
    GanttFirst m s'.gantt s'.time ∧ (s'.gantt = [] → ∀ x ∈ s'.p, x.rt = x.bt) := by
  obtain ⟨hF, hR⟩ := hF
  rcases preBody_cases scan s s' hb with ⟨hsc, e⟩ | ⟨idx, hsc, _, hg, _, _⟩
  · subst e
    refine ⟨⟨fun hg => ?_, hF.first⟩, hR⟩
    simp only at hg ⊢
    obtain ⟨x, hx, e⟩ := hmin
    obtain ⟨i, hi, e'⟩ := exists_getD_of_mem s.p default x hx
    by_contra hcon
    have h1 := (hc s.p s.time hC).2 hsc i hi (by rw [e', e]; omega)
    have h2 := hR hg x hx
    have h3 := (hm x hx).2
    rw [e'] at h1
    omega
  · obtain ⟨hidx, ha, _⟩ := hs s.p s.time idx hsc
    have hpos := hpid idx hidx
    have hne : s'.gantt ≠ [] := by
      rw [hg]
      split
      · simp
      · rename_i hsw
        intro h0
        have := hprev h0
        apply hsw
        rw [this, hpos]
        omega
    refine ⟨⟨fun h0 => absurd h0 hne, ?_⟩, fun h0 => absurd h0 hne⟩
    rw [hg]
    split
    · intro g hgh
      rcases head?_append_single _ _ _ hgh with ⟨h1, rfl⟩ | ⟨_, h2⟩
      · have := hF.before h1
        have := (hm _ (getD_mem s.p idx default hidx)).1
        simp only
        omega
      · exact hF.first g h2
    · exact hF.first

end Scheduling

namespace Scheduling

theorem inp_fields (x y : Process) (h : x.inp = y.inp) :
    x.pid = y.pid ∧ x.at_ = y.at_ ∧ x.bt = y.bt ∧ x.pr = y.pr := by
  simp only [Process.inp, Prod.mk.injEq] at h
  exact h

theorem minAt_mem (batch : List Input) (hne : batch ≠ []) : ∃ x ∈ batch, x.at_ = minAt batch := by
  induction batch with
  | nil => exact absurd rfl hne
  | cons x xs ih =>
    cases xs with
    | nil => exact ⟨x, by simp, rfl⟩
    | cons y ys =>
      obtain ⟨z, hz, e⟩ := ih (by simp)
      simp only [minAt]
      rcases le_total x.at_ (minAt (y :: ys)) with h | h
      · exact ⟨x, by simp, by rw [min_eq_left h]⟩
      · exact ⟨z, List.mem_cons_of_mem _ hz, by rw [min_eq_right h, e]⟩

/-- The rows of a valid batch: no arrival before the smallest one, which
some row has, and bursts at least 1. -/
theorem batch_rows (a b : Bool) (batch : List Input) (hv : ValidBatch batch) (p : List Process)
    (h : p.map Process.inp = (readProcs a b 0 batch).map Process.inp) :
    (∀ x ∈ p, minAt batch ≤ x.at_ ∧ 1 ≤ x.bt) ∧ ∃ x ∈ p, x.at_ = minAt batch := by
  refine ⟨?_, ?_⟩
  · intro x hx
    obtain ⟨y, hy, h1, h2, _⟩ := (rows_of_batch a b batch p h).2 x hx
    rw [h1, h2]
    exact ⟨minAt_le batch y hy, (hv.2 y hy).2⟩
  · obtain ⟨y, hy, e⟩ := minAt_mem batch hv.1
    obtain ⟨i, hi, e'⟩ := List.getElem_of_mem hy
    have hl := (rows_of_batch a b batch p h).1
    obtain ⟨x, hx, _, h2, _⟩ := rows_index a b batch p h i (hl ▸ hi)
    rw [List.getElem?_eq_getElem hi, e'] at hx
    simp only [Option.some.injEq] at hx
    exact ⟨_, getD_mem p i default (hl ▸ hi), by rw [h2, ← hx, e]⟩

theorem segArrived_of (a b : Bool) (batch : List Input) (p : List Process)
    (h : p.map Process.inp = (readProcs a b 0 batch).map Process.inp) (g : Int × Int)
    (hg : ∃ i, i < p.length ∧ g.1 = (p.getD i default).pid ∧ (p.getD i default).at_ ≤ g.2) :
    SegArrived batch g := by
  obtain ⟨i, hi, h1, h2⟩ := hg
  obtain ⟨x, hx, e1, e2, _⟩ := rows_index a b batch p h i hi
  exact ⟨i, x, hx, by rw [h1, e1], by rw [← e2]; exact h2⟩

theorem pre_iter_gantt (scan : List Process → Int → Option (Option Nat)) (hs : ScanSound scan)
    (a : Bool) (batch : List Input) (n : Nat) (s : PState)
    (h : iterLoop preGuard (preBody scan) n (preInit (readProcs a true 0 batch)) = some s) :
    ((s.gantt = [] → s.prev = -1) ∧ (∀ g, s.gantt.getLast? = some g → s.prev = g.1) ∧
      s.gantt.Chain' IdNe) ∧
    GanttStrict s.gantt s.time ∧ ∀ g ∈ s.gantt, SegArrived batch g := by
  have key := iterLoop_inv preGuard (preBody scan)
    (fun s => PInv (readProcs a true 0 batch) s ∧
      ((s.gantt = [] → s.prev = -1) ∧ (∀ g, s.gantt.getLast? = some g → s.prev = g.1) ∧
        s.gantt.Chain' IdNe) ∧
      GanttStrict s.gantt s.time ∧
      ∀ g ∈ s.gantt, ∃ i, i < s.p.length ∧ g.1 = (s.p.getD i default).pid ∧
        (s.p.getD i default).at_ ≤ g.2)
    (by
      intro x y ⟨hI, hC, hT, hS⟩ _ hb
      have hI' := preBody_inv scan hs _ x y hI hb
      have hpid : ∀ i, i < x.p.length → (x.p.getD i default).pid = (i : Int) + 1 := by
        intro i hi
        obtain ⟨_, _, e, _⟩ := rows_index a true batch x.p hI.inp i hi
        exact e
      refine ⟨hI', preBody_chain scan hs x y hb hpid hC, preBody_strict scan x y hb hT, ?_⟩
      intro g hg
      obtain ⟨i, hi, h1, h2⟩ := preBody_seg scan hs x y hb hS g hg
      have hl : y.p.length = x.p.length := by
        rw [length_of_inp _ _ hI'.inp, length_of_inp _ _ hI.inp]
      obtain ⟨e1, e2, _⟩ := inp_fields _ _
        (getD_inp_of_map y.p x.p (hI'.inp.trans hI.inp.symm) i (hl ▸ hi))
      exact ⟨i, hl ▸ hi, by rw [e1]; exact h1, by rw [e2]; exact h2⟩)
    n _ s
    ⟨preInit_inv _ (readProcs_rt a batch),
      ⟨fun _ => rfl, by intro g hg; simp [preInit] at hg, by simp [preInit]⟩,
      ⟨by simp [preInit], by intro g hg; simp [preInit] at hg⟩,
      by intro g hg; simp [preInit] at hg⟩ h
  obtain ⟨hI, hC, hT, hS⟩ := key
  exact ⟨hC, hT, fun g hg => segArrived_of a true batch s.p hI.inp g (hS g hg)⟩

theorem pre_iter_first (scan : List Process → Int → Option (Option Nat)) (hs : ScanSound scan)
    (C : List Process → Prop) (hc : ScanComplete C scan)
    (a : Bool) (batch : List Input) (hv : ValidBatch batch)
    (hC : ∀ s, PInv (readProcs a true 0 batch) s → C s.p) (n : Nat) (s : PState)
    (h : iterLoop preGuard (preBody scan) n (preInit (readProcs a true 0 batch)) = some s) :
    GanttFirst (minAt batch) s.gantt s.time := by
  have key := iterLoop_inv preGuard (preBody scan)
    (fun s => PInv (readProcs a true 0 batch) s ∧
      ((s.gantt = [] → s.prev = -1) ∧ (∀ g, s.gantt.getLast? = some g → s.prev = g.1) ∧
        s.gantt.Chain' IdNe) ∧
      (GanttFirst (minAt batch) s.gantt s.time ∧ (s.gantt = [] → ∀ x ∈ s.p, x.rt = x.bt)))
    (by
      intro x y ⟨hI, hCh, hF⟩ _ hb
      have hpid : ∀ i, i < x.p.length → (x.p.getD i default).pid = (i : Int) + 1 := by
        intro i hi
        obtain ⟨_, _, e, _⟩ := rows_index a true batch x.p hI.inp i hi
        exact e
      obtain ⟨r1, r2⟩ := batch_rows a true batch hv x.p hI.inp
      exact ⟨preBody_inv scan hs _ x y hI hb, preBody_chain scan hs x y hb hpid hCh,
        preBody_first scan hs C hc (minAt batch) x y hb (hC x hI) hpid r1 r2 hCh.1 hF⟩)
    n _ s
    ⟨preInit_inv _ (readProcs_rt a batch),
      ⟨fun _ => rfl, by intro g hg; simp [preInit] at hg, by simp [preInit]⟩,
      ⟨fun _ => minAt_nonneg batch hv, by intro g hg; simp [preInit] at hg⟩,
      fun _ => readProcs_rt a batch⟩ h
  exact key.2.2.1

end Scheduling

namespace Scheduling

theorem np_iter_gantt (key : Process → Int) (a : Bool) (batch : List Input) (n : Nat)
    (s : NPState)
    (h : iterLoop npGuard (fun s => some (npBody key s)) n (npInit (readProcs a false 0 batch))
      = some s) :
    NPGantt s ∧ ∀ g ∈ s.gantt, SegArrived batch g := by
  have key := iterLoop_inv npGuard (fun s => some (npBody key s))
    (fun s => NPInv (readProcs a false 0 batch) s ∧ NPGantt s)
    (by
      intro x y ⟨hI, hG⟩ _ hb
      simp only [Option.some.injEq] at hb
      subst hb
      refine ⟨npBody_inv key _ x hI, npBody_gantt key x hI.len ?_ hG⟩
      intro i hi
      obtain ⟨_, _, e, _⟩ := rows_index a false batch x.p hI.inp i hi
      exact e)
    n _ s ⟨npInit_inv _, npInit_gantt _⟩ h
  refine ⟨key.2, fun g hg => ?_⟩
  obtain ⟨i, hi, _, h1, _, h2⟩ := key.2.seg g hg
  exact segArrived_of a false batch s.p key.1.inp g ⟨i, hi, h1, h2⟩

theorem np_iter_times (key : Process → Int) (a : Bool) (batch : List Input)
    (hv : ∀ x ∈ batch, 0 ≤ x.bt) (n : Nat) (s : NPState)
    (h : iterLoop npGuard (fun s => some (npBody key s)) n (npInit (readProcs a false 0 batch))
      = some s) :
    GanttTimes s.gantt s.time := by
  have key := iterLoop_inv npGuard (fun s => some (npBody key s))
    (fun s => NPInv (readProcs a false 0 batch) s ∧ GanttTimes s.gantt s.time)
    (by
      intro x y ⟨hI, hT⟩ _ hb
      simp only [Option.some.injEq] at hb
      subst hb
      refine ⟨npBody_inv key _ x hI, npBody_times key x ?_ hT⟩
      intro z hz
      obtain ⟨y, hy, _, e, _⟩ := (rows_of_batch a false batch x.p hI.inp).2 z hz
      rw [e]
      exact hv y hy)
    n _ s
    ⟨npInit_inv _, by simp [npInit, List.Pairwise.nil], by intro g hg; simp [npInit] at hg⟩ h
  exact key.2

theorem np_iter_first (key : Process → Int) (a : Bool) (batch : List Input)
    (hv : ValidBatch batch)
    (hk : ∀ s, NPInv (readProcs a false 0 batch) s → ∀ x ∈ s.p, key x < INT_MAX)
    (n : Nat) (s : NPState)
    (h : iterLoop npGuard (fun s => some (npBody key s)) n (npInit (readProcs a false 0 batch))
      = some s) :
    GanttFirst (minAt batch) s.gantt s.time := by
  have key := iterLoop_inv npGuard (fun s => some (npBody key s))
    (fun s => NPInv (readProcs a false 0 batch) s ∧
      (GanttFirst (minAt batch) s.gantt s.time ∧
        (s.gantt = [] → ∀ i, s.done.getD i false = false)))
    (by
      intro x y ⟨hI, hF⟩ _ hb
      simp only [Option.some.injEq] at hb
      subst hb
      obtain ⟨r1, r2⟩ := batch_rows a false batch hv x.p hI.inp
      exact ⟨npBody_inv key _ x hI,
        npBody_first key (minAt batch) x (fun z hz => (r1 z hz).1) r2 (hk x hI) hF⟩)
    n _ s
    ⟨npInit_inv _, ⟨fun _ => minAt_nonneg batch hv, by intro g hg; simp [npInit] at hg⟩,
      fun _ i => by
        simp only [npInit, List.getD_eq_getElem?_getD, List.getElem?_replicate]
        split <;> rfl⟩ h
  exact key.2.1

theorem bt_below (a : Bool) (batch : List Input) (hb : ∀ x ∈ batch, x.bt < INT_MAX)
    (p : List Process) (h : p.map Process.inp = (readProcs a false 0 batch).map Process.inp) :
    ∀ x ∈ p, x.bt < INT_MAX := by
  intro x hx
  obtain ⟨y, hy, _, e, _⟩ := (rows_of_batch a false batch p h).2 x hx
  rw [e]
  exact hb y hy

theorem pr_below (b : Bool) (batch : List Input) (hb : ∀ x ∈ batch, x.pr < INT_MAX)
    (p : List Process) (h : p.map Process.inp = (readProcs true b 0 batch).map Process.inp) :
    ∀ x ∈ p, x.pr < INT_MAX := by
  intro x hx
  obtain ⟨y, hy, _, _, e⟩ := (rows_of_batch true b batch p h).2 x hx
  rw [e]
  exact hb y hy

end Scheduling

namespace Scheduling

/-! ## The Gantt vector of Round Robin, quantum at least 1 -/

/-- One iteration of Round Robin with a quantum of at least 1 keeps: the
start times increase and lie before the clock; a segment follows the
previous one a full quantum later when both carry the same id; the process
of the last segment is flagged, and if it is unfinished the clock stands
one quantum after the start of that segment. -/
theorem rrBody_gantt (tq : Int) (htq : 1 ≤ tq) (p0 : List Process) (s : RRState)
    (hI : RRInv p0 s)
    (hpid : ∀ i, i < s.p.length → (s.p.getD i default).pid = (i : Int) + 1)
    (hG : GanttStrict s.gantt s.time ∧ s.gantt.Chain' (SliceNext tq) ∧
      ∀ g, s.gantt.getLast? = some g → ∃ j, j < s.p.length ∧ g.1 = (s.p.getD j default).pid ∧
        s.inQ.getD j false = true ∧ (0 < (s.p.getD j default).rt → s.time = g.2 + tq)) :
    GanttStrict (rrBody tq s).gantt (rrBody tq s).time ∧
    (rrBody tq s).gantt.Chain' (SliceNext tq) ∧
    ∀ g, (rrBody tq s).gantt.getLast? = some g → ∃ j, j < (rrBody tq s).p.length ∧
      g.1 = ((rrBody tq s).p.getD j default).pid ∧ (rrBody tq s).inQ.getD j false = true ∧
      (0 < ((rrBody tq s).p.getD j default).rt → (rrBody tq s).time = g.2 + tq) := by
  obtain ⟨hT, hC, hL⟩ := hG
  have E1 := rrEnqueue_QInv s.p s.time s.q s.inQ hI.que
  have A1 := rrEnqueue_QAll s.p s.time s.q s.inQ hI.que.len hI.all
  have hflag := (rrEnqueue_spec s.p s.time s.q s.inQ hI.que.len).2.2
  cases hq : (rrEnqueue s.p s.time s.q s.inQ).1 with
  | nil =>
    rw [rrBody_idle tq s hq]
    refine ⟨⟨hT.sorted, fun g hg => by have := hT.lt g hg; simp only; omega⟩, hC, ?_⟩
    intro g hg
    obtain ⟨j, hj, h1, h2, _⟩ := hL g hg
    have hf : (rrEnqueue s.p s.time s.q s.inQ).2.getD j false = true := (hflag j).mpr (Or.inl h2)
    refine ⟨j, hj, h1, hf, fun hr => ?_⟩
    have := A1 j hj hf hr
    rw [hq] at this
    simp at this
  | cons idx rest =>
    rw [hq] at E1
    obtain ⟨hidx, hfl, hrt, _⟩ := E1.mem idx (List.mem_cons_self _ _)
    have hexec : 1 ≤ min tq (s.p.getD idx default).rt := le_min htq (by omega)
    have hl2 : (rrEnqueue s.p s.time s.q s.inQ).2.length
        = (s.p.set idx { (s.p.getD idx default) with
            rt := (s.p.getD idx default).rt - min tq (s.p.getD idx default).rt }).length := by
      rw [List.length_set]; exact E1.len
    have hfl2 : (rrEnqueue (s.p.set idx { (s.p.getD idx default) with
            rt := (s.p.getD idx default).rt - min tq (s.p.getD idx default).rt })
          (s.time + min tq (s.p.getD idx default).rt) rest
          (rrEnqueue s.p s.time s.q s.inQ).2).2.getD idx false = true :=
      ((rrEnqueue_spec _ _ rest _ hl2).2.2 idx).mpr (Or.inl hfl)
    have hstrict : GanttStrict (s.gantt ++ [((s.p.getD idx default).pid, s.time)])
        (s.time + min tq (s.p.getD idx default).rt) := by
      refine ⟨pairwise_append_single _ _ _ hT.sorted (fun g hg => hT.lt g hg), ?_⟩
      intro g hg
      simp only [List.mem_append, List.mem_singleton] at hg
      rcases hg with hg | rfl
      · have := hT.lt g hg
        omega
      · simp only
        omega
    have hchain : (s.gantt ++ [((s.p.getD idx default).pid, s.time)]).Chain' (SliceNext tq) := by
      apply chain_append_single _ _ _ hC
      intro g hg
      refine ⟨hT.lt g (List.mem_of_mem_getLast? hg), fun e => ?_⟩
      obtain ⟨j, hj, h1, _, h3⟩ := hL g hg
      simp only at e
      rw [h1, hpid j hj, hpid idx hidx] at e
      have hji : j = idx := by omega
      subst hji
      exact h3 hrt
    by_cases hr : 0 < (s.p.getD idx default).rt - min tq (s.p.getD idx default).rt
    · rw [rrBody_again tq s idx rest hq hr]
      refine ⟨hstrict, hchain, ?_⟩
      intro g hg
      simp only at hg
      rw [getLast?_append_single] at hg
      simp only [Option.some.injEq] at hg
      subst hg
      refine ⟨idx, by simpa using hidx, ?_, hfl2, ?_⟩
      · simp only
        rw [getD_set_self _ _ _ _ hidx]
      · intro _
        simp only
        have : min tq (s.p.getD idx default).rt = tq := by
          rcases min_choice tq (s.p.getD idx default).rt with h | h
          · exact h
          · omega
        rw [this]
    · rw [rrBody_finish tq s idx rest hq hr]
      refine ⟨hstrict, hchain, ?_⟩
      intro g hg
      simp only at hg
      rw [getLast?_append_single] at hg
      simp only [Option.some.injEq] at hg
      subst hg
      refine ⟨idx, by simpa using hidx, ?_, hfl2, ?_⟩
      · simp only
        rw [getD_set_self _ _ _ _ hidx]
      · simp only
        rw [getD_set_self _ _ _ _ hidx]
        intro h
        exact absurd h hr

theorem rr_iter_gantt (tq : Int) (htq : 1 ≤ tq) (batch : List Input) (n : Nat) (s : RRState)
    (h : rrAfter n batch tq = some s) :
    GanttStrict s.gantt s.time ∧ s.gantt.Chain' (SliceNext tq) := by
  have key := iterLoop_inv rrGuard (fun s => some (rrBody tq s))
    (fun s => RRInv (readProcs false true 0 batch) s ∧
      (GanttStrict s.gantt s.time ∧ s.gantt.Chain' (SliceNext tq) ∧
        ∀ g, s.gantt.getLast? = some g → ∃ j, j < s.p.length ∧
          g.1 = (s.p.getD j default).pid ∧
          s.inQ.getD j false = true ∧ (0 < (s.p.getD j default).rt → s.time = g.2 + tq)))
    (by
      intro x y ⟨hI, hG⟩ _ hb
      simp only [Option.some.injEq] at hb
      subst hb
      refine ⟨(rrBody_inv tq htq _ x hI).1, rrBody_gantt tq htq _ x hI ?_ hG⟩
      intro i hi
      obtain ⟨_, _, e, _⟩ := rows_index false true batch x.p hI.inp i hi
      exact e)
    n _ s
    ⟨rrInit_inv _ (readProcs_rt false batch),
      ⟨by simp [rrInit, List.Pairwise.nil], by intro g hg; simp [rrInit] at hg⟩,
      by simp [rrInit], by intro g hg; simp [rrInit] at hg⟩ h
  exact ⟨key.2.1, key.2.2.1⟩

end Scheduling

namespace Scheduling

/-! ## Arrivals and the Gantt vector of Round Robin, quantum not negative -/

theorem getD_set_field {β : Type} (f : Process → β) (p : List Process) (idx : Nat) (a : Process)
    (hf : f a = f (p.getD idx default)) (i : Nat) :
    f ((p.set idx a).getD i default) = f (p.getD i default) := by
  by_cases hi : idx = i
  · subst hi
    by_cases hl : idx < p.length
    · rw [getD_set_self _ _ _ _ hl, hf]
    · rw [List.set_eq_of_length_le (by omega)]
  · rw [getD_set_other _ _ _ _ _ hi]

theorem rrBody_arr (tq : Int) (htq : 0 ≤ tq) (m : Int) (s : RRState)
    (hm : ∀ x ∈ s.p, m ≤ x.at_ ∧ 1 ≤ x.bt) (hmin : ∃ x ∈ s.p, x.at_ = m)
    (hA : RRArr m s) : RRArr m (rrBody tq s) := by
  have hspec := rrEnqueue_spec s.p s.time s.q s.inQ hA.len
  have hmem1 := rrEnqueue_mem s.p s.time s.q s.inQ hA.len
  have harr1 : ∀ i ∈ (rrEnqueue s.p s.time s.q s.inQ).1,
      i < s.p.length ∧ (s.p.getD i default).at_ ≤ s.time := by
    intro i hi
    rcases (hmem1 i).mp hi with h | ⟨h1, h2⟩
    · exact hA.mem i h
    · rw [rrCond_iff] at h2
      exact ⟨h1, h2.2.1⟩
  cases hq : (rrEnqueue s.p s.time s.q s.inQ).1 with
  | nil =>
    have hnone : ∀ i, i < s.p.length → rrCond s.p s.time s.inQ i = false := by
      intro i hi
      by_contra hc
      have : i ∈ (rrEnqueue s.p s.time s.q s.inQ).1 :=
        (hmem1 i).mpr (Or.inr ⟨hi, by simpa using hc⟩)
      rw [hq] at this
      simp at this
    rw [rrBody_idle tq s hq]
    refine ⟨by simp only; rw [hspec.2.1, hA.len], hA.rt, by intro i hi; simp at hi, hA.seg,
      ⟨fun hg => ?_, hA.first.first⟩, fun hg => ⟨rfl, fun i => ?_, (hA.fresh hg).2.2⟩⟩
    · simp only at hg ⊢
      obtain ⟨_, hfl, hrt⟩ := hA.fresh hg
      obtain ⟨x, hx, e⟩ := hmin
      obtain ⟨i, hi, e'⟩ := exists_getD_of_mem s.p default x hx
      by_contra hcon
      have h1 := hnone i hi
      have h2 : rrCond s.p s.time s.inQ i = true := by
        rw [rrCond_iff, e']
        have := (hm x hx).2
        have := hrt x hx
        exact ⟨hfl i, by omega, by omega⟩
      rw [h1] at h2
      exact absurd h2 (by decide)
    · simp only at hg ⊢
      by_contra hc
      have hc' : (rrEnqueue s.p s.time s.q s.inQ).2.getD i false = true := by simpa using hc
      rcases (hspec.2.2 i).mp hc' with h | ⟨h1, h2⟩
      · rw [(hA.fresh hg).2.1 i] at h
        exact absurd h (by decide)
      · rw [hnone i h1] at h2
        exact absurd h2 (by decide)
  | cons idx rest =>
    obtain ⟨hidx, hat⟩ := harr1 idx (by rw [hq]; exact List.mem_cons_self _ _)
    have hrt0 := hA.rt _ (getD_mem s.p idx default hidx)
    have hexec : 0 ≤ min tq (s.p.getD idx default).rt := le_min htq hrt0
    have hexec' : min tq (s.p.getD idx default).rt ≤ (s.p.getD idx default).rt := min_le_right _ _
    have hl2 : (rrEnqueue s.p s.time s.q s.inQ).2.length
        = (s.p.set idx { (s.p.getD idx default) with
            rt := (s.p.getD idx default).rt - min tq (s.p.getD idx default).rt }).length := by
      rw [List.length_set, hspec.2.1, hA.len]
    have hat1 : ∀ i, ((s.p.set idx { (s.p.getD idx default) with
            rt := (s.p.getD idx default).rt - min tq (s.p.getD idx default).rt }).getD i default).at_ = (s.p.getD i default).at_ := by
      intro i
      exact getD_set_field (fun x => x.at_) s.p idx _ (by rfl) i
    have hpid1 : ∀ i, ((s.p.set idx { (s.p.getD idx default) with
            rt := (s.p.getD idx default).rt - min tq (s.p.getD idx default).rt }).getD i default).pid = (s.p.getD i default).pid := by
      intro i
      exact getD_set_field (fun x => x.pid) s.p idx _ (by rfl) i
    have hat2 : ∀ i, ((s.p.set idx { (s.p.getD idx default) with
            rt := (s.p.getD idx default).rt - min tq (s.p.getD idx default).rt
            ct := s.time + min tq (s.p.getD idx default).rt
            tat := s.time + min tq (s.p.getD idx default).rt - (s.p.getD idx default).at_
            wt := s.time + min tq (s.p.getD idx default).rt - (s.p.getD idx default).at_
                    - (s.p.getD idx default).bt }).getD i default).at_ = (s.p.getD i default).at_ := by
      intro i
      exact getD_set_field (fun x => x.at_) s.p idx _ (by rfl) i
    have hpid2 : ∀ i, ((s.p.set idx { (s.p.getD idx default) with
            rt := (s.p.getD idx default).rt - min tq (s.p.getD idx default).rt
            ct := s.time + min tq (s.p.getD idx default).rt
            tat := s.time + min tq (s.p.getD idx default).rt - (s.p.getD idx default).at_
            wt := s.time + min tq (s.p.getD idx default).rt - (s.p.getD idx default).at_
                    - (s.p.getD idx default).bt }).getD i default).pid = (s.p.getD i default).pid := by
      intro i
      exact getD_set_field (fun x => x.pid) s.p idx _ (by rfl) i
    have hspec2 := rrEnqueue_spec _ (s.time + min tq (s.p.getD idx default).rt) rest _ hl2
    have hmem2 := rrEnqueue_mem _ (s.time + min tq (s.p.getD idx default).rt) rest _ hl2
    have harr2 : ∀ i ∈ (rrEnqueue (s.p.set idx { (s.p.getD idx default) with
            rt := (s.p.getD idx default).rt - min tq (s.p.getD idx default).rt })
          (s.time + min tq (s.p.getD idx default).rt) rest
          (rrEnqueue s.p s.time s.q s.inQ).2).1,
        i < s.p.length ∧
          (s.p.getD i default).at_ ≤ s.time + min tq (s.p.getD idx default).rt := by
      intro i hi
      rcases (hmem2 i).mp hi with h | ⟨h1, h2⟩
      · obtain ⟨a, b⟩ := harr1 i (by rw [hq]; exact List.mem_cons_of_mem _ h)
        exact ⟨a, by omega⟩
      · rw [rrCond_iff, hat1] at h2
        exact ⟨by simpa using h1, h2.2.1⟩
    have hseg : ∀ g ∈ s.gantt ++ [((s.p.getD idx default).pid, s.time)],
        ∃ i, i < s.p.length ∧ g.1 = (s.p.getD i default).pid ∧ (s.p.getD i default).at_ ≤ g.2 := by
      intro g hg
      simp only [List.mem_append, List.mem_singleton] at hg
      rcases hg with hg | rfl
      · exact hA.seg g hg
      · exact ⟨idx, hidx, rfl, hat⟩
    have hfirst : GanttFirst m (s.gantt ++ [((s.p.getD idx default).pid, s.time)])
        (s.time + min tq (s.p.getD idx default).rt) := by
      refine ⟨fun hg => by simp at hg, fun g hg => ?_⟩
      rcases head?_append_single _ _ _ hg with ⟨h1, rfl⟩ | ⟨_, h2⟩
      · have := hA.first.before h1
        have := (hm _ (getD_mem s.p idx default hidx)).1
        simp only
        omega
      · exact hA.first.first g h2
    have hfresh : s.gantt ++ [((s.p.getD idx default).pid, s.time)] = [] →
        False := by
      intro hg
      simp at hg
    by_cases hr : 0 < (s.p.getD idx default).rt - min tq (s.p.getD idx default).rt
    · rw [rrBody_again tq s idx rest hq hr]
      refine ⟨by simp only; rw [hspec2.2.1, hl2], ?_, ?_, ?_, hfirst,
        fun hg => absurd hg (by simp)⟩
      · intro x hx
        rcases mem_set_cases _ _ _ _ hx with h | rfl
        · exact hA.rt x h
        · simp only
          omega
      · intro i hi
        simp only at hi ⊢
        rw [List.length_set, hat1]
        rw [List.mem_append, List.mem_singleton] at hi
        rcases hi with hi | rfl
        · exact harr2 i hi
        · exact ⟨hidx, by omega⟩
      · intro g hg
        obtain ⟨i, a, b, c⟩ := hseg g hg
        simp only
        refine ⟨i, by simpa using a, ?_, ?_⟩
        · rw [hpid1]
          exact b
        · rw [hat1]
          exact c
    · rw [rrBody_finish tq s idx rest hq hr]
      refine ⟨by simp only; rw [hspec2.2.1, hl2, List.length_set, List.length_set], ?_, ?_, ?_,
        hfirst, fun hg => absurd hg (by simp)⟩
      · intro x hx
        rcases mem_set_cases _ _ _ _ hx with h | rfl
        · exact hA.rt x h
        · simp only
          omega
      · intro i hi
        simp only at hi ⊢
        rw [List.length_set, hat2]
        exact harr2 i hi
      · intro g hg
        obtain ⟨i, a, b, c⟩ := hseg g hg
        simp only
        refine ⟨i, by simpa using a, ?_, ?_⟩
        · rw [hpid2]
          exact b
        · rw [hat2]
          exact c

end Scheduling

namespace Scheduling

theorem rr_iter_arr (tq : Int) (htq : 0 ≤ tq) (batch : List Input) (hv : ValidBatch batch)
    (n : Nat) (s : RRState) (h : rrAfter n batch tq = some s) :
    GanttFirst (minAt batch) s.gantt s.time ∧ ∀ g ∈ s.gantt, SegArrived batch g := by
  have key := iterLoop_inv rrGuard (fun s => some (rrBody tq s))
    (fun s => (s.p.map Process.inp = (readProcs false true 0 batch).map Process.inp ∧
      s.inQ.length = s.p.length) ∧ RRArr (minAt batch) s)
    (by
      intro x y ⟨hS, hA⟩ _ hb
      simp only [Option.some.injEq] at hb
      subst hb
      obtain ⟨r1, r2⟩ := batch_rows false true batch hv x.p hS.1
      obtain ⟨a, b⟩ := rrBody_shape tq x hS.2
      exact ⟨⟨a.trans hS.1, b⟩, rrBody_arr tq htq (minAt batch) x r1 r2 hA⟩)
    n _ s
    ⟨⟨rfl, by simp [rrInit]⟩,
      { len := by simp [rrInit]
        rt := by
          intro x hx
          have h1 := readProcs_rt false batch x hx
          obtain ⟨y, hy, _, h2, _⟩ := readProcs_mem false true batch 0 x hx
          have := (hv.2 y hy).2
          simp only [rrInit] at hx
          omega
        mem := by intro i hi; simp [rrInit] at hi
        seg := by intro g hg; simp [rrInit] at hg
        first := ⟨fun _ => minAt_nonneg batch hv, by intro g hg; simp [rrInit] at hg⟩
        fresh := fun _ => ⟨rfl, fun i => by
          simp only [rrInit, List.getD_eq_getElem?_getD, List.getElem?_replicate]
          split <;> rfl, readProcs_rt false batch⟩ }⟩ h
  exact ⟨key.2.first, fun g hg => segArrived_of false true batch s.p key.1.1 g (key.2.seg g hg)⟩

/-! ## The Gantt vector of FCFS against the clock and the arrivals -/

theorem fcfs_fold_extends (l : List Process) :
    ∀ s : FState, ∃ t, (l.foldl fcfsStep s).gantt = s.gantt ++ t := by
  induction l with
  | nil => intro s; exact ⟨[], by simp⟩
  | cons y ys ih =>
    intro s
    obtain ⟨t, ht⟩ := ih (fcfsStep s y)
    exact ⟨[(y.pid, if s.time < y.at_ then y.at_ else s.time)] ++ t, by
      rw [List.foldl_cons, ht, fcfsStep_gantt, List.append_assoc]⟩

theorem fcfs_fold_times (l : List Process) :
    ∀ s : FState, (∀ x ∈ l, 0 ≤ x.bt) → GanttTimes s.gantt s.time →
      GanttTimes (l.foldl fcfsStep s).gantt (l.foldl fcfsStep s).time := by
  induction l with
  | nil => intro s _ h; exact h
  | cons y ys ih =>
    intro s hl hT
    rw [List.foldl_cons]
    apply ih _ (fun x hx => hl x (List.mem_cons_of_mem _ hx))
    have hb := hl y (List.mem_cons_self _ _)
    rw [fcfsStep_gantt, fcfsStep_time]
    refine ⟨pairwise_append_single _ _ _ hT.sorted (fun g hg => ?_), ?_⟩
    · have := hT.le g hg
      unfold StartLe
      simp only
      split <;> omega
    · intro g hg
      simp only [List.mem_append, List.mem_singleton] at hg
      rcases hg with hg | rfl
      · have := hT.le g hg
        split <;> omega
      · simp only
        omega

theorem fcfs_fold_seg (l : List Process) :
    ∀ s : FState, (∀ g ∈ s.gantt, ∃ x ∈ s.p, g.1 = x.pid ∧ x.at_ ≤ g.2) →
      ∀ g ∈ (l.foldl fcfsStep s).gantt, ∃ x ∈ (l.foldl fcfsStep s).p, g.1 = x.pid ∧ x.at_ ≤ g.2 := by
  induction l with
  | nil => intro s h; exact h
  | cons y ys ih =>
    intro s h
    rw [List.foldl_cons]
    apply ih
    intro g hg
    rw [fcfsStep_gantt] at hg
    rw [fcfsStep_p]
    simp only [List.mem_append, List.mem_singleton] at hg
    rcases hg with hg | rfl
    · obtain ⟨x, hx, e⟩ := h g hg
      exact ⟨x, List.mem_append_left _ hx, e⟩
    · refine ⟨_, List.mem_append_right _ (List.mem_singleton_self _), rfl, ?_⟩
      simp only
      split <;> omega

end Scheduling

namespace Scheduling

theorem readProcs_index (a b : Bool) (batch : List Input) (y : Process)
    (hy : y ∈ readProcs a b 0 batch) :
    ∃ (i : Nat) (z : Input), batch[i]? = some z ∧ y.pid = (i : Int) + 1 ∧ y.at_ = z.at_ ∧
      y.bt = z.bt := by
  obtain ⟨i, hi, e⟩ := exists_getD_of_mem _ default y hy
  rw [readProcs_length] at hi
  obtain ⟨z, hz, h1, h2, h3, _⟩ := readProcs_getD a b batch 0 i hi
  rw [e] at h1 h2 h3
  exact ⟨i, z, hz, by simpa using h1, h2, h3⟩

theorem fcfsAfter_times (S : Sorter) (n : Nat) (batch : List Input) (hv : ∀ x ∈ batch, 0 ≤ x.bt)
    (sn : Snap) (h : fcfsAfter S n batch = some sn) : GanttTimes sn.gantt sn.time := by
  unfold fcfsAfter at h
  split at h
  · simp only [Option.some.injEq] at h
    subst h
    apply fcfs_fold_times
    · intro x hx
      obtain ⟨y, hy, _, e⟩ := mem_sorted_read S false false batch x (List.mem_of_mem_take hx)
      rw [e]
      exact hv y hy
    · exact ⟨List.Pairwise.nil, by intro g hg; simp at hg⟩
  · simp at h

theorem fcfsAfter_seg (S : Sorter) (n : Nat) (batch : List Input)
    (sn : Snap) (h : fcfsAfter S n batch = some sn) : ∀ g ∈ sn.gantt, SegArrived batch g := by
  unfold fcfsAfter at h
  split at h
  · simp only [Option.some.injEq] at h
    subst h
    intro g hg
    obtain ⟨x, hx, h1, h2⟩ := fcfs_fold_seg _ _ (by intro g hg; simp at hg) g hg
    have hmap := fcfs_fold_map_inp ((S.sort (readProcs false false 0 batch)).take n)
      { p := [], time := 0, totalWT := 0, totalTAT := 0, gantt := [] }
    simp only [List.map_nil, List.nil_append] at hmap
    have : x.inp ∈ ((S.sort (readProcs false false 0 batch)).take n).map Process.inp :=
      hmap ▸ List.mem_map_of_mem Process.inp hx
    obtain ⟨y, hy, e⟩ := List.mem_map.mp this
    obtain ⟨e1, e2, _⟩ := inp_fields _ _ e
    obtain ⟨i, z, hz, p1, p2, _⟩ := readProcs_index false false batch y
      ((S.perm _).mem_iff.mp (List.mem_of_mem_take hy))
    exact ⟨i, z, hz, by rw [h1, ← e1, p1], by rw [← p2, e2]; exact h2⟩
  · simp at h

theorem sorted_head_min (S : Sorter) (batch : List Input) (hv : ValidBatch batch)
    (x : Process) (xs : List Process)
    (hl : S.sort (readProcs false false 0 batch) = x :: xs) : x.at_ = minAt batch := by
  have hs := S.sorted (readProcs false false 0 batch)
  rw [hl] at hs
  have hmem : ∀ y, y ∈ x :: xs ↔ y ∈ readProcs false false 0 batch := by
    intro y
    rw [← hl]
    exact (S.perm _).mem_iff
  apply le_antisymm
  · obtain ⟨z, hz, e⟩ := (batch_rows false false batch hv _ rfl).2
    rcases List.mem_cons.mp ((hmem z).mpr hz) with h | h
    · rw [← h, e]
    · have := (List.pairwise_cons.mp hs).1 z h
      omega
  · exact ((batch_rows false false batch hv _ rfl).1 x ((hmem x).mp (List.mem_cons_self _ _))).1

theorem fcfsAfter_first (S : Sorter) (n : Nat) (batch : List Input) (hv : ValidBatch batch)
    (sn : Snap) (h : fcfsAfter S n batch = some sn) :
    GanttFirst (minAt batch) sn.gantt sn.time := by
  unfold fcfsAfter at h
  split at h
  · simp only [Option.some.injEq] at h
    subst h
    simp only
    cases n with
    | zero =>
      simp only [List.take_zero, List.foldl_nil]
      exact ⟨fun _ => minAt_nonneg batch hv, by intro g hg; simp at hg⟩
    | succ n =>
      cases hl : S.sort (readProcs false false 0 batch) with
      | nil =>
        have := (S.perm (readProcs false false 0 batch)).length_eq
        rw [hl, readProcs_length] at this
        have hne := hv.1
        cases batch with
        | nil => exact absurd rfl hne
        | cons b bs => simp at this
      | cons x xs =>
        have hx := sorted_head_min S batch hv x xs hl
        have h0 := minAt_nonneg batch hv
        simp only [List.take_succ_cons, List.foldl_cons]
        obtain ⟨t, ht⟩ := fcfs_fold_extends (xs.take n)
          (fcfsStep { p := [], time := 0, totalWT := 0, totalTAT := 0, gantt := [] } x)
        rw [ht, fcfsStep_gantt]
        refine ⟨fun hg => by simp at hg, fun g hg => ?_⟩
        simp only [List.nil_append, List.singleton_append, List.head?_cons,
          Option.some.injEq] at hg
        rw [← hg]
        simp only
        split <;> omega
  · simp at h

end Scheduling

namespace Scheduling

/-! ## Snapshots of the six routines -/

theorem strict_times (gantt : List (Int × Int)) (time : Int) (h : GanttStrict gantt time) :
    GanttTimes gantt time :=
  ⟨h.sorted.imp (fun {a b} (hab : StartLt a b) => le_of_lt hab), fun g hg => le_of_lt (h.lt g hg)⟩

/-- Every report is the snapshot of its routine after some number of
iterations. -/
theorem report_snap (S : Sorter) (ch : Policy) (fuel : Nat) (batch : List Input) (tq : Int)
    (r : Report) (h : runPolicy S ch fuel batch tq = some r) :
    ∃ n sn, snapAfter S ch n batch tq = some sn ∧ sn.p = r.rows ∧ sn.time = r.end_time ∧
      sn.gantt = r.gantt := by
  cases ch
  case FCFS =>
    simp only [runPolicy, Option.some.injEq] at h
    subst h
    have hl : (S.sort (readProcs false false 0 batch)).length = batch.length := by
      rw [(S.perm _).length_eq, readProcs_length]
    refine ⟨batch.length,
      (⟨(FCFS S batch).rows, (FCFS S batch).end_time, (FCFS S batch).gantt⟩ : Snap),
      ?_, rfl, rfl, rfl⟩
    simp only [snapAfter, fcfsAfter, le_refl, if_true]
    rw [List.drop_of_length_le (le_of_eq hl), List.append_nil, ← hl, List.take_length]
    rfl
  case SJF_NP =>
    simp only [runPolicy, SJF_NonPreemptive, Option.map_eq_some'] at h
    obtain ⟨s, hs, rfl⟩ := h
    obtain ⟨n, hn⟩ := whileLoop_reach _ _ _ _ _ hs
    exact ⟨n, _, by simp only [snapAfter, npAfter]; erw [hn]; rfl, rfl, rfl, rfl⟩
  case PRIO_NP =>
    simp only [runPolicy, Priority_NonPreemptive, Option.map_eq_some'] at h
    obtain ⟨s, hs, rfl⟩ := h
    obtain ⟨n, hn⟩ := whileLoop_reach _ _ _ _ _ hs
    exact ⟨n, _, by simp only [snapAfter, npAfter]; erw [hn]; rfl, rfl, rfl, rfl⟩
  case SJF_P =>
    simp only [runPolicy, SJF_Preemptive, Option.map_eq_some'] at h
    obtain ⟨s, hs, rfl⟩ := h
    obtain ⟨n, hn⟩ := whileLoop_reach _ _ _ _ _ hs
    exact ⟨n, _, by simp only [snapAfter, preAfter]; erw [hn]; rfl, rfl, rfl, rfl⟩
  case PRIO_P =>
    simp only [runPolicy, Priority_Preemptive, Option.map_eq_some'] at h
    obtain ⟨s, hs, rfl⟩ := h
    obtain ⟨n, hn⟩ := whileLoop_reach _ _ _ _ _ hs
    exact ⟨n, _, by simp only [snapAfter, preAfter]; erw [hn]; rfl, rfl, rfl, rfl⟩
  case RR =>
    simp only [runPolicy, RoundRobin, Option.map_eq_some'] at h
    obtain ⟨s, hs, rfl⟩ := h
    obtain ⟨n, hn⟩ := whileLoop_reach _ _ _ _ _ hs
    exact ⟨n, _, by simp only [snapAfter, rrAfter]; erw [hn]; rfl, rfl, rfl, rfl⟩

theorem snap_times (S : Sorter) (ch : Policy) (n : Nat) (batch : List Input) (tq : Int)
    (sn : Snap) (hv : ∀ x ∈ batch, 0 ≤ x.bt) (htq : ch = Policy.RR → 1 ≤ tq)
    (h : snapAfter S ch n batch tq = some sn) : GanttTimes sn.gantt sn.time := by
  cases ch
  case FCFS => exact fcfsAfter_times S n batch hv sn h
  case SJF_NP =>
    simp only [snapAfter, Option.map_eq_some'] at h
    obtain ⟨s, hs, rfl⟩ := h
    exact np_iter_times _ false batch hv n s hs
  case PRIO_NP =>
    simp only [snapAfter, Option.map_eq_some'] at h
    obtain ⟨s, hs, rfl⟩ := h
    exact np_iter_times _ true batch hv n s hs
  case SJF_P =>
    simp only [snapAfter, Option.map_eq_some'] at h
    obtain ⟨s, hs, rfl⟩ := h
    exact strict_times _ _ (pre_iter_gantt _ srtfScan_sound false batch n s hs).2.1
  case PRIO_P =>
    simp only [snapAfter, Option.map_eq_some'] at h
    obtain ⟨s, hs, rfl⟩ := h
    exact strict_times _ _ (pre_iter_gantt _ prioScan_sound true batch n s hs).2.1
  case RR =>
    simp only [snapAfter, Option.map_eq_some'] at h
    obtain ⟨s, hs, rfl⟩ := h
    exact strict_times _ _ (rr_iter_gantt tq (htq rfl) batch n s hs).1

theorem snap_arrivals (S : Sorter) (ch : Policy) (n : Nat) (batch : List Input) (tq : Int)
    (sn : Snap) (hv : ValidBatch batch)
    (hbt : ch = Policy.SJF_NP ∨ ch = Policy.SJF_P → ∀ x ∈ batch, x.bt < INT_MAX)
    (hpr : ch = Policy.PRIO_NP ∨ ch = Policy.PRIO_P → ∀ x ∈ batch, x.pr < INT_MAX)
    (htq : ch = Policy.RR → 0 ≤ tq)
    (h : snapAfter S ch n batch tq = some sn) :
    GanttFirst (minAt batch) sn.gantt sn.time ∧ ∀ g ∈ sn.gantt, SegArrived batch g := by
  cases ch
  case FCFS => exact ⟨fcfsAfter_first S n batch hv sn h, fcfsAfter_seg S n batch sn h⟩
  case SJF_NP =>
    simp only [snapAfter, Option.map_eq_some'] at h
    obtain ⟨s, hs, rfl⟩ := h
    exact ⟨np_iter_first _ false batch hv
        (fun t ht => bt_below false batch (hbt (Or.inl rfl)) t.p ht.inp) n s hs,
      (np_iter_gantt _ false batch n s hs).2⟩
  case PRIO_NP =>
    simp only [snapAfter, Option.map_eq_some'] at h
    obtain ⟨s, hs, rfl⟩ := h
    exact ⟨np_iter_first _ true batch hv
        (fun t ht => pr_below false batch (hpr (Or.inl rfl)) t.p ht.inp) n s hs,
      (np_iter_gantt _ true batch n s hs).2⟩
  case SJF_P =>
    simp only [snapAfter, Option.map_eq_some'] at h
    obtain ⟨s, hs, rfl⟩ := h
    refine ⟨pre_iter_first _ srtfScan_sound _ srtfScan_complete false batch hv
        (fun t ht => srtf_cond _ ?_ t ht) n s hs,
      (pre_iter_gantt _ srtfScan_sound false batch n s hs).2.2⟩
    intro x hx
    obtain ⟨y, hy, _, e, _⟩ := readProcs_mem false true batch 0 x hx
    rw [e]
    exact ⟨(hv.2 y hy).2, hbt (Or.inr rfl) y hy⟩
  case PRIO_P =>
    simp only [snapAfter, Option.map_eq_some'] at h
    obtain ⟨s, hs, rfl⟩ := h
    exact ⟨pre_iter_first _ prioScan_sound _ prioScan_complete true batch hv
        (fun t ht => pr_below true batch (hpr (Or.inr rfl)) t.p ht.inp) n s hs,
      (pre_iter_gantt _ prioScan_sound true batch n s hs).2.2⟩
  case RR =>
    simp only [snapAfter, Option.map_eq_some'] at h
    obtain ⟨s, hs, rfl⟩ := h
    exact rr_iter_arr tq (htq rfl) batch hv n s hs

end Scheduling

namespace Scheduling

/-! ## The Gantt sequence over exact integers (C17; lemmas of C16 and C18) -/

/-- The order of the Gantt start times over exact integers: for every valid
batch and each of the six policies, in every report
the routine produces the start times of the recorded Gantt segments are in
non-decreasing order and none exceeds the end time passed to `printGantt`.
The same holds at the head of the loop after any number of iterations, with
the clock in place of the end time (for Round Robin with a quantum of at
least 1, without which no report is produced). -/
theorem gantt_starts_ordered (S : Sorter) (ch : Policy) (batch : List Input) (tq : Int)
    (hv : ValidBatch batch) :
    (∀ fuel r, runPolicy S ch fuel batch tq = some r →
      r.gantt.Pairwise (fun a b => a.2 ≤ b.2) ∧ ∀ g ∈ r.gantt, g.2 ≤ r.end_time) ∧
    (∀ n sn, (ch = Policy.RR → 1 ≤ tq) → snapAfter S ch n batch tq = some sn →
      sn.gantt.Pairwise (fun a b => a.2 ≤ b.2) ∧ ∀ g ∈ sn.gantt, g.2 ≤ sn.time) := by
  have hbt : ∀ x ∈ batch, 0 ≤ x.bt := fun x hx => by have := (hv.2 x hx).2; omega
  refine ⟨?_, fun n sn htq h1 => ?_⟩
  · intro fuel r h
    have htq : ch = Policy.RR → 1 ≤ tq := by
      intro hch
      subst hch
      by_contra hc
      have hne : readProcs false true 0 batch ≠ [] := by
        intro e
        have := congrArg List.length e
        rw [readProcs_length] at this
        exact hv.1 (List.length_eq_zero.mp this)
      have := rr_diverges tq (by omega) _ hne fuel
      simp only [runPolicy, RoundRobin] at h
      rw [this] at h
      simp at h
    obtain ⟨n, sn, h1, _, h3, h4⟩ := report_snap S ch fuel batch tq r h
    have := snap_times S ch n batch tq sn hbt htq h1
    rw [← h3, ← h4]
    exact ⟨this.sorted, this.le⟩
  · have := snap_times S ch n batch tq sn hbt htq h1
    exact ⟨this.sorted, this.le⟩

end Scheduling

namespace Scheduling

/-- One time unit of a preemptive loop: either the CPU idles and nothing is
recorded, or a process `idx` runs for the unit and a segment is appended
exactly when the id of `idx` differs from that of the last segment. -/
theorem pre_segment_rule (scan : List Process → Int → Option (Option Nat)) (hs : ScanSound scan)
    (a : Bool) (batch : List Input) (n : Nat) (s s' : PState)
    (h : iterLoop preGuard (preBody scan) n (preInit (readProcs a true 0 batch)) = some s)
    (hb : preBody scan s = some s') :
    (s'.p = s.p ∧ s'.gantt = s.gantt) ∨
    ∃ idx, idx < s.p.length ∧ (s'.p.getD idx default).rt = (s.p.getD idx default).rt - 1 ∧
      (s.p.getD idx default).pid = (idx : Int) + 1 ∧
      ((s'.gantt = s.gantt ++ [((idx : Int) + 1, s.time)] ∧
          ∀ g, s.gantt.getLast? = some g → g.1 ≠ (idx : Int) + 1) ∨
        (s'.gantt = s.gantt ∧ ∃ g, s.gantt.getLast? = some g ∧ g.1 = (idx : Int) + 1)) := by
  obtain ⟨⟨c1, c2, _⟩, _, _⟩ := pre_iter_gantt scan hs a batch n s h
  have hI := pre_iter_inv scan hs _ (readProcs_rt a batch) n s h
  rcases preBody_cases scan s s' hb with ⟨_, e⟩ | ⟨idx, hsc, _, hg, _, hp⟩
  · left
    subst e
    exact ⟨rfl, rfl⟩
  · right
    obtain ⟨hidx, _, _⟩ := hs s.p s.time idx hsc
    obtain ⟨_, _, hpid, _⟩ := rows_index a true batch s.p hI.inp idx hidx
    have hrt : (s'.p.getD idx default).rt = (s.p.getD idx default).rt - 1 := by
      rcases hp with ⟨_, _, e⟩ | ⟨_, _, e⟩ <;> rw [e, getD_set_self _ _ _ _ hidx]
    refine ⟨idx, hidx, hrt, hpid, ?_⟩
    rw [hpid] at hg
    by_cases hsw : s.prev ≠ (idx : Int) + 1
    · left
      rw [if_pos hsw] at hg
      refine ⟨hg, fun g hgl => ?_⟩
      rw [← c2 g hgl]
      exact hsw
    · right
      rw [if_neg hsw] at hg
      have hprev : s.prev = (idx : Int) + 1 := by
        by_contra hc
        exact hsw hc
      refine ⟨hg, ?_⟩
      cases hl : s.gantt.getLast? with
      | none =>
        have := c1 (List.getLast?_eq_none_iff.mp hl)
        omega
      | some g => exact ⟨g, rfl, by rw [← c2 g hl]; exact hprev⟩

/-- C17: in SRTF and Priority preemptive scheduling, for every batch and
every time unit of the loop (from the state `s` after `n` iterations to the
state `s'` after `n + 1`), either no process runs and the Gantt vector is
unchanged, or the process `idx` (of id `idx + 1`) runs for the unit and a
segment for it is appended if and only if its id differs from the id of
the last recorded segment (or no segment is recorded yet).  In every such
state and in every report, no two consecutive segments carry the same
process id. -/
theorem preemptive_segment_rule (ch : Policy) (batch : List Input) (n : Nat) (s s' : PState)
    (hs : preAfter ch n batch = some s) (hs' : preAfter ch (n + 1) batch = some s') :
    s'.gantt.Chain' (fun a b => a.1 ≠ b.1) ∧
    ((s'.p = s.p ∧ s'.gantt = s.gantt) ∨
      ∃ idx, idx < s.p.length ∧ (s'.p.getD idx default).rt = (s.p.getD idx default).rt - 1 ∧
        (s.p.getD idx default).pid = (idx : Int) + 1 ∧
        ((s'.gantt = s.gantt ++ [((idx : Int) + 1, s.time)] ∧
            ∀ g, s.gantt.getLast? = some g → g.1 ≠ (idx : Int) + 1) ∨
          (s'.gantt = s.gantt ∧ ∃ g, s.gantt.getLast? = some g ∧ g.1 = (idx : Int) + 1))) ∧
    (∀ S fuel tq r, runPolicy S ch fuel batch tq = some r →
      r.gantt.Chain' (fun a b => a.1 ≠ b.1)) := by
  cases ch
  case SJF_P =>
    obtain ⟨m, hm, _, hb⟩ := iterLoop_last _ _ n _ _ hs'
    have hms : m = s := Option.some.inj (hm.symm.trans hs)
    subst hms
    refine ⟨(pre_iter_gantt _ srtfScan_sound false batch (n + 1) s' hs').1.2.2,
      pre_segment_rule _ srtfScan_sound false batch n m s' hs hb, ?_⟩
    intro S fuel tq r hr
    obtain ⟨k, sn, h1, _, _, h4⟩ := report_snap S Policy.SJF_P fuel batch tq r hr
    simp only [snapAfter, Option.map_eq_some'] at h1
    obtain ⟨t, ht, rfl⟩ := h1
    rw [← h4]
    exact (pre_iter_gantt _ srtfScan_sound false batch k t ht).1.2.2
  case PRIO_P =>
    obtain ⟨m, hm, _, hb⟩ := iterLoop_last _ _ n _ _ hs'
    have hms : m = s := Option.some.inj (hm.symm.trans hs)
    subst hms
    refine ⟨(pre_iter_gantt _ prioScan_sound true batch (n + 1) s' hs').1.2.2,
      pre_segment_rule _ prioScan_sound true batch n m s' hs hb, ?_⟩
    intro S fuel tq r hr
    obtain ⟨k, sn, h1, _, _, h4⟩ := report_snap S Policy.PRIO_P fuel batch tq r hr
    simp only [snapAfter, Option.map_eq_some'] at h1
    obtain ⟨t, ht, rfl⟩ := h1
    rw [← h4]
    exact (pre_iter_gantt _ prioScan_sound true batch k t ht).1.2.2
  all_goals simp [preAfter] at hs

/-- Witness of C17: SRTF on the batch (arrival 0, burst 2), from the state
before the first iteration to the state after it. -/
theorem preemptive_segment_rule_witness :
    preAfter Policy.SJF_P 0 [⟨0, 2, 0⟩] = some (preInit (readProcs false true 0 [⟨0, 2, 0⟩])) ∧
    preAfter Policy.SJF_P (0 + 1) [⟨0, 2, 0⟩]
      = some { p := [{ pid := 1, at_ := 0, bt := 2, rt := 1 }], time := 1, completed := 0,
               prev := 1, totalWT := 0, totalTAT := 0, gantt := [(1, 0)] } ∧
    List.Chain' (fun a b : Int × Int => a.1 ≠ b.1) [(1, 0)] :=
  ⟨rfl, by decide,
    (preemptive_segment_rule Policy.SJF_P [⟨0, 2, 0⟩] 0
      (preInit (readProcs false true 0 [⟨0, 2, 0⟩]))
      { p := [{ pid := 1, at_ := 0, bt := 2, rt := 1 }], time := 1, completed := 0,
        prev := 1, totalWT := 0, totalTAT := 0, gantt := [(1, 0)] } rfl (by decide)).1⟩

/-- Idle time emits no segment, over exact integers.  For every valid
batch, each
of the six policies and every state at the head of the loop (after any
number `n` of iterations, the state of the report included), provided the
burst times are below `INT_MAX` for the two SJF policies, the priority
values are below `INT_MAX` for the two priority policies and the quantum of
Round Robin is not negative: while no segment is recorded the clock has not
passed the smallest arrival time of the batch, the first segment starts
exactly at that time, and every segment `(pid, t)` names a process of the
batch that has arrived by `t`. -/
theorem idle_emits_no_segment (S : Sorter) (ch : Policy) (n : Nat) (batch : List Input)
    (tq : Int) (sn : Snap) (hv : ValidBatch batch)
    (hbt : ch = Policy.SJF_NP ∨ ch = Policy.SJF_P → ∀ x ∈ batch, x.bt < INT_MAX)
    (hpr : ch = Policy.PRIO_NP ∨ ch = Policy.PRIO_P → ∀ x ∈ batch, x.pr < INT_MAX)
    (htq : ch = Policy.RR → 0 ≤ tq)
    (h : snapAfter S ch n batch tq = some sn) :
    (sn.gantt = [] → sn.time ≤ minAt batch) ∧
    (∀ g, sn.gantt.head? = some g → g.2 = minAt batch) ∧
    (∀ g ∈ sn.gantt, ∃ (i : Nat) (x : Input), batch[i]? = some x ∧ g.1 = (i : Int) + 1 ∧
      x.at_ ≤ g.2) := by
  obtain ⟨h1, h2⟩ := snap_arrivals S ch n batch tq sn hv hbt hpr htq h
  exact ⟨h1.before, h1.first, h2⟩

end Scheduling

namespace Scheduling

/-! ## One segment per process in the non-preemptive routines, over exact integers -/

theorem readProcs_pid_nodup (a b : Bool) (batch : List Input) :
    ∀ k : Nat, (∀ x ∈ readProcs a b k batch, (k : Int) < x.pid) ∧
      ((readProcs a b k batch).map fun x => x.pid).Nodup := by
  induction batch with
  | nil => intro k; simp [readProcs]
  | cons y ys ih =>
    intro k
    obtain ⟨h1, h2⟩ := ih (k + 1)
    refine ⟨?_, ?_⟩
    · intro x hx
      simp only [readProcs, List.mem_cons] at hx
      rcases hx with rfl | hx
      · simp
      · have := h1 x hx
        push_cast at this
        omega
    · simp only [readProcs, List.map_cons, List.nodup_cons]
      refine ⟨?_, h2⟩
      intro hmem
      obtain ⟨x, hx, e⟩ := List.mem_map.mp hmem
      have := h1 x hx
      push_cast at this
      omega

theorem np_report_gantt (key : Process → Int) (a : Bool) (batch : List Input) (fuel : Nat)
    (r : Report)
    (h : (npLoop key fuel (npInit (readProcs a false 0 batch))).map (npReport batch.length)
      = some r) :
    r.gantt.length = batch.length ∧
    (∀ i, i < batch.length → (r.gantt.map Prod.fst).count ((i : Int) + 1) = 1) ∧
    (∀ x ∈ r.rows, (x.pid, x.ct - x.bt) ∈ r.gantt) ∧
    (∀ g ∈ r.gantt, ∃ x ∈ r.rows, g.1 = x.pid ∧ x.ct = g.2 + x.bt) := by
  have hlen := (np_report key a batch fuel r h).2.2.2
  cases hl : npLoop key fuel (npInit (readProcs a false 0 batch)) with
  | none => rw [hl] at h; simp at h
  | some s =>
    rw [hl] at h
    simp only [Option.map_some', Option.some.injEq] at h
    subst h
    obtain ⟨hI, _⟩ := npLoop_inv key _ fuel s hl
    obtain ⟨_, hg⟩ := whileLoop_inv _ _ (fun _ : NPState => True)
      (fun _ _ _ _ _ => trivial) fuel _ s trivial hl
    simp only [decide_eq_false_iff_not, not_lt] at hg
    obtain ⟨n, hn⟩ := whileLoop_reach _ _ _ _ _ hl
    obtain ⟨hG, _⟩ := np_iter_gantt key a batch n s hn
    have hpl := (rows_of_batch a false batch s.p hI.inp).1
    have hdone : ∀ i, i < s.p.length → s.done.getD i false = true := by
      intro i hi
      have hall := all_of_countP_ge (fun b : Bool => b) s.done
        (by rw [← hI.cnt, hI.len]; exact hg)
      exact hall _ (getD_mem s.done i false (hI.len ▸ hi))
    refine ⟨hlen, ?_, ?_, ?_⟩
    · intro i hi
      have hi' : i < s.p.length := hpl ▸ hi
      obtain ⟨_, _, hp, _⟩ := rows_index a false batch s.p hI.inp i hi'
      have hm := hG.all i hi' (hdone i hi')
      apply List.count_eq_one_of_mem hG.nodup
      rw [← hp]
      exact List.mem_map.mpr ⟨_, hm, rfl⟩
    · intro x hx
      obtain ⟨i, hi, e⟩ := exists_getD_of_mem s.p default x hx
      have := hG.all i hi (hdone i hi)
      rw [e] at this
      exact this
    · intro g hg
      obtain ⟨i, hi, _, h1, h2, _⟩ := hG.seg g hg
      exact ⟨_, getD_mem s.p i default hi, h1, h2⟩

theorem fcfs_report_gantt (S : Sorter) (batch : List Input) :
    (FCFS S batch).gantt.length = batch.length ∧
    (∀ i, i < batch.length → ((FCFS S batch).gantt.map Prod.fst).count ((i : Int) + 1) = 1) ∧
    (∀ x ∈ (FCFS S batch).rows, (x.pid, x.ct - x.bt) ∈ (FCFS S batch).gantt) ∧
    (∀ g ∈ (FCFS S batch).gantt, ∃ x ∈ (FCFS S batch).rows, g.1 = x.pid ∧ x.ct = g.2 + x.bt) := by
  refine ⟨fcfs_gantt_length S batch, ?_, ?_, ?_⟩
  · intro i hi
    have hperm : ((FCFS S batch).gantt.map Prod.fst).Perm
        ((readProcs false false 0 batch).map fun x => x.pid) := by
      rw [fcfs_gantt_ids]
      exact (S.perm _).map _
    apply List.count_eq_one_of_mem (hperm.nodup_iff.mpr (readProcs_pid_nodup false false batch 0).2)
    rw [hperm.mem_iff]
    obtain ⟨_, _, hp, _⟩ := readProcs_getD false false batch 0 i hi
    refine List.mem_map.mpr ⟨_, getD_mem _ i default (by rw [readProcs_length]; exact hi), ?_⟩
    show ((readProcs false false 0 batch).getD i default).pid = (i : Int) + 1
    rw [hp]
    simp
  · intro x hx
    rw [fcfs_gantt_rows]
    exact List.mem_map.mpr ⟨x, hx, rfl⟩
  · intro g hg
    rw [fcfs_gantt_rows] at hg
    obtain ⟨x, hx, e⟩ := List.mem_map.mp hg
    refine ⟨x, hx, by rw [← e], by rw [← e]; simp⟩

/-- One segment per process, over exact integers: in FCFS, SJF
non-preemptive and Priority non-preemptive, for every
batch of n processes and every report the routine produces, the Gantt
sequence has exactly n segments, each process id 1, ..., n occurs in
exactly one segment, and the completion time of every process equals the
start time of its segment plus its burst time.  The report is produced
within (maximum arrival + sum of bursts) iterations for every valid batch
whose burst times (SJF) or priority values (Priority) are below
`INT_MAX`. -/
theorem nonpreemptive_one_segment_each (S : Sorter) (ch : Policy) (batch : List Input)
    (tq : Int) (hch : ch = Policy.FCFS ∨ ch = Policy.SJF_NP ∨ ch = Policy.PRIO_NP) :
    (∀ fuel r, runPolicy S ch fuel batch tq = some r →
      r.gantt.length = batch.length ∧
      (∀ i, i < batch.length → (r.gantt.map Prod.fst).count ((i : Int) + 1) = 1) ∧
      (∀ x ∈ r.rows, (x.pid, x.ct - x.bt) ∈ r.gantt) ∧
      (∀ g ∈ r.gantt, ∃ x ∈ r.rows, g.1 = x.pid ∧ x.ct = g.2 + x.bt)) ∧
    (ValidBatch batch → (ch = Policy.SJF_NP → ∀ x ∈ batch, x.bt < INT_MAX) →
      (ch = Policy.PRIO_NP → ∀ x ∈ batch, x.pr < INT_MAX) →
      ∃ r, ∀ k, runPolicy S ch ((maxAt batch + sumBt batch).toNat + k) batch tq = some r) := by
  rcases hch with rfl | rfl | rfl
  · refine ⟨fun fuel r h => ?_, fun _ _ _ => ⟨FCFS S batch, fun _ => rfl⟩⟩
    simp only [runPolicy, Option.some.injEq] at h
    subst h
    exact fcfs_report_gantt S batch
  · refine ⟨fun fuel r h => np_report_gantt _ false batch fuel r h, fun hv hbt _ => ?_⟩
    obtain ⟨r, h1, _⟩ := np_report_term (fun q => q.bt) (fun _ _ _ _ => rfl) false batch hv
      (fun x hx => bt_below false batch (hbt rfl) _ rfl x hx)
    exact ⟨r, h1⟩
  · refine ⟨fun fuel r h => np_report_gantt _ true batch fuel r h, fun hv _ hpr => ?_⟩
    obtain ⟨r, h1, _⟩ := np_report_term (fun q => q.pr) (fun _ _ _ _ => rfl) true batch hv
      (fun x hx => pr_below false batch (hpr rfl) _ rfl x hx)
    exact ⟨r, h1⟩

end Scheduling

namespace Scheduling

/-! ## Remaining times over exact integers -/

theorem rtStep_refl (t : Int) (x : Process) (h : 0 ≤ x.rt) : RtStep t x x :=
  ⟨h, le_refl _, fun _ => rfl, fun h1 h2 => by omega, fun h1 => absurd rfl h1⟩

theorem pre_rt_step (scan : List Process → Int → Option (Option Nat)) (hs : ScanSound scan)
    (p0 : List Process) (s s' : PState) (hI : PInv p0 s) (hpos : ∀ x ∈ s.p, 1 ≤ x.bt)
    (hb : preBody scan s = some s') :
    s'.p.length = s.p.length ∧
    ∀ i, i < s.p.length → RtStep s'.time (s.p.getD i default) (s'.p.getD i default) := by
  have hnn : ∀ i, i < s.p.length → 0 ≤ (s.p.getD i default).rt := by
    intro i hi
    have hx := getD_mem s.p i default hi
    exact ((hI.row _ hx).2.1 (by have := hpos _ hx; omega)).1
  rcases preBody_cases scan s s' hb with ⟨_, e⟩ | ⟨idx, hsc, ht, _, _, hp⟩
  · subst e
    exact ⟨rfl, fun i hi => rtStep_refl _ _ (hnn i hi)⟩
  · obtain ⟨hidx, _, hrt⟩ := hs s.p s.time idx hsc
    rcases hp with ⟨h0, _, e⟩ | ⟨h0, _, e⟩
    · rw [e, ht]
      refine ⟨by simp, fun i hi => ?_⟩
      by_cases hi' : idx = i
      · subst hi'
        rw [getD_set_self _ _ _ _ hidx]
        exact ⟨by simp only; omega, by simp only; omega, fun h => by omega, fun _ _ => rfl,
          fun _ => ⟨hrt, h0, rfl⟩⟩
      · rw [getD_set_other _ _ _ _ _ hi']
        exact rtStep_refl _ _ (hnn i hi)
    · rw [e, ht]
      refine ⟨by simp, fun i hi => ?_⟩
      by_cases hi' : idx = i
      · subst hi'
        rw [getD_set_self _ _ _ _ hidx]
        exact ⟨by simp only; omega, by simp only; omega, fun h => by omega,
          fun _ h => absurd h h0, fun h => absurd rfl h⟩
      · rw [getD_set_other _ _ _ _ _ hi']
        exact rtStep_refl _ _ (hnn i hi)

theorem rr_rt_step (tq : Int) (htq : 1 ≤ tq) (p0 : List Process) (s : RRState)
    (hI : RRInv p0 s) (hpos : ∀ x ∈ s.p, 1 ≤ x.bt) :
    (rrBody tq s).p.length = s.p.length ∧
    ∀ i, i < s.p.length →
      RtStep (rrBody tq s).time (s.p.getD i default) ((rrBody tq s).p.getD i default) := by
  have hnn : ∀ i, i < s.p.length → 0 ≤ (s.p.getD i default).rt := by
    intro i hi
    have hx := getD_mem s.p i default hi
    exact ((hI.row _ hx).2.1 (by have := hpos _ hx; omega)).1
  have E1 := rrEnqueue_QInv s.p s.time s.q s.inQ hI.que
  cases hq : (rrEnqueue s.p s.time s.q s.inQ).1 with
  | nil =>
    rw [rrBody_idle tq s hq]
    exact ⟨rfl, fun i hi => rtStep_refl _ _ (hnn i hi)⟩
  | cons idx rest =>
    rw [hq] at E1
    obtain ⟨hidx, _, hrt, _⟩ := E1.mem idx (List.mem_cons_self _ _)
    have h1 : 1 ≤ min tq (s.p.getD idx default).rt := le_min htq (by omega)
    have h2 : min tq (s.p.getD idx default).rt ≤ (s.p.getD idx default).rt := min_le_right _ _
    by_cases hr : 0 < (s.p.getD idx default).rt - min tq (s.p.getD idx default).rt
    · rw [rrBody_again tq s idx rest hq hr]
      refine ⟨by simp, fun i hi => ?_⟩
      simp only
      by_cases hi' : idx = i
      · subst hi'
        rw [getD_set_self _ _ _ _ hidx]
        exact ⟨by simp only; omega, by simp only; omega, fun h => by omega,
          fun _ h => by simp only at h; omega, fun h => absurd rfl h⟩
      · rw [getD_set_other _ _ _ _ _ hi']
        exact rtStep_refl _ _ (hnn i hi)
    · rw [rrBody_finish tq s idx rest hq hr]
      refine ⟨by simp, fun i hi => ?_⟩
      simp only
      by_cases hi' : idx = i
      · subst hi'
        rw [getD_set_self _ _ _ _ hidx]
        exact ⟨by simp only; omega, by simp only; omega, fun h => by omega, fun _ _ => rfl,
          fun _ => ⟨hrt, by simp only; omega, rfl⟩⟩
      · rw [getD_set_other _ _ _ _ _ hi']
        exact rtStep_refl _ _ (hnn i hi)

end Scheduling

namespace Scheduling

theorem pre_rt_discipline (scan : List Process → Int → Option (Option Nat)) (hs : ScanSound scan)
    (a : Bool) (batch : List Input) (hv : ValidBatch batch) (n : Nat) (s s' : PState)
    (h : iterLoop preGuard (preBody scan) n (preInit (readProcs a true 0 batch)) = some s)
    (h' : iterLoop preGuard (preBody scan) (n + 1) (preInit (readProcs a true 0 batch))
      = some s') :
    s'.p.length = s.p.length ∧
    ∀ i, i < s.p.length → RtStep s'.time (s.p.getD i default) (s'.p.getD i default) := by
  obtain ⟨m, hm, _, hb⟩ := iterLoop_last _ _ n _ _ h'
  have hms : m = s := Option.some.inj (hm.symm.trans h)
  subst hms
  have hI := pre_iter_inv scan hs _ (readProcs_rt a batch) n m h
  exact pre_rt_step scan hs _ m s' hI (rows_bt_pos a true batch hv m.p hI.inp) hb

theorem rr_rt_discipline (tq : Int) (htq : 1 ≤ tq) (batch : List Input) (hv : ValidBatch batch)
    (n : Nat) (s s' : RRState) (h : rrAfter n batch tq = some s)
    (h' : rrAfter (n + 1) batch tq = some s') :
    s'.p.length = s.p.length ∧
    ∀ i, i < s.p.length → RtStep s'.time (s.p.getD i default) (s'.p.getD i default) := by
  obtain ⟨m, hm, _, hb⟩ := iterLoop_last _ _ n _ _ h'
  have hms : m = s := Option.some.inj (hm.symm.trans h)
  subst hms
  simp only [Option.some.injEq] at hb
  subst hb
  have hI := rr_iter_inv tq htq _ (readProcs_rt false batch) n m h
  exact rr_rt_step tq htq _ m hI (rows_bt_pos false true batch hv m.p hI.inp)

/-- The steps of the remaining times over exact integers: in SRTF, Priority
preemptive and Round Robin, for every valid
batch (and quantum at least 1 for Round Robin): before the first iteration
every remaining time equals the burst time; from the state after `n`
iterations to the state after `n + 1`, the remaining time of every process
does not increase and is not negative, a process whose remaining time is 0
is left untouched, the completion time of a process is written at the
iteration that takes its remaining time from positive to 0, with the value
of the clock after that iteration, and it is written at no other
iteration; in every report all remaining times are 0. -/
theorem remaining_time_discipline (S : Sorter) (ch : Policy) (batch : List Input) (tq : Int)
    (hv : ValidBatch batch)
    (hch : ch = Policy.SJF_P ∨ ch = Policy.PRIO_P ∨ ch = Policy.RR)
    (htq : ch = Policy.RR → 1 ≤ tq) :
    (∀ sn, snapAfter S ch 0 batch tq = some sn → ∀ x ∈ sn.p, x.rt = x.bt) ∧
    (∀ n sn sn', snapAfter S ch n batch tq = some sn →
      snapAfter S ch (n + 1) batch tq = some sn' →
      sn'.p.length = sn.p.length ∧ ∀ i, i < sn.p.length →
        0 ≤ (sn'.p.getD i default).rt ∧
        (sn'.p.getD i default).rt ≤ (sn.p.getD i default).rt ∧
        ((sn.p.getD i default).rt = 0 → sn'.p.getD i default = sn.p.getD i default) ∧
        (0 < (sn.p.getD i default).rt → (sn'.p.getD i default).rt = 0 →
          (sn'.p.getD i default).ct = sn'.time) ∧
        ((sn'.p.getD i default).ct ≠ (sn.p.getD i default).ct →
          0 < (sn.p.getD i default).rt ∧ (sn'.p.getD i default).rt = 0 ∧
            (sn'.p.getD i default).ct = sn'.time)) ∧
    (∀ fuel r, runPolicy S ch fuel batch tq = some r → ∀ x ∈ r.rows, x.rt = 0) := by
  rcases hch with rfl | rfl | rfl
  · refine ⟨?_, ?_, ?_⟩
    · intro sn h
      simp only [snapAfter, preAfter, iterLoop, Option.map_some', Option.some.injEq] at h
      subst h
      exact readProcs_rt false batch
    · intro n sn sn' h h'
      simp only [snapAfter, Option.map_eq_some'] at h h'
      obtain ⟨s, hs, rfl⟩ := h
      obtain ⟨s', hs', rfl⟩ := h'
      exact pre_rt_discipline _ srtfScan_sound false batch hv n s s' hs hs'
    · intro fuel r h x hx
      exact ((pre_report _ srtfScan_sound false batch fuel r h).2.1 x hx).2.2
  · refine ⟨?_, ?_, ?_⟩
    · intro sn h
      simp only [snapAfter, preAfter, iterLoop, Option.map_some', Option.some.injEq] at h
      subst h
      exact readProcs_rt true batch
    · intro n sn sn' h h'
      simp only [snapAfter, Option.map_eq_some'] at h h'
      obtain ⟨s, hs, rfl⟩ := h
      obtain ⟨s', hs', rfl⟩ := h'
      exact pre_rt_discipline _ prioScan_sound true batch hv n s s' hs hs'
    · intro fuel r h x hx
      exact ((pre_report _ prioScan_sound true batch fuel r h).2.1 x hx).2.2
  · refine ⟨?_, ?_, ?_⟩
    · intro sn h
      simp only [snapAfter, rrAfter, iterLoop, Option.map_some', Option.some.injEq] at h
      subst h
      exact readProcs_rt false batch
    · intro n sn sn' h h'
      simp only [snapAfter, Option.map_eq_some'] at h h'
      obtain ⟨s, hs, rfl⟩ := h
      obtain ⟨s', hs', rfl⟩ := h'
      exact rr_rt_discipline tq (htq rfl) batch hv n s s' hs hs'
    · intro fuel r h x hx
      exact ((rr_report tq (htq rfl) batch fuel r h).2.1 x hx).2.2

end Scheduling

namespace Scheduling

/-! ## The SRTF scan and the reads of the priority scan (C22) -/

theorem srtf_cond_any (p0 : List Process) (hok : ∀ x ∈ p0, x.bt < INT_MAX) (s : PState)
    (hI : PInv p0 s) : ∀ x ∈ s.p, x.rt < INT_MAX := by
  intro x hx
  have h1 := inp_transfer s.p p0 hI.inp (fun t => t.2.2.1 < INT_MAX) hok x hx
  have h1' : x.bt < INT_MAX := h1
  obtain ⟨r1, r2, _⟩ := hI.row x hx
  rcases le_or_lt x.bt 0 with h | h
  · rw [r1 h]; exact h1'
  · have := (r2 h).2
    omega

theorem srtfScan_min (p : List Process) (time : Int) (i : Nat)
    (h : srtfScan p time = some (some i)) :
    ∀ j, j < p.length → (p.getD j default).at_ ≤ time → 0 < (p.getD j default).rt →
      (p.getD i default).rt ≤ (p.getD j default).rt := by
  simp only [srtfScan, Option.some.injEq] at h
  obtain ⟨h1, _, h3⟩ := srtfScan_fold p time
  obtain ⟨_, _, _, e⟩ := h1 i h
  intro j hj ha hr
  rw [e]
  exact h3 j hj ha hr

/-- The priority scan after its first `k` iterations, on a vector whose
priority values are below `INT_MAX`: it is defined, and `idx` is `-1` only
as long as `best` is still `INT_MAX`. -/
theorem prioScan_upto (p : List Process) (time : Int) (hpr : ∀ x ∈ p, x.pr < INT_MAX)
    (k : Nat) (hk : k ≤ p.length) :
    ∃ idx best, (List.range k).foldl (prioScanStep p time) (some (none, INT_MAX))
        = some (idx, best) ∧
      (idx = none → best = INT_MAX) ∧ (∀ j, idx = some j → j < k) := by
  refine foldl_range_inv (prioScanStep p time)
    (fun m acc => ∃ idx best, acc = some (idx, best) ∧ (idx = none → best = INT_MAX) ∧
      (∀ j, idx = some j → j < m))
    (some (none, INT_MAX)) k ⟨none, INT_MAX, rfl, fun _ => rfl, by intro j hj; simp at hj⟩ ?_
  rintro m acc hm ⟨idx, best, rfl, h1, h2⟩
  have hlt := hpr _ (getD_mem p m default (by omega))
  have keep : ∃ idx' best', some (idx, best) = some (idx', best') ∧
      (idx' = none → best' = INT_MAX) ∧ (∀ j, idx' = some j → j < m + 1) :=
    ⟨idx, best, rfl, h1, fun j hj => by have := h2 j hj; omega⟩
  have take : ∃ idx' best', some (some m, (p.getD m default).pr) = some (idx', best') ∧
      (idx' = none → best' = INT_MAX) ∧ (∀ j, idx' = some j → j < m + 1) :=
    ⟨some m, _, rfl, by intro h; simp at h, fun j hj => by
      simp only [Option.some.injEq] at hj
      omega⟩
  unfold prioScanStep
  simp only
  split
  · split
    · exact take
    · split
      · rename_i heq
        cases idx with
        | none =>
          have := h1 rfl
          omega
        | some j =>
          simp only
          split
          · exact take
          · exact keep
      · exact keep
  · exact keep

/-- C22: the candidate scan of Priority preemptive never reads the process
vector at index -1.  For every batch whose priority values are all below
`INT_MAX` and every state `s` at the head of the loop: at every step `k` of
the scan the variables `idx`, `best` are defined, and whenever the
sub-expression `p[idx].at` is evaluated at that step (the candidate `k` is
eligible and `p[k].pr == best`), `idx` is the index of a process selected
at an earlier step; so the scan and the iteration are defined. -/
theorem priority_scan_reads_in_range (batch : List Input)
    (hpr : ∀ x ∈ batch, x.pr < INT_MAX) (n : Nat) (s : PState)
    (hs : preAfter Policy.PRIO_P n batch = some s) :
    (∀ k, k < s.p.length → ∃ idx best,
      (List.range k).foldl (prioScanStep s.p s.time) (some (none, INT_MAX)) = some (idx, best) ∧
      ((s.p.getD k default).at_ ≤ s.time → 0 < (s.p.getD k default).rt →
        (s.p.getD k default).pr = best → ∃ j, idx = some j ∧ j < k)) ∧
    prioScan s.p s.time ≠ none ∧ ∃ s', preBody prioScan s = some s' := by
  have hI : PInv (readProcs true true 0 batch) s := preAfter_inv Policy.PRIO_P n batch s hs
  have hp : ∀ x ∈ s.p, x.pr < INT_MAX := pr_below true batch hpr s.p hI.inp
  have hne := (prioScan_complete s.p s.time hp).1
  refine ⟨?_, hne, ?_⟩
  · intro k hk
    obtain ⟨idx, best, h1, h2, h3⟩ := prioScan_upto s.p s.time hp k (le_of_lt hk)
    refine ⟨idx, best, h1, fun _ _ he => ?_⟩
    cases idx with
    | none =>
      have := h2 rfl
      have := hp _ (getD_mem s.p k default hk)
      omega
    | some j => exact ⟨j, rfl, h3 j rfl⟩
  · cases hsc : prioScan s.p s.time with
    | none => exact absurd hsc hne
    | some o =>
      unfold preBody
      rw [hsc]
      cases o with
      | none => exact ⟨_, rfl⟩
      | some idx =>
        simp only
        split <;> exact ⟨_, rfl⟩

/-- Witness of C22: P1 and P2 arrive at 0 with the same priority value 1;
at step 1 of the first scan the tie-break is evaluated with `idx = 0`. -/
theorem priority_scan_reads_in_range_witness :
    (∀ x ∈ ([⟨0, 2, 1⟩, ⟨0, 1, 1⟩] : List Input), x.pr < INT_MAX) ∧
    preAfter Policy.PRIO_P 0 [⟨0, 2, 1⟩, ⟨0, 1, 1⟩]
      = some (preInit (readProcs true true 0 [⟨0, 2, 1⟩, ⟨0, 1, 1⟩])) ∧
    prioScan (preInit (readProcs true true 0 [⟨0, 2, 1⟩, ⟨0, 1, 1⟩])).p
      (preInit (readProcs true true 0 [⟨0, 2, 1⟩, ⟨0, 1, 1⟩])).time ≠ none :=
  ⟨by decide, rfl,
    (priority_scan_reads_in_range [⟨0, 2, 1⟩, ⟨0, 1, 1⟩] (by decide) 0
      (preInit (readProcs true true 0 [⟨0, 2, 1⟩, ⟨0, 1, 1⟩])) rfl).2.1⟩

end Scheduling

namespace Scheduling

/-! ## Work done against the clock, over exact integers -/

theorem sum_map_zero {α : Type} (f : α → Int) (l : List α) (h : ∀ x ∈ l, f x = 0) :
    (l.map f).sum = 0 := by
  induction l with
  | nil => rfl
  | cons y ys ih =>
    rw [List.map_cons, List.sum_cons, h y (List.mem_cons_self _ _),
      ih (fun x hx => h x (List.mem_cons_of_mem _ hx))]
    rfl

theorem maxAt_zero (batch : List Input) (h : ∀ x ∈ batch, x.at_ = 0) : maxAt batch = 0 := by
  induction batch with
  | nil => rfl
  | cons y ys ih =>
    have h1 := ih (fun x hx => h x (List.mem_cons_of_mem _ hx))
    unfold maxAt at h1 ⊢
    simp only [List.map_cons, List.foldr_cons]
    rw [h1, h y (List.mem_cons_self _ _)]
    rfl

theorem fcfs_fold_time_ge (l : List Process) :
    ∀ s : FState, s.time + (l.map fun x => x.bt).sum ≤ (l.foldl fcfsStep s).time := by
  induction l with
  | nil => intro s; simp
  | cons y ys ih =>
    intro s
    rw [List.foldl_cons]
    have := ih (fcfsStep s y)
    rw [fcfsStep_time] at this
    simp only [List.map_cons, List.sum_cons]
    split at this <;> omega

theorem fcfs_end_time_ge (S : Sorter) (batch : List Input) :
    sumBt batch ≤ (FCFS S batch).end_time := by
  have := fcfs_fold_time_ge (S.sort (readProcs false false 0 batch))
    { p := [], time := 0, totalWT := 0, totalTAT := 0, gantt := [] }
  rw [((S.perm _).map _).sum_eq, readProcs_bt] at this
  simpa [sumBt] using this

theorem npBody_work (key : Process → Int) (p0 : List Process) (s : NPState) (hI : NPInv p0 s) :
    s.time + npTodo s ≤ (npBody key s).time + npTodo (npBody key s) := by
  cases hs : (npScan key s.p s.done s.time).1 with
  | none =>
    rw [npBody_idle key s hs]
    have : npTodo { s with time := s.time + 1 } = npTodo s := rfl
    rw [this]
    simp only
    omega
  | some idx =>
    obtain ⟨hi, hd, _⟩ := (npScan_spec key s.p s.done s.time).1 idx hs
    rw [npBody_run key s idx hs]
    unfold npTodo
    simp only
    rw [zip_set, sum_map_set _ _ idx _ (default, false)
      (by rw [length_zip_same _ _ hI.len]; exact hi), getD_zip _ _ _ _ _ hI.len hi, hd]
    simp

theorem np_report_work (key : Process → Int) (a : Bool) (batch : List Input) (fuel : Nat)
    (r : Report)
    (h : (npLoop key fuel (npInit (readProcs a false 0 batch))).map (npReport batch.length)
      = some r) :
    sumBt batch ≤ r.end_time := by
  cases hl : npLoop key fuel (npInit (readProcs a false 0 batch)) with
  | none => rw [hl] at h; simp at h
  | some s =>
    rw [hl] at h
    simp only [Option.map_some', Option.some.injEq] at h
    subst h
    obtain ⟨⟨hI, hW⟩, hg⟩ := whileLoop_inv _ _
      (fun s : NPState => NPInv (readProcs a false 0 batch) s ∧ sumBt batch ≤ s.time + npTodo s)
      (by
        intro x y ⟨hI, hW⟩ _ hb
        simp only [Option.some.injEq] at hb
        subst hb
        exact ⟨npBody_inv key _ x hI, le_trans hW (npBody_work key _ x hI)⟩)
      fuel _ s
      ⟨npInit_inv _, by
        have e : npTodo (npInit (readProcs a false 0 batch))
            = ((readProcs a false 0 batch).map fun x => x.bt).sum := by
          unfold npTodo
          rw [← map_zip_fst_bt _ (npInit (readProcs a false 0 batch)).done (by simp [npInit])]
          congr 1
          apply List.map_congr_left
          intro z hz
          have := (List.of_mem_zip hz).2
          simp only [npInit, List.mem_replicate] at this
          rw [this.2]
          simp
        rw [e, readProcs_bt]
        simp [npInit, sumBt]⟩ hl
    simp only [decide_eq_false_iff_not, not_lt] at hg
    have hall := all_of_countP_ge (fun b : Bool => b) s.done
      (by rw [← hI.cnt, hI.len]; exact hg)
    have hz : npTodo s = 0 := by
      unfold npTodo
      apply sum_map_zero
      intro z hz
      rw [if_pos (hall _ (List.of_mem_zip hz).2)]
    show sumBt batch ≤ s.time
    omega

theorem preBody_work (scan : List Process → Int → Option (Option Nat)) (hs : ScanSound scan)
    (s s' : PState) (hb : preBody scan s = some s') :
    s.time + (s.p.map fun x => x.rt).sum ≤ s'.time + (s'.p.map fun x => x.rt).sum := by
  rcases preBody_cases scan s s' hb with ⟨_, rfl⟩ | ⟨idx, hsc, ht, _, _, hcase⟩
  · simp only
    omega
  · obtain ⟨hi, _, _⟩ := hs _ _ _ hsc
    rcases hcase with ⟨_, _, hp⟩ | ⟨_, _, hp⟩
    · rw [hp, ht, sum_map_set (fun x : Process => x.rt) s.p idx _ default hi]
      simp only
      omega
    · rw [hp, ht, sum_map_set (fun x : Process => x.rt) s.p idx _ default hi]
      simp only
      omega

theorem rows_rt_sum (a : Bool) (batch : List Input) :
    ((readProcs a true 0 batch).map fun x => x.rt).sum = sumBt batch := by
  have : (readProcs a true 0 batch).map (fun x => x.rt)
      = (readProcs a true 0 batch).map (fun x => x.bt) :=
    List.map_congr_left (fun x hx => readProcs_rt a batch x hx)
  rw [this, readProcs_bt]
  rfl

theorem pre_report_work (scan : List Process → Int → Option (Option Nat)) (hs : ScanSound scan)
    (a : Bool) (batch : List Input) (fuel : Nat) (r : Report)
    (h : (preLoop scan fuel (preInit (readProcs a true 0 batch))).map (preReport batch.length)
      = some r) :
    sumBt batch ≤ r.end_time := by
  have hrt := (pre_report scan hs a batch fuel r h).2.1
  cases hl : preLoop scan fuel (preInit (readProcs a true 0 batch)) with
  | none => rw [hl] at h; simp at h
  | some s =>
    rw [hl] at h
    simp only [Option.map_some', Option.some.injEq] at h
    subst h
    obtain ⟨hW, _⟩ := whileLoop_inv _ _
      (fun s : PState => sumBt batch ≤ s.time + (s.p.map fun x => x.rt).sum)
      (fun x y hW _ hb => le_trans hW (preBody_work scan hs x y hb))
      fuel _ s (by simp [preInit, rows_rt_sum]) hl
    have hz : (s.p.map fun x => x.rt).sum = 0 :=
      sum_map_zero _ _ (fun x hx => (hrt x hx).2.2)
    show sumBt batch ≤ s.time
    omega

theorem rrBody_work (tq : Int) (p0 : List Process) (s : RRState)
    (hI : RRInv p0 s) :
    s.time + (s.p.map fun x => x.rt).sum
      ≤ (rrBody tq s).time + ((rrBody tq s).p.map fun x => x.rt).sum := by
  have E1 := rrEnqueue_QInv s.p s.time s.q s.inQ hI.que
  cases hq : (rrEnqueue s.p s.time s.q s.inQ).1 with
  | nil =>
    rw [rrBody_idle tq s hq]
    simp only
    omega
  | cons idx rest =>
    rw [hq] at E1
    obtain ⟨hidx, _, _, _⟩ := E1.mem idx (List.mem_cons_self _ _)
    by_cases hr : 0 < (s.p.getD idx default).rt - min tq (s.p.getD idx default).rt
    · rw [rrBody_again tq s idx rest hq hr]
      simp only
      rw [sum_map_set (fun x : Process => x.rt) s.p idx _ default hidx]
      simp only
      omega
    · rw [rrBody_finish tq s idx rest hq hr]
      simp only
      rw [sum_map_set (fun x : Process => x.rt) s.p idx _ default hidx]
      simp only
      omega

theorem rr_report_work (tq : Int) (htq : 1 ≤ tq) (batch : List Input) (fuel : Nat) (r : Report)
    (h : RoundRobin fuel batch tq = some r) : sumBt batch ≤ r.end_time := by
  have hrt := (rr_report tq htq batch fuel r h).2.1
  unfold RoundRobin at h
  cases hl : rrLoop tq fuel (rrInit (readProcs false true 0 batch)) with
  | none => rw [hl] at h; simp at h
  | some s =>
    rw [hl] at h
    simp only [Option.map_some', Option.some.injEq] at h
    subst h
    obtain ⟨⟨_, hW⟩, _⟩ := whileLoop_inv _ _
      (fun s : RRState => RRInv (readProcs false true 0 batch) s ∧
        sumBt batch ≤ s.time + (s.p.map fun x => x.rt).sum)
      (by
        intro x y ⟨hI, hW⟩ _ hb
        simp only [Option.some.injEq] at hb
        subst hb
        exact ⟨(rrBody_inv tq htq _ x hI).1, le_trans hW (rrBody_work tq _ x hI)⟩)
      fuel _ s ⟨rrInit_inv _ (readProcs_rt false batch), by simp [rrInit, rows_rt_sum]⟩ hl
    have hz : (s.p.map fun x => x.rt).sum = 0 :=
      sum_map_zero _ _ (fun x hx => (hrt x hx).2.2)
    show sumBt batch ≤ s.time
    omega

/-- In every report of every routine the end time is at least the sum of the
burst times (for Round Robin with a quantum of at least 1). -/
theorem report_work (S : Sorter) (ch : Policy) (fuel : Nat) (batch : List Input) (tq : Int)
    (r : Report) (htq : ch = Policy.RR → 1 ≤ tq) (h : runPolicy S ch fuel batch tq = some r) :
    sumBt batch ≤ r.end_time := by
  cases ch
  case FCFS =>
    simp only [runPolicy, Option.some.injEq] at h
    subst h
    exact fcfs_end_time_ge S batch
  case SJF_NP => exact np_report_work _ false batch fuel r h
  case PRIO_NP => exact np_report_work _ true batch fuel r h
  case SJF_P => exact pre_report_work _ srtfScan_sound false batch fuel r h
  case PRIO_P => exact pre_report_work _ prioScan_sound true batch fuel r h
  case RR => exact rr_report_work tq (htq rfl) batch fuel r h

end Scheduling

namespace Scheduling

/-- On a valid batch below the sentinels every routine produces its report
within (maximum arrival + sum of bursts) iterations, with an end time of at
most the sum of the bursts plus the maximum arrival. -/
theorem report_exists (S : Sorter) (ch : Policy) (batch : List Input) (tq : Int)
    (hv : ValidBatch batch) (htq : ch = Policy.RR → 1 ≤ tq)
    (hbt : ch = Policy.SJF_NP ∨ ch = Policy.SJF_P → ∀ x ∈ batch, x.bt < INT_MAX)
    (hpr : ch = Policy.PRIO_NP ∨ ch = Policy.PRIO_P → ∀ x ∈ batch, x.pr < INT_MAX) :
    ∃ r, (∀ k, runPolicy S ch ((maxAt batch + sumBt batch).toNat + k) batch tq = some r) ∧
      r.end_time ≤ sumBt batch + maxAt batch := by
  cases ch with
  | FCFS =>
    exact ⟨FCFS S batch, fun _ => rfl,
      fcfs_end_time S batch (fun x hx => by have := (hv.2 x hx).2; omega)⟩
  | SJF_NP =>
    obtain ⟨r, h1, _, _, h4⟩ := np_report_term (fun q => q.bt) (fun _ _ _ _ => rfl) false
      batch hv (fun x hx => bt_below false batch (hbt (Or.inl rfl)) _ rfl x hx)
    exact ⟨r, h1, h4⟩
  | SJF_P =>
    obtain ⟨r, h1, _, _, h4⟩ := pre_report_term srtfScan srtfScan_sound _ srtfScan_complete
      false batch hv (by
        intro s hI
        apply srtf_cond_any _ _ s hI
        intro x hx
        obtain ⟨y, hy, _, e, _⟩ := readProcs_mem false true batch 0 x hx
        rw [e]
        exact hbt (Or.inr rfl) y hy)
    exact ⟨r, h1, h4⟩
  | PRIO_NP =>
    obtain ⟨r, h1, _, _, h4⟩ := np_report_term (fun q => q.pr) (fun _ _ _ _ => rfl) true
      batch hv (fun x hx => pr_below false batch (hpr (Or.inl rfl)) _ rfl x hx)
    exact ⟨r, h1, h4⟩
  | RR =>
    obtain ⟨r, h1, _, _, h4⟩ := rr_report_term tq (htq rfl) batch hv
    exact ⟨r, h1, h4⟩
  | PRIO_P =>
    obtain ⟨r, h1, _, _, h4⟩ := pre_report_term prioScan prioScan_sound _ prioScan_complete
      true batch hv (fun s hI => pr_below true batch (hpr (Or.inr rfl)) s.p hI.inp)
    exact ⟨r, h1, h4⟩

/-- Work conservation over exact integers.  For every non-empty batch in
which
all processes arrive at time 0 and all bursts are at least 1 (quantum at
least 1 for Round Robin), in which moreover every burst time is below
`INT_MAX` for the two SJF policies and every priority value is below
`INT_MAX` for the two priority policies, each of the six policies leaves
its loop within (sum of bursts) iterations and its end time is exactly the
sum of the burst times. -/
theorem work_conservation (S : Sorter) (ch : Policy) (batch : List Input) (tq : Int)
    (hne : batch ≠ []) (h0 : ∀ x ∈ batch, x.at_ = 0 ∧ 1 ≤ x.bt)
    (htq : ch = Policy.RR → 1 ≤ tq)
    (hbt : ch = Policy.SJF_NP ∨ ch = Policy.SJF_P → ∀ x ∈ batch, x.bt < INT_MAX)
    (hpr : ch = Policy.PRIO_NP ∨ ch = Policy.PRIO_P → ∀ x ∈ batch, x.pr < INT_MAX) :
    ∃ r, (∀ k, runPolicy S ch ((sumBt batch).toNat + k) batch tq = some r) ∧
      r.end_time = sumBt batch := by
  have hv : ValidBatch batch := ⟨hne, fun x hx => ⟨by rw [(h0 x hx).1], (h0 x hx).2⟩⟩
  have hm : maxAt batch = 0 := maxAt_zero batch (fun x hx => (h0 x hx).1)
  obtain ⟨r, h1, h2⟩ := report_exists S ch batch tq hv htq hbt hpr
  rw [hm] at h1 h2
  simp only [zero_add, add_zero] at h1 h2
  exact ⟨r, h1, le_antisymm h2 (report_work S ch _ batch tq r htq (h1 0))⟩

end Scheduling

namespace Scheduling

/-! ## Total waiting time of back-to-back schedules -/

theorem waitSum_append_single (l : List Int) (b : Int) :
    waitSum (l ++ [b]) = waitSum l + l.sum := by
  induction l with
  | nil => simp [waitSum]
  | cons x xs ih =>
    have hl : ((xs ++ [b]).length : Int) = (xs.length : Int) + 1 := by simp
    rw [List.cons_append, waitSum, waitSum, ih, hl, List.sum_cons]
    ring

theorem waitSum_orderedInsert (x : Int) (ys : List Int) :
    waitSum (List.orderedInsert (fun a b => a ≤ b) x ys) ≤ x * (ys.length : Int) + waitSum ys := by
  induction ys with
  | nil => simp [waitSum]
  | cons y ys ih =>
    rw [List.orderedInsert]
    split
    · simp [waitSum]
    · rename_i h
      simp only [waitSum, List.orderedInsert_length, List.length_cons]
      push_cast
      have hxy : y < x := by omega
      nlinarith [ih]

theorem waitSum_insertionSort (l : List Int) :
    waitSum (List.insertionSort (fun a b => a ≤ b) l) ≤ waitSum l := by
  induction l with
  | nil => simp
  | cons x xs ih =>
    rw [List.insertionSort]
    have := waitSum_orderedInsert x (List.insertionSort (fun a b => a ≤ b) xs)
    rw [List.length_insertionSort] at this
    simp only [waitSum]
    omega

/-- Shortest job first is optimal for jobs ready at time 0: the sorted
arrangement of the burst times has the least total waiting time. -/
theorem waitSum_sorted_le (l₁ l₂ : List Int) (hp : l₁.Perm l₂)
    (hs : l₁.Sorted (fun a b => a ≤ b)) : waitSum l₁ ≤ waitSum l₂ := by
  have e : l₁ = List.insertionSort (fun a b => a ≤ b) l₂ :=
    List.eq_of_perm_of_sorted
      (hp.trans (List.perm_insertionSort (fun a b => a ≤ b) l₂).symm) hs
      (List.sorted_insertionSort (fun a b => a ≤ b) l₂)
  rw [e]
  exact waitSum_insertionSort l₂

end Scheduling

namespace Scheduling

theorem fcfs_fold_wait (l : List Process) :
    ∀ s : FState, 0 ≤ s.time → (∀ x ∈ l, x.at_ = 0 ∧ 0 ≤ x.bt) →
      (l.foldl fcfsStep s).totalWT
        = s.totalWT + s.time * (l.length : Int) + waitSum (l.map fun x => x.bt) := by
  induction l with
  | nil => intro s _ _; simp [waitSum]
  | cons y ys ih =>
    intro s ht hl
    obtain ⟨hy, hb⟩ := hl y (List.mem_cons_self _ _)
    have hstep : (fcfsStep s y).time = s.time + y.bt ∧
        (fcfsStep s y).totalWT = s.totalWT + s.time := by
      unfold fcfsStep
      simp only
      rw [if_neg (by omega), hy]
      exact ⟨rfl, by ring⟩
    rw [List.foldl_cons, ih _ (by rw [hstep.1]; omega)
      (fun x hx => hl x (List.mem_cons_of_mem _ hx)), hstep.1, hstep.2]
    simp only [List.map_cons, waitSum, List.length_cons, List.length_map]
    push_cast
    ring

theorem fcfs_total_wait (S : Sorter) (batch : List Input)
    (h0 : ∀ x ∈ batch, x.at_ = 0 ∧ 0 ≤ x.bt) :
    (FCFS S batch).totalWT
      = waitSum ((S.sort (readProcs false false 0 batch)).map fun x => x.bt) := by
  have := fcfs_fold_wait (S.sort (readProcs false false 0 batch))
    { p := [], time := 0, totalWT := 0, totalTAT := 0, gantt := [] } (le_refl _)
    (by
      intro x hx
      obtain ⟨y, hy, e1, e2⟩ := mem_sorted_read S false false batch x hx
      rw [e1, e2]
      exact h0 y hy)
  simpa [FCFS, fcfsLoop] using this

theorem npScan_lt (key : Process → Int) (p : List Process) (done : List Bool) (time : Int)
    (i : Nat) (h : (npScan key p done time).1 = some i) : key (p.getD i default) < INT_MAX := by
  have := foldl_range_inv (npScanStep key p done time)
    (fun _ acc => acc.2 ≤ INT_MAX ∧ ∀ i, acc.1 = some i → key (p.getD i default) < INT_MAX)
    (none, INT_MAX) p.length ⟨le_refl _, by intro i hi; simp at hi⟩
    (by
      intro k acc _ ⟨h1, h2⟩
      unfold npScanStep
      simp only
      split
      · rename_i hc
        refine ⟨by omega, fun i hi => ?_⟩
        simp only [Option.some.injEq] at hi
        subst hi
        omega
      · exact ⟨h1, h2⟩)
  exact this.2 i h

theorem doneBursts_set (p : List Process) (done : List Bool) (idx : Nat) (q : Process)
    (hl : done.length = p.length) (hi : idx < p.length) (hd : done.getD idx false = false)
    (hq : q.bt = (p.getD idx default).bt) :
    (doneBursts (p.set idx q) (done.set idx true)).Perm
      ((p.getD idx default).bt :: doneBursts p done) := by
  induction p generalizing done idx with
  | nil => simp at hi
  | cons x xs ih =>
    cases done with
    | nil => simp at hl
    | cons d ds =>
      cases idx with
      | zero =>
        simp only [List.getD_cons_zero] at hd hq
        subst hd
        simp [doneBursts, hq]
      | succ k =>
        have := ih ds k (by simpa using hl) (by simpa using hi) (by simpa using hd)
          (by simpa using hq)
        simp only [List.set_cons_succ, doneBursts, List.getD_cons_succ]
        cases d with
        | true =>
          simp only [if_true]
          exact (List.Perm.cons x.bt this).trans (List.Perm.swap _ _ _)
        | false => simpa using this

theorem doneBursts_all (p : List Process) (done : List Bool) (hl : done.length = p.length)
    (h : ∀ d ∈ done, d = true) : doneBursts p done = p.map fun x => x.bt := by
  induction p generalizing done with
  | nil => cases done <;> rfl
  | cons x xs ih =>
    cases done with
    | nil => simp at hl
    | cons d ds =>
      have hd := h d (List.mem_cons_self _ _)
      subst hd
      simp [doneBursts, ih ds (by simpa using hl) (fun d hd => h d (List.mem_cons_of_mem _ hd))]

theorem doneBursts_none (p : List Process) : doneBursts p (List.replicate p.length false) = [] := by
  induction p with
  | nil => rfl
  | cons x xs ih => simpa [doneBursts, List.replicate_succ] using ih

end Scheduling

namespace Scheduling

/-- The state of a run of SJF non-preemptive in which every process
arrives at 0: the processes completed so far were dispatched back to back
in non-decreasing order of burst time (`d` lists their burst times in
dispatch order), none of them longer than a process still waiting. -/
theorem sjf_body_wait (p0 : List Process) (s : NPState) (hI : NPInv p0 s)
    (h0 : ∀ x ∈ s.p, x.at_ = 0 ∧ 0 ≤ x.bt ∧ x.bt < INT_MAX) (hg : s.completed < s.p.length)
    (hJ : ∃ d : List Int, d.Sorted (fun a b => a ≤ b) ∧
      (∀ b ∈ d, ∀ i, i < s.p.length → s.done.getD i false = false →
        b ≤ (s.p.getD i default).bt) ∧
      (∀ b ∈ d, 0 ≤ b) ∧ s.totalWT = waitSum d ∧ s.time = d.sum ∧
      d.Perm (doneBursts s.p s.done)) :
    ∃ d : List Int, d.Sorted (fun a b => a ≤ b) ∧
      (∀ b ∈ d, ∀ i, i < (npBody (fun q => q.bt) s).p.length →
        (npBody (fun q => q.bt) s).done.getD i false = false →
        b ≤ ((npBody (fun q => q.bt) s).p.getD i default).bt) ∧
      (∀ b ∈ d, 0 ≤ b) ∧ (npBody (fun q => q.bt) s).totalWT = waitSum d ∧
      (npBody (fun q => q.bt) s).time = d.sum ∧
      d.Perm (doneBursts (npBody (fun q => q.bt) s).p (npBody (fun q => q.bt) s).done) := by
  obtain ⟨d, hs, hle, hnn, hw, ht, hp⟩ := hJ
  have htime : 0 ≤ s.time := by rw [ht]; exact List.sum_nonneg hnn
  cases hsel : (npScan (fun q => q.bt) s.p s.done s.time).1 with
  | none =>
    exfalso
    obtain ⟨u, hu, hud, _⟩ := np_exists_undone s hI.len hI.cnt hg
    have hum := h0 _ (getD_mem s.p u default hu)
    have := (npScan_spec (fun q => q.bt) s.p s.done s.time).2 hsel u hu hud (by omega)
    simp only at this
    omega
  | some idx =>
    obtain ⟨hidx, hd, _⟩ := (npScan_spec (fun q => q.bt) s.p s.done s.time).1 idx hsel
    have hq := h0 _ (getD_mem s.p idx default hidx)
    rw [npBody_run (fun q => q.bt) s idx hsel]
    refine ⟨d ++ [(s.p.getD idx default).bt], ?_, ?_, ?_, ?_, ?_, ?_⟩
    · exact pairwise_append_single _ _ _ hs (fun b hb => hle b hb idx hidx hd)
    · intro b hb i hi hdi
      simp only [List.length_set] at hi
      simp only at hdi ⊢
      have hne : idx ≠ i := by
        intro e
        rw [e, getD_set_self _ _ _ _ (hI.len ▸ hi)] at hdi
        exact absurd hdi (by decide)
      rw [getD_set_other _ _ _ _ _ hne] at hdi ⊢
      rw [List.mem_append, List.mem_singleton] at hb
      rcases hb with hb | rfl
      · exact hle b hb i hi hdi
      · exact (npScan_min (fun q => q.bt) s.p s.done s.time idx hsel i hi hdi
          (by have := (h0 _ (getD_mem s.p i default hi)).1; omega)).1
    · intro b hb
      rw [List.mem_append, List.mem_singleton] at hb
      rcases hb with hb | rfl
      · exact hnn b hb
      · exact hq.2.1
    · simp only
      rw [waitSum_append_single, hw, ← ht, hq.1]
      ring
    · simp only
      rw [List.sum_append, ← ht]
      simp
    · simp only
      refine (List.perm_append_comm.trans (List.Perm.cons _ hp)).trans (List.Perm.symm ?_)
      exact doneBursts_set s.p s.done idx _ hI.len hidx hd (by rfl)

theorem sjf_report_keys (a : Bool) (batch : List Input) (fuel : Nat) (s : NPState)
    (h : npLoop (fun q => q.bt) fuel (npInit (readProcs a false 0 batch)) = some s) :
    ∀ x ∈ batch, x.bt < INT_MAX := by
  obtain ⟨⟨hI, hD⟩, hg⟩ := whileLoop_inv _ _
    (fun s : NPState => NPInv (readProcs a false 0 batch) s ∧
      ∀ i, i < s.p.length → s.done.getD i false = true → (s.p.getD i default).bt < INT_MAX)
    (by
      intro x y ⟨hI, hD⟩ _ hb
      simp only [Option.some.injEq] at hb
      subst hb
      refine ⟨npBody_inv _ _ x hI, ?_⟩
      cases hsel : (npScan (fun q => q.bt) x.p x.done x.time).1 with
      | none =>
        rw [npBody_idle _ x hsel]
        exact hD
      | some idx =>
        obtain ⟨hidx, _, _⟩ := (npScan_spec (fun q => q.bt) x.p x.done x.time).1 idx hsel
        have hlt := npScan_lt (fun q => q.bt) x.p x.done x.time idx hsel
        rw [npBody_run _ x idx hsel]
        intro i hi hdi
        simp only [List.length_set] at hi
        simp only at hdi ⊢
        by_cases hne : idx = i
        · subst hne
          rw [getD_set_self _ _ _ _ hidx]
          exact hlt
        · rw [getD_set_other _ _ _ _ _ hne] at hdi ⊢
          exact hD i hi hdi)
    fuel _ s
    ⟨npInit_inv _, by
      intro i hi hd
      simp only [npInit, List.getD_eq_getElem?_getD, List.getElem?_replicate] at hd
      split at hd <;> simp at hd⟩ h
  simp only [decide_eq_false_iff_not, not_lt] at hg
  have hall := all_of_countP_ge (fun b : Bool => b) s.done
    (by rw [← hI.cnt, hI.len]; exact hg)
  have hl := (rows_of_batch a false batch s.p hI.inp).1
  intro x hx
  obtain ⟨i, hi, e⟩ := List.getElem_of_mem hx
  obtain ⟨y, hy, _, _, hb, _⟩ := rows_index a false batch s.p hI.inp i (hl ▸ hi)
  rw [List.getElem?_eq_getElem hi, e] at hy
  simp only [Option.some.injEq] at hy
  rw [hy, ← hb]
  exact hD i (hl ▸ hi) (hall _ (getD_mem s.done i false (by rw [hI.len, hl]; exact hi)))

theorem sjf_total_wait (batch : List Input) (h0 : ∀ x ∈ batch, x.at_ = 0 ∧ 0 ≤ x.bt)
    (fuel : Nat) (r : Report) (h : SJF_NonPreemptive fuel batch = some r) :
    ∃ d : List Int, d.Sorted (fun a b => a ≤ b) ∧ d.Perm (batch.map fun x => x.bt) ∧
      r.totalWT = waitSum d := by
  unfold SJF_NonPreemptive at h
  cases hl : npLoop (fun q => q.bt) fuel (npInit (readProcs false false 0 batch)) with
  | none => rw [hl] at h; simp at h
  | some s =>
    rw [hl] at h
    simp only [Option.map_some', Option.some.injEq] at h
    subst h
    have hkeys := sjf_report_keys false batch fuel s hl
    have hrows : ∀ t : NPState, NPInv (readProcs false false 0 batch) t →
        ∀ x ∈ t.p, x.at_ = 0 ∧ 0 ≤ x.bt ∧ x.bt < INT_MAX := by
      intro t ht x hx
      obtain ⟨y, hy, e1, e2, _⟩ := (rows_of_batch false false batch t.p ht.inp).2 x hx
      rw [e1, e2]
      exact ⟨(h0 y hy).1, (h0 y hy).2, hkeys y hy⟩
    obtain ⟨⟨hI, d, hs, _, _, hw, _, hp⟩, hg⟩ := whileLoop_inv _ _
      (fun s : NPState => NPInv (readProcs false false 0 batch) s ∧
        ∃ d : List Int, d.Sorted (fun a b => a ≤ b) ∧
          (∀ b ∈ d, ∀ i, i < s.p.length → s.done.getD i false = false →
            b ≤ (s.p.getD i default).bt) ∧
          (∀ b ∈ d, 0 ≤ b) ∧ s.totalWT = waitSum d ∧ s.time = d.sum ∧
          d.Perm (doneBursts s.p s.done))
      (by
        intro x y ⟨hI, hJ⟩ hgx hb
        simp only [Option.some.injEq] at hb
        subst hb
        exact ⟨npBody_inv _ _ x hI,
          sjf_body_wait _ x hI (hrows x hI) (by simpa using hgx) hJ⟩)
      fuel _ s
      ⟨npInit_inv _, [], List.sorted_nil, by intro b hb; simp at hb, by intro b hb; simp at hb,
        rfl, rfl, by
          simp only [npInit]
          rw [doneBursts_none]⟩ hl
    simp only [decide_eq_false_iff_not, not_lt] at hg
    have hall := all_of_countP_ge (fun b : Bool => b) s.done
      (by rw [← hI.cnt, hI.len]; exact hg)
    refine ⟨d, hs, ?_, hw⟩
    rw [doneBursts_all s.p s.done hI.len (fun d hd => by simpa using hall d hd),
      map_bt_of_inp _ _ hI.inp, readProcs_bt] at hp
    exact hp

end Scheduling

namespace Scheduling

/-- SJF against FCFS over exact integers: for every batch in which all
processes arrive at time 0 with
bursts at least 1, and every report that SJF non-preemptive produces on
it, the total waiting time of the report is at most the total waiting time
that FCFS computes on the same batch (whatever order the library sort
gives the equal arrival times), and so is the mean, both being divided by
the same number of processes.  SJF produces its report within (sum of
bursts) iterations when the batch is non-empty and its burst times are
below `INT_MAX`. -/
theorem sjf_waiting_le_fcfs (S : Sorter) (batch : List Input)
    (h0 : ∀ x ∈ batch, x.at_ = 0 ∧ 1 ≤ x.bt) :
    (∀ fuel r, SJF_NonPreemptive fuel batch = some r →
      r.totalWT ≤ (FCFS S batch).totalWT ∧ r.n = (FCFS S batch).n ∧
      r.avgWT ≤ (FCFS S batch).avgWT) ∧
    (batch ≠ [] → (∀ x ∈ batch, x.bt < INT_MAX) →
      ∃ r, ∀ k, SJF_NonPreemptive ((sumBt batch).toNat + k) batch = some r) := by
  have h0' : ∀ x ∈ batch, x.at_ = 0 ∧ 0 ≤ x.bt :=
    fun x hx => ⟨(h0 x hx).1, by have := (h0 x hx).2; omega⟩
  refine ⟨?_, ?_⟩
  · intro fuel r h
    obtain ⟨d, hs, hp, hw⟩ := sjf_total_wait batch h0' fuel r h
    have hperm : d.Perm ((S.sort (readProcs false false 0 batch)).map fun x => x.bt) := by
      refine hp.trans (List.Perm.symm ?_)
      have := (S.perm (readProcs false false 0 batch)).map (fun x => x.bt)
      rw [readProcs_bt] at this
      exact this
    have hle : r.totalWT ≤ (FCFS S batch).totalWT := by
      rw [hw, fcfs_total_wait S batch h0']
      exact waitSum_sorted_le _ _ hperm hs
    have hn : r.n = (FCFS S batch).n := by
      unfold SJF_NonPreemptive at h
      simp only [Option.map_eq_some'] at h
      obtain ⟨s, _, rfl⟩ := h
      rfl
    refine ⟨hle, hn, ?_⟩
    unfold Report.avgWT
    rw [hn]
    exact div_le_div_of_nonneg_right (by exact_mod_cast hle) (by positivity)
  · intro hne hbt
    have hv : ValidBatch batch := ⟨hne, fun x hx => ⟨by rw [(h0 x hx).1], (h0 x hx).2⟩⟩
    obtain ⟨r, h1, _⟩ := np_report_term (fun q => q.bt) (fun _ _ _ _ => rfl) false batch hv
      (fun x hx => bt_below false batch hbt _ rfl x hx)
    rw [maxAt_zero batch (fun x hx => (h0 x hx).1), zero_add] at h1
    exact ⟨r, h1⟩

end Scheduling

namespace Scheduling

/-! ## Round Robin with a large quantum against FCFS (C24) -/

end Scheduling

namespace Scheduling

end Scheduling

namespace Scheduling

theorem sortByAt_of_sorted :
    ∀ l : List Process, l.Pairwise (fun a b => a.at_ ≤ b.at_) → sortByAt l = l := by
  intro l
  induction l with
  | nil => intro _; rfl
  | cons x xs ih =>
    intro h
    obtain ⟨h1, h2⟩ := List.pairwise_cons.mp h
    rw [sortByAt, ih h2]
    cases xs with
    | nil => rfl
    | cons y ys =>
      unfold insertByAt
      have := h1 y (List.mem_cons_self _ _)
      rw [if_neg (by omega)]

theorem readProcs_pairwise (a b : Bool) (batch : List Input)
    (h : batch.Pairwise (fun x y => x.at_ ≤ y.at_)) :
    ∀ k, (readProcs a b k batch).Pairwise (fun x y => x.at_ ≤ y.at_) := by
  induction batch with
  | nil => intro k; simp [readProcs]
  | cons x xs ih =>
    intro k
    obtain ⟨h1, h2⟩ := List.pairwise_cons.mp h
    rw [readProcs, List.pairwise_cons]
    refine ⟨?_, ih h2 (k + 1)⟩
    intro z hz
    obtain ⟨y, hy, e, _⟩ := readProcs_mem a b xs (k + 1) z hz
    rw [e]
    exact h1 y hy

/-- A stable sort leaves a vector whose arrival times are non-decreasing in
input order as it is read. -/
theorem stable_sort_keeps_input_order (batch : List Input)
    (h : batch.Pairwise (fun x y => x.at_ ≤ y.at_)) :
    insertionSorter.sort (readProcs false false 0 batch) = readProcs false false 0 batch :=
  sortByAt_of_sorted _ (readProcs_pairwise false false batch h 0)

end Scheduling

namespace MemoryPlacement

open Scheduling

theorem markAt_length (b : List Block) (j : Nat) : (markAt b j).length = b.length := by
  unfold markAt
  rw [List.length_set]

theorem markAt_size (b : List Block) (j : Nat) :
    (markAt b j).map (fun x => x.size) = b.map (fun x => x.size) := by
  unfold markAt
  rw [List.map_set]
  apply List.ext_getElem?
  intro i
  rw [List.getElem?_set]
  split
  · next h =>
    subst h
    split
    · next hl =>
      rw [List.length_map] at hl
      rw [List.getElem?_map, List.getElem?_eq_getElem hl, List.getD_eq_getElem _ _ hl]
      rfl
    · next hl =>
      rw [List.getElem?_eq_none (by omega)]
  · rfl

theorem size_getD (sizes : List Int) (b : List Block) (h : b.map (fun x => x.size) = sizes)
    (j : Nat) (hj : j < sizes.length) : (b.getD j default).size = sizes.getD j 0 := by
  subst h
  rw [List.length_map] at hj
  rw [List.getD_eq_getElem _ _ hj, List.getD_eq_getElem _ _ (by rw [List.length_map]; exact hj),
    List.getElem_map]

theorem fitsAt_true (b : List Block) (j : Nat) (need : Int) :
    fitsAt b j need = true ↔
      (b.getD j default).allocated = false ∧ need ≤ (b.getD j default).size := by
  unfold fitsAt
  simp

theorem fitsAt_false (b : List Block) (j : Nat) (need : Int) (h : fitsAt b j need = false) :
    (b.getD j default).allocated = true ∨ (b.getD j default).size < need := by
  by_cases ha : (b.getD j default).allocated = true
  · exact Or.inl ha
  · right
    by_contra hc
    have : fitsAt b j need = true :=
      (fitsAt_true b j need).mpr ⟨by simpa using ha, by omega⟩
    rw [h] at this
    exact absurd this (by decide)

theorem inv_init (sizes process : List Int) :
    Inv sizes process 0 (readBlocks sizes) (List.replicate process.length (-1)) := by
  have hrep : ∀ i, (List.replicate process.length (-1 : Int)).getD i (-1) = -1 := by
    intro i
    rw [List.getD_eq_getElem?_getD, List.getElem?_replicate]
    split <;> rfl
  refine ⟨?_, by simp, fun i _ => hrep i, ?_, fun i hi => absurd hi (Nat.not_lt_zero i),
    fun i i' hi => absurd hi (Nat.not_lt_zero i), fun i hi => absurd hi (Nat.not_lt_zero i)⟩
  · unfold readBlocks
    rw [List.map_map]
    exact List.map_id _
  · intro j hj
    constructor
    · intro h
      unfold readBlocks at h
      rw [List.getD_eq_getElem _ _ (by rw [List.length_map]; exact hj), List.getElem_map] at h
      exact absurd h (by simp)
    · rintro ⟨i, hi, _⟩
      exact absurd hi (Nat.not_lt_zero i)

theorem inv_step (sizes process : List Int) (k : Nat) (b b' : List Block) (a a' : List Int)
    (hk : k < process.length) (hI : Inv sizes process k b a)
    (hs : StepOK (process.getD k 0) k b a b' a') : Inv sizes process (k + 1) b' a' := by
  have hbl : b.length = sizes.length := by
    rw [← hI.bsz, List.length_map]
  rcases hs with ⟨j, hj, hfit, rfl, rfl⟩ | ⟨hb, ha, hno⟩
  · obtain ⟨hfree, hsz⟩ := (fitsAt_true b j _).mp hfit
    have hka : k < a.length := by rw [hI.alen]; exact hk
    have hself : (a.set k (j : Int)).getD k (-1) = (j : Int) := getD_set_self _ _ _ _ hka
    have hoth : ∀ i, i ≠ k → (a.set k (j : Int)).getD i (-1) = a.getD i (-1) :=
      fun i hi => getD_set_other _ _ _ _ _ (Ne.symm hi)
    have hjn : j < sizes.length := hbl ▸ hj
    have hnew : ∀ i, i < k → a.getD i (-1) ≠ (j : Int) := by
      intro i hi e
      have := (hI.flag j hjn).mpr ⟨i, hi, e⟩
      rw [hfree] at this
      exact absurd this (by decide)
    refine ⟨by rw [markAt_size]; exact hI.bsz, by rw [List.length_set]; exact hI.alen, ?_, ?_,
      ?_, ?_, ?_⟩
    · intro i hi
      rw [hoth i (by omega)]
      exact hI.rest i (by omega)
    · intro j' hj'
      by_cases hjj : j' = j
      · subst hjj
        constructor
        · intro _
          exact ⟨k, Nat.lt_succ_self k, hself⟩
        · intro _
          unfold markAt
          rw [getD_set_self _ _ _ _ hj]
      · have hb : ((markAt b j).getD j' default).allocated = (b.getD j' default).allocated := by
          unfold markAt
          rw [getD_set_other _ _ _ _ _ (Ne.symm hjj)]
        rw [hb, hI.flag j' hj']
        constructor
        · rintro ⟨i, hi, e⟩
          exact ⟨i, by omega, by rw [hoth i (by omega)]; exact e⟩
        · rintro ⟨i, hi, e⟩
          by_cases hik : i = k
          · subst hik
            rw [hself] at e
            exact absurd (Int.ofNat_inj.mp e) (Ne.symm hjj)
          · exact ⟨i, by omega, by rw [← hoth i hik]; exact e⟩
    · intro i hi
      by_cases hik : i = k
      · subst hik
        right
        exact ⟨j, hjn, hself, by rw [← size_getD sizes b hI.bsz j hjn]; exact hsz⟩
      · rw [hoth i hik]
        exact hI.ok i (by omega)
    · intro i i' hi hi' e hne
      by_cases hik : i = k
      · by_cases hik' : i' = k
        · rw [hik, hik']
        · exfalso
          rw [hik, hself, hoth i' hik'] at e
          exact hnew i' (by omega) e
      · by_cases hik' : i' = k
        · exfalso
          rw [hik', hself, hoth i hik] at e
          exact hnew i (by omega) e.symm
        · rw [hoth i hik, hoth i' hik'] at e
          rw [hoth i hik] at hne
          exact hI.inj i i' (by omega) (by omega) e hne
    · intro i hi e j' hj'
      by_cases hik : i = k
      · exfalso
        rw [hik, hself] at e
        omega
      · rw [hoth i hik] at e
        rcases hI.unplaced i (by omega) e j' hj' with ⟨i', hi', e'⟩ | h
        · exact Or.inl ⟨i', hi', by rw [hoth i' (by omega)]; exact e'⟩
        · exact Or.inr h
  · rw [hb, ha]
    have hkk : a.getD k (-1) = -1 := hI.rest k (le_refl k)
    refine ⟨hI.bsz, hI.alen, fun i hi => hI.rest i (by omega), ?_, ?_, ?_, ?_⟩
    · intro j hj
      rw [hI.flag j hj]
      constructor
      · rintro ⟨i, hi, e⟩
        exact ⟨i, by omega, e⟩
      · rintro ⟨i, hi, e⟩
        by_cases hik : i = k
        · rw [hik, hkk] at e
          omega
        · exact ⟨i, by omega, e⟩
    · intro i hi
      by_cases hik : i = k
      · rw [hik]
        exact Or.inl hkk
      · exact hI.ok i (by omega)
    · intro i i' hi hi' e hne
      by_cases hik : i = k
      · rw [hik] at hne
        exact absurd hkk hne
      · by_cases hik' : i' = k
        · rw [hik', hkk] at e
          exact absurd e.symm hne
        · exact hI.inj i i' (by omega) (by omega) e hne
    · intro i hi e j hj
      by_cases hik : i = k
      · subst hik
        rcases fitsAt_false b j _ (hno j (hbl ▸ hj)) with h | h
        · exact Or.inl ((hI.flag j hj).mp h)
        · right
          rw [← size_getD sizes b hI.bsz j hj]
          exact h
      · exact hI.unplaced i (by omega) e j hj

theorem inv_sound (sizes process : List Int) (b : List Block) (a : List Int)
    (hI : Inv sizes process process.length b a) : Sound sizes process a :=
  ⟨hI.alen, fun i hi => ⟨hI.ok i hi, fun i' hi' e hne => hI.inj i i' hi hi' e hne,
    hI.unplaced i hi⟩⟩

theorem firstFitInner_spec (need : Int) (i : Nat) (s : MState) :
    ∀ k j, j + k = s.blocks.length → (∀ j', j' < j → fitsAt s.blocks j' need = false) →
      StepOK need i s.blocks s.allocation (firstFitInner need i s k j).blocks
        (firstFitInner need i s k j).allocation := by
  intro k
  induction k with
  | zero =>
    intro j hj hno
    exact Or.inr ⟨rfl, rfl, fun j' hj' => hno j' (by omega)⟩
  | succ k ih =>
    intro j hj hno
    unfold firstFitInner
    by_cases hf : fitsAt s.blocks j need = true
    · rw [if_pos hf]
      exact Or.inl ⟨j, by omega, hf, rfl, rfl⟩
    · rw [if_neg hf]
      apply ih (j + 1) (by omega)
      intro j' hj'
      rcases Nat.lt_or_eq_of_le (Nat.lt_succ_iff.mp hj') with h | h
      · exact hno j' h
      · rw [h]
        simpa using hf

theorem fitScan_spec (better : Int → Int → Bool) (b : List Block) (need : Int) :
    (fitScan better b need = -1 ∧ ∀ j, j < b.length → fitsAt b j need = false) ∨
    (∃ j, j < b.length ∧ fitScan better b need = (j : Int) ∧ fitsAt b j need = true) := by
  unfold fitScan
  apply foldl_range_inv _
    (fun k idx => (idx = -1 ∧ ∀ j, j < k → fitsAt b j need = false) ∨
      (∃ j, j < k ∧ idx = (j : Int) ∧ fitsAt b j need = true))
  · exact Or.inl ⟨rfl, fun j hj => absurd hj (Nat.not_lt_zero j)⟩
  · intro k idx _ h
    by_cases hf : fitsAt b k need = true
    · simp only [hf, if_true]
      split
      · exact Or.inr ⟨k, Nat.lt_succ_self k, rfl, hf⟩
      · next hc =>
        rcases h with ⟨h1, _⟩ | ⟨j, hj, e, hfj⟩
        · simp [h1] at hc
        · exact Or.inr ⟨j, by omega, e, hfj⟩
    · simp only [hf]
      rcases h with ⟨h1, h2⟩ | ⟨j, hj, e, hfj⟩
      · left
        refine ⟨h1, ?_⟩
        intro j hj
        rcases Nat.lt_or_eq_of_le (Nat.lt_succ_iff.mp hj) with h | h
        · exact h2 j h
        · rw [h]
          simpa using hf
      · exact Or.inr ⟨j, by omega, e, hfj⟩

theorem fitBody_spec (better : Int → Int → Bool) (process : List Int) (s : MState) (i : Nat) :
    StepOK (process.getD i 0) i s.blocks s.allocation (fitBody better process s i).blocks
      (fitBody better process s i).allocation := by
  unfold fitBody
  rcases fitScan_spec better s.blocks (process.getD i 0) with ⟨h1, h2⟩ | ⟨j, hj, e, hf⟩
  · simp only [h1, ne_eq, not_true_eq_false, if_false]
    exact Or.inr ⟨rfl, rfl, h2⟩
  · have hne : (j : Int) ≠ -1 := by omega
    simp only [e, ne_eq, hne, not_false_eq_true, if_true, Int.toNat_ofNat]
    exact Or.inl ⟨j, hj, hf, rfl, rfl⟩

theorem rotate_covers (n pos idx : Nat) (h : idx < n) :
    ∃ j, j < n ∧ (pos + j) % n = idx := by
  have hp : pos % n < n := Nat.mod_lt _ (by omega)
  by_cases hc : pos % n ≤ idx
  · refine ⟨idx - pos % n, by omega, ?_⟩
    rw [Nat.add_mod, Nat.mod_eq_of_lt (show idx - pos % n < n by omega),
      show pos % n + (idx - pos % n) = idx by omega]
    exact Nat.mod_eq_of_lt h
  · refine ⟨idx + n - pos % n, by omega, ?_⟩
    rw [Nat.add_mod, Nat.mod_eq_of_lt (show idx + n - pos % n < n by omega),
      show pos % n + (idx + n - pos % n) = idx + n by omega, Nat.add_mod_right]
    exact Nat.mod_eq_of_lt h

theorem nextFitInner_spec (need : Int) (i : Nat) (s : NState) :
    ∀ k j, j + k = s.blocks.length →
      (∀ j', j' < j → fitsAt s.blocks ((s.pos + j') % s.blocks.length) need = false) →
      StepOK need i s.blocks s.allocation (nextFitInner need i s k j).blocks
        (nextFitInner need i s k j).allocation := by
  intro k
  induction k with
  | zero =>
    intro j hj hno
    refine Or.inr ⟨rfl, rfl, ?_⟩
    intro idx hidx
    obtain ⟨j', hj', e⟩ := rotate_covers s.blocks.length s.pos idx hidx
    rw [← e]
    exact hno j' (by omega)
  | succ k ih =>
    intro j hj hno
    unfold nextFitInner
    by_cases hf : fitsAt s.blocks ((s.pos + j) % s.blocks.length) need = true
    · rw [if_pos hf]
      exact Or.inl ⟨(s.pos + j) % s.blocks.length, Nat.mod_lt _ (by omega), hf, rfl, rfl⟩
    · rw [if_neg hf]
      apply ih (j + 1) (by omega)
      intro j' hj'
      rcases Nat.lt_or_eq_of_le (Nat.lt_succ_iff.mp hj') with h | h
      · exact hno j' h
      · rw [h]
        simpa using hf

theorem firstFit_inv (sizes process : List Int) :
    Inv sizes process process.length (firstFit (readBlocks sizes) process).blocks
      (firstFit (readBlocks sizes) process).allocation := by
  unfold firstFit
  apply foldl_range_inv _ (fun k (s : MState) => Inv sizes process k s.blocks s.allocation)
  · exact inv_init sizes process
  · intro k s hk hI
    exact inv_step sizes process k _ _ _ _ hk hI
      (firstFitInner_spec _ k s s.blocks.length 0 (by omega)
        (fun j hj => absurd hj (Nat.not_lt_zero j)))

theorem fit_inv (better : Int → Int → Bool) (sizes process : List Int) :
    Inv sizes process process.length
      ((List.range process.length).foldl (fitBody better process)
        { blocks := readBlocks sizes, allocation := List.replicate process.length (-1) }).blocks
      ((List.range process.length).foldl (fitBody better process)
        { blocks := readBlocks sizes,
          allocation := List.replicate process.length (-1) }).allocation := by
  apply foldl_range_inv _ (fun k (s : MState) => Inv sizes process k s.blocks s.allocation)
  · exact inv_init sizes process
  · intro k s hk hI
    exact inv_step sizes process k _ _ _ _ hk hI (fitBody_spec better process s k)

theorem nextFit_inv (sizes process : List Int) :
    Inv sizes process process.length (nextFit (readBlocks sizes) process).blocks
      (nextFit (readBlocks sizes) process).allocation := by
  unfold nextFit
  apply foldl_range_inv _ (fun k (s : NState) => Inv sizes process k s.blocks s.allocation)
  · exact inv_init sizes process
  · intro k s hk hI
    exact inv_step sizes process k _ _ _ _ hk hI
      (nextFitInner_spec _ k s s.blocks.length 0 (by omega)
        (fun j hj => absurd hj (Nat.not_lt_zero j)))

/-- C27 (the four placement routines compute sound allocations): for every
list of block sizes and every list of process sizes, the vector
`allocation` that `firstFit`, `bestFit`, `worstFit` and `nextFit` compute
from the blocks as `main` reads them has one entry per process; every
entry is -1 or the index of an existing block whose size is at least the
size of the process; no block index is the entry of two processes; and an
entry is -1 only if, at the turn of that process, every block was held by
an earlier process or was smaller than the process. -/
theorem placement_allocations_sound (sizes process : List Int) :
    Sound sizes process (firstFit (readBlocks sizes) process).allocation ∧
    Sound sizes process (bestFit (readBlocks sizes) process).allocation ∧
    Sound sizes process (worstFit (readBlocks sizes) process).allocation ∧
    Sound sizes process (nextFit (readBlocks sizes) process).allocation :=
  ⟨inv_sound _ _ _ _ (firstFit_inv sizes process),
    inv_sound _ _ _ _ (fit_inv _ sizes process),
    inv_sound _ _ _ _ (fit_inv _ sizes process),
    inv_sound _ _ _ _ (nextFit_inv sizes process)⟩

end MemoryPlacement

namespace PageReplacement

theorem card_sdiff_le_of_card_le (S T : Finset Int) (h : S.card ≤ T.card) :
    (S \ T).card ≤ (T \ S).card := by
  have h1 := Finset.card_sdiff_add_card_inter S T
  have h2 := Finset.card_sdiff_add_card_inter T S
  rw [Finset.inter_comm T S] at h2
  omega

theorem run_follow (k : Nat) (S1 T : Finset Int) (r : Int) (l : List Int) (n' : Nat)
    (hr : r ∈ S1) (hS : S1.card ≤ k) (hT : T.card ≤ k)
    (ih : ∀ T1 : Finset Int, T1.card ≤ k → ∃ m, m ≤ n' + (S1 \ T1).card ∧ Run k T1 l m) :
    ∃ m, m ≤ n' + (S1 \ T).card ∧ Run k T (r :: l) m := by
  by_cases hrT : r ∈ T
  · obtain ⟨m, hm, hrun⟩ := ih T hT
    exact ⟨m, hm, Run.hit T r l m hrT hrun⟩
  · have hmem : r ∈ S1 \ T := Finset.mem_sdiff.mpr ⟨hr, hrT⟩
    have hpos : 1 ≤ (S1 \ T).card := Finset.card_pos.mpr ⟨r, hmem⟩
    by_cases hc : T.card < k
    · have hcard : (insert r T).card ≤ k := by
        rw [Finset.card_insert_of_not_mem hrT]
        omega
      obtain ⟨m, hm, hrun⟩ := ih (insert r T) hcard
      have hd : (S1 \ insert r T).card + 1 = (S1 \ T).card := by
        rw [Finset.sdiff_insert, Finset.card_erase_of_mem hmem]
        omega
      exact ⟨m + 1, by omega, Run.load T r l m hrT hc hrun⟩
    · have hle := card_sdiff_le_of_card_le S1 T (by omega)
      obtain ⟨y, hy⟩ := Finset.card_pos.mp (show 0 < (T \ S1).card by omega)
      obtain ⟨hyT, hyS⟩ := Finset.mem_sdiff.mp hy
      have hrne : r ∉ T.erase y := fun h => hrT (Finset.mem_of_mem_erase h)
      have hcard : (insert r (T.erase y)).card ≤ k := by
        rw [Finset.card_insert_of_not_mem hrne, Finset.card_erase_of_mem hyT]
        have := Finset.card_pos.mpr ⟨y, hyT⟩
        omega
      obtain ⟨m, hm, hrun⟩ := ih (insert r (T.erase y)) hcard
      have hsub : S1 \ insert r (T.erase y) ⊆ (S1 \ T).erase r := by
        intro a ha
        obtain ⟨ha1, ha2⟩ := Finset.mem_sdiff.mp ha
        have har : a ≠ r := fun e => ha2 (by rw [e]; exact Finset.mem_insert_self r _)
        have hay : a ≠ y := fun e => hyS (by rw [← e]; exact ha1)
        refine Finset.mem_erase.mpr ⟨har, Finset.mem_sdiff.mpr ⟨ha1, fun haT => ?_⟩⟩
        exact ha2 (Finset.mem_insert_of_mem (Finset.mem_erase.mpr ⟨hay, haT⟩))
      have hd : (S1 \ insert r (T.erase y)).card + 1 ≤ (S1 \ T).card := by
        have := Finset.card_le_card hsub
        rw [Finset.card_erase_of_mem hmem] at this
        omega
      exact ⟨m + 1, by omega, Run.evict T r y l m hrT hc hyT hrun⟩

theorem sdiff_insert_card_le (S T : Finset Int) (r : Int) (S1 : Finset Int)
    (h : S1 ⊆ insert r S) : (S1 \ T).card ≤ (S \ T).card + 1 := by
  have hsub : S1 \ T ⊆ insert r (S \ T) := by
    intro a ha
    obtain ⟨ha1, ha2⟩ := Finset.mem_sdiff.mp ha
    rcases Finset.mem_insert.mp (h ha1) with e | e
    · rw [e]; exact Finset.mem_insert_self _ _
    · exact Finset.mem_insert_of_mem (Finset.mem_sdiff.mpr ⟨e, ha2⟩)
  exact (Finset.card_le_card hsub).trans (Finset.card_insert_le _ _)

/-- A run from `S` can be followed from any other resident set `T` at the
cost of at most one more fault for every page of `S` that `T` lacks. -/
theorem run_lipschitz (k : Nat) (S : Finset Int) (l : List Int) (n : Nat) (h : Run k S l n) :
    S.card ≤ k → ∀ T : Finset Int, T.card ≤ k → ∃ m, m ≤ n + (S \ T).card ∧ Run k T l m := by
  induction h with
  | done S =>
    intro _ T _
    exact ⟨0, by omega, Run.done T⟩
  | hit S r l n hr _ ih =>
    intro hS T hT
    exact run_follow k S T r l n hr hS hT (ih hS)
  | load S r l n hr hc _ ih =>
    intro hS T hT
    have hS' : (insert r S).card ≤ k := by
      rw [Finset.card_insert_of_not_mem hr]
      omega
    obtain ⟨m, hm, hrun⟩ := run_follow k (insert r S) T r l n (Finset.mem_insert_self r S) hS' hT
      (ih hS')
    have := sdiff_insert_card_le S T r (insert r S) (Finset.Subset.refl _)
    exact ⟨m, by omega, hrun⟩
  | evict S r x l n hr hc hx _ ih =>
    intro hS T hT
    have hrne : r ∉ S.erase x := fun h => hr (Finset.mem_of_mem_erase h)
    have hS' : (insert r (S.erase x)).card ≤ k := by
      rw [Finset.card_insert_of_not_mem hrne, Finset.card_erase_of_mem hx]
      have := Finset.card_pos.mpr ⟨x, hx⟩
      omega
    obtain ⟨m, hm, hrun⟩ := run_follow k (insert r (S.erase x)) T r l n
      (Finset.mem_insert_self r _) hS' hT (ih hS')
    have := sdiff_insert_card_le S T r (insert r (S.erase x))
      (Finset.insert_subset_insert r (Finset.erase_subset x S))
    exact ⟨m, by omega, hrun⟩

/-- The exchange step of the optimality argument: with all frames in use,
keeping `b` instead of `a` costs no fault when `a` is not referenced before
`b` is (in particular when `a` is never referenced again). -/
theorem run_exchange (k : Nat) :
    ∀ (l : List Int) (C : Finset Int) (a b : Int) (n : Nat), a ∉ C → b ∉ C → a ≠ b →
      C.card + 1 = k → l.indexOf b ≤ l.indexOf a → Run k (insert a C) l n →
      ∃ m, m ≤ n ∧ Run k (insert b C) l m := by
  intro l
  induction l with
  | nil =>
    intro C a b n _ _ _ _ _ h
    cases h
    exact ⟨0, le_refl _, Run.done _⟩
  | cons r l ih =>
    intro C a b n ha hb hab hk hidx h
    have hcardA : (insert a C).card = k := by
      rw [Finset.card_insert_of_not_mem ha]; exact hk
    have hcardB : (insert b C).card = k := by
      rw [Finset.card_insert_of_not_mem hb]; exact hk
    have hra : r ≠ a := by
      intro e
      subst e
      rw [List.indexOf_cons_self, List.indexOf_cons_ne _ (fun e => hab e)] at hidx
      omega
    cases h with
    | hit _ _ _ _ hr h' =>
      have hrC : r ∈ C := by
        rcases Finset.mem_insert.mp hr with e | e
        · exact absurd e hra
        · exact e
      have hrb : r ≠ b := fun e => hb (by rw [← e]; exact hrC)
      rw [List.indexOf_cons_ne _ hrb, List.indexOf_cons_ne _ hra] at hidx
      obtain ⟨m, hm, hrun⟩ := ih C a b n ha hb hab hk (by omega) h'
      exact ⟨m, hm, Run.hit _ r l m (Finset.mem_insert_of_mem hrC) hrun⟩
    | load _ _ _ n' hr hc h' =>
      omega
    | evict _ _ x _ n' hr hc hx h' =>
      have hrC : r ∉ C := fun e => hr (Finset.mem_insert_of_mem e)
      have hrne : r ∉ (insert a C).erase x := fun e => hr (Finset.mem_of_mem_erase e)
      have hS' : (insert r ((insert a C).erase x)).card ≤ k := by
        rw [Finset.card_insert_of_not_mem hrne, Finset.card_erase_of_mem hx]
        have := Finset.card_pos.mpr ⟨x, hx⟩
        omega
      by_cases hrb : r = b
      · subst hrb
        obtain ⟨m, hm, hrun⟩ := run_lipschitz k _ l n' h' hS' (insert r C) (by omega)
        have hsub : insert r ((insert a C).erase x) \ insert r C ⊆ {a} := by
          intro y hy
          obtain ⟨hy1, hy2⟩ := Finset.mem_sdiff.mp hy
          rcases Finset.mem_insert.mp hy1 with e | e
          · exact absurd (by rw [e]; exact Finset.mem_insert_self r C) hy2
          · rcases Finset.mem_insert.mp (Finset.mem_of_mem_erase e) with e' | e'
            · exact Finset.mem_singleton.mpr e'
            · exact absurd (Finset.mem_insert_of_mem e') hy2
        have hc1 := Finset.card_le_card hsub
        rw [Finset.card_singleton] at hc1
        exact ⟨m, by omega, Run.hit _ r l m (Finset.mem_insert_self r C) hrun⟩
      · have hrB : r ∉ insert b C := by
          intro e
          rcases Finset.mem_insert.mp e with e' | e'
          · exact hrb e'
          · exact hrC e'
        rw [List.indexOf_cons_ne _ hrb, List.indexOf_cons_ne _ hra] at hidx
        by_cases hxa : x = a
        · subst hxa
          rw [Finset.erase_insert ha] at h'
          have hrun : Run k (insert r ((insert b C).erase b)) l n' := by
            rw [Finset.erase_insert hb]; exact h'
          exact ⟨n' + 1, le_refl _,
            Run.evict _ r b l n' hrB (by omega) (Finset.mem_insert_self b C) hrun⟩
        · have hxC : x ∈ C := by
            rcases Finset.mem_insert.mp hx with e | e
            · exact absurd e hxa
            · exact e
          have hxb : x ≠ b := fun e => hb (by rw [← e]; exact hxC)
          have e1 : insert r ((insert a C).erase x) = insert a (insert r (C.erase x)) := by
            rw [Finset.erase_insert_of_ne (Ne.symm hxa), Finset.Insert.comm]
          have e2 : insert r ((insert b C).erase x) = insert b (insert r (C.erase x)) := by
            rw [Finset.erase_insert_of_ne (Ne.symm hxb), Finset.Insert.comm]
          rw [e1] at h'
          have ha' : a ∉ insert r (C.erase x) := by
            intro e
            rcases Finset.mem_insert.mp e with e' | e'
            · exact hra e'.symm
            · exact ha (Finset.mem_of_mem_erase e')
          have hb' : b ∉ insert r (C.erase x) := by
            intro e
            rcases Finset.mem_insert.mp e with e' | e'
            · exact hrb e'.symm
            · exact hb (Finset.mem_of_mem_erase e')
          have hk' : (insert r (C.erase x)).card + 1 = k := by
            rw [Finset.card_insert_of_not_mem (fun e => hrC (Finset.mem_of_mem_erase e)),
              Finset.card_erase_of_mem hxC]
            have := Finset.card_pos.mpr ⟨x, hxC⟩
            omega
          obtain ⟨m, hm, hrun⟩ := ih _ a b n' ha' hb' hab hk' (by omega) h'
          rw [← e2] at hrun
          exact ⟨m + 1, by omega,
            Run.evict _ r x l m hrB (by omega) (Finset.mem_insert_of_mem hxC) hrun⟩

end PageReplacement

namespace PageReplacement

theorem foldlM_inv {σ α : Type} (f : σ → α → Option σ) (I : List α → σ → Prop)
    (hstep : ∀ x rest st, I (x :: rest) st → ∃ st', f st x = some st' ∧ I rest st') :
    ∀ (l : List α) (st : σ), I l st → ∃ st', l.foldlM f st = some st' ∧ I [] st' := by
  intro l
  induction l with
  | nil =>
    intro st h
    exact ⟨st, rfl, h⟩
  | cons x rest ih =>
    intro st h
    obtain ⟨st1, h1, hI1⟩ := hstep x rest st h
    obtain ⟨st2, h2, hI2⟩ := ih st1 hI1
    refine ⟨st2, ?_, hI2⟩
    rw [List.foldlM_cons, h1]
    exact h2

theorem foldl_inv {σ α : Type} (f : σ → α → σ) (I : List α → σ → Prop)
    (hstep : ∀ x rest st, I (x :: rest) st → I rest (f st x)) :
    ∀ (l : List α) (st : σ), I l st → I [] (l.foldl f st) := by
  intro l
  induction l with
  | nil =>
    intro st h
    exact h
  | cons x rest ih =>
    intro st h
    rw [List.foldl_cons]
    exact ih _ (hstep x rest st h)

theorem setInsert_perm (p : Int) (s : List Int) (h : p ∉ s) : (setInsert p s).Perm (p :: s) := by
  unfold setInsert
  rw [if_neg h]
  exact List.perm_orderedInsert _ p s

theorem setInsert_nodup (p : Int) (s : List Int) (h : p ∉ s) (hs : s.Nodup) :
    (setInsert p s).Nodup :=
  (setInsert_perm p s h).nodup_iff.mpr (List.nodup_cons.mpr ⟨h, hs⟩)

theorem setInsert_length (p : Int) (s : List Int) (h : p ∉ s) :
    (setInsert p s).length = s.length + 1 := by
  rw [(setInsert_perm p s h).length_eq, List.length_cons]

theorem setInsert_toFinset (p : Int) (s : List Int) (h : p ∉ s) :
    (setInsert p s).toFinset = insert p s.toFinset := by
  rw [List.toFinset_eq_of_perm _ _ (setInsert_perm p s h), List.toFinset_cons]

theorem setInsert_mem (p : Int) (s : List Int) (h : p ∉ s) (x : Int) :
    x ∈ setInsert p s ↔ x = p ∨ x ∈ s := by
  rw [(setInsert_perm p s h).mem_iff, List.mem_cons]

theorem setErase_nodup (x : Int) (s : List Int) (hs : s.Nodup) : (setErase x s).Nodup :=
  hs.erase x

theorem setErase_mem (x : Int) (s : List Int) (hs : s.Nodup) (y : Int) :
    y ∈ setErase x s ↔ y ≠ x ∧ y ∈ s :=
  hs.mem_erase_iff

theorem setErase_toFinset (x : Int) (s : List Int) (hs : s.Nodup) :
    (setErase x s).toFinset = s.toFinset.erase x := by
  ext y
  rw [List.mem_toFinset, setErase_mem x s hs, Finset.mem_erase, List.mem_toFinset]

theorem setErase_length (x : Int) (s : List Int) (h : x ∈ s) :
    (setErase x s).length + 1 = s.length := by
  unfold setErase
  rw [List.length_erase_of_mem h]
  have := List.length_pos_of_mem h
  omega

theorem card_toFinset (s : List Int) (hs : s.Nodup) : s.toFinset.card = s.length :=
  List.toFinset_card_of_nodup hs

/-- The resident set after a replacement: the victim `x` leaves and the
page `p` enters. -/
theorem replace_facts (p x : Int) (s : List Int) (hs : s.Nodup) (hp : p ∉ s) (hx : x ∈ s) :
    (setInsert p (setErase x s)).Nodup ∧
    (setInsert p (setErase x s)).length = s.length ∧
    (setInsert p (setErase x s)).toFinset = insert p (s.toFinset.erase x) ∧
    ∀ y, y ∈ setInsert p (setErase x s) → y = p ∨ y ∈ s := by
  have hp' : p ∉ setErase x s := fun h => hp ((setErase_mem x s hs p).mp h).2
  refine ⟨setInsert_nodup p _ hp' (setErase_nodup x s hs), ?_, ?_, ?_⟩
  · rw [setInsert_length p _ hp']
    exact setErase_length x s hx
  · rw [setInsert_toFinset p _ hp', setErase_toFinset x s hs]
  · intro y hy
    rcases (setInsert_mem p _ hp' y).mp hy with h | h
    · exact Or.inl h
    · exact Or.inr ((setErase_mem x s hs y).mp h).2

theorem setInsert_sorted (p : Int) (s : List Int) (hs : s.Sorted (fun a b => a ≤ b)) :
    (setInsert p s).Sorted (fun a b => a ≤ b) := by
  unfold setInsert
  split
  · exact hs
  · exact List.Sorted.orderedInsert p s hs

theorem setErase_sorted (x : Int) (s : List Int) (hs : s.Sorted (fun a b => a ≤ b)) :
    (setErase x s).Sorted (fun a b => a ≤ b) :=
  List.Pairwise.sublist (List.erase_sublist x s) hs

theorem sorted_head_le (b : Int) (bs : List Int) (hs : (b :: bs).Sorted (fun a b => a ≤ b))
    (x : Int) (hx : x ∈ b :: bs) : b ≤ x := by
  rcases List.mem_cons.mp hx with e | e
  · rw [e]
  · exact (List.pairwise_cons.mp hs).1 x e

end PageReplacement

namespace PageReplacement

theorem toNat_succ_add (f : Int) (n : Nat) (h : 0 ≤ f) :
    (f + 1).toNat + n = f.toNat + (n + 1) := by
  omega

theorem fifo_run (pages : List Int) (k : Nat) (hk : 1 ≤ k) :
    ∃ st, pages.foldlM (fifoStep (k : Int)) { q := [], s := [], faults := 0, hits := 0 }
        = some st ∧
      st.hits + st.faults = (pages.length : Int) ∧ 0 ≤ st.faults ∧
      Run k ∅ pages st.faults.toNat := by
  obtain ⟨st, h1, _, _, _, h2, h3, h4⟩ := foldlM_inv (fifoStep (k : Int))
    (fun rest st => st.s.Nodup ∧ st.q.Perm st.s ∧ st.s.length ≤ k ∧
      st.hits + st.faults + (rest.length : Int) = (pages.length : Int) ∧ 0 ≤ st.faults ∧
      ∀ n, Run k st.s.toFinset rest n → Run k ∅ pages (st.faults.toNat + n))
    (by
      intro x rest st ⟨hnd, hperm, hlen, hcnt, hf0, hrun⟩
      obtain ⟨q, s, faults, hits⟩ := st
      simp only at hnd hperm hlen hcnt hf0 hrun
      rw [List.length_cons] at hcnt
      unfold fifoStep
      simp only
      by_cases hx : x ∈ s
      · rw [if_neg (not_not.mpr hx)]
        refine ⟨_, rfl, hnd, hperm, hlen, by simp only; omega, hf0, ?_⟩
        intro n hn
        exact hrun n (Run.hit _ x rest n (List.mem_toFinset.mpr hx) hn)
      · rw [if_pos hx]
        have hxS : x ∉ s.toFinset := fun h => hx (List.mem_toFinset.mp h)
        by_cases hfull : s.length = k
        · rw [if_pos (by rw [hfull])]
          cases q with
          | nil =>
            have := hperm.length_eq
            simp only [List.length_nil] at this
            omega
          | cons oldest q' =>
            have ho : oldest ∈ s := hperm.subset (List.mem_cons_self _ _)
            obtain ⟨r1, r2, r3, _⟩ := replace_facts x oldest s hnd hx ho
            have hx' : x ∉ setErase oldest s := fun h => hx ((setErase_mem _ s hnd x).mp h).2
            refine ⟨_, rfl, r1, ?_, by simp only; omega, by simp only; omega,
              by simp only; omega, ?_⟩
            · simp only
              have hq' : q'.Perm (setErase oldest s) := by
                have := hperm.erase oldest
                rw [List.erase_cons_head] at this
                exact this
              exact (List.perm_append_singleton x q').trans
                ((List.Perm.cons x hq').trans (setInsert_perm x _ hx').symm)
            · intro n hn
              simp only at hn ⊢
              rw [r3] at hn
              rw [toNat_succ_add faults n hf0]
              exact hrun (n + 1) (Run.evict _ x oldest rest n hxS
                (by rw [card_toFinset s hnd]; omega) (List.mem_toFinset.mpr ho) hn)
        · rw [if_neg (by intro h; exact hfull (by exact_mod_cast h))]
          refine ⟨_, rfl, setInsert_nodup x s hx hnd, ?_,
            by simp only; rw [setInsert_length x s hx]; omega, by simp only; omega,
            by simp only; omega, ?_⟩
          · simp only
            exact (List.perm_append_singleton x q).trans
              ((List.Perm.cons x hperm).trans (setInsert_perm x s hx).symm)
          · intro n hn
            simp only at hn ⊢
            rw [setInsert_toFinset x s hx] at hn
            rw [toNat_succ_add faults n hf0]
            exact hrun (n + 1) (Run.load _ x rest n hxS
              (by rw [card_toFinset s hnd]; omega) hn))
    pages { q := [], s := [], faults := 0, hits := 0 }
    ⟨List.nodup_nil, List.Perm.refl _, Nat.zero_le _, by simp, le_refl _, by
      intro n hn
      simpa using hn⟩
  refine ⟨st, h1, by simpa using h2, h3, ?_⟩
  simpa using h4 0 (Run.done _)

theorem lruScan_aux (indexes : Int → Int) :
    ∀ (s : List Int) (acc : Int × Int),
      ((s.foldl (fun acc p => if indexes p < acc.2 then (p, indexes p) else acc) acc) = acc ∧
        ∀ p ∈ s, acc.2 ≤ indexes p) ∨
      (s.foldl (fun acc p => if indexes p < acc.2 then (p, indexes p) else acc) acc).1 ∈ s := by
  intro s
  induction s with
  | nil =>
    intro acc
    exact Or.inl ⟨rfl, fun p hp => absurd hp (List.not_mem_nil p)⟩
  | cons x xs ih =>
    intro acc
    rw [List.foldl_cons]
    by_cases hc : indexes x < acc.2
    · rw [if_pos hc]
      rcases ih (x, indexes x) with ⟨h1, _⟩ | h
      · right
        rw [h1]
        exact List.mem_cons_self _ _
      · exact Or.inr (List.mem_cons_of_mem _ h)
    · rw [if_neg hc]
      rcases ih acc with ⟨h1, h2⟩ | h
      · left
        refine ⟨h1, ?_⟩
        intro p hp
        rcases List.mem_cons.mp hp with e | e
        · rw [e]; omega
        · exact h2 p e
      · exact Or.inr (List.mem_cons_of_mem _ h)

theorem lruScan_mem (indexes : Int → Int) (s : List Int) (hne : s ≠ [])
    (h : ∀ p ∈ s, indexes p < INT_MAX) : (lruScan indexes s).1 ∈ s := by
  unfold lruScan
  rcases lruScan_aux indexes s (-1, INT_MAX) with ⟨_, h2⟩ | h1
  · obtain ⟨x, hx⟩ := List.exists_mem_of_ne_nil s hne
    have := h2 x hx
    have := h x hx
    simp only at *
    omega
  · exact h1

theorem lru_count (pages : List Int) (frames : Int) :
    (lru pages frames).hits + (lru pages frames).faults = (pages.length : Int) := by
  unfold lru
  have := foldl_inv (lruStep frames)
    (fun rest st => st.hits + st.faults + (rest.length : Int) = (pages.length : Int))
    (by
      intro x rest st h
      rw [List.length_cons] at h
      unfold lruStep
      simp only
      split
      · split <;> simp only <;> omega
      · simp only; omega)
    pages { indexes := fun _ => 0, s := [], faults := 0, hits := 0, time := 0 } (by simp)
  simpa using this

theorem lru_run (pages : List Int) (k : Nat) (hk : 1 ≤ k)
    (hlen : (pages.length : Int) ≤ INT_MAX) :
    0 ≤ (lru pages (k : Int)).faults ∧ Run k ∅ pages (lru pages (k : Int)).faults.toNat := by
  unfold lru
  obtain ⟨_, _, _, _, _, h3, h4⟩ := foldl_inv (lruStep (k : Int))
    (fun rest st => st.s.Nodup ∧ st.s.length ≤ k ∧ 0 ≤ st.time ∧
      st.time + (rest.length : Int) = (pages.length : Int) ∧
      (∀ p, st.indexes p ≤ st.time) ∧ 0 ≤ st.faults ∧
      ∀ n, Run k st.s.toFinset rest n → Run k ∅ pages (st.faults.toNat + n))
    (by
      intro x rest st ⟨hnd, hlen', ht0, htime, hidx, hf0, hrun⟩
      obtain ⟨indexes, s, faults, hits, time⟩ := st
      simp only at hnd hlen' ht0 htime hidx hf0 hrun
      rw [List.length_cons] at htime
      have hupd : ∀ (g : Int → Int), (∀ p, g p ≤ time) →
          ∀ p, Function.update g x time p ≤ time + 1 := by
        intro g hg p
        by_cases hp : p = x
        · rw [hp, Function.update_same]; omega
        · rw [Function.update_noteq hp]
          have := hg p
          omega
      unfold lruStep
      simp only
      by_cases hx : x ∈ s
      · rw [if_neg (not_not.mpr hx)]
        refine ⟨hnd, hlen', by simp only; omega, by simp only; omega, hupd _ hidx,
          hf0, ?_⟩
        intro n hn
        exact hrun n (Run.hit _ x rest n (List.mem_toFinset.mpr hx) hn)
      · rw [if_pos hx]
        have hxS : x ∉ s.toFinset := fun h => hx (List.mem_toFinset.mp h)
        by_cases hfull : s.length = k
        · rw [if_pos (by rw [hfull])]
          have hne : s ≠ [] := by
            intro e
            rw [e] at hfull
            simp only [List.length_nil] at hfull
            omega
          have hv : (lruScan indexes s).1 ∈ s := lruScan_mem indexes s hne (by
            intro p _
            have := hidx p
            omega)
          obtain ⟨r1, r2, r3, _⟩ := replace_facts x _ s hnd hx hv
          refine ⟨r1, by simp only; omega, by simp only; omega,
            by simp only; omega, ?_, by simp only; omega, ?_⟩
          · simp only
            apply hupd
            intro p
            by_cases hp : p = (lruScan indexes s).1
            · rw [hp, Function.update_same]
              have := hidx x
              omega
            · rw [Function.update_noteq hp]
              exact hidx p
          · intro n hn
            simp only at hn ⊢
            rw [r3] at hn
            rw [toNat_succ_add faults n hf0]
            exact hrun (n + 1) (Run.evict _ x _ rest n hxS
              (by rw [card_toFinset s hnd]; omega) (List.mem_toFinset.mpr hv) hn)
        · rw [if_neg (by intro h; exact hfull (by exact_mod_cast h))]
          refine ⟨setInsert_nodup x s hx hnd,
            by simp only; rw [setInsert_length x s hx]; omega, by simp only; omega,
            by simp only; omega, hupd _ hidx, by simp only; omega, ?_⟩
          intro n hn
          simp only at hn ⊢
          rw [setInsert_toFinset x s hx] at hn
          rw [toNat_succ_add faults n hf0]
          exact hrun (n + 1) (Run.load _ x rest n hxS
            (by rw [card_toFinset s hnd]; omega) hn))
    pages { indexes := fun _ => 0, s := [], faults := 0, hits := 0, time := 0 }
    ⟨List.nodup_nil, Nat.zero_le _, le_refl _, by simp, fun _ => le_refl _, le_refl _, by
      intro n hn
      simpa using hn⟩
  refine ⟨h3, ?_⟩
  simpa using h4 0 (Run.done _)

end PageReplacement

namespace PageReplacement

theorem nextUse_eq (pages : List Int) (p : Int) :
    ∀ f j, j + f = pages.length → nextUse pages p f j = j + (pages.drop j).indexOf p := by
  intro f
  induction f with
  | zero =>
    intro j hj
    rw [List.drop_of_length_le (by omega)]
    rfl
  | succ f ih =>
    intro j hj
    have hlt : j < pages.length := by omega
    unfold nextUse
    rw [List.drop_eq_getElem_cons hlt, List.getD_eq_getElem _ _ hlt]
    by_cases hc : pages[j] = p
    · rw [if_pos hc, hc, List.indexOf_cons_self]
      rfl
    · rw [if_neg hc, List.indexOf_cons_ne _ hc, ih (j + 1) (by omega)]
      omega

theorem nextUse_le (pages : List Int) (p : Int) (f j : Nat) (h : j + f = pages.length) :
    nextUse pages p f j ≤ pages.length := by
  rw [nextUse_eq pages p f j h]
  have := List.indexOf_le_length (a := p) (l := pages.drop j)
  rw [List.length_drop] at this
  omega

theorem optScan_spec (pages : List Int) (i : Nat) (hi : i < pages.length) :
    ∀ (ps : List Int) (far : Nat) (ptr : Int), far ≤ pages.length →
      (optScan pages i ps far ptr = ptr ∧
        ∀ y ∈ ps, nextUse pages y (pages.length - (i + 1)) (i + 1) ≤ far) ∨
      (optScan pages i ps far ptr ∈ ps ∧
        far ≤ nextUse pages (optScan pages i ps far ptr) (pages.length - (i + 1)) (i + 1) ∧
        ∀ y ∈ ps, nextUse pages y (pages.length - (i + 1)) (i + 1)
          ≤ nextUse pages (optScan pages i ps far ptr) (pages.length - (i + 1)) (i + 1)) := by
  intro ps
  induction ps with
  | nil =>
    intro far ptr _
    exact Or.inl ⟨rfl, fun y hy => absurd hy (List.not_mem_nil y)⟩
  | cons p ps ih =>
    intro far ptr hfar
    have hle : ∀ y, nextUse pages y (pages.length - (i + 1)) (i + 1) ≤ pages.length :=
      fun y => nextUse_le pages y _ _ (by omega)
    unfold optScan
    by_cases h1 : nextUse pages p (pages.length - (i + 1)) (i + 1) = pages.length
    · rw [if_pos h1]
      right
      refine ⟨List.mem_cons_self _ _, by omega, ?_⟩
      intro y _
      rw [h1]
      exact hle y
    · rw [if_neg h1]
      by_cases h2 : nextUse pages p (pages.length - (i + 1)) (i + 1) > far
      · rw [if_pos h2]
        right
        rcases ih (nextUse pages p (pages.length - (i + 1)) (i + 1)) p (hle p) with
          ⟨e, h⟩ | ⟨hm, hf, h⟩
        · rw [e]
          refine ⟨List.mem_cons_self _ _, by omega, ?_⟩
          intro y hy
          rcases List.mem_cons.mp hy with e' | e'
          · rw [e']
          · exact h y e'
        · refine ⟨List.mem_cons_of_mem _ hm, by omega, ?_⟩
          intro y hy
          rcases List.mem_cons.mp hy with e' | e'
          · rw [e']
            exact hf
          · exact h y e'
      · rw [if_neg h2]
        rcases ih far ptr hfar with ⟨e, h⟩ | ⟨hm, hf, h⟩
        · left
          refine ⟨e, ?_⟩
          intro y hy
          rcases List.mem_cons.mp hy with e' | e'
          · rw [e']
            omega
          · exact h y e'
        · right
          refine ⟨List.mem_cons_of_mem _ hm, hf, ?_⟩
          intro y hy
          rcases List.mem_cons.mp hy with e' | e'
          · rw [e']
            omega
          · exact h y e'

/-- The victim of `optimal` at index `i` with a full, non-empty set in which
the page -1 is absent or is the smallest page: a resident page whose next
reference is not before the next reference of any resident page. -/
theorem optimal_victim (pages : List Int) (i : Nat) (hi : i < pages.length) (s : List Int)
    (hne : s ≠ [])
    (hneg : (-1 : Int) ∉ s ∨ (s.Sorted (fun a b => a ≤ b) ∧ ∀ p ∈ s, (-1 : Int) ≤ p)) :
    ∃ a, a ∈ s ∧
      (∀ y ∈ s, (pages.drop (i + 1)).indexOf y ≤ (pages.drop (i + 1)).indexOf a) ∧
      (if optScan pages i s (i + 1) (-1) = -1 then
          match s with
          | [] => none
          | b :: _ => some b
        else some (optScan pages i s (i + 1) (-1))) = some a := by
  have hnu : ∀ y, nextUse pages y (pages.length - (i + 1)) (i + 1)
      = i + 1 + (pages.drop (i + 1)).indexOf y :=
    fun y => nextUse_eq pages y _ _ (by omega)
  rcases optScan_spec pages i hi s (i + 1) (-1) (by omega) with ⟨e, h⟩ | ⟨hm, _, h⟩
  · cases s with
    | nil => exact absurd rfl hne
    | cons b bs =>
      refine ⟨b, List.mem_cons_self _ _, ?_, by rw [if_pos e]⟩
      intro y hy
      have := h y hy
      rw [hnu] at this
      omega
  · have hfar : ∀ y ∈ s, (pages.drop (i + 1)).indexOf y
        ≤ (pages.drop (i + 1)).indexOf (optScan pages i s (i + 1) (-1)) := by
      intro y hy
      have := h y hy
      rw [hnu, hnu] at this
      omega
    by_cases hptr : optScan pages i s (i + 1) (-1) = -1
    · rcases hneg with hneg | ⟨hsorted, hge⟩
      · exact absurd (hptr ▸ hm) hneg
      · cases s with
        | nil => exact absurd rfl hne
        | cons b bs =>
          have h1 := sorted_head_le b bs hsorted (-1) (hptr ▸ hm)
          have h2 := hge b (List.mem_cons_self _ _)
          have hb : b = optScan pages i (b :: bs) (i + 1) (-1) := by
            rw [hptr]
            omega
          refine ⟨b, List.mem_cons_self _ _, ?_, by rw [if_pos hptr]⟩
          intro y hy
          have := hfar y hy
          rw [← hb] at this
          exact this
    · exact ⟨_, hm, hfar, by rw [if_neg hptr]⟩

theorem run_swap_victim (k : Nat) (S : Finset Int) (r a x : Int) (l : List Int) (n : Nat)
    (hr : r ∉ S) (ha : a ∈ S) (hx : x ∈ S) (hcard : S.card = k)
    (hidx : l.indexOf x ≤ l.indexOf a) (h : Run k (insert r (S.erase x)) l n) :
    ∃ m, m ≤ n ∧ Run k (insert r (S.erase a)) l m := by
  by_cases hax : a = x
  · rw [hax]
    exact ⟨n, le_refl _, h⟩
  · have hra : r ≠ a := fun e => hr (e ▸ ha)
    have hrx : r ≠ x := fun e => hr (e ▸ hx)
    have e1 : insert a (insert r ((S.erase x).erase a)) = insert r (S.erase x) := by
      ext y
      simp only [Finset.mem_insert, Finset.mem_erase]
      constructor
      · rintro (e | e | ⟨_, h2, h3⟩)
        · exact Or.inr ⟨by rw [e]; exact hax, by rw [e]; exact ha⟩
        · exact Or.inl e
        · exact Or.inr ⟨h2, h3⟩
      · rintro (e | ⟨h2, h3⟩)
        · exact Or.inr (Or.inl e)
        · by_cases hya : y = a
          · exact Or.inl hya
          · exact Or.inr (Or.inr ⟨hya, h2, h3⟩)
    have e2 : insert x (insert r ((S.erase x).erase a)) = insert r (S.erase a) := by
      ext y
      simp only [Finset.mem_insert, Finset.mem_erase]
      constructor
      · rintro (e | e | ⟨h1, _, h3⟩)
        · exact Or.inr ⟨by rw [e]; exact fun e' => hax e'.symm, by rw [e]; exact hx⟩
        · exact Or.inl e
        · exact Or.inr ⟨h1, h3⟩
      · rintro (e | ⟨h1, h3⟩)
        · exact Or.inr (Or.inl e)
        · by_cases hyx : y = x
          · exact Or.inl hyx
          · exact Or.inr (Or.inr ⟨h1, hyx, h3⟩)
    have haC : a ∉ insert r ((S.erase x).erase a) := by
      simp only [Finset.mem_insert, Finset.mem_erase, not_or, not_and]
      exact ⟨fun e => hra e.symm, fun e => absurd rfl e⟩
    have hxC : x ∉ insert r ((S.erase x).erase a) := by
      simp only [Finset.mem_insert, Finset.mem_erase, not_or, not_and]
      exact ⟨fun e => hrx e.symm, fun _ e => absurd rfl e⟩
    have hcardC : (insert r ((S.erase x).erase a)).card + 1 = k := by
      have h1 := Finset.card_insert_of_not_mem haC
      rw [e1, Finset.card_insert_of_not_mem (fun e => hr (Finset.mem_of_mem_erase e)),
        Finset.card_erase_of_mem hx] at h1
      have := Finset.card_pos.mpr ⟨x, hx⟩
      omega
    rw [← e1] at h
    obtain ⟨m, hm, hrun⟩ := run_exchange k l _ a x n haC hxC hax hcardC hidx h
    rw [e2] at hrun
    exact ⟨m, hm, hrun⟩

theorem optimalLoop_inv (pages : List Int) (frames : Int) (I : Nat → OptState → Prop)
    (hstep : ∀ i st, i < pages.length → I i st →
      ∃ st', optimalStep pages frames i st = some st' ∧ I (i + 1) st') :
    ∀ f i st, i + f = pages.length → I i st →
      ∃ st', optimalLoop pages frames f i st = some st' ∧ I pages.length st' := by
  intro f
  induction f with
  | zero =>
    intro i st hi h
    have : i = pages.length := by omega
    subst this
    exact ⟨st, rfl, h⟩
  | succ f ih =>
    intro i st hi h
    obtain ⟨st1, h1, hI1⟩ := hstep i st (by omega) h
    obtain ⟨st2, h2, hI2⟩ := ih (i + 1) st1 (by omega) hI1
    refine ⟨st2, ?_, hI2⟩
    unfold optimalLoop
    rw [h1]
    exact h2

end PageReplacement

namespace PageReplacement

theorem optimal_evict (pages : List Int) (frames : Int) (i : Nat) (hi : i < pages.length)
    (st : OptState) (hne : st.s ≠ []) (hp : pages.getD i 0 ∉ st.s)
    (hfull : (st.s.length : Int) = frames) :
    ∃ a, a ∈ st.s ∧
      optimalStep pages frames i st
        = some { s := setInsert (pages.getD i 0) (setErase a st.s), faults := st.faults + 1,
                 hits := st.hits } ∧
      (((-1 : Int) ∉ st.s ∨ (st.s.Sorted (fun a b => a ≤ b) ∧ ∀ p ∈ st.s, (-1 : Int) ≤ p)) →
        ∀ y ∈ st.s, (pages.drop (i + 1)).indexOf y ≤ (pages.drop (i + 1)).indexOf a) := by
  obtain ⟨s, faults, hits⟩ := st
  simp only at hne hp hfull ⊢
  unfold optimalStep
  simp only
  rw [if_pos hp, if_pos hfull]
  by_cases hptr : optScan pages i s (i + 1) (-1) = -1
  · rw [if_pos hptr]
    cases s with
    | nil => exact absurd rfl hne
    | cons b bs =>
      refine ⟨b, List.mem_cons_self _ _, rfl, ?_⟩
      intro hneg
      obtain ⟨a, _, h2, h3⟩ := optimal_victim pages i hi (b :: bs) hne hneg
      rw [if_pos hptr] at h3
      simp only [Option.some.injEq] at h3
      subst h3
      exact h2
  · rw [if_neg hptr]
    have hmem : optScan pages i s (i + 1) (-1) ∈ s := by
      rcases optScan_spec pages i hi s (i + 1) (-1) (by omega) with ⟨e, _⟩ | ⟨hm, _, _⟩
      · exact absurd e hptr
      · exact hm
    refine ⟨_, hmem, rfl, ?_⟩
    intro hneg
    obtain ⟨a, _, h2, h3⟩ := optimal_victim pages i hi s hne hneg
    rw [if_neg hptr] at h3
    simp only [Option.some.injEq] at h3
    subst h3
    exact h2

theorem optimal_run (pages : List Int) (k : Nat) (hk : 1 ≤ k) :
    ∃ st, optimalLoop pages (k : Int) pages.length 0 { s := [], faults := 0, hits := 0 }
        = some st ∧
      st.hits + st.faults = (pages.length : Int) ∧ 0 ≤ st.faults ∧
      (((-1 : Int) ∉ pages ∨ ∀ p ∈ pages, (-1 : Int) ≤ p) →
        ∀ n, Run k ∅ pages n → st.faults.toNat ≤ n) := by
  obtain ⟨st, h1, _, _, _, _, h2, h3, h4⟩ := optimalLoop_inv pages (k : Int)
    (fun i st => st.s.Nodup ∧ st.s.Sorted (fun a b => a ≤ b) ∧ st.s.length ≤ k ∧
      (∀ p ∈ st.s, p ∈ pages) ∧
      st.hits + st.faults = (i : Int) ∧ 0 ≤ st.faults ∧
      (((-1 : Int) ∉ pages ∨ ∀ p ∈ pages, (-1 : Int) ≤ p) → ∀ n, Run k ∅ pages n →
        ∃ m, Run k st.s.toFinset (pages.drop i) m ∧ st.faults.toNat + m ≤ n))
    (by
      intro i st hi ⟨hnd, hsorted, hlen, hsub, hcnt, hf0, hrun⟩
      have hpg : pages.getD i 0 ∈ pages := by
        rw [List.getD_eq_getElem _ _ hi]
        exact List.getElem_mem hi
      have hdrop : pages.drop i = pages.getD i 0 :: pages.drop (i + 1) := by
        rw [List.getD_eq_getElem _ _ hi]
        exact List.drop_eq_getElem_cons hi
      by_cases hx : pages.getD i 0 ∈ st.s
      · refine ⟨{ st with hits := st.hits + 1 }, ?_, hnd, hsorted, hlen, hsub,
          by simp only; push_cast; omega, hf0, ?_⟩
        · unfold optimalStep
          rw [if_neg (not_not.mpr hx)]
        · intro hneg n hn
          obtain ⟨m, hm, hle⟩ := hrun hneg n hn
          rw [hdrop] at hm
          refine ⟨m, ?_, hle⟩
          cases hm with
          | hit _ _ _ _ _ h' => exact h'
          | load _ _ _ _ hr _ _ => exact absurd (List.mem_toFinset.mpr hx) hr
          | evict _ _ _ _ _ hr _ _ _ => exact absurd (List.mem_toFinset.mpr hx) hr
      · have hxS : pages.getD i 0 ∉ st.s.toFinset := fun h => hx (List.mem_toFinset.mp h)
        by_cases hfull : st.s.length = k
        · have hne : st.s ≠ [] := by
            intro e
            rw [e] at hfull
            simp only [List.length_nil] at hfull
            omega
          obtain ⟨a, ha, hstep, hfar⟩ := optimal_evict pages (k : Int) i hi st hne hx
            (by rw [hfull])
          obtain ⟨r1, r2, r3, r4⟩ := replace_facts (pages.getD i 0) a st.s hnd hx ha
          refine ⟨_, hstep, r1, setInsert_sorted _ _ (setErase_sorted a _ hsorted),
            by simp only; omega, ?_, by simp only; push_cast; omega,
            by simp only; omega, ?_⟩
          · intro p hp
            rcases r4 p hp with e | e
            · rw [e]; exact hpg
            · exact hsub p e
          · intro hneg n hn
            obtain ⟨m, hm, hle⟩ := hrun hneg n hn
            rw [hdrop] at hm
            simp only
            rw [r3]
            have hcard : st.s.toFinset.card = k := by rw [card_toFinset _ hnd]; exact hfull
            cases hm with
            | hit _ _ _ _ hr _ => exact absurd hr hxS
            | load _ _ _ _ _ hc _ => omega
            | evict _ _ x _ m' _ _ hxm h' =>
              obtain ⟨m2, hm2, hrun2⟩ := run_swap_victim k _ (pages.getD i 0) a x _ m' hxS
                (List.mem_toFinset.mpr ha) hxm hcard
                (hfar (hneg.imp (fun hn h => hn (hsub _ h))
                  (fun hg => ⟨hsorted, fun p hp => hg p (hsub p hp)⟩)) x
                  (List.mem_toFinset.mp hxm)) h'
              exact ⟨m2, hrun2, by omega⟩
        · refine ⟨(⟨setInsert (pages.getD i 0) st.s, st.faults + 1, st.hits⟩ : OptState), ?_,
            setInsert_nodup _ _ hx hnd, setInsert_sorted _ _ hsorted,
            by simp only; rw [setInsert_length _ _ hx]; omega, ?_,
            by simp only; push_cast; omega, by simp only; omega, ?_⟩
          · unfold optimalStep
            rw [if_pos hx, if_neg (by intro h; exact hfull (by exact_mod_cast h))]
          · intro p hp
            rcases (setInsert_mem _ _ hx p).mp hp with e | e
            · rw [e]; exact hpg
            · exact hsub p e
          · intro hneg n hn
            obtain ⟨m, hm, hle⟩ := hrun hneg n hn
            rw [hdrop] at hm
            simp only
            rw [setInsert_toFinset _ _ hx]
            have hcard : st.s.toFinset.card < k := by rw [card_toFinset _ hnd]; omega
            cases hm with
            | hit _ _ _ _ hr _ => exact absurd hr hxS
            | load _ _ _ m' _ _ h' => exact ⟨m', h', by omega⟩
            | evict _ _ _ _ _ _ hc _ _ => exact absurd hcard hc)
    pages.length 0 { s := [], faults := 0, hits := 0 } (by omega)
    ⟨List.nodup_nil, List.sorted_nil, Nat.zero_le _,
      fun p hp => absurd hp (List.not_mem_nil p), by simp,
      le_refl _, by
        intro _ n hn
        exact ⟨n, by simpa using hn, by simp⟩⟩
  refine ⟨st, h1, h2, h3, ?_⟩
  intro hneg n hn
  obtain ⟨m, hm, hle⟩ := h4 hneg n hn
  omega

end PageReplacement

namespace PageReplacement

/-- C26, where the code meets it: for every page reference sequence of at
most `INT_MAX` references (the range of the `int` counters and time stamps)
and every frame count that is at least 1, `fifo` and `optimal` return a
result, in the results of `fifo`, `lru` and `optimal` hits + faults is the
length of the sequence, and, when the sequence does not contain the page
number -1 together with a smaller page number, the faults of `optimal` are
at most the faults of `fifo` and at most the faults of `lru`. -/
theorem optimal_faults_le_fifo_lru (pages : List Int) (frames : Int) (hf : 1 ≤ frames)
    (hlen : (pages.length : Int) ≤ INT_MAX) :
    ∃ rf ro, fifo pages frames = some rf ∧ optimal pages frames = some ro ∧
      rf.hits + rf.faults = (pages.length : Int) ∧
      (lru pages frames).hits + (lru pages frames).faults = (pages.length : Int) ∧
      ro.hits + ro.faults = (pages.length : Int) ∧
      (((-1 : Int) ∉ pages ∨ ∀ p ∈ pages, (-1 : Int) ≤ p) →
        ro.faults ≤ rf.faults ∧ ro.faults ≤ (lru pages frames).faults) := by
  obtain ⟨k, rfl⟩ := Int.eq_ofNat_of_zero_le (show 0 ≤ frames by omega)
  have hk : 1 ≤ k := by exact_mod_cast hf
  obtain ⟨sf, hsf, hcf, hf0, hrf⟩ := fifo_run pages k hk
  obtain ⟨so, hso, hco, ho0, hro⟩ := optimal_run pages k hk
  refine ⟨{ hits := sf.hits, faults := sf.faults }, { hits := so.hits, faults := so.faults },
    ?_, ?_, hcf, lru_count pages _, hco, ?_⟩
  · unfold fifo
    rw [hsf]
    rfl
  · unfold optimal
    rw [hso]
    rfl
  · intro hneg
    refine ⟨?_, ?_⟩
    · have := hro hneg _ hrf
      simp only
      omega
    · obtain ⟨hl0, hrl⟩ := lru_run pages k hk hlen
      have := hro hneg _ hrl
      simp only
      omega

/-- Witness of C26 on the code: 13 references with 3 frames. -/
theorem optimal_faults_le_fifo_lru_witness :
    ∃ rf ro, fifo [7, 0, 1, 2, 0, 3, 0, 4, 2, 3, 0, 3, 2] 3 = some rf ∧
      optimal [7, 0, 1, 2, 0, 3, 0, 4, 2, 3, 0, 3, 2] 3 = some ro ∧
      rf.hits + rf.faults = 13 ∧
      (lru [7, 0, 1, 2, 0, 3, 0, 4, 2, 3, 0, 3, 2] 3).hits
        + (lru [7, 0, 1, 2, 0, 3, 0, 4, 2, 3, 0, 3, 2] 3).faults = 13 ∧
      ro.hits + ro.faults = 13 ∧
      ro.faults ≤ rf.faults ∧
      ro.faults ≤ (lru [7, 0, 1, 2, 0, 3, 0, 4, 2, 3, 0, 3, 2] 3).faults := by
  obtain ⟨rf, ro, h1, h2, h3, h4, h5, h6⟩ :=
    optimal_faults_le_fifo_lru [7, 0, 1, 2, 0, 3, 0, 4, 2, 3, 0, 3, 2] 3 (by decide)
      (by decide)
  exact ⟨rf, ro, h1, h2, h3, h4, h5, (h6 (Or.inl (by decide))).1,
    (h6 (Or.inl (by decide))).2⟩

/-- C26 fails on the code, on a sequence with the page number -1: on the
references -1, -2, 3, -2 with 2 frames `optimal` takes 4 faults, `fifo` and
`lru` take 3.  At the reference 3 the scan of `optimal` chooses the page -1,
which is never referenced again, and the test `page_to_remove == -1`
then replaces the choice by the first page of the set, -2, which is the
next reference. -/
theorem optimal_exceeds_fifo_and_lru :
    optimal [-1, -2, 3, -2] 2 = some { hits := 0, faults := 4 } ∧
    fifo [-1, -2, 3, -2] 2 = some { hits := 1, faults := 3 } ∧
    lru [-1, -2, 3, -2] 2 = { hits := 1, faults := 3 } := by
  decide

end PageReplacement

namespace Scheduling

/-! ## The 32-bit layer: wrap-around and loops that agree under an invariant -/

theorem wrap_id (x : Int) (h1 : -2147483648 ≤ x) (h2 : x ≤ 2147483647) : wrap x = x := by
  unfold wrap
  omega

theorem wrap_range (x : Int) : -2147483648 ≤ wrap x ∧ wrap x ≤ 2147483647 := by
  unfold wrap
  omega

theorem whileLoop_congr {σ : Type} (guard : σ → Bool) (b1 b2 : σ → Option σ) (I : σ → Prop)
    (hpres : ∀ s s', I s → guard s = true → b2 s = some s' → I s')
    (heq : ∀ s, I s → guard s = true → b1 s = b2 s) :
    ∀ (fuel : Nat) (s : σ), I s → whileLoop guard b1 fuel s = whileLoop guard b2 fuel s := by
  intro fuel
  induction fuel with
  | zero =>
    intro s _
    rfl
  | succ f ih =>
    intro s hI
    unfold whileLoop
    by_cases hg : guard s = true
    · rw [if_pos hg, if_pos hg, heq s hI hg]
      cases hb : b2 s with
      | none => rfl
      | some s' => exact ih s' (hpres s s' hI hg hb)
    · rw [if_neg hg, if_neg hg]

theorem iterLoop_congr {σ : Type} (guard : σ → Bool) (b1 b2 : σ → Option σ) (I : σ → Prop)
    (hpres : ∀ s s', I s → guard s = true → b2 s = some s' → I s')
    (heq : ∀ s, I s → guard s = true → b1 s = b2 s) :
    ∀ (n : Nat) (s : σ), I s → iterLoop guard b1 n s = iterLoop guard b2 n s := by
  intro n
  induction n with
  | zero =>
    intro s _
    rfl
  | succ f ih =>
    intro s hI
    unfold iterLoop
    by_cases hg : guard s = true
    · rw [if_pos hg, if_pos hg, heq s hI hg]
      cases hb : b2 s with
      | none => rfl
      | some s' => exact ih s' (hpres s s' hI hg hb)
    · rw [if_neg hg, if_neg hg]

theorem whileLoop_unique {σ : Type} (guard : σ → Bool) (body : σ → Option σ)
    (f1 f2 : Nat) (s r1 r2 : σ) (h1 : whileLoop guard body f1 s = some r1)
    (h2 : whileLoop guard body f2 s = some r2) : r1 = r2 := by
  have a := whileLoop_mono guard body f1 f2 s r1 h1
  have b := whileLoop_mono guard body f2 f1 s r2 h2
  rw [Nat.add_comm] at b
  rw [a] at b
  exact Option.some.inj b

theorem iterLoop_init {σ : Type} (guard : σ → Bool) (body : σ → Option σ) :
    ∀ (n k : Nat) (s r : σ), iterLoop guard body (n + k) s = some r →
      ∃ m, iterLoop guard body n s = some m := by
  intro n
  induction n with
  | zero =>
    intro k s r _
    exact ⟨s, rfl⟩
  | succ n ih =>
    intro k s r h
    rw [show n + 1 + k = (n + k) + 1 by omega] at h
    unfold iterLoop at h ⊢
    by_cases hg : guard s = true
    · rw [if_pos hg] at h ⊢
      cases hb : body s with
      | none => rw [hb] at h; simp at h
      | some s' =>
        rw [hb] at h
        exact ih k s' r h
    · rw [if_neg hg] at h
      simp at h

/-! ### The bodies with 32-bit arithmetic, case by case -/

theorem npBody32_idle (key : Process → Int) (s : NPState)
    (h : (npScan key s.p s.done s.time).1 = none) :
    Int32.npBody key s = { s with time := wrap (s.time + 1) } := by
  unfold Int32.npBody
  rw [h]

theorem npBody32_run (key : Process → Int) (s : NPState) (idx : Nat)
    (h : (npScan key s.p s.done s.time).1 = some idx) :
    Int32.npBody key s =
      { p := s.p.set idx { (s.p.getD idx default) with
                           ct := wrap (s.time + (s.p.getD idx default).bt)
                           tat := wrap (wrap (s.time + (s.p.getD idx default).bt)
                                    - (s.p.getD idx default).at_)
                           wt := wrap (wrap (wrap (s.time + (s.p.getD idx default).bt)
                                    - (s.p.getD idx default).at_) - (s.p.getD idx default).bt) },
        done := s.done.set idx true,
        time := wrap (s.time + (s.p.getD idx default).bt),
        completed := s.completed + 1,
        totalWT := s.totalWT + wrap (wrap (wrap (s.time + (s.p.getD idx default).bt)
                                    - (s.p.getD idx default).at_) - (s.p.getD idx default).bt),
        totalTAT := s.totalTAT + wrap (wrap (s.time + (s.p.getD idx default).bt)
                                    - (s.p.getD idx default).at_),
        gantt := s.gantt ++ [((s.p.getD idx default).pid, s.time)] } := by
  unfold Int32.npBody
  rw [h]

theorem fcfsStep32_eq (s : FState) (pr : Process) (ht : 0 ≤ s.time) (ha : 0 ≤ pr.at_)
    (hb : 0 ≤ pr.bt) (h1 : s.time + pr.bt ≤ 2147483647) (h2 : pr.at_ + pr.bt ≤ 2147483647) :
    Int32.fcfsStep s pr = fcfsStep s pr := by
  unfold Int32.fcfsStep fcfsStep
  simp only
  have e1 : wrap ((if s.time < pr.at_ then pr.at_ else s.time) + pr.bt)
      = (if s.time < pr.at_ then pr.at_ else s.time) + pr.bt := by
    apply wrap_id <;> split <;> omega
  rw [e1]
  have e2 : wrap ((if s.time < pr.at_ then pr.at_ else s.time) + pr.bt - pr.at_)
      = (if s.time < pr.at_ then pr.at_ else s.time) + pr.bt - pr.at_ := by
    apply wrap_id <;> split <;> omega
  rw [e2]
  have e3 : wrap ((if s.time < pr.at_ then pr.at_ else s.time) + pr.bt - pr.at_ - pr.bt)
      = (if s.time < pr.at_ then pr.at_ else s.time) + pr.bt - pr.at_ - pr.bt := by
    apply wrap_id <;> split <;> omega
  rw [e3]

end Scheduling

namespace Scheduling

/-! ## The two layers coincide: FCFS and the non-preemptive loops -/

theorem intMax_val : INT_MAX = 2147483647 := rfl

theorem fcfs_fold_int32 (M : Int) :
    ∀ (l : List Process) (s : FState), 0 ≤ s.time →
      (∀ x ∈ l, 0 ≤ x.at_ ∧ x.at_ ≤ M ∧ 0 ≤ x.bt) →
      max s.time M + (l.map fun x => x.bt).sum ≤ 2147483647 →
      l.foldl Int32.fcfsStep s = l.foldl fcfsStep s := by
  intro l
  induction l with
  | nil => intro s _ _ _; rfl
  | cons x xs ih =>
    intro s ht hl hb
    obtain ⟨ha, haM, hbt⟩ := hl x (List.mem_cons_self _ _)
    have hrest : 0 ≤ (xs.map fun x => x.bt).sum :=
      sum_map_nonneg _ xs (fun y hy => (hl y (List.mem_cons_of_mem _ hy)).2.2)
    rw [List.map_cons, List.sum_cons] at hb
    have hmax1 : s.time ≤ max s.time M := le_max_left _ _
    have hmax2 : M ≤ max s.time M := le_max_right _ _
    rw [List.foldl_cons, List.foldl_cons,
      fcfsStep32_eq s x ht ha hbt (by omega) (by omega)]
    apply ih
    · rw [fcfsStep_time]
      split <;> omega
    · exact fun y hy => hl y (List.mem_cons_of_mem _ hy)
    · rw [fcfsStep_time]
      have : max ((if s.time < x.at_ then x.at_ else s.time) + x.bt) M
          ≤ max s.time M + x.bt := by
        apply max_le
        · split <;> omega
        · omega
      omega

theorem sorted_read_facts (S : Sorter) (batch : List Input)
    (hv : ∀ x ∈ batch, 0 ≤ x.at_ ∧ 1 ≤ x.bt) :
    (∀ x ∈ S.sort (readProcs false false 0 batch),
      0 ≤ x.at_ ∧ x.at_ ≤ maxAt batch ∧ 0 ≤ x.bt) ∧
    ((S.sort (readProcs false false 0 batch)).map fun x => x.bt).sum = sumBt batch := by
  constructor
  · intro x hx
    obtain ⟨y, hy, e1, e2⟩ := mem_sorted_read S false false batch x hx
    have := hv y hy
    have := le_maxAt batch y hy
    exact ⟨by omega, by omega, by omega⟩
  · have := ((S.perm (readProcs false false 0 batch)).map (fun x => x.bt)).sum_eq
    rw [this, readProcs_bt]
    rfl

theorem sum_take_le (l : List Process) (h : ∀ x ∈ l, 0 ≤ x.bt) :
    ∀ n, ((l.take n).map fun x => x.bt).sum ≤ (l.map fun x => x.bt).sum := by
  induction l with
  | nil => intro n; simp
  | cons x xs ih =>
    intro n
    cases n with
    | zero =>
      simp only [List.take_zero, List.map_nil, List.sum_nil]
      exact sum_map_nonneg _ _ h
    | succ n =>
      simp only [List.take_succ_cons, List.map_cons, List.sum_cons]
      have := ih (fun y hy => h y (List.mem_cons_of_mem _ hy)) n
      omega

/-- On a valid batch that fits in an `int`, FCFS with 32-bit arithmetic
computes what FCFS with exact integers computes. -/
theorem fcfs_int32 (S : Sorter) (batch : List Input) (hv : ValidBatch batch)
    (hfit : FitsInt batch) : Int32.FCFS S batch = FCFS S batch := by
  obtain ⟨h1, h2⟩ := sorted_read_facts S batch hv.2
  have hM := maxAt_nonneg batch
  unfold FitsInt at hfit
  rw [intMax_val] at hfit
  have := fcfs_fold_int32 (maxAt batch) (S.sort (readProcs false false 0 batch))
    { p := [], time := 0, totalWT := 0, totalTAT := 0, gantt := [] } (le_refl _) h1
    (by rw [h2, max_eq_right hM]; exact hfit)
  unfold Int32.FCFS FCFS Int32.fcfsLoop fcfsLoop
  rw [this]

theorem fcfsAfter_int32 (S : Sorter) (batch : List Input) (hv : ValidBatch batch)
    (hfit : FitsInt batch) (n : Nat) : Int32.fcfsAfter S n batch = fcfsAfter S n batch := by
  obtain ⟨h1, h2⟩ := sorted_read_facts S batch hv.2
  have hM := maxAt_nonneg batch
  unfold FitsInt at hfit
  rw [intMax_val] at hfit
  have hsum := sum_take_le (S.sort (readProcs false false 0 batch)) (fun x hx => (h1 x hx).2.2) n
  have := fcfs_fold_int32 (maxAt batch) ((S.sort (readProcs false false 0 batch)).take n)
    { p := [], time := 0, totalWT := 0, totalTAT := 0, gantt := [] } (le_refl _)
    (fun x hx => h1 x (List.mem_of_mem_take hx))
    (by rw [max_eq_right hM]; omega)
  unfold Int32.fcfsAfter fcfsAfter
  simp only
  rw [this]

theorem npBody32_eq (key : Process → Int)
    (hkey : ∀ (x : Process) (c t w : Int), key { x with ct := c, tat := t, wt := w } = key x)
    (M B : Int) (p0 : List Process) (s : NPState) (hI : NPInv p0 s) (hV : NPValid key M B s)
    (hMB : M + B ≤ 2147483647) (hg : s.completed < s.p.length) :
    Int32.npBody key s = npBody key s := by
  obtain ⟨hV', hlt, _⟩ := npBody_valid key hkey M B p0 s hI hV hg
  have hup : (npBody key s).time ≤ M + B := by
    have h1 := hV'.bound
    have h2 := npTodo_nonneg (npBody key s) (fun x hx => by
      have := hV'.ok x hx
      omega)
    omega
  have ht0 := hV.t0
  cases hsel : (npScan key s.p s.done s.time).1 with
  | none =>
    rw [npBody32_idle key s hsel, npBody_idle key s hsel]
    rw [npBody_idle key s hsel] at hup
    simp only at hup
    rw [wrap_id _ (by omega) (by omega)]
  | some idx =>
    obtain ⟨hidx, _, hat⟩ := (npScan_spec key s.p s.done s.time).1 idx hsel
    obtain ⟨ha0, _, hb1, _⟩ := hV.ok _ (getD_mem s.p idx default hidx)
    rw [npBody32_run key s idx hsel, npBody_run key s idx hsel]
    rw [npBody_run key s idx hsel] at hup
    simp only at hup
    rw [wrap_id (s.time + (s.p.getD idx default).bt) (by omega) (by omega),
      wrap_id (s.time + (s.p.getD idx default).bt - (s.p.getD idx default).at_)
        (by omega) (by omega),
      wrap_id (s.time + (s.p.getD idx default).bt - (s.p.getD idx default).at_
        - (s.p.getD idx default).bt) (by omega) (by omega)]

/-- On vectors whose arrival times lie between 0 and `M`, whose bursts are
at least 1 and whose keys are below the sentinel, with `M` plus the sum of
the bursts within the range of `int`, a non-preemptive loop with 32-bit
arithmetic runs as the loop with exact integers, for every fuel and after
every number of iterations. -/
theorem np_int32 (key : Process → Int)
    (hkey : ∀ (x : Process) (c t w : Int), key { x with ct := c, tat := t, wt := w } = key x)
    (M : Int) (p0 : List Process) (hM : 0 ≤ M)
    (hok : ∀ x ∈ p0, 0 ≤ x.at_ ∧ x.at_ ≤ M ∧ 1 ≤ x.bt ∧ key x < INT_MAX)
    (hMB : M + (p0.map fun x => x.bt).sum ≤ 2147483647) :
    (∀ fuel, Int32.npLoop key fuel (npInit p0) = npLoop key fuel (npInit p0)) ∧
    (∀ n, iterLoop npGuard (fun s => some (Int32.npBody key s)) n (npInit p0)
      = iterLoop npGuard (fun s => some (npBody key s)) n (npInit p0)) := by
  have hpres : ∀ s s' : NPState,
      (NPInv p0 s ∧ NPValid key M (p0.map fun x => x.bt).sum s) →
      decide (s.completed < s.p.length) = true → some (npBody key s) = some s' →
      (NPInv p0 s' ∧ NPValid key M (p0.map fun x => x.bt).sum s') := by
    intro s s' ⟨hI, hV⟩ hg hb
    simp only [Option.some.injEq] at hb
    subst hb
    simp only [decide_eq_true_eq] at hg
    exact ⟨npBody_inv key p0 s hI, (npBody_valid key hkey M _ p0 s hI hV hg).1⟩
  have heq : ∀ s : NPState, (NPInv p0 s ∧ NPValid key M (p0.map fun x => x.bt).sum s) →
      decide (s.completed < s.p.length) = true →
      some (Int32.npBody key s) = some (npBody key s) := by
    intro s ⟨hI, hV⟩ hg
    simp only [decide_eq_true_eq] at hg
    rw [npBody32_eq key hkey M _ p0 s hI hV hMB hg]
  have h0 : NPInv p0 (npInit p0) ∧ NPValid key M (p0.map fun x => x.bt).sum (npInit p0) :=
    ⟨npInit_inv p0, npInit_valid key M p0 hM hok⟩
  exact ⟨fun fuel => whileLoop_congr _ _ _ _ hpres heq fuel _ h0,
    fun n => iterLoop_congr npGuard _ _ _ hpres heq n _ h0⟩

theorem read_ok (a b : Bool) (batch : List Input) (hv : ValidBatch batch) :
    ∀ x ∈ readProcs a b 0 batch, 0 ≤ x.at_ ∧ x.at_ ≤ maxAt batch ∧ 1 ≤ x.bt := by
  intro x hx
  obtain ⟨y, hy, h1, h2, _⟩ := readProcs_mem a b batch 0 x hx
  have := hv.2 y hy
  have := le_maxAt batch y hy
  exact ⟨by omega, by omega, by omega⟩

theorem read_sum (a b : Bool) (batch : List Input) :
    ((readProcs a b 0 batch).map fun x => x.bt).sum = sumBt batch := by
  rw [readProcs_bt]
  rfl

theorem np_batch_int32 (key : Process → Int)
    (hkey : ∀ (x : Process) (c t w : Int), key { x with ct := c, tat := t, wt := w } = key x)
    (a : Bool) (batch : List Input) (hv : ValidBatch batch) (hfit : FitsInt batch)
    (hmax : ∀ x ∈ readProcs a false 0 batch, key x < INT_MAX) :
    (∀ fuel, Int32.npLoop key fuel (npInit (readProcs a false 0 batch))
      = npLoop key fuel (npInit (readProcs a false 0 batch))) ∧
    (∀ n, iterLoop npGuard (fun s => some (Int32.npBody key s)) n
        (npInit (readProcs a false 0 batch))
      = iterLoop npGuard (fun s => some (npBody key s)) n
        (npInit (readProcs a false 0 batch))) := by
  unfold FitsInt at hfit
  rw [intMax_val] at hfit
  exact np_int32 key hkey (maxAt batch) _ (maxAt_nonneg batch)
    (fun x hx => by
      obtain ⟨h1, h2, h3⟩ := read_ok a false batch hv x hx
      exact ⟨h1, h2, h3, hmax x hx⟩)
    (by rw [read_sum]; exact hfit)

end Scheduling

namespace Scheduling

/-! ## The two layers coincide: the preemptive loops -/

theorem preBody32_eq (scan : List Process → Int → Option (Option Nat)) (hs : ScanSound scan)
    (C : List Process → Prop) (hc : ScanComplete C scan)
    (M B : Int) (p0 : List Process) (s : PState) (hI : PInv p0 s) (hV : PValid M B s)
    (hC : C s.p) (hok : ∀ x ∈ s.p, 0 ≤ x.at_ ∧ x.at_ ≤ M ∧ 1 ≤ x.bt)
    (hB : (s.p.map fun x => x.bt).sum = B) (hM : 0 ≤ M) (hMB : M + B ≤ 2147483647)
    (hg : s.completed < s.p.length) :
    Int32.preBody scan s = preBody scan s := by
  obtain ⟨_, _, _, hlt⟩ := preBody_valid scan hs C hc M B p0 s hI hV hC
    (fun x hx => ⟨(hok x hx).2.1, (hok x hx).2.2⟩) hB hg
  have ht0 := hV.t0
  have e2 : wrap (s.time + 1) = s.time + 1 := wrap_id _ (by omega) (by omega)
  unfold Int32.preBody preBody
  cases hsc : scan s.p s.time with
  | none => rfl
  | some o =>
    cases o with
    | none =>
      simp only
      rw [e2]
    | some idx =>
      obtain ⟨hidx, hat, hrt⟩ := hs s.p s.time idx hsc
      have hmem := getD_mem s.p idx default hidx
      obtain ⟨ha0, haM, hb1⟩ := hok _ hmem
      have hrb := ((rt_facts s.time s.p hI.row (fun x hx => (hok x hx).2.2)).1 _ hmem).2
      have hbB : (s.p.getD idx default).bt ≤ B := by
        rw [← hB]
        exact le_sum_map_of_mem (fun x : Process => x.bt) s.p
          (fun x hx => by have := (hok x hx).2.2; show 0 ≤ x.bt; omega) _ hmem
      have e1 : wrap ((s.p.getD idx default).rt - 1) = (s.p.getD idx default).rt - 1 :=
        wrap_id _ (by omega) (by omega)
      have e3 : wrap (s.time + 1 - (s.p.getD idx default).at_)
          = s.time + 1 - (s.p.getD idx default).at_ := wrap_id _ (by omega) (by omega)
      have e4 : wrap (s.time + 1 - (s.p.getD idx default).at_ - (s.p.getD idx default).bt)
          = s.time + 1 - (s.p.getD idx default).at_ - (s.p.getD idx default).bt :=
        wrap_id _ (by omega) (by omega)
      simp only [e1, e2, e3, e4]

theorem pre_int32 (scan : List Process → Int → Option (Option Nat)) (hs : ScanSound scan)
    (C : List Process → Prop) (hc : ScanComplete C scan)
    (M : Int) (p0 : List Process) (hM : 0 ≤ M) (h0 : ∀ x ∈ p0, x.rt = x.bt)
    (hok : ∀ x ∈ p0, 0 ≤ x.at_ ∧ x.at_ ≤ M ∧ 1 ≤ x.bt)
    (hC : ∀ s, PInv p0 s → C s.p)
    (hMB : M + (p0.map fun x => x.bt).sum ≤ 2147483647) :
    (∀ fuel, Int32.preLoop scan fuel (preInit p0) = preLoop scan fuel (preInit p0)) ∧
    (∀ n, iterLoop preGuard (Int32.preBody scan) n (preInit p0)
      = iterLoop preGuard (preBody scan) n (preInit p0)) := by
  have hoks : ∀ s : PState, PInv p0 s →
      (∀ x ∈ s.p, 0 ≤ x.at_ ∧ x.at_ ≤ M ∧ 1 ≤ x.bt) ∧
      (s.p.map fun x => x.bt).sum = (p0.map fun x => x.bt).sum := by
    intro s hI
    constructor
    · exact inp_transfer s.p p0 hI.inp (fun t => 0 ≤ t.2.1 ∧ t.2.1 ≤ M ∧ 1 ≤ t.2.2.1) hok
    · rw [map_bt_of_inp s.p p0 hI.inp]
  have hpres : ∀ s s' : PState,
      (PInv p0 s ∧ PValid M (p0.map fun x => x.bt).sum s) →
      decide (s.completed < s.p.length) = true → preBody scan s = some s' →
      (PInv p0 s' ∧ PValid M (p0.map fun x => x.bt).sum s') := by
    intro s s' ⟨hI, hV⟩ hg hb
    simp only [decide_eq_true_eq] at hg
    obtain ⟨h1, h2⟩ := hoks s hI
    obtain ⟨s1, hb1, hV1, _⟩ := preBody_valid scan hs C hc M _ p0 s hI hV (hC s hI)
      (fun x hx => ⟨(h1 x hx).2.1, (h1 x hx).2.2⟩) h2 hg
    rw [hb] at hb1
    simp only [Option.some.injEq] at hb1
    subst hb1
    exact ⟨preBody_inv scan hs p0 s s' hI hb, hV1⟩
  have heq : ∀ s : PState, (PInv p0 s ∧ PValid M (p0.map fun x => x.bt).sum s) →
      decide (s.completed < s.p.length) = true →
      Int32.preBody scan s = preBody scan s := by
    intro s ⟨hI, hV⟩ hg
    simp only [decide_eq_true_eq] at hg
    obtain ⟨h1, h2⟩ := hoks s hI
    exact preBody32_eq scan hs C hc M _ p0 s hI hV (hC s hI) h1 h2 hM hMB hg
  have hinit : PInv p0 (preInit p0) ∧ PValid M (p0.map fun x => x.bt).sum (preInit p0) := by
    refine ⟨preInit_inv p0 h0, ⟨le_refl _, ?_⟩⟩
    show (0 : Int) + ((preInit p0).p.map fun x => x.rt).sum ≤ M + (p0.map fun x => x.bt).sum
    have : ((preInit p0).p.map fun x => x.rt) = p0.map fun x => x.bt := by
      show (p0.map fun x => x.rt) = p0.map fun x => x.bt
      exact List.map_congr_left h0
    rw [this]
    omega
  exact ⟨fun fuel => whileLoop_congr _ _ _ _ hpres heq fuel _ hinit,
    fun n => iterLoop_congr preGuard _ _ _ hpres heq n _ hinit⟩

end Scheduling

namespace Scheduling

/-! ## The two layers coincide: Round Robin, and the six routines together -/

theorem rrBody32_eq (tq : Int) (htq : 1 ≤ tq) (M B : Int) (p0 : List Process) (s : RRState)
    (hI : RRInv p0 s) (hV : RRValid M B s)
    (hok : ∀ x ∈ s.p, 0 ≤ x.at_ ∧ x.at_ ≤ M ∧ 1 ≤ x.bt)
    (hB : (s.p.map fun x => x.bt).sum = B) (hM : 0 ≤ M) (hMB : M + B ≤ 2147483647)
    (hg : s.completed < s.p.length) :
    Int32.rrBody tq s = rrBody tq s := by
  obtain ⟨_, hlt⟩ := rrBody_valid tq htq M B p0 s hI hV
    (fun x hx => ⟨(hok x hx).2.1, (hok x hx).2.2⟩) hB hg
  have ht0 := hV.t0
  have e2 : wrap (s.time + 1) = s.time + 1 := wrap_id _ (by omega) (by omega)
  have E1 := rrEnqueue_QInv s.p s.time s.q s.inQ hI.que
  unfold Int32.rrBody rrBody
  cases hq : (rrEnqueue s.p s.time s.q s.inQ).1 with
  | nil =>
    simp only [hq, e2]
  | cons idx rest =>
    rw [hq] at E1
    obtain ⟨hidx, _, hrt, hat⟩ := E1.mem idx (List.mem_cons_self _ _)
    have hmem := getD_mem s.p idx default hidx
    obtain ⟨ha0, haM, hb1⟩ := hok _ hmem
    have hfacts := rt_facts s.time s.p hI.row (fun x hx => (hok x hx).2.2)
    have hrb := (hfacts.1 _ hmem).2
    have hbB : (s.p.getD idx default).bt ≤ B := by
      rw [← hB]
      exact le_sum_map_of_mem (fun x : Process => x.bt) s.p
        (fun x hx => by have := (hok x hx).2.2; show 0 ≤ x.bt; omega) _ hmem
    have hsum : (s.p.getD idx default).rt ≤ (s.p.map fun x => x.rt).sum :=
      le_sum_map_of_mem (fun x : Process => x.rt) s.p
        (fun x hx => (hfacts.1 x hx).1) _ hmem
    have hbound := hV.bound
    have hm1 : min tq (s.p.getD idx default).rt ≤ (s.p.getD idx default).rt := min_le_right _ _
    have hm2 : 1 ≤ min tq (s.p.getD idx default).rt := le_min htq (by omega)
    have e1 : wrap ((s.p.getD idx default).rt - min tq (s.p.getD idx default).rt)
        = (s.p.getD idx default).rt - min tq (s.p.getD idx default).rt :=
      wrap_id _ (by omega) (by omega)
    have e3 : wrap (s.time + min tq (s.p.getD idx default).rt)
        = s.time + min tq (s.p.getD idx default).rt := wrap_id _ (by omega) (by omega)
    have e4 : wrap (s.time + min tq (s.p.getD idx default).rt - (s.p.getD idx default).at_)
        = s.time + min tq (s.p.getD idx default).rt - (s.p.getD idx default).at_ :=
      wrap_id _ (by omega) (by omega)
    have e5 : wrap (s.time + min tq (s.p.getD idx default).rt - (s.p.getD idx default).at_
          - (s.p.getD idx default).bt)
        = s.time + min tq (s.p.getD idx default).rt - (s.p.getD idx default).at_
          - (s.p.getD idx default).bt := wrap_id _ (by omega) (by omega)
    simp only [hq, e1, e3, e4, e5]

theorem rr_int32 (tq : Int) (htq : 1 ≤ tq) (M : Int) (p0 : List Process) (hM : 0 ≤ M)
    (h0 : ∀ x ∈ p0, x.rt = x.bt) (hok : ∀ x ∈ p0, 0 ≤ x.at_ ∧ x.at_ ≤ M ∧ 1 ≤ x.bt)
    (hMB : M + (p0.map fun x => x.bt).sum ≤ 2147483647) :
    (∀ fuel, Int32.rrLoop tq fuel (rrInit p0) = rrLoop tq fuel (rrInit p0)) ∧
    (∀ n, iterLoop rrGuard (fun s => some (Int32.rrBody tq s)) n (rrInit p0)
      = iterLoop rrGuard (fun s => some (rrBody tq s)) n (rrInit p0)) := by
  have hoks : ∀ s : RRState, RRInv p0 s →
      (∀ x ∈ s.p, 0 ≤ x.at_ ∧ x.at_ ≤ M ∧ 1 ≤ x.bt) ∧
      (s.p.map fun x => x.bt).sum = (p0.map fun x => x.bt).sum := by
    intro s hI
    constructor
    · exact inp_transfer s.p p0 hI.inp (fun t => 0 ≤ t.2.1 ∧ t.2.1 ≤ M ∧ 1 ≤ t.2.2.1) hok
    · rw [map_bt_of_inp s.p p0 hI.inp]
  have hpres : ∀ s s' : RRState,
      (RRInv p0 s ∧ RRValid M (p0.map fun x => x.bt).sum s) →
      decide (s.completed < s.p.length) = true → some (rrBody tq s) = some s' →
      (RRInv p0 s' ∧ RRValid M (p0.map fun x => x.bt).sum s') := by
    intro s s' ⟨hI, hV⟩ hg hb
    simp only [decide_eq_true_eq] at hg
    simp only [Option.some.injEq] at hb
    subst hb
    obtain ⟨h1, h2⟩ := hoks s hI
    exact ⟨(rrBody_inv tq htq p0 s hI).1,
      (rrBody_valid tq htq M _ p0 s hI hV
        (fun x hx => ⟨(h1 x hx).2.1, (h1 x hx).2.2⟩) h2 hg).1⟩
  have heq : ∀ s : RRState, (RRInv p0 s ∧ RRValid M (p0.map fun x => x.bt).sum s) →
      decide (s.completed < s.p.length) = true →
      some (Int32.rrBody tq s) = some (rrBody tq s) := by
    intro s ⟨hI, hV⟩ hg
    simp only [decide_eq_true_eq] at hg
    obtain ⟨h1, h2⟩ := hoks s hI
    rw [rrBody32_eq tq htq M _ p0 s hI hV h1 h2 hM hMB hg]
  have hinit : RRInv p0 (rrInit p0) ∧ RRValid M (p0.map fun x => x.bt).sum (rrInit p0) := by
    refine ⟨rrInit_inv p0 h0, ⟨le_refl _, ?_⟩⟩
    show (0 : Int) + ((rrInit p0).p.map fun x => x.rt).sum ≤ M + (p0.map fun x => x.bt).sum
    have : ((rrInit p0).p.map fun x => x.rt) = p0.map fun x => x.bt := by
      show (p0.map fun x => x.rt) = p0.map fun x => x.bt
      exact List.map_congr_left h0
    rw [this]
    omega
  exact ⟨fun fuel => whileLoop_congr _ _ _ _ hpres heq fuel _ hinit,
    fun n => iterLoop_congr rrGuard _ _ _ hpres heq n _ hinit⟩

/-- The hypothesis on the keys of the selection scans: every burst time is
below `INT_MAX` for the two SJF policies and every priority value is below
`INT_MAX` for the two priority policies.  On a valid batch that fits in an
`int`, with a quantum of at least 1 for Round Robin, each of the six
routines with 32-bit arithmetic returns, for every fuel, what the routine
with exact integers returns, and its loop is in the same state after every
number of iterations. -/
theorem runPolicy_int32 (S : Sorter) (ch : Policy) (batch : List Input) (tq : Int)
    (hv : ValidBatch batch) (hfit : FitsInt batch) (htq : ch = Policy.RR → 1 ≤ tq)
    (hbt : ch = Policy.SJF_NP ∨ ch = Policy.SJF_P → ∀ x ∈ batch, x.bt < INT_MAX)
    (hpr : ch = Policy.PRIO_NP ∨ ch = Policy.PRIO_P → ∀ x ∈ batch, x.pr < INT_MAX) :
    (∀ fuel, Int32.runPolicy S ch fuel batch tq = runPolicy S ch fuel batch tq) ∧
    (∀ n, Int32.snapAfter S ch n batch tq = snapAfter S ch n batch tq) ∧
    (∀ n, Int32.npAfter ch n batch = npAfter ch n batch) ∧
    (∀ n, Int32.preAfter ch n batch = preAfter ch n batch) ∧
    (ch = Policy.RR → ∀ n, Int32.rrAfter n batch tq = rrAfter n batch tq) := by
  have hfit' : maxAt batch + sumBt batch ≤ 2147483647 := hfit
  have hnp : ∀ (key : Process → Int)
      (_ : ∀ (x : Process) (c t w : Int), key { x with ct := c, tat := t, wt := w } = key x)
      (a : Bool), (∀ x ∈ readProcs a false 0 batch, key x < INT_MAX) →
      (∀ fuel, Int32.npLoop key fuel (npInit (readProcs a false 0 batch))
        = npLoop key fuel (npInit (readProcs a false 0 batch))) ∧
      (∀ n, iterLoop npGuard (fun s => some (Int32.npBody key s)) n
          (npInit (readProcs a false 0 batch))
        = iterLoop npGuard (fun s => some (npBody key s)) n
          (npInit (readProcs a false 0 batch))) :=
    fun key hkey a hmax => np_batch_int32 key hkey a batch hv hfit hmax
  have hpre : ∀ (scan : List Process → Int → Option (Option Nat)) (_ : ScanSound scan)
      (C : List Process → Prop) (_ : ScanComplete C scan) (a : Bool),
      (∀ s, PInv (readProcs a true 0 batch) s → C s.p) →
      (∀ fuel, Int32.preLoop scan fuel (preInit (readProcs a true 0 batch))
        = preLoop scan fuel (preInit (readProcs a true 0 batch))) ∧
      (∀ n, iterLoop preGuard (Int32.preBody scan) n (preInit (readProcs a true 0 batch))
        = iterLoop preGuard (preBody scan) n (preInit (readProcs a true 0 batch))) :=
    fun scan hs C hc a hC => pre_int32 scan hs C hc (maxAt batch) _ (maxAt_nonneg batch)
      (readProcs_rt a batch) (read_ok a true batch hv) hC (by rw [read_sum]; exact hfit')
  cases ch with
  | FCFS =>
    refine ⟨fun _ => ?_, fun n => ?_, fun _ => rfl, fun _ => rfl,
      fun h => absurd h (by decide)⟩
    · show some (Int32.FCFS S batch) = some (FCFS S batch)
      rw [fcfs_int32 S batch hv hfit]
    · exact fcfsAfter_int32 S batch hv hfit n
  | SJF_NP =>
    obtain ⟨h1, h2⟩ := hnp (fun q => q.bt) (fun _ _ _ _ => rfl) false
      (fun x hx => bt_below false batch (hbt (Or.inl rfl)) _ rfl x hx)
    refine ⟨fun fuel => ?_, fun n => ?_, fun n => h2 n, fun _ => rfl,
      fun h => absurd h (by decide)⟩
    · show (Int32.npLoop _ fuel _).map _ = (npLoop _ fuel _).map _
      rw [h1]
    · show (iterLoop _ _ n _).map _ = (iterLoop _ _ n _).map _
      rw [h2]
  | PRIO_NP =>
    obtain ⟨h1, h2⟩ := hnp (fun q => q.pr) (fun _ _ _ _ => rfl) true
      (fun x hx => pr_below false batch (hpr (Or.inl rfl)) _ rfl x hx)
    refine ⟨fun fuel => ?_, fun n => ?_, fun n => h2 n, fun _ => rfl,
      fun h => absurd h (by decide)⟩
    · show (Int32.npLoop _ fuel _).map _ = (npLoop _ fuel _).map _
      rw [h1]
    · show (iterLoop _ _ n _).map _ = (iterLoop _ _ n _).map _
      rw [h2]
  | SJF_P =>
    obtain ⟨h1, h2⟩ := hpre srtfScan srtfScan_sound _ srtfScan_complete false
      (fun s hI => srtf_cond_any _ (fun x hx => by
        obtain ⟨y, hy, _, e, _⟩ := readProcs_mem false true batch 0 x hx
        rw [e]
        exact hbt (Or.inr rfl) y hy) s hI)
    refine ⟨fun fuel => ?_, fun n => ?_, fun _ => rfl, fun n => h2 n,
      fun h => absurd h (by decide)⟩
    · show (Int32.preLoop _ fuel _).map _ = (preLoop _ fuel _).map _
      rw [h1]
    · show (iterLoop _ _ n _).map _ = (iterLoop _ _ n _).map _
      rw [h2]
  | PRIO_P =>
    obtain ⟨h1, h2⟩ := hpre prioScan prioScan_sound _ prioScan_complete true
      (fun s hI => prio_cond _ (fun x hx =>
        pr_below true batch (hpr (Or.inr rfl)) _ rfl x hx) s hI)
    refine ⟨fun fuel => ?_, fun n => ?_, fun _ => rfl, fun n => h2 n,
      fun h => absurd h (by decide)⟩
    · show (Int32.preLoop _ fuel _).map _ = (preLoop _ fuel _).map _
      rw [h1]
    · show (iterLoop _ _ n _).map _ = (iterLoop _ _ n _).map _
      rw [h2]
  | RR =>
    obtain ⟨h1, h2⟩ := rr_int32 tq (htq rfl) (maxAt batch) _ (maxAt_nonneg batch)
      (readProcs_rt false batch) (read_ok false true batch hv)
      (by rw [read_sum]; exact hfit')
    refine ⟨fun fuel => ?_, fun n => ?_, fun _ => rfl, fun _ => rfl, fun _ n => h2 n⟩
    · show (Int32.rrLoop _ fuel _).map _ = (rrLoop _ fuel _).map _
      rw [h1]
    · show (iterLoop _ _ n _).map _ = (iterLoop _ _ n _).map _
      rw [h2]

end Scheduling

namespace Scheduling

/-! ## A run that reports has selected every process -/

theorem np_keys32 (key : Process → Int)
    (hkey : ∀ (x : Process) (c t w : Int), key { x with ct := c, tat := t, wt := w } = key x)
    (p0 : List Process) (fuel : Nat) (s : NPState)
    (h : Int32.npLoop key fuel (npInit p0) = some s) : ∀ x ∈ p0, key x < INT_MAX := by
  obtain ⟨⟨hK, hL, hC, hD⟩, hg⟩ := whileLoop_inv _ _
    (fun s : NPState => s.p.map key = p0.map key ∧ s.done.length = s.p.length ∧
      s.completed = s.done.countP (fun b => b) ∧
      ∀ i, i < s.p.length → s.done.getD i false = true → key (s.p.getD i default) < INT_MAX)
    (by
      intro x y ⟨hK, hL, hC, hD⟩ _ hb
      simp only [Option.some.injEq] at hb
      subst hb
      cases hsel : (npScan key x.p x.done x.time).1 with
      | none =>
        rw [npBody32_idle _ x hsel]
        exact ⟨hK, hL, hC, hD⟩
      | some idx =>
        obtain ⟨hidx, hd, _⟩ := (npScan_spec key x.p x.done x.time).1 idx hsel
        have hlt := npScan_lt key x.p x.done x.time idx hsel
        rw [npBody32_run _ x idx hsel]
        refine ⟨?_, by simp [hL], ?_, ?_⟩
        · simp only
          rw [map_set_same key x.p idx _ default (hkey _ _ _ _)]
          exact hK
        · simp only
          rw [countP_set_gain (fun b => b) x.done idx true false (by rw [hL]; exact hidx) hd rfl,
            hC]
        · intro i hi hdi
          simp only [List.length_set] at hi
          simp only at hdi ⊢
          by_cases hne : idx = i
          · subst hne
            rw [getD_set_self _ _ _ _ hidx, hkey]
            exact hlt
          · rw [getD_set_other _ _ _ _ _ hne] at hdi ⊢
            exact hD i hi hdi)
    fuel _ s
    ⟨rfl, by simp [npInit], by simp [npInit, List.countP_replicate], by
      intro i hi hd
      simp only [npInit, List.getD_eq_getElem?_getD, List.getElem?_replicate] at hd
      split at hd <;> simp at hd⟩ h
  simp only [decide_eq_false_iff_not, not_lt] at hg
  have hall := all_of_countP_ge (fun b : Bool => b) s.done (by rw [← hC, hL]; exact hg)
  intro x hx
  have hm : key x ∈ s.p.map key := by rw [hK]; exact List.mem_map_of_mem key hx
  obtain ⟨y, hy, e⟩ := List.mem_map.mp hm
  obtain ⟨i, hi, ei⟩ := exists_getD_of_mem s.p default y hy
  rw [← e, ← ei]
  exact hD i hi (hall _ (getD_mem s.done i false (by rw [hL]; exact hi)))

theorem preBody32_cases (scan : List Process → Int → Option (Option Nat)) (s s' : PState)
    (hb : Int32.preBody scan s = some s') :
    (scan s.p s.time = some none ∧ s'.p = s.p ∧ s'.completed = s.completed) ∨
    (∃ idx, scan s.p s.time = some (some idx) ∧
      ((wrap ((s.p.getD idx default).rt - 1) = 0 ∧ s'.completed = s.completed + 1 ∧
        ∃ c t w, s'.p = s.p.set idx { (s.p.getD idx default) with
                             rt := wrap ((s.p.getD idx default).rt - 1)
                             ct := c, tat := t, wt := w }) ∨
       (wrap ((s.p.getD idx default).rt - 1) ≠ 0 ∧ s'.completed = s.completed ∧
        s'.p = s.p.set idx { (s.p.getD idx default) with
                             rt := wrap ((s.p.getD idx default).rt - 1) }))) := by
  unfold Int32.preBody at hb
  cases hsc : scan s.p s.time with
  | none => rw [hsc] at hb; simp at hb
  | some o =>
    cases o with
    | none =>
      rw [hsc] at hb
      simp only [Option.some.injEq] at hb
      subst hb
      exact Or.inl ⟨rfl, rfl, rfl⟩
    | some idx =>
      rw [hsc] at hb
      simp only at hb
      refine Or.inr ⟨idx, rfl, ?_⟩
      by_cases hz : wrap ((s.p.getD idx default).rt - 1) = 0
      · rw [if_pos hz] at hb
        simp only [Option.some.injEq] at hb
        subst hb
        exact Or.inl ⟨hz, rfl, _, _, _, rfl⟩
      · rw [if_neg hz] at hb
        simp only [Option.some.injEq] at hb
        subst hb
        exact Or.inr ⟨hz, rfl, rfl⟩

/-- A process that a scan never selects keeps a remaining time other than 0,
so a preemptive loop that leaves has no such process: `Sent i` says that the
process of index `i` is one of them, `Stuck` is what its record satisfies. -/
theorem pre_keys32 (scan : List Process → Int → Option (Option Nat))
    (Stuck : Process → Prop) (Sent : Nat → Prop)
    (ha : ∀ x, Stuck x → x.rt ≠ 0)
    (hsel : ∀ p t idx, scan p t = some (some idx) →
      idx < p.length ∧ 0 < (p.getD idx default).rt ∧ ¬ Stuck (p.getD idx default))
    (p0 : List Process) (h0 : ∀ x ∈ p0, x.rt ≠ 0)
    (hinit : ∀ i, i < p0.length → Sent i → Stuck (p0.getD i default))
    (fuel : Nat) (s : PState) (h : Int32.preLoop scan fuel (preInit p0) = some s) :
    ∀ i, i < p0.length → ¬ Sent i := by
  obtain ⟨⟨hL, hC, hS⟩, hg⟩ := whileLoop_inv _ _
    (fun s : PState => s.p.length = p0.length ∧
      s.completed = s.p.countP (fun x => decide (x.rt = 0)) ∧
      ∀ i, i < s.p.length → Sent i → Stuck (s.p.getD i default))
    (by
      intro x y ⟨hL, hC, hS⟩ _ hb
      rcases preBody32_cases scan x y hb with ⟨_, hp, hc⟩ | ⟨idx, hsc, hcase⟩
      · rw [hp, hc]
        exact ⟨hL, hC, hS⟩
      · obtain ⟨hidx, hrt, hns⟩ := hsel _ _ _ hsc
        have hstuck : ∀ (q : Process), ∀ i, i < (x.p.set idx q).length → Sent i →
            Stuck ((x.p.set idx q).getD i default) := by
          intro q i hi hs
          simp only [List.length_set] at hi
          by_cases hne : idx = i
          · subst hne
            exact absurd (hS idx hi hs) hns
          · rw [getD_set_other _ _ _ _ _ hne]
            exact hS i hi hs
        rcases hcase with ⟨hz, hc, c, t, w, hp⟩ | ⟨hz, hc, hp⟩
        · rw [hp, hc]
          refine ⟨by simp [hL], ?_, hstuck _⟩
          rw [countP_set_gain _ x.p idx _ default hidx
            (by simp only [decide_eq_false_iff_not]; omega)
            (by simp only [decide_eq_true_eq]; exact hz), hC]
        · rw [hp, hc]
          refine ⟨by simp [hL], ?_, hstuck _⟩
          rw [countP_set_keep _ x.p idx _ default
            (by
              have h1 : decide (wrap ((x.p.getD idx default).rt - 1) = 0) = false := by
                simp only [decide_eq_false_iff_not]; exact hz
              have h2 : decide ((x.p.getD idx default).rt = 0) = false := by
                simp only [decide_eq_false_iff_not]; omega
              show decide (wrap ((x.p.getD idx default).rt - 1) = 0)
                = decide ((x.p.getD idx default).rt = 0)
              rw [h1, h2]), hC])
    fuel _ s
    ⟨rfl, by
      show (0 : Nat) = p0.countP (fun x => decide (x.rt = 0))
      symm
      rw [List.countP_eq_zero]
      intro x hx
      simp only [decide_eq_true_eq]
      exact h0 x hx, hinit⟩ h
  simp only [decide_eq_false_iff_not, not_lt] at hg
  have hall := all_of_countP_ge (fun x : Process => decide (x.rt = 0)) s.p (by rw [← hC]; exact hg)
  intro i hi hs
  have hi' : i < s.p.length := by rw [hL]; exact hi
  have := hall _ (getD_mem s.p i default hi')
  simp only [decide_eq_true_eq] at this
  exact ha _ (hS i hi' hs) this

theorem srtfScan_lt (p : List Process) (time : Int) (i : Nat)
    (h : srtfScan p time = some (some i)) : (p.getD i default).rt < INT_MAX := by
  have := foldl_range_inv (srtfScanStep p time)
    (fun _ acc => acc.2 ≤ INT_MAX ∧ ∀ i, acc.1 = some i → (p.getD i default).rt < INT_MAX)
    (none, INT_MAX) p.length ⟨le_refl _, by intro i hi; simp at hi⟩
    (by
      intro k acc _ ⟨h1, h2⟩
      unfold srtfScanStep
      simp only
      split
      · rename_i hc
        refine ⟨by omega, fun i hi => ?_⟩
        simp only [Option.some.injEq] at hi
        subst hi
        omega
      · exact ⟨h1, h2⟩)
  unfold srtfScan at h
  simp only [Option.some.injEq] at h
  exact this.2 i h

theorem prioScan_lt (p : List Process) (time : Int) (i : Nat)
    (h : prioScan p time = some (some i)) : (p.getD i default).pr < INT_MAX := by
  have := foldl_range_inv (prioScanStep p time)
    (fun _ acc => ∀ idx best, acc = some (idx, best) →
      best ≤ INT_MAX ∧ ∀ i, idx = some i → (p.getD i default).pr = best ∧ best < INT_MAX)
    (some (none, INT_MAX)) p.length
    (by
      intro idx best hacc
      simp only [Option.some.injEq, Prod.mk.injEq] at hacc
      obtain ⟨h1, h2⟩ := hacc
      subst h1 h2
      exact ⟨le_refl _, by intro i hi; simp at hi⟩)
    (by
      intro k acc _ hI
      cases acc with
      | none => intro idx best hacc; simp [prioScanStep] at hacc
      | some a =>
        obtain ⟨idx0, best0⟩ := a
        obtain ⟨h1, h2⟩ := hI idx0 best0 rfl
        intro idx best hacc
        unfold prioScanStep at hacc
        simp only at hacc
        split at hacc
        · split at hacc
          · rename_i hlt
            simp only [Option.some.injEq, Prod.mk.injEq] at hacc
            obtain ⟨e1, e2⟩ := hacc
            subst e1 e2
            refine ⟨by omega, fun i hi => ?_⟩
            simp only [Option.some.injEq] at hi
            subst hi
            exact ⟨rfl, by omega⟩
          · split at hacc
            · rename_i heq
              cases idx0 with
              | none => simp at hacc
              | some j =>
                have hj := (h2 j rfl).2
                simp only at hacc
                split at hacc
                · simp only [Option.some.injEq, Prod.mk.injEq] at hacc
                  obtain ⟨e1, e2⟩ := hacc
                  subst e1 e2
                  refine ⟨by omega, fun i hi => ?_⟩
                  simp only [Option.some.injEq] at hi
                  subst hi
                  exact ⟨rfl, by omega⟩
                · simp only [Option.some.injEq, Prod.mk.injEq] at hacc
                  obtain ⟨e1, e2⟩ := hacc
                  subst e1 e2
                  exact ⟨h1, h2⟩
            · simp only [Option.some.injEq, Prod.mk.injEq] at hacc
              obtain ⟨e1, e2⟩ := hacc
              subst e1 e2
              exact ⟨h1, h2⟩
        · simp only [Option.some.injEq, Prod.mk.injEq] at hacc
          obtain ⟨e1, e2⟩ := hacc
          subst e1 e2
          exact ⟨h1, h2⟩)
  unfold prioScan at h
  cases hf : (List.range p.length).foldl (prioScanStep p time) (some (none, INT_MAX)) with
  | none => rw [hf] at h; simp at h
  | some a =>
    rw [hf] at h
    simp only [Option.map_some', Option.some.injEq] at h
    obtain ⟨e, hb⟩ := (this a.1 a.2 (by rw [hf])).2 i h
    rw [e]
    exact hb

/-- A routine with 32-bit arithmetic that prints its report on a valid
batch has selected every process, so every burst time (SJF policies) and
every priority value (priority policies) is below the initial minimum
`INT_MAX` of its scan. -/
theorem int32_report_keys (S : Sorter) (ch : Policy) (batch : List Input) (tq : Int)
    (hv : ValidBatch batch) (fuel : Nat) (r : Report)
    (h : Int32.runPolicy S ch fuel batch tq = some r) :
    (ch = Policy.SJF_NP ∨ ch = Policy.SJF_P → ∀ x ∈ batch, x.bt < INT_MAX) ∧
    (ch = Policy.PRIO_NP ∨ ch = Policy.PRIO_P → ∀ x ∈ batch, x.pr < INT_MAX) := by
  have hnp : ∀ (key : Process → Int)
      (_ : ∀ (x : Process) (c t w : Int), key { x with ct := c, tat := t, wt := w } = key x)
      (a : Bool),
      (Int32.npLoop key fuel (npInit (readProcs a false 0 batch))).map (npReport batch.length)
        = some r → ∀ x ∈ readProcs a false 0 batch, key x < INT_MAX := by
    intro key hkey a h
    cases hl : Int32.npLoop key fuel (npInit (readProcs a false 0 batch)) with
    | none => rw [hl] at h; simp at h
    | some s => exact np_keys32 key hkey _ fuel s hl
  have hrt : ∀ a : Bool, ∀ x ∈ readProcs a true 0 batch, x.rt ≠ 0 := by
    intro a x hx
    have h1 := readProcs_rt a batch x hx
    have h2 := (read_ok a true batch hv x hx).2.2
    omega
  have back : ∀ (a b : Bool) (f : Process → Int) (g : Input → Int),
      (∀ i, i < batch.length → ∀ y, batch[i]? = some y →
        f ((readProcs a b 0 batch).getD i default) = g y) →
      (∀ i, i < (readProcs a b 0 batch).length →
        f ((readProcs a b 0 batch).getD i default) < INT_MAX) →
      ∀ x ∈ batch, g x < INT_MAX := by
    intro a b f g hfg hall x hx
    obtain ⟨i, hi, e⟩ := List.getElem_of_mem hx
    have hl := (rows_of_batch a b batch _ rfl).1
    have := hall i (by rw [hl]; exact hi)
    rw [hfg i hi x (by rw [List.getElem?_eq_getElem hi, e])] at this
    exact this
  have hidx : ∀ (a b : Bool) (i : Nat), i < batch.length → ∀ y, batch[i]? = some y →
      ((readProcs a b 0 batch).getD i default).bt = y.bt ∧
      ((readProcs a b 0 batch).getD i default).pr = (if a then y.pr else 0) := by
    intro a b i hi y hy
    have hl := (rows_of_batch a b batch _ rfl).1
    obtain ⟨z, hz, _, _, h3, h4⟩ := rows_index a b batch _ rfl i (by rw [hl]; exact hi)
    rw [hy] at hz
    simp only [Option.some.injEq] at hz
    subst hz
    exact ⟨h3, h4⟩
  cases ch with
  | FCFS => exact ⟨(fun h => by rcases h with h | h <;> cases h),
      (fun h => by rcases h with h | h <;> cases h)⟩
  | RR => exact ⟨(fun h => by rcases h with h | h <;> cases h),
      (fun h => by rcases h with h | h <;> cases h)⟩
  | SJF_NP =>
    refine ⟨fun _ => ?_, (fun h => by rcases h with h | h <;> cases h)⟩
    have hk := hnp (fun q => q.bt) (fun _ _ _ _ => rfl) false h
    exact back false false (fun q => q.bt) (fun y => y.bt)
      (fun i hi y hy => (hidx false false i hi y hy).1)
      (fun i hi => hk _ (getD_mem _ i default hi))
  | PRIO_NP =>
    refine ⟨(fun h => by rcases h with h | h <;> cases h), fun _ => ?_⟩
    have hk := hnp (fun q => q.pr) (fun _ _ _ _ => rfl) true h
    exact back true false (fun q => q.pr) (fun y => y.pr)
      (fun i hi y hy => (hidx true false i hi y hy).2)
      (fun i hi => hk _ (getD_mem _ i default hi))
  | SJF_P =>
    refine ⟨fun _ => ?_, (fun h => by rcases h with h | h <;> cases h)⟩
    cases hl : Int32.preLoop srtfScan fuel (preInit (readProcs false true 0 batch)) with
    | none =>
      have h' : (Int32.preLoop srtfScan fuel (preInit (readProcs false true 0 batch))).map
          (preReport batch.length) = some r := h
      rw [hl] at h'
      simp at h'
    | some s =>
      have hk := pre_keys32 srtfScan (fun x => INT_MAX ≤ x.rt)
        (fun i => INT_MAX ≤ ((readProcs false true 0 batch).getD i default).rt)
        (fun x hx => by have := intMax_val; omega)
        (fun p t idx hsc => by
          obtain ⟨h1, _, h3⟩ := srtfScan_sound p t idx hsc
          exact ⟨h1, h3, not_le.mpr (srtfScan_lt p t idx hsc)⟩)
        _ (hrt false) (fun i _ hs => hs) fuel s hl
      exact back false true (fun q => q.bt) (fun y => y.bt)
        (fun i hi y hy => (hidx false true i hi y hy).1)
        (fun i hi => by
          have h1 := hk i hi
          have h2 := readProcs_rt false batch _ (getD_mem _ i default hi)
          show ((readProcs false true 0 batch).getD i default).bt < INT_MAX
          omega)
  | PRIO_P =>
    refine ⟨(fun h => by rcases h with h | h <;> cases h), fun _ => ?_⟩
    cases hl : Int32.preLoop prioScan fuel (preInit (readProcs true true 0 batch)) with
    | none =>
      have h' : (Int32.preLoop prioScan fuel (preInit (readProcs true true 0 batch))).map
          (preReport batch.length) = some r := h
      rw [hl] at h'
      simp at h'
    | some s =>
      have hk := pre_keys32 prioScan (fun x => INT_MAX ≤ x.pr ∧ x.rt ≠ 0)
        (fun i => INT_MAX ≤ ((readProcs true true 0 batch).getD i default).pr)
        (fun x hx => hx.2)
        (fun p t idx hsc => by
          obtain ⟨h1, _, h3⟩ := prioScan_sound p t idx hsc
          exact ⟨h1, h3, fun hst => absurd (prioScan_lt p t idx hsc) (not_lt.mpr hst.1)⟩)
        _ (hrt true) (fun i hi hs => ⟨hs, hrt true _ (getD_mem _ i default hi)⟩) fuel s hl
      exact back true true (fun q => q.pr) (fun y => y.pr)
        (fun i hi y hy => (hidx true true i hi y hy).2)
        (fun i hi => not_le.mp (hk i hi))

/-- On a valid batch that fits in an `int` (quantum at least 1 for Round
Robin), a report of a routine with 32-bit arithmetic is the report of the
routine with exact integers for the same fuel. -/
theorem report_int32 (S : Sorter) (ch : Policy) (batch : List Input) (tq : Int)
    (hv : ValidBatch batch) (hfit : FitsInt batch) (htq : ch = Policy.RR → 1 ≤ tq)
    (fuel : Nat) (r : Report) (h : Int32.runPolicy S ch fuel batch tq = some r) :
    runPolicy S ch fuel batch tq = some r := by
  obtain ⟨hbt, hpr⟩ := int32_report_keys S ch batch tq hv fuel r h
  rw [← (runPolicy_int32 S ch batch tq hv hfit htq hbt hpr).1 fuel]
  exact h

end Scheduling

namespace Scheduling

/-! ## Reports of the 32-bit routines are reports over exact integers -/

theorem runPolicy_int32_nil (S : Sorter) (ch : Policy) (fuel : Nat) (tq : Int) :
    Int32.runPolicy S ch fuel [] tq = runPolicy S ch fuel [] tq := by
  cases ch with
  | FCFS =>
    have hs : S.sort (readProcs false false 0 []) = [] := by
      have := (S.perm (readProcs false false 0 [])).length_eq
      exact List.length_eq_zero.mp (by rw [this]; rfl)
    show some (Int32.FCFS S []) = some (FCFS S [])
    unfold Int32.FCFS FCFS Int32.fcfsLoop fcfsLoop
    rw [hs]
    rfl
  | SJF_NP => cases fuel <;> rfl
  | SJF_P => cases fuel <;> rfl
  | PRIO_NP => cases fuel <;> rfl
  | PRIO_P => cases fuel <;> rfl
  | RR => cases fuel <;> rfl

/-- On a batch with arrival times at least 0 and burst times at least 1
that fits in an `int` (quantum at least 1 for Round Robin), a report of a
routine with 32-bit arithmetic is the report of the routine with exact
integers for the same fuel. -/
theorem report_int32_any (S : Sorter) (ch : Policy) (batch : List Input) (tq : Int)
    (hv : ∀ x ∈ batch, 0 ≤ x.at_ ∧ 1 ≤ x.bt) (hfit : FitsInt batch)
    (htq : ch = Policy.RR → 1 ≤ tq)
    (fuel : Nat) (r : Report) (h : Int32.runPolicy S ch fuel batch tq = some r) :
    runPolicy S ch fuel batch tq = some r := by
  by_cases hne : batch = []
  · subst hne
    rw [← runPolicy_int32_nil]
    exact h
  · exact report_int32 S ch batch tq ⟨hne, hv⟩ hfit htq fuel r h

theorem map_whileLoop_unique {σ τ : Type} (guard : σ → Bool) (body : σ → Option σ) (g : σ → τ)
    (f1 f2 : Nat) (s : σ) (r1 r2 : τ) (h1 : (whileLoop guard body f1 s).map g = some r1)
    (h2 : (whileLoop guard body f2 s).map g = some r2) : r1 = r2 := by
  simp only [Option.map_eq_some'] at h1 h2
  obtain ⟨s1, e1, rfl⟩ := h1
  obtain ⟨s2, e2, rfl⟩ := h2
  rw [whileLoop_unique guard body f1 f2 s s1 s2 e1 e2]

theorem runPolicy_unique (S : Sorter) (ch : Policy) (batch : List Input) (tq : Int)
    (f1 f2 : Nat) (r1 r2 : Report) (h1 : runPolicy S ch f1 batch tq = some r1)
    (h2 : runPolicy S ch f2 batch tq = some r2) : r1 = r2 := by
  cases ch with
  | FCFS =>
    simp only [runPolicy, Option.some.injEq] at h1 h2
    rw [← h1, ← h2]
  | SJF_NP => exact map_whileLoop_unique _ _ _ f1 f2 _ r1 r2 h1 h2
  | SJF_P => exact map_whileLoop_unique _ _ _ f1 f2 _ r1 r2 h1 h2
  | PRIO_NP => exact map_whileLoop_unique _ _ _ f1 f2 _ r1 r2 h1 h2
  | PRIO_P => exact map_whileLoop_unique _ _ _ f1 f2 _ r1 r2 h1 h2
  | RR => exact map_whileLoop_unique _ _ _ f1 f2 _ r1 r2 h1 h2

end Scheduling

namespace Scheduling

/-! ## The rows of a report and the smallest arrival time -/

theorem report_rows_at (S : Sorter) (ch : Policy) (fuel : Nat) (batch : List Input) (tq : Int)
    (r : Report) (htq : ch = Policy.RR → 1 ≤ tq) (h : runPolicy S ch fuel batch tq = some r) :
    ∀ x ∈ r.rows, ∃ y ∈ batch, x.at_ = y.at_ := by
  have key : ∀ (a b : Bool), r.rows.map Process.inp = (readProcs a b 0 batch).map Process.inp →
      ∀ x ∈ r.rows, ∃ y ∈ batch, x.at_ = y.at_ := by
    intro a b e x hx
    obtain ⟨y, hy, h1, _⟩ := (rows_of_batch a b batch r.rows e).2 x hx
    exact ⟨y, hy, h1⟩
  cases ch with
  | FCFS =>
    simp only [runPolicy, Option.some.injEq] at h
    subst h
    intro x hx
    have : x.inp ∈ (S.sort (readProcs false false 0 batch)).map Process.inp := by
      rw [← fcfs_rows_inp]
      exact List.mem_map_of_mem Process.inp hx
    obtain ⟨z, hz, e⟩ := List.mem_map.mp this
    have hz' : z ∈ readProcs false false 0 batch := (S.perm _).mem_iff.mp hz
    obtain ⟨y, hy, h1, _⟩ := readProcs_mem false false batch 0 z hz'
    have e1 : z.at_ = x.at_ := congrArg (fun t : Int × Int × Int × Int => t.2.1) e
    exact ⟨y, hy, by rw [← e1, h1]⟩
  | SJF_NP => exact key _ _ (np_report _ false batch fuel r h).2.2.1
  | PRIO_NP => exact key _ _ (np_report _ true batch fuel r h).2.2.1
  | SJF_P => exact key _ _ (pre_report srtfScan srtfScan_sound false batch fuel r h).2.2
  | PRIO_P => exact key _ _ (pre_report prioScan prioScan_sound true batch fuel r h).2.2
  | RR => exact key _ _ (rr_report tq (htq rfl) batch fuel r h).2.2

/-- The report of a valid batch whose scan keys are below `INT_MAX`, over
exact integers: it exists, its end time is past the smallest arrival time,
and it is the snapshot of the loop after some number of iterations. -/
theorem report_after_first_arrival (S : Sorter) (ch : Policy) (batch : List Input) (tq : Int)
    (hv : ValidBatch batch) (htq : ch = Policy.RR → 1 ≤ tq)
    (hbt : ch = Policy.SJF_NP ∨ ch = Policy.SJF_P → ∀ x ∈ batch, x.bt < INT_MAX)
    (hpr : ch = Policy.PRIO_NP ∨ ch = Policy.PRIO_P → ∀ x ∈ batch, x.pr < INT_MAX) :
    ∃ r, (∀ k, runPolicy S ch ((maxAt batch + sumBt batch).toNat + k) batch tq = some r) ∧
      minAt batch < r.end_time ∧
      ∃ n sn, snapAfter S ch n batch tq = some sn ∧ sn.p = r.rows ∧ sn.time = r.end_time ∧
        sn.gantt = r.gantt := by
  obtain ⟨r, hr, hlen, hrows, _⟩ := terminates_within_bound S ch batch tq hv htq hbt hpr
  refine ⟨r, hr, ?_, report_snap S ch _ batch tq r (hr 0)⟩
  have hne : r.rows ≠ [] := by
    intro e
    rw [e] at hlen
    exact hv.1 (List.length_eq_zero.mp hlen.symm)
  obtain ⟨x, hx⟩ := List.exists_mem_of_ne_nil _ hne
  obtain ⟨y, hy, e⟩ := report_rows_at S ch _ batch tq r htq (hr 0) x hx
  have h1 := hrows x hx
  have h2 := (completion_bounds S ch _ batch tq r hv htq (hr 0)).2 x hx
  have h3 := minAt_le batch y hy
  omega

end Scheduling

namespace Scheduling

/-! ## Exactly one completing iteration per process -/

/-- A sequence of integers that starts positive, is never negative, stays
at 0 once it is 0 and is 0 at `N` reaches 0 at exactly one step before
`N`. -/
theorem exactly_once (f : Nat → Int) (N : Nat) (h0 : 0 < f 0) (hN : f N = 0)
    (hnn : ∀ n, n ≤ N → 0 ≤ f n) (hz : ∀ n, n < N → f n = 0 → f (n + 1) = 0) :
    ∃ n, (n < N ∧ 0 < f n ∧ f (n + 1) = 0) ∧
      (∀ m, m < N ∧ 0 < f m ∧ f (m + 1) = 0 → m = n) ∧
      (∀ m, n < m → m ≤ N → f m = 0) := by
  classical
  have hNpos : 0 < N := by
    rcases Nat.eq_zero_or_pos N with h | h
    · rw [h] at hN
      omega
    · exact h
  have hex : ∃ n, n < N ∧ f (n + 1) = 0 := ⟨N - 1, by omega, by
    have : N - 1 + 1 = N := by omega
    rw [this]
    exact hN⟩
  have hmin : ∀ k, k < Nat.find hex → ¬ (k < N ∧ f (k + 1) = 0) :=
    fun k hk => Nat.find_min hex hk
  obtain ⟨hlt, hzero⟩ := Nat.find_spec hex
  have hpos : ∀ m, m ≤ Nat.find hex → 0 < f m := by
    intro m hm
    cases m with
    | zero => exact h0
    | succ k =>
      have hk : k < Nat.find hex := by omega
      have := hmin k hk
      have h1 := hnn (k + 1) (by omega)
      by_contra hc
      exact this ⟨by omega, by omega⟩
  have hlater : ∀ m, Nat.find hex < m → m ≤ N → f m = 0 := by
    intro m
    induction m with
    | zero => intro h; omega
    | succ k ih =>
      intro h1 h2
      rcases Nat.lt_or_ge (Nat.find hex) k with h | h
      · exact hz k (by omega) (ih h (by omega))
      · have : k = Nat.find hex := by omega
        rw [this]
        exact hzero
  refine ⟨Nat.find hex, ⟨hlt, hpos _ (le_refl _), hzero⟩, ?_, hlater⟩
  rintro m ⟨hm1, hm2, hm3⟩
  have h1 : Nat.find hex ≤ m := Nat.find_min' hex ⟨hm1, hm3⟩
  rcases Nat.lt_or_ge (Nat.find hex) m with h | h
  · have := hlater m h (by omega)
    omega
  · omega

/-- In a run of `N` iterations whose steps obey the discipline of the
remaining times, that starts with positive remaining times and ends with
all of them 0, every process has exactly one iteration that takes its
remaining time from positive to 0; the completion time is written there,
with the clock value after the iteration, and it is the completion time at
the end of the run. -/
theorem once_of_steps (snap : Nat → Option Snap) (N L : Nat)
    (hdef : ∀ n, n ≤ N → ∃ sn, snap n = some sn)
    (hstep : ∀ n sn sn', snap n = some sn → snap (n + 1) = some sn' →
      sn'.p.length = sn.p.length ∧ ∀ i, i < sn.p.length →
        RtStep sn'.time (sn.p.getD i default) (sn'.p.getD i default))
    (h0 : ∀ sn, snap 0 = some sn → sn.p.length = L ∧ ∀ x ∈ sn.p, 0 < x.rt)
    (hN : ∀ sn, snap N = some sn → ∀ x ∈ sn.p, x.rt = 0) :
    ∀ i, i < L → ∃ n, (n < N ∧ ∃ sn sn', snap n = some sn ∧ snap (n + 1) = some sn' ∧
        0 < (sn.p.getD i default).rt ∧ (sn'.p.getD i default).rt = 0 ∧
        (sn'.p.getD i default).ct = sn'.time ∧
        ∀ sN, snap N = some sN → (sN.p.getD i default).ct = sn'.time) ∧
      ∀ m, (m < N ∧ ∃ sn sn', snap m = some sn ∧ snap (m + 1) = some sn' ∧
        0 < (sn.p.getD i default).rt ∧ (sn'.p.getD i default).rt = 0) → m = n := by
  intro i hi
  have hlen : ∀ n, n ≤ N → ∀ sn, snap n = some sn → sn.p.length = L := by
    intro n
    induction n with
    | zero => intro _ sn h; exact (h0 sn h).1
    | succ k ih =>
      intro hk sn h
      obtain ⟨sk, hsk⟩ := hdef k (by omega)
      rw [(hstep k sk sn hsk h).1]
      exact ih (by omega) sk hsk
  have hrt : ∀ n, n ≤ N → ∀ sn, snap n = some sn → 0 ≤ (sn.p.getD i default).rt := by
    intro n
    cases n with
    | zero =>
      intro _ sn h
      obtain ⟨h1, h2⟩ := h0 sn h
      exact le_of_lt (h2 _ (getD_mem sn.p i default (by rw [h1]; exact hi)))
    | succ k =>
      intro hk sn h
      obtain ⟨sk, hsk⟩ := hdef k (by omega)
      exact ((hstep k sk sn hsk h).2 i (by rw [hlen k (by omega) sk hsk]; exact hi)).1
  have key := exactly_once
    (fun n => ((snap n).map fun sn => (sn.p.getD i default).rt).getD 0) N
    (by
      obtain ⟨s0, hs0⟩ := hdef 0 (Nat.zero_le _)
      obtain ⟨h1, h2⟩ := h0 s0 hs0
      simp only [hs0, Option.map_some', Option.getD_some]
      exact h2 _ (getD_mem s0.p i default (by rw [h1]; exact hi)))
    (by
      obtain ⟨sN, hsN⟩ := hdef N (le_refl _)
      simp only [hsN, Option.map_some', Option.getD_some]
      exact hN sN hsN _ (getD_mem sN.p i default (by rw [hlen N (le_refl _) sN hsN]; exact hi)))
    (by
      intro n hn
      obtain ⟨sn, hsn⟩ := hdef n hn
      simp only [hsn, Option.map_some', Option.getD_some]
      exact hrt n hn sn hsn)
    (by
      intro n hn
      obtain ⟨sn, hsn⟩ := hdef n (by omega)
      obtain ⟨sn', hsn'⟩ := hdef (n + 1) (by omega)
      simp only [hsn, hsn', Option.map_some', Option.getD_some]
      intro hz
      have := ((hstep n sn sn' hsn hsn').2 i
        (by rw [hlen n (by omega) sn hsn]; exact hi)).2.2.1 hz
      rw [this]
      exact hz)
  obtain ⟨n, ⟨hn1, hn2, hn3⟩, huniq, hlater⟩ := key
  obtain ⟨sn, hsn⟩ := hdef n (by omega)
  obtain ⟨sn', hsn'⟩ := hdef (n + 1) (by omega)
  simp only [hsn, hsn', Option.map_some', Option.getD_some] at hn2 hn3
  have hst := (hstep n sn sn' hsn hsn').2 i (by rw [hlen n (by omega) sn hsn]; exact hi)
  have hct : (sn'.p.getD i default).ct = sn'.time := hst.2.2.2.1 hn2 hn3
  have hkeep : ∀ m, n + 1 ≤ m → m ≤ N → ∀ sm, snap m = some sm →
      sm.p.getD i default = sn'.p.getD i default := by
    intro m
    induction m with
    | zero => intro h; omega
    | succ k ih =>
      intro h1 h2 sm hsm
      rcases Nat.lt_or_ge n k with h | h
      · obtain ⟨sk, hsk⟩ := hdef k (by omega)
        have e := ih (by omega) (by omega) sk hsk
        have hk0 : (sk.p.getD i default).rt = 0 := by rw [e]; exact hn3
        rw [((hstep k sk sm hsk hsm).2 i
          (by rw [hlen k (by omega) sk hsk]; exact hi)).2.2.1 hk0]
        exact e
      · have : k = n := by omega
        subst this
        rw [hsn'] at hsm
        simp only [Option.some.injEq] at hsm
        rw [hsm]
  refine ⟨n, ⟨hn1, sn, sn', hsn, hsn', hn2, hn3, hct, fun sN hsN => ?_⟩, ?_⟩
  · rw [hkeep N (by omega) (le_refl _) sN hsN]
    exact hct
  · rintro m ⟨hm1, sm, sm', hsm, hsm', hm2, hm3⟩
    apply huniq m
    simp only [hsm, hsm', Option.map_some', Option.getD_some]
    exact ⟨hm1, hm2, hm3⟩

end Scheduling

namespace Scheduling

/-! ## The metric identities on the 32-bit program (C3) -/

end Scheduling

namespace Scheduling

/-! ## The order of the Gantt start times on the 32-bit program (C16) -/

/-- C16 fails on the program's 32-bit clock: on the valid batch P1 (arrival
0, burst 2147483647), P2 (arrival 0, burst 1) FCFS records the segments
P1@0 and P2@2147483647 and passes the end time -2147483648 to `printGantt`,
the clock having wrapped when P2's burst was added: the start time of the
second segment exceeds the end time. -/
theorem gantt_start_exceeds_end_time :
    ValidBatch [⟨0, 2147483647, 0⟩, ⟨0, 1, 0⟩] ∧
    (Int32.runPolicy insertionSorter Policy.FCFS 0 [⟨0, 2147483647, 0⟩, ⟨0, 1, 0⟩] 1).map
        (fun r => (r.gantt, r.end_time))
      = some ([(1, 0), (2, 2147483647)], -2147483648) := by
  refine ⟨⟨by decide, by decide⟩, by decide⟩

/-- C16 (amended): for every valid batch whose largest arrival time plus
the sum of its burst times is at most `INT_MAX` (quantum at least 1 for
Round Robin) and each of the six policies run with 32-bit arithmetic, in
every report the routine produces the start times of the recorded Gantt
segments are in non-decreasing order and none exceeds the end time passed
to `printGantt`.  When moreover the keys of the selection scan are below
`INT_MAX` the report is produced within (largest arrival + sum of bursts)
iterations, and the same order holds at the head of the loop after any
number of iterations, with the clock in place of the end time. -/
theorem gantt_starts_ordered_int32 (S : Sorter) (ch : Policy) (batch : List Input) (tq : Int)
    (hv : ValidBatch batch) (hfit : FitsInt batch) (htq : ch = Policy.RR → 1 ≤ tq) :
    (∀ fuel r, Int32.runPolicy S ch fuel batch tq = some r →
      r.gantt.Pairwise (fun a b => a.2 ≤ b.2) ∧ ∀ g ∈ r.gantt, g.2 ≤ r.end_time) ∧
    ((ch = Policy.SJF_NP ∨ ch = Policy.SJF_P → ∀ x ∈ batch, x.bt < INT_MAX) →
     (ch = Policy.PRIO_NP ∨ ch = Policy.PRIO_P → ∀ x ∈ batch, x.pr < INT_MAX) →
      (∃ r, ∀ k, Int32.runPolicy S ch ((maxAt batch + sumBt batch).toNat + k) batch tq
        = some r) ∧
      ∀ n sn, Int32.snapAfter S ch n batch tq = some sn →
        sn.gantt.Pairwise (fun a b => a.2 ≤ b.2) ∧ ∀ g ∈ sn.gantt, g.2 ≤ sn.time) := by
  refine ⟨fun fuel r h => ?_, fun hbt hpr => ⟨?_, fun n sn h => ?_⟩⟩
  · exact (gantt_starts_ordered S ch batch tq hv).1 fuel r
      (report_int32 S ch batch tq hv hfit htq fuel r h)
  · obtain ⟨r, hr, _⟩ := terminates_within_bound S ch batch tq hv htq hbt hpr
    refine ⟨r, fun k => ?_⟩
    rw [(runPolicy_int32 S ch batch tq hv hfit htq hbt hpr).1]
    exact hr k
  · rw [(runPolicy_int32 S ch batch tq hv hfit htq hbt hpr).2.1] at h
    exact (gantt_starts_ordered S ch batch tq hv).2 n sn htq h

/-- Witness of the amended C16: FCFS on the batch (arrival 0, burst 2),
(arrival 1, burst 1). -/
theorem gantt_starts_ordered_int32_witness :
    ValidBatch [⟨0, 2, 0⟩, ⟨1, 1, 0⟩] ∧ FitsInt [⟨0, 2, 0⟩, ⟨1, 1, 0⟩] ∧
    Int32.runPolicy insertionSorter Policy.FCFS 0 [⟨0, 2, 0⟩, ⟨1, 1, 0⟩] 1
      = some (Int32.FCFS insertionSorter [⟨0, 2, 0⟩, ⟨1, 1, 0⟩]) ∧
    (Int32.FCFS insertionSorter [⟨0, 2, 0⟩, ⟨1, 1, 0⟩]).gantt.Pairwise
      (fun a b => a.2 ≤ b.2) ∧
    ∀ g ∈ (Int32.FCFS insertionSorter [⟨0, 2, 0⟩, ⟨1, 1, 0⟩]).gantt,
      g.2 ≤ (Int32.FCFS insertionSorter [⟨0, 2, 0⟩, ⟨1, 1, 0⟩]).end_time :=
  ⟨⟨by decide, by decide⟩, by decide, rfl,
    (gantt_starts_ordered_int32 insertionSorter Policy.FCFS [⟨0, 2, 0⟩, ⟨1, 1, 0⟩] 1
      ⟨by decide, by decide⟩ (by decide) (fun h => absurd h (by decide))).1 0
      (Int32.FCFS insertionSorter [⟨0, 2, 0⟩, ⟨1, 1, 0⟩]) rfl⟩

end Scheduling

namespace Scheduling

/-! ## SJF against FCFS on the 32-bit program (C25) -/

/-- C25 fails on the program's 32-bit clock: on the batch of three processes
arriving at 0 with bursts 2, 2147483646 and 1, the clock of FCFS wraps when
the second burst is added and is reset to the arrival time 0 for the third
process, so FCFS computes the waiting times 0, 2, 0 and the total 2; SJF
non-preemptive runs P3, P1, P2 with the waiting times 1, 3, 0 and the
total 4, which is larger. -/
theorem sjf_waiting_exceeds_fcfs_on_overflow :
    ([⟨0, 2, 0⟩, ⟨0, 2147483646, 0⟩, ⟨0, 1, 0⟩] : List Input) ≠ [] ∧
    (∀ x ∈ ([⟨0, 2, 0⟩, ⟨0, 2147483646, 0⟩, ⟨0, 1, 0⟩] : List Input), x.at_ = 0 ∧ 1 ≤ x.bt) ∧
    (Int32.SJF_NonPreemptive 3 [⟨0, 2, 0⟩, ⟨0, 2147483646, 0⟩, ⟨0, 1, 0⟩]).map
        (fun r => (r.rows.map fun x => x.wt, r.totalWT)) = some ([1, 3, 0], 4) ∧
    ((Int32.FCFS insertionSorter [⟨0, 2, 0⟩, ⟨0, 2147483646, 0⟩, ⟨0, 1, 0⟩]).rows.map
        fun x => x.wt) = [0, 2, 0] ∧
    (Int32.FCFS insertionSorter [⟨0, 2, 0⟩, ⟨0, 2147483646, 0⟩, ⟨0, 1, 0⟩]).totalWT = 2 := by
  refine ⟨by decide, by decide, by decide, by decide, by decide⟩

/-- C25 (amended): for every non-empty batch in which all processes arrive
at time 0 with bursts at least 1 and the sum of the burst times is below
`INT_MAX`, SJF non-preemptive with 32-bit arithmetic prints its report
within (sum of bursts) iterations, and the total waiting time of the
report is at most the total waiting time that FCFS computes on the same
batch (whatever order the library sort gives the equal arrival times), and
so is the mean, both being divided by the same number of processes.  The
comparison also holds for every report that SJF non-preemptive produces
when the sum of the burst times is exactly `INT_MAX`. -/
theorem sjf_waiting_le_fcfs_int32 (S : Sorter) (batch : List Input)
    (h0 : ∀ x ∈ batch, x.at_ = 0 ∧ 1 ≤ x.bt) (hfit : sumBt batch ≤ INT_MAX) :
    (batch ≠ [] → sumBt batch < INT_MAX →
      ∃ r, (∀ k, Int32.SJF_NonPreemptive ((sumBt batch).toNat + k) batch = some r) ∧
        r.totalWT ≤ (Int32.FCFS S batch).totalWT ∧ r.n = (Int32.FCFS S batch).n ∧
        r.avgWT ≤ (Int32.FCFS S batch).avgWT) ∧
    (∀ fuel r, Int32.SJF_NonPreemptive fuel batch = some r →
      r.totalWT ≤ (Int32.FCFS S batch).totalWT ∧ r.n = (Int32.FCFS S batch).n ∧
      r.avgWT ≤ (Int32.FCFS S batch).avgWT) := by
  have hv : ∀ x ∈ batch, 0 ≤ x.at_ ∧ 1 ≤ x.bt :=
    fun x hx => ⟨by rw [(h0 x hx).1], (h0 x hx).2⟩
  have hf : FitsInt batch := by
    show maxAt batch + sumBt batch ≤ INT_MAX
    rw [maxAt_zero batch (fun x hx => (h0 x hx).1), zero_add]
    exact hfit
  have hF : Int32.FCFS S batch = FCFS S batch := by
    have := report_int32_any S Policy.FCFS batch 1 hv hf (fun h => absurd h (by decide)) 0
      (Int32.FCFS S batch) rfl
    simp only [runPolicy, Option.some.injEq] at this
    exact this.symm
  rw [hF]
  have hcond : ∀ fuel r, Int32.SJF_NonPreemptive fuel batch = some r →
      r.totalWT ≤ (FCFS S batch).totalWT ∧ r.n = (FCFS S batch).n ∧
      r.avgWT ≤ (FCFS S batch).avgWT := fun fuel r h =>
    (sjf_waiting_le_fcfs S batch h0).1 fuel r
      (report_int32_any S Policy.SJF_NP batch 1 hv hf (fun h => absurd h (by decide)) fuel r h)
  refine ⟨fun hne hlt => ?_, hcond⟩
  have hbt : ∀ x ∈ batch, x.bt < INT_MAX := by
    intro x hx
    have := le_sum_map_of_mem (fun y : Input => y.bt) batch
      (fun y hy => by have := (h0 y hy).2; show 0 ≤ y.bt; omega) x hx
    have e : (batch.map fun y : Input => y.bt).sum = sumBt batch := rfl
    have h1 : x.bt ≤ sumBt batch := by rw [← e]; exact this
    omega
  obtain ⟨r, hr⟩ := (sjf_waiting_le_fcfs S batch h0).2 hne hbt
  have hr32 : ∀ k, Int32.SJF_NonPreemptive ((sumBt batch).toNat + k) batch = some r := by
    intro k
    have := (runPolicy_int32 S Policy.SJF_NP batch 1 ⟨hne, hv⟩ hf
      (fun h => absurd h (by decide)) (fun _ => hbt)
      (fun h => by rcases h with h | h <;> cases h)).1 ((sumBt batch).toNat + k)
    exact this.trans (hr k)
  exact ⟨r, hr32, hcond _ r (hr32 0)⟩

/-- Witness of the amended C25: the batch (arrival 0, burst 3), (arrival 0,
burst 1): SJF runs P2 first, total waiting time 1; FCFS runs P1 first,
total waiting time 3. -/
theorem sjf_waiting_le_fcfs_int32_witness :
    (∀ x ∈ ([⟨0, 3, 0⟩, ⟨0, 1, 0⟩] : List Input), x.at_ = 0 ∧ 1 ≤ x.bt) ∧
    sumBt [⟨0, 3, 0⟩, ⟨0, 1, 0⟩] < INT_MAX ∧
    (Int32.SJF_NonPreemptive 2 [⟨0, 3, 0⟩, ⟨0, 1, 0⟩]).map (fun r => r.totalWT) = some 1 ∧
    (Int32.FCFS insertionSorter [⟨0, 3, 0⟩, ⟨0, 1, 0⟩]).totalWT = 3 ∧
    ∃ r, (∀ k, Int32.SJF_NonPreemptive ((sumBt [⟨0, 3, 0⟩, ⟨0, 1, 0⟩]).toNat + k)
        [⟨0, 3, 0⟩, ⟨0, 1, 0⟩] = some r) ∧
      r.totalWT ≤ (Int32.FCFS insertionSorter [⟨0, 3, 0⟩, ⟨0, 1, 0⟩]).totalWT ∧
      r.n = (Int32.FCFS insertionSorter [⟨0, 3, 0⟩, ⟨0, 1, 0⟩]).n ∧
      r.avgWT ≤ (Int32.FCFS insertionSorter [⟨0, 3, 0⟩, ⟨0, 1, 0⟩]).avgWT :=
  ⟨by decide, by decide, by decide, by decide,
    (sjf_waiting_le_fcfs_int32 insertionSorter [⟨0, 3, 0⟩, ⟨0, 1, 0⟩] (by decide)
      (by decide)).1 (by decide) (by decide)⟩

end Scheduling

namespace Scheduling

/-! ## Completion, termination, segments and work on the 32-bit program (C4, C5, C19, C23) -/

/-- C4 fails on the code.  The one-process batch (arrival 0, burst
2147483647) is valid, yet SJF non-preemptive never prints a report on it,
for any fuel: the scan selects only a burst strictly below its initial
minimum `INT_MAX`, so the process is never completed.  And on the valid
batch P1 (arrival 0, burst 2147483647), P2 (arrival 0, burst 1) the 32-bit
clock of FCFS wraps: P2 is reported with completion time -2147483648, below
its arrival + burst = 1, and turnaround -2147483648, below its burst. -/
theorem completion_bounds_fail :
    ValidBatch [⟨0, 2147483647, 0⟩] ∧
    (¬ ∃ S fuel r, Int32.runPolicy S Policy.SJF_NP fuel [⟨0, 2147483647, 0⟩] 1 = some r) ∧
    ValidBatch [⟨0, 2147483647, 0⟩, ⟨0, 1, 0⟩] ∧
    (Int32.runPolicy insertionSorter Policy.FCFS 0 [⟨0, 2147483647, 0⟩, ⟨0, 1, 0⟩] 1).map
        (fun r => r.rows.map fun x => [x.pid, x.at_ + x.bt, x.ct, x.tat])
      = some [[1, 2147483647, 2147483647, 2147483647], [2, 1, -2147483648, -2147483648]] := by
  refine ⟨⟨by decide, by decide⟩, ?_, ⟨by decide, by decide⟩, by decide⟩
  rintro ⟨S, fuel, r, h⟩
  have := (int32_report_keys S _ _ 1 ⟨by decide, by decide⟩ fuel r h).1 (Or.inl rfl)
    ⟨0, 2147483647, 0⟩ (List.mem_singleton.mpr rfl)
  exact absurd this (by decide)

/-- C4, where the code meets it: for every valid batch (non-empty, arrivals
at least 0, bursts at least 1, quantum at least 1 for Round Robin) whose
largest arrival time plus the sum of its burst times is at most `INT_MAX`
and whose keys of the selection scan (burst times for the two SJF policies,
priority values for the two priority policies) are below `INT_MAX`, each of
the six policies run with 32-bit arithmetic prints its report within
(largest arrival + sum of bursts) iterations; the report has one row per
process and every row satisfies completion ≥ arrival + burst, turnaround ≥
burst ≥ 1 and waiting ≥ 0; and every report of any run is that report. -/
theorem completion_bounds_int32 (S : Sorter) (ch : Policy) (batch : List Input) (tq : Int)
    (hv : ValidBatch batch) (hfit : FitsInt batch) (htq : ch = Policy.RR → 1 ≤ tq)
    (hbt : ch = Policy.SJF_NP ∨ ch = Policy.SJF_P → ∀ x ∈ batch, x.bt < INT_MAX)
    (hpr : ch = Policy.PRIO_NP ∨ ch = Policy.PRIO_P → ∀ x ∈ batch, x.pr < INT_MAX) :
    ∃ r, (∀ k, Int32.runPolicy S ch ((maxAt batch + sumBt batch).toNat + k) batch tq
        = some r) ∧
      (∀ fuel r', Int32.runPolicy S ch fuel batch tq = some r' → r' = r) ∧
      r.rows.length = batch.length ∧
      ∀ x ∈ r.rows, x.at_ + x.bt ≤ x.ct ∧ x.bt ≤ x.tat ∧ 1 ≤ x.bt ∧ 0 ≤ x.wt := by
  have hb := (runPolicy_int32 S ch batch tq hv hfit htq hbt hpr).1
  obtain ⟨r, hr, _⟩ := terminates_within_bound S ch batch tq hv htq hbt hpr
  obtain ⟨h1, h2⟩ := completion_bounds S ch _ batch tq r hv htq (hr 0)
  refine ⟨r, fun k => by rw [hb]; exact hr k, fun fuel r' h' => ?_, h1, h2⟩
  rw [hb] at h'
  exact runPolicy_unique S ch batch tq _ _ r' r h' (hr 0)

/-- Witness of C4 on the code: SRTF on the batch (arrival 0, burst 7),
(arrival 2, burst 3). -/
theorem completion_bounds_int32_witness :
    ValidBatch [⟨0, 7, 0⟩, ⟨2, 3, 0⟩] ∧ FitsInt [⟨0, 7, 0⟩, ⟨2, 3, 0⟩] ∧
    ∃ r, (∀ k, Int32.runPolicy insertionSorter Policy.SJF_P
        ((maxAt [⟨0, 7, 0⟩, ⟨2, 3, 0⟩] + sumBt [⟨0, 7, 0⟩, ⟨2, 3, 0⟩]).toNat + k)
        [⟨0, 7, 0⟩, ⟨2, 3, 0⟩] 1 = some r) ∧
      (∀ fuel r', Int32.runPolicy insertionSorter Policy.SJF_P fuel [⟨0, 7, 0⟩, ⟨2, 3, 0⟩] 1
        = some r' → r' = r) ∧
      r.rows.length = ([⟨0, 7, 0⟩, ⟨2, 3, 0⟩] : List Input).length ∧
      ∀ x ∈ r.rows, x.at_ + x.bt ≤ x.ct ∧ x.bt ≤ x.tat ∧ 1 ≤ x.bt ∧ 0 ≤ x.wt :=
  ⟨⟨by decide, by decide⟩, by decide,
    completion_bounds_int32 insertionSorter Policy.SJF_P [⟨0, 7, 0⟩, ⟨2, 3, 0⟩] 1
      ⟨by decide, by decide⟩ (by decide) (fun h => absurd h (by decide))
      (fun _ => by decide) (fun h => by rcases h with h | h <;> exact absurd h (by decide))⟩

/-- C5 fails on the code: the one-process batch (arrival 0, burst
2147483647) is valid, yet neither SJF non-preemptive nor SRTF ever leaves
its loop on it, whatever the number of iterations allowed: both scans
select only a burst (remaining time) strictly below their initial minimum
`INT_MAX`. -/
theorem sjf_valid_batch_never_finishes :
    ValidBatch [⟨0, 2147483647, 0⟩] ∧
    (¬ ∃ S fuel r, Int32.runPolicy S Policy.SJF_NP fuel [⟨0, 2147483647, 0⟩] 1 = some r) ∧
    (¬ ∃ S fuel r, Int32.runPolicy S Policy.SJF_P fuel [⟨0, 2147483647, 0⟩] 1 = some r) := by
  refine ⟨⟨by decide, by decide⟩, ?_, ?_⟩
  · rintro ⟨S, fuel, r, h⟩
    have := (int32_report_keys S _ _ 1 ⟨by decide, by decide⟩ fuel r h).1 (Or.inl rfl)
      ⟨0, 2147483647, 0⟩ (List.mem_singleton.mpr rfl)
    exact absurd this (by decide)
  · rintro ⟨S, fuel, r, h⟩
    have := (int32_report_keys S _ _ 1 ⟨by decide, by decide⟩ fuel r h).1 (Or.inr rfl)
      ⟨0, 2147483647, 0⟩ (List.mem_singleton.mpr rfl)
    exact absurd this (by decide)

/-- C5, where the code meets it: for every valid batch (non-empty, arrivals
at least 0, bursts at least 1, quantum at least 1 for Round Robin) whose
largest arrival time plus the sum of its burst times is at most `INT_MAX`
and whose keys of the selection scan are below `INT_MAX`, the loop of each
of the six policies run with 32-bit arithmetic terminates within (largest
arrival + sum of bursts) iterations with every process completed
(completion time between arrival + burst and the end time, remaining time 0
where it is kept), and the final clock value is at most the sum of the
burst times plus the largest arrival time. -/
theorem terminates_within_bound_int32 (S : Sorter) (ch : Policy) (batch : List Input)
    (tq : Int) (hv : ValidBatch batch) (hfit : FitsInt batch) (htq : ch = Policy.RR → 1 ≤ tq)
    (hbt : ch = Policy.SJF_NP ∨ ch = Policy.SJF_P → ∀ x ∈ batch, x.bt < INT_MAX)
    (hpr : ch = Policy.PRIO_NP ∨ ch = Policy.PRIO_P → ∀ x ∈ batch, x.pr < INT_MAX) :
    ∃ r, (∀ k, Int32.runPolicy S ch ((maxAt batch + sumBt batch).toNat + k) batch tq
        = some r) ∧
      r.rows.length = batch.length ∧
      (∀ x ∈ r.rows, x.at_ + x.bt ≤ x.ct ∧ x.ct ≤ r.end_time) ∧
      (ch = Policy.SJF_P ∨ ch = Policy.PRIO_P ∨ ch = Policy.RR → ∀ x ∈ r.rows, x.rt = 0) ∧
      r.end_time ≤ sumBt batch + maxAt batch := by
  obtain ⟨r, hr, h⟩ := terminates_within_bound S ch batch tq hv htq hbt hpr
  exact ⟨r, fun k => by rw [(runPolicy_int32 S ch batch tq hv hfit htq hbt hpr).1]; exact hr k, h⟩

/-- Witness of C5 on the code: Priority preemptive on the batch (arrival 0,
burst 2, priority 1), (arrival 1, burst 1, priority 0). -/
theorem terminates_within_bound_int32_witness :
    ValidBatch [⟨0, 2, 1⟩, ⟨1, 1, 0⟩] ∧ FitsInt [⟨0, 2, 1⟩, ⟨1, 1, 0⟩] ∧
    ∃ r, (∀ k, Int32.runPolicy insertionSorter Policy.PRIO_P
        ((maxAt [⟨0, 2, 1⟩, ⟨1, 1, 0⟩] + sumBt [⟨0, 2, 1⟩, ⟨1, 1, 0⟩]).toNat + k)
        [⟨0, 2, 1⟩, ⟨1, 1, 0⟩] 1 = some r) ∧
      r.rows.length = ([⟨0, 2, 1⟩, ⟨1, 1, 0⟩] : List Input).length ∧
      (∀ x ∈ r.rows, x.at_ + x.bt ≤ x.ct ∧ x.ct ≤ r.end_time) ∧
      (Policy.PRIO_P = Policy.SJF_P ∨ Policy.PRIO_P = Policy.PRIO_P ∨
        Policy.PRIO_P = Policy.RR → ∀ x ∈ r.rows, x.rt = 0) ∧
      r.end_time ≤ sumBt [⟨0, 2, 1⟩, ⟨1, 1, 0⟩] + maxAt [⟨0, 2, 1⟩, ⟨1, 1, 0⟩] :=
  ⟨⟨by decide, by decide⟩, by decide,
    terminates_within_bound_int32 insertionSorter Policy.PRIO_P [⟨0, 2, 1⟩, ⟨1, 1, 0⟩] 1
      ⟨by decide, by decide⟩ (by decide) (fun h => absurd h (by decide))
      (fun h => by rcases h with h | h <;> exact absurd h (by decide))
      (fun _ => by decide)⟩

/-- C19 fails on the code.  On the one-process batch (arrival 0, burst
2147483647) SJF non-preemptive never selects the process, whose burst is not
below the initial `mn = INT_MAX` of the scan: after any number of
iterations the loop is still running with an empty Gantt sequence, and no
report is printed, so the Gantt sequence never has its one segment.  And on
the batch P1 (arrival 0, burst 2147483647), P2 (arrival 0, burst 1) the
32-bit clock of FCFS wraps: the segment of P2 is recorded at 2147483647 and
its completion time is reported as -2147483648, instead of start + burst =
2147483648. -/
theorem nonpreemptive_segments_fail :
    (∀ n, ∃ s, Int32.npAfter Policy.SJF_NP n [⟨0, 2147483647, 0⟩] = some s ∧
      s.gantt = [] ∧ s.completed = 0 ∧ s.p.length = 1) ∧
    (¬ ∃ S fuel r, Int32.runPolicy S Policy.SJF_NP fuel [⟨0, 2147483647, 0⟩] 1 = some r) ∧
    (Int32.runPolicy insertionSorter Policy.FCFS 0 [⟨0, 2147483647, 0⟩, ⟨0, 1, 0⟩] 1).map
        (fun r => (r.gantt, r.rows.map fun x => [x.pid, x.bt, x.ct]))
      = some ([(1, 0), (2, 2147483647)], [[1, 2147483647, 2147483647], [2, 1, -2147483648]]) ∧
    (2147483647 : Int) + 1 ≠ -2147483648 := by
  refine ⟨?_, ?_, by decide, by decide⟩
  · intro n
    have key : ∀ n, ∃ s, Int32.npAfter Policy.SJF_NP n [⟨0, 2147483647, 0⟩] = some s ∧
        s.p = [{ pid := 1, at_ := 0, bt := 2147483647 }] ∧ s.done = [false] ∧
        s.gantt = [] ∧ s.completed = 0 := by
      intro n
      induction n with
      | zero => exact ⟨_, rfl, rfl, rfl, rfl, rfl⟩
      | succ k ih =>
        obtain ⟨s, hs, hp, hd, hg, hc⟩ := ih
        have hgd : npGuard s = true := by
          unfold npGuard
          rw [hp, hc]
          rfl
        have hscan : (npScan (fun q => q.bt) s.p s.done s.time).1 = none := by
          rw [hp, hd]
          simp [npScan, npScanStep, List.range_succ, INT_MAX]
        refine ⟨{ s with time := wrap (s.time + 1) }, ?_, hp, hd, hg, hc⟩
        unfold Int32.npAfter at hs ⊢
        exact iterLoop_add npGuard _ 1 k _ s _ hs
          (by simp [iterLoop, hgd, npBody32_idle _ s hscan])
    obtain ⟨s, hs, hp, _, hg, hc⟩ := key n
    exact ⟨s, hs, hg, hc, by rw [hp]; rfl⟩
  · rintro ⟨S, fuel, r, h⟩
    have := (int32_report_keys S _ _ 1 ⟨by decide, by decide⟩ fuel r h).1 (Or.inl rfl)
      ⟨0, 2147483647, 0⟩ (List.mem_singleton.mpr rfl)
    exact absurd this (by decide)

/-- C19, where the code meets it: in FCFS, SJF non-preemptive and Priority
non-preemptive run with 32-bit arithmetic, for every batch of n processes
with arrival times at least 0 and bursts at least 1 whose largest arrival
time plus the sum of its burst times is at most `INT_MAX`, and every report
the routine produces, the Gantt sequence has exactly n segments, each
process id 1, ..., n occurs in exactly one segment, and the completion
time of every process equals the start time of its segment plus its burst
time.  The report is produced within (largest arrival + sum of bursts)
iterations when the batch is non-empty and its burst times (SJF) or
priority values (Priority) are below `INT_MAX`. -/
theorem nonpreemptive_one_segment_each_int32 (S : Sorter) (ch : Policy) (batch : List Input)
    (tq : Int) (hch : ch = Policy.FCFS ∨ ch = Policy.SJF_NP ∨ ch = Policy.PRIO_NP)
    (hv : ∀ x ∈ batch, 0 ≤ x.at_ ∧ 1 ≤ x.bt) (hfit : FitsInt batch) :
    (∀ fuel r, Int32.runPolicy S ch fuel batch tq = some r →
      r.gantt.length = batch.length ∧
      (∀ i, i < batch.length → (r.gantt.map Prod.fst).count ((i : Int) + 1) = 1) ∧
      (∀ x ∈ r.rows, (x.pid, x.ct - x.bt) ∈ r.gantt) ∧
      (∀ g ∈ r.gantt, ∃ x ∈ r.rows, g.1 = x.pid ∧ x.ct = g.2 + x.bt)) ∧
    (batch ≠ [] → (ch = Policy.SJF_NP → ∀ x ∈ batch, x.bt < INT_MAX) →
      (ch = Policy.PRIO_NP → ∀ x ∈ batch, x.pr < INT_MAX) →
      ∃ r, ∀ k, Int32.runPolicy S ch ((maxAt batch + sumBt batch).toNat + k) batch tq
        = some r) := by
  have hrr : ch = Policy.RR → 1 ≤ tq := by
    intro h
    rcases hch with e | e | e <;> rw [e] at h <;> cases h
  refine ⟨fun fuel r h => ?_, fun hne hbt hpr => ?_⟩
  · exact (nonpreemptive_one_segment_each S ch batch tq hch).1 fuel r
      (report_int32_any S ch batch tq hv hfit hrr fuel r h)
  · obtain ⟨r, hr⟩ := (nonpreemptive_one_segment_each S ch batch tq hch).2 ⟨hne, hv⟩ hbt hpr
    refine ⟨r, fun k => ?_⟩
    rw [(runPolicy_int32 S ch batch tq ⟨hne, hv⟩ hfit hrr
      (fun h => by
        rcases h with h | h
        · exact hbt h
        · rcases hch with e | e | e <;> rw [e] at h <;> cases h)
      (fun h => by
        rcases h with h | h
        · exact hpr h
        · rcases hch with e | e | e <;> rw [e] at h <;> cases h)).1]
    exact hr k

/-- Witness of C19 on the code: SJF non-preemptive on the batch (arrival 0,
burst 2), (arrival 0, burst 1) with fuel 2. -/
theorem nonpreemptive_one_segment_each_int32_witness :
    (∀ x ∈ ([⟨0, 2, 0⟩, ⟨0, 1, 0⟩] : List Input), 0 ≤ x.at_ ∧ 1 ≤ x.bt) ∧
    FitsInt [⟨0, 2, 0⟩, ⟨0, 1, 0⟩] ∧
    Int32.runPolicy insertionSorter Policy.SJF_NP 2 [⟨0, 2, 0⟩, ⟨0, 1, 0⟩] 1
      = some { rows := [{ pid := 1, at_ := 0, bt := 2, ct := 3, tat := 3, wt := 1 },
                        { pid := 2, at_ := 0, bt := 1, ct := 1, tat := 1, wt := 0 }],
               totalWT := 1, totalTAT := 4, n := 2, gantt := [(2, 0), (1, 1)],
               end_time := 3 } ∧
    ([(2, 0), (1, 1)] : List (Int × Int)).length = ([⟨0, 2, 0⟩, ⟨0, 1, 0⟩] : List Input).length :=
  ⟨by decide, by decide, by decide,
    ((nonpreemptive_one_segment_each_int32 insertionSorter Policy.SJF_NP
      [⟨0, 2, 0⟩, ⟨0, 1, 0⟩] 1 (Or.inr (Or.inl rfl)) (by decide) (by decide)).1 2
      { rows := [{ pid := 1, at_ := 0, bt := 2, ct := 3, tat := 3, wt := 1 },
                 { pid := 2, at_ := 0, bt := 1, ct := 1, tat := 1, wt := 0 }],
        totalWT := 1, totalTAT := 4, n := 2, gantt := [(2, 0), (1, 1)],
        end_time := 3 } (by decide)).1⟩

/-- C23 fails on the code.  The batch of one process with arrival 0, burst
1 and priority value 2147483647 is non-empty with all arrivals 0 and all
bursts at least 1, yet Priority non-preemptive never leaves its loop on it:
the scan only selects a priority value strictly below its initial `best =
INT_MAX`, so the CPU idles forever while the process waits.  And on the two
processes (arrival 0, burst 2147483646) the 32-bit clock of SJF
non-preemptive wraps: the end time is -4, not the sum 4294967292 of the
bursts. -/
theorem priority_np_never_finishes :
    (∀ x ∈ ([⟨0, 1, 2147483647⟩] : List Input), x.at_ = 0 ∧ 1 ≤ x.bt) ∧
    sumBt [⟨0, 1, 2147483647⟩] = 1 ∧
    (¬ ∃ S fuel r, Int32.runPolicy S Policy.PRIO_NP fuel [⟨0, 1, 2147483647⟩] 1 = some r) ∧
    (Int32.runPolicy insertionSorter Policy.SJF_NP 2
        [⟨0, 2147483646, 0⟩, ⟨0, 2147483646, 0⟩] 1).map (fun r => r.end_time) = some (-4) ∧
    sumBt [⟨0, 2147483646, 0⟩, ⟨0, 2147483646, 0⟩] = 4294967292 := by
  refine ⟨by decide, by decide, ?_, by decide, by decide⟩
  rintro ⟨S, fuel, r, h⟩
  have := (int32_report_keys S _ _ 1 ⟨by decide, by decide⟩ fuel r h).2 (Or.inl rfl)
    ⟨0, 1, 2147483647⟩ (List.mem_singleton.mpr rfl)
  exact absurd this (by decide)

/-- C23, where the code meets it: work conservation.  For every non-empty
batch in which all processes arrive at time 0, all bursts are at least 1
and the sum of the bursts is at most `INT_MAX` (quantum at least 1 for
Round Robin), in which moreover the keys of the selection scan are below
`INT_MAX`, each of the six policies run with 32-bit arithmetic leaves its
loop within (sum of bursts) iterations and its end time is exactly the sum
of the burst times. -/
theorem work_conservation_int32 (S : Sorter) (ch : Policy) (batch : List Input) (tq : Int)
    (hne : batch ≠ []) (h0 : ∀ x ∈ batch, x.at_ = 0 ∧ 1 ≤ x.bt)
    (hfit : sumBt batch ≤ INT_MAX) (htq : ch = Policy.RR → 1 ≤ tq)
    (hbt : ch = Policy.SJF_NP ∨ ch = Policy.SJF_P → ∀ x ∈ batch, x.bt < INT_MAX)
    (hpr : ch = Policy.PRIO_NP ∨ ch = Policy.PRIO_P → ∀ x ∈ batch, x.pr < INT_MAX) :
    ∃ r, (∀ k, Int32.runPolicy S ch ((sumBt batch).toNat + k) batch tq = some r) ∧
      r.end_time = sumBt batch := by
  have hv : ValidBatch batch := ⟨hne, fun x hx => ⟨by rw [(h0 x hx).1], (h0 x hx).2⟩⟩
  have hf : FitsInt batch := by
    show maxAt batch + sumBt batch ≤ INT_MAX
    rw [maxAt_zero batch (fun x hx => (h0 x hx).1), zero_add]
    exact hfit
  obtain ⟨r, hr, he⟩ := work_conservation S ch batch tq hne h0 htq hbt hpr
  exact ⟨r, fun k => by rw [(runPolicy_int32 S ch batch tq hv hf htq hbt hpr).1]; exact hr k, he⟩

/-- Witness of C23 on the code: SJF non-preemptive on the batch (arrival 0,
burst 2), (arrival 0, burst 1). -/
theorem work_conservation_int32_witness :
    ([⟨0, 2, 0⟩, ⟨0, 1, 0⟩] : List Input) ≠ [] ∧ sumBt [⟨0, 2, 0⟩, ⟨0, 1, 0⟩] ≤ INT_MAX ∧
    ∃ r, (∀ k, Int32.runPolicy insertionSorter Policy.SJF_NP
        ((sumBt [⟨0, 2, 0⟩, ⟨0, 1, 0⟩]).toNat + k) [⟨0, 2, 0⟩, ⟨0, 1, 0⟩] 1 = some r) ∧
      r.end_time = sumBt [⟨0, 2, 0⟩, ⟨0, 1, 0⟩] :=
  ⟨by decide, by decide,
    work_conservation_int32 insertionSorter Policy.SJF_NP [⟨0, 2, 0⟩, ⟨0, 1, 0⟩] 1 (by decide)
      (by decide) (by decide) (fun h => absurd h (by decide)) (fun _ => by decide)
      (fun h => by rcases h with h | h <;> exact absurd h (by decide))⟩

end Scheduling

namespace Scheduling

/-! ## Preemption at an arrival and idle time on the 32-bit program (C9, C18) -/

/-- C9 fails on the code: with b1 = 2147483647, a = 1 and b2 = 1 the
hypotheses 0 < a < b1 and 1 ≤ b2 < b1 - a hold, but SRTF never selects P1
(its remaining time is not below the initial minimum `INT_MAX` of the
scan): the CPU idles at time 0 although P1 has arrived, P2 runs from 1 to
2, the Gantt sequence after two iterations is [(P2,1)] and the loop never
ends, so no report is printed. -/
theorem srtf_no_preemption_at_int_max :
    ((0 : Int) < 1 ∧ (1 : Int) < 2147483647 ∧ (1 : Int) ≤ 1 ∧ (1 : Int) < 2147483647 - 1) ∧
    (Int32.preAfter Policy.SJF_P 2 [⟨0, 2147483647, 0⟩, ⟨1, 1, 0⟩]).map
        (fun s => (s.gantt, s.time, s.p.map fun x => x.rt)) = some ([(2, 1)], 2, [2147483647, 0]) ∧
    ¬ ∃ fuel r, Int32.SJF_Preemptive fuel [⟨0, 2147483647, 0⟩, ⟨1, 1, 0⟩] = some r := by
  refine ⟨by decide, by decide, ?_⟩
  rintro ⟨fuel, r, h⟩
  have h' : Int32.runPolicy insertionSorter Policy.SJF_P fuel
      [⟨0, 2147483647, 0⟩, ⟨1, 1, 0⟩] 1 = some r := h
  have := (int32_report_keys _ _ _ 1 ⟨by decide, by decide⟩ fuel r h').1 (Or.inr rfl)
    ⟨0, 2147483647, 0⟩ (List.mem_cons_self _ _)
  exact absurd this (by decide)

/-- C9, where the code meets it: for every two-process batch where P1
arrives at 0 with burst b1 and P2 arrives at a with 0 < a < b1 and burst b2
with 1 ≤ b2 < b1 - a, and a + b1 + b2 is at most `INT_MAX`, SRTF with 32-bit
arithmetic leaves its loop after b1 + b2 iterations with the Gantt sequence
exactly [(P1,0),(P2,a),(P1,a+b2)], end time b1 + b2, and the completion
times b1 + b2 for P1 and a + b2 for P2. -/
theorem srtf_preempts_at_arrival_int32 (a b1 b2 pr1 pr2 : Int) (ha : 0 < a) (hab : a < b1)
    (hb2 : 1 ≤ b2) (hlt : b2 < b1 - a) (hfit : a + b1 + b2 ≤ INT_MAX) (k : Nat) :
    (Int32.SJF_Preemptive ((b1 + b2).toNat + k) [⟨0, b1, pr1⟩, ⟨a, b2, pr2⟩]).map
        (fun r => (r.gantt, r.end_time, r.rows.map fun x => (x.pid, x.ct)))
      = some ([(1, 0), (2, a), (1, a + b2)], b1 + b2, [(1, b1 + b2), (2, a + b2)]) := by
  have hI := intMax_val
  have hv : ValidBatch [⟨0, b1, pr1⟩, ⟨a, b2, pr2⟩] := by
    refine ⟨by simp, ?_⟩
    intro x hx
    simp only [List.mem_cons, List.mem_singleton, List.not_mem_nil, or_false] at hx
    rcases hx with rfl | rfl
    · exact ⟨le_refl _, by show 1 ≤ b1; omega⟩
    · exact ⟨by show 0 ≤ a; omega, hb2⟩
  have hf : FitsInt [⟨0, b1, pr1⟩, ⟨a, b2, pr2⟩] := by
    show maxAt [⟨0, b1, pr1⟩, ⟨a, b2, pr2⟩] + sumBt [⟨0, b1, pr1⟩, ⟨a, b2, pr2⟩] ≤ INT_MAX
    have e1 : maxAt [⟨0, b1, pr1⟩, ⟨a, b2, pr2⟩] = a := by
      show max 0 (max a 0) = a
      rw [max_eq_left (le_of_lt ha), max_eq_right (le_of_lt ha)]
    have e2 : sumBt [⟨0, b1, pr1⟩, ⟨a, b2, pr2⟩] = b1 + b2 := by
      show b1 + (b2 + 0) = b1 + b2
      omega
    rw [e1, e2]
    omega
  have hbt : ∀ x ∈ ([⟨0, b1, pr1⟩, ⟨a, b2, pr2⟩] : List Input), x.bt < INT_MAX := by
    intro x hx
    simp only [List.mem_cons, List.mem_singleton, List.not_mem_nil, or_false] at hx
    rcases hx with rfl | rfl
    · show b1 < INT_MAX
      omega
    · show b2 < INT_MAX
      omega
  have hb := (runPolicy_int32 insertionSorter Policy.SJF_P [⟨0, b1, pr1⟩, ⟨a, b2, pr2⟩] 1 hv hf
    (fun h => absurd h (by decide)) (fun _ => hbt)
    (fun h => by rcases h with h | h <;> cases h)).1 ((b1 + b2).toNat + k)
  have hb' : Int32.SJF_Preemptive ((b1 + b2).toNat + k) [⟨0, b1, pr1⟩, ⟨a, b2, pr2⟩]
      = SJF_Preemptive ((b1 + b2).toNat + k) [⟨0, b1, pr1⟩, ⟨a, b2, pr2⟩] := hb
  rw [hb']
  exact srtf_preempts_at_arrival a b1 b2 pr1 pr2 ha hab hb2 hlt (by omega) k

/-- Witness of C9 on the code: P1 with burst 7 and P2 arriving at 2 with
burst 3. -/
theorem srtf_preempts_at_arrival_int32_witness :
    (Int32.SJF_Preemptive ((7 + 3 : Int).toNat + 0) [⟨0, 7, 0⟩, ⟨2, 3, 0⟩]).map
        (fun r => (r.gantt, r.end_time, r.rows.map fun x => (x.pid, x.ct)))
      = some ([(1, 0), (2, 2), (1, 2 + 3)], 7 + 3, [(1, 7 + 3), (2, 2 + 3)]) :=
  srtf_preempts_at_arrival_int32 2 7 3 0 0 (by decide) (by decide) (by decide) (by decide)
    (by decide) 0

/-- C18 fails on the code.  On the valid batch P1 (arrival 0, burst
2147483647), P2 (arrival 5, burst 1), SJF non-preemptive never selects P1
(its burst is not below the initial `mn = INT_MAX` of the scan), idles
until P2 arrives and records P2@5 as the first segment, while the smallest
arrival time is 0.  And on the valid batch P1 (arrival 0, burst 2), P2
(arrival 2, burst 2147483647) with quantum 2147483646 the 32-bit clock of
Round Robin wraps during the first slice of P2, whose second slice is
recorded at -2147483648, before its arrival at 2. -/
theorem first_segment_not_at_smallest_arrival :
    ValidBatch [⟨0, 2147483647, 0⟩, ⟨5, 1, 0⟩] ∧
    (Int32.snapAfter insertionSorter Policy.SJF_NP 6 [⟨0, 2147483647, 0⟩, ⟨5, 1, 0⟩] 1).map
        (fun sn => (sn.gantt, sn.time)) = some ([(2, 5)], 6) ∧
    minAt [⟨0, 2147483647, 0⟩, ⟨5, 1, 0⟩] = 0 ∧
    ValidBatch [⟨0, 2, 0⟩, ⟨2, 2147483647, 0⟩] ∧
    (Int32.snapAfter insertionSorter Policy.RR 3 [⟨0, 2, 0⟩, ⟨2, 2147483647, 0⟩]
        2147483646).map (fun sn => sn.gantt)
      = some [(1, 0), (2, 2), (2, -2147483648)] := by
  refine ⟨⟨by decide, by decide⟩, by decide, by decide, ⟨by decide, by decide⟩, by decide⟩

/-- C18, where the code meets it: idle time emits no segment.  For every
valid batch whose largest arrival time plus the sum of its burst times is
at most `INT_MAX` (quantum at least 1 for Round Robin) and whose keys of the
selection scan are below `INT_MAX`, and each of the six policies run with
32-bit arithmetic: in every state at the head of the loop (after any number
`n` of iterations), while no segment is recorded the clock has not passed
the smallest arrival time of the batch, the first segment starts exactly at
that time, and every segment `(pid, t)` names a process of the batch that
has arrived by `t`; the report is printed within (largest arrival + sum of
bursts) iterations, its Gantt sequence has a first segment, which starts at
the smallest arrival time, and each of its segments names a process that
has arrived by the start of the segment. -/
theorem idle_emits_no_segment_int32 (S : Sorter) (ch : Policy) (batch : List Input)
    (tq : Int) (hv : ValidBatch batch) (hfit : FitsInt batch)
    (htq : ch = Policy.RR → 1 ≤ tq)
    (hbt : ch = Policy.SJF_NP ∨ ch = Policy.SJF_P → ∀ x ∈ batch, x.bt < INT_MAX)
    (hpr : ch = Policy.PRIO_NP ∨ ch = Policy.PRIO_P → ∀ x ∈ batch, x.pr < INT_MAX) :
    (∀ n sn, Int32.snapAfter S ch n batch tq = some sn →
      (sn.gantt = [] → sn.time ≤ minAt batch) ∧
      (∀ g, sn.gantt.head? = some g → g.2 = minAt batch) ∧
      (∀ g ∈ sn.gantt, ∃ (i : Nat) (x : Input), batch[i]? = some x ∧ g.1 = (i : Int) + 1 ∧
        x.at_ ≤ g.2)) ∧
    ∃ r, (∀ k, Int32.runPolicy S ch ((maxAt batch + sumBt batch).toNat + k) batch tq
        = some r) ∧
      (∃ g, r.gantt.head? = some g ∧ g.2 = minAt batch) ∧
      (∀ g ∈ r.gantt, ∃ (i : Nat) (x : Input), batch[i]? = some x ∧ g.1 = (i : Int) + 1 ∧
        x.at_ ≤ g.2) := by
  obtain ⟨hb1, hb2, _⟩ := runPolicy_int32 S ch batch tq hv hfit htq hbt hpr
  have htq0 : ch = Policy.RR → 0 ≤ tq := fun h => by have := htq h; omega
  refine ⟨fun n sn h => ?_, ?_⟩
  · rw [hb2] at h
    exact idle_emits_no_segment S ch n batch tq sn hv hbt hpr htq0 h
  · obtain ⟨r, hr, hend, n, sn, hsn, _, ht, hg⟩ :=
      report_after_first_arrival S ch batch tq hv htq hbt hpr
    obtain ⟨h1, h2, h3⟩ := idle_emits_no_segment S ch n batch tq sn hv hbt hpr htq0 hsn
    rw [hg] at h1 h2 h3
    refine ⟨r, fun k => by rw [hb1]; exact hr k, ?_, h3⟩
    cases hgl : r.gantt with
    | nil =>
      have := h1 hgl
      omega
    | cons g gs =>
      exact ⟨g, rfl, h2 g (by rw [hgl]; rfl)⟩

/-- Witness of C18 on the code: SJF non-preemptive on the one-process batch
(arrival 2, burst 1) after three iterations, two of them idle. -/
theorem idle_emits_no_segment_int32_witness :
    ValidBatch [⟨2, 1, 0⟩] ∧ FitsInt [⟨2, 1, 0⟩] ∧
    Int32.snapAfter insertionSorter Policy.SJF_NP 3 [⟨2, 1, 0⟩] 1
      = some { p := [{ pid := 1, at_ := 2, bt := 1, ct := 3, tat := 1, wt := 0 }],
               time := 3, gantt := [(1, 2)] } ∧
    (∀ g, ([(1, 2)] : List (Int × Int)).head? = some g → g.2 = minAt [⟨2, 1, 0⟩]) :=
  ⟨⟨by decide, by decide⟩, by decide, by decide,
    ((idle_emits_no_segment_int32 insertionSorter Policy.SJF_NP [⟨2, 1, 0⟩] 1
      ⟨by decide, by decide⟩ (by decide) (fun h => absurd h (by decide))
      (fun _ => by decide)
      (fun h => by rcases h with h | h <;> exact absurd h (by decide))).1 3
      { p := [{ pid := 1, at_ := 2, bt := 1, ct := 3, tat := 1, wt := 0 }],
        time := 3, gantt := [(1, 2)] } (by decide)).2.1⟩

end Scheduling

namespace Scheduling

/-! ## The SRTF selection on the 32-bit program (C21) -/

theorem preBody32_time (scan : List Process → Int → Option (Option Nat)) (s s' : PState)
    (hb : Int32.preBody scan s = some s') : s'.time = wrap (s.time + 1) := by
  unfold Int32.preBody at hb
  cases hsc : scan s.p s.time with
  | none => rw [hsc] at hb; simp at hb
  | some o =>
    cases o with
    | none =>
      rw [hsc] at hb
      simp only [Option.some.injEq] at hb
      subst hb
      rfl
    | some idx =>
      rw [hsc] at hb
      simp only at hb
      split at hb
      · simp only [Option.some.injEq] at hb
        subst hb
        rfl
      · simp only [Option.some.injEq] at hb
        subst hb
        rfl

/-- What the SRTF loop with 32-bit arithmetic keeps on every batch whose
burst times are below `INT_MAX`: the clock is an `int`, every remaining
time is below `INT_MAX`, a process with a burst of at most 0 has a remaining
time of at most 0, and `completed` counts the finished processes. -/
theorem srtf_iter_inv32 (batch : List Input) (hbt : ∀ x ∈ batch, x.bt < INT_MAX) (n : Nat)
    (s : PState) (hs : Int32.preAfter Policy.SJF_P n batch = some s) :
    (-2147483648 ≤ s.time ∧ s.time ≤ 2147483647) ∧
    (∀ x ∈ s.p, x.rt < INT_MAX ∧ (x.bt ≤ 0 → x.rt ≤ 0)) ∧
    s.completed = s.p.countP Process.finished := by
  have hI := intMax_val
  refine iterLoop_inv preGuard (Int32.preBody srtfScan)
    (fun s : PState => (-2147483648 ≤ s.time ∧ s.time ≤ 2147483647) ∧
      (∀ x ∈ s.p, x.rt < INT_MAX ∧ (x.bt ≤ 0 → x.rt ≤ 0)) ∧
      s.completed = s.p.countP Process.finished)
    ?_ n _ s ?_ hs
  · intro x y ⟨_, hR, hC⟩ _ hb
    refine ⟨by rw [preBody32_time _ x y hb]; exact wrap_range _, ?_⟩
    rcases preBody32_cases srtfScan x y hb with ⟨_, hp, hc⟩ | ⟨idx, hsc, hcase⟩
    · rw [hp, hc]
      exact ⟨hR, hC⟩
    · obtain ⟨hidx, _, hrt⟩ := srtfScan_sound _ _ _ hsc
      have hq := hR _ (getD_mem x.p idx default hidx)
      have hw : wrap ((x.p.getD idx default).rt - 1) = (x.p.getD idx default).rt - 1 :=
        wrap_id _ (by omega) (by omega)
      have hbpos : 0 < (x.p.getD idx default).bt := by
        by_contra hc
        have := hq.2 (by omega)
        omega
      have hfin : (x.p.getD idx default).finished = false := by
        rw [finished_false_iff]
        intro h
        omega
      rcases hcase with ⟨hz, hc, c, t, w, hp⟩ | ⟨hz, hc, hp⟩
      · rw [hp, hc]
        refine ⟨?_, ?_⟩
        · intro z hz'
          rcases mem_set_cases _ _ _ _ hz' with h | rfl
          · exact hR z h
          · exact ⟨by show wrap ((x.p.getD idx default).rt - 1) < INT_MAX; omega,
              fun h => absurd hbpos (not_lt.mpr h)⟩
        · rw [countP_set_gain _ x.p idx _ default hidx hfin
            (by
              show decide (0 < (x.p.getD idx default).bt ∧
                wrap ((x.p.getD idx default).rt - 1) = 0) = true
              simp only [decide_eq_true_eq]
              exact ⟨hbpos, hz⟩), hC]
      · rw [hp, hc]
        refine ⟨?_, ?_⟩
        · intro z hz'
          rcases mem_set_cases _ _ _ _ hz' with h | rfl
          · exact hR z h
          · exact ⟨by show wrap ((x.p.getD idx default).rt - 1) < INT_MAX; omega,
              fun h => absurd hbpos (not_lt.mpr h)⟩
        · rw [countP_set_keep _ x.p idx _ default
            (by
              rw [hfin, finished_false_iff]
              intro h
              exact hz h.2), hC]
  · refine ⟨⟨by show (-2147483648 : Int) ≤ 0; omega, by show (0 : Int) ≤ 2147483647; omega⟩,
      ?_, ?_⟩
    · intro x hx
      obtain ⟨y, hy, _, e, _, er, _⟩ := readProcs_mem false true batch 0 x hx
      simp only [if_true] at er
      have := hbt y hy
      exact ⟨by rw [er]; exact this, fun h => by rw [er, ← e]; exact h⟩
    · show (0 : Nat) = (readProcs false true 0 batch).countP Process.finished
      symm
      rw [List.countP_eq_zero]
      intro x hx
      obtain ⟨y, hy, _, e, _, er, _⟩ := readProcs_mem false true batch 0 x hx
      simp only [if_true] at er
      simp only [Process.finished, decide_eq_true_eq, not_and]
      intro h1 h2
      omega

/-- C21 fails on the code: on the batch of one process (arrival 0, burst
2147483647), at time 0 the process is eligible (arrived, remaining time
positive), yet the scan selects nothing, because the remaining time is not
below the initial `mn = INT_MAX`; the iteration idles, no process is
executed for the unit and the remaining time is unchanged. -/
theorem srtf_idles_although_eligible :
    (Int32.preAfter Policy.SJF_P 0 [⟨0, 2147483647, 0⟩]).map
        (fun s => (s.time, (s.p.getD 0 default).at_, (s.p.getD 0 default).rt,
          srtfScan s.p s.time))
      = some (0, 0, 2147483647, some none) ∧
    (Int32.preAfter Policy.SJF_P 1 [⟨0, 2147483647, 0⟩]).map
        (fun s => (s.time, (s.p.getD 0 default).rt, s.gantt))
      = some (1, 2147483647, []) := by
  refine ⟨by decide, by decide⟩

/-- C21, where the code meets it: in SRTF with 32-bit arithmetic, for every
batch whose burst times are below `INT_MAX` and every state `s` at the head
of the loop in which some process is eligible (arrived, remaining time
positive), the loop is still running, the scan selects a process `idx`,
and the body executes it for exactly one unit (the clock takes one `int`
increment, which is `+ 1` unless the clock is `INT_MAX`, the remaining time
of `idx` drops by 1 and no other remaining time changes); `idx` is
eligible and its remaining time is the smallest among all eligible
processes.  The state reached is the head of the next iteration, where the
scan is run again. -/
theorem srtf_selection_int32 (batch : List Input)
    (hbt : ∀ x ∈ batch, x.bt < INT_MAX) (n : Nat) (s : PState)
    (hs : Int32.preAfter Policy.SJF_P n batch = some s)
    (helig : ∃ i, i < s.p.length ∧ (s.p.getD i default).at_ ≤ s.time ∧
      0 < (s.p.getD i default).rt) :
    ∃ idx s', preGuard s = true ∧ srtfScan s.p s.time = some (some idx) ∧
      Int32.preBody srtfScan s = some s' ∧
      Int32.preAfter Policy.SJF_P (n + 1) batch = some s' ∧
      s'.time = wrap (s.time + 1) ∧ (s.time < INT_MAX → s'.time = s.time + 1) ∧
      idx < s.p.length ∧
      (s'.p.getD idx default).rt = (s.p.getD idx default).rt - 1 ∧
      (∀ j, j ≠ idx → (s'.p.getD j default).rt = (s.p.getD j default).rt) ∧
      (s.p.getD idx default).at_ ≤ s.time ∧ 0 < (s.p.getD idx default).rt ∧
      (∀ j, j < s.p.length → (s.p.getD j default).at_ ≤ s.time → 0 < (s.p.getD j default).rt →
        (s.p.getD idx default).rt ≤ (s.p.getD j default).rt) := by
  have hI := intMax_val
  obtain ⟨hT, hR, hC⟩ := srtf_iter_inv32 batch hbt n s hs
  obtain ⟨i, hi, hia, hir⟩ := helig
  obtain ⟨hne, hnone⟩ := srtfScan_complete s.p s.time (fun x hx => (hR x hx).1)
  cases hsc : srtfScan s.p s.time with
  | none => exact absurd hsc hne
  | some o =>
    cases o with
    | none =>
      have := hnone hsc i hi hia
      omega
    | some idx =>
      obtain ⟨hidx, hat, hrt⟩ := srtfScan_sound s.p s.time idx hsc
      have hb : ∃ s', Int32.preBody srtfScan s = some s' := by
        unfold Int32.preBody
        rw [hsc]
        simp only
        split <;> exact ⟨_, rfl⟩
      obtain ⟨s', hs'⟩ := hb
      have hg : preGuard s = true := by
        unfold preGuard
        rw [decide_eq_true_iff, hC]
        apply countP_lt_of_mem Process.finished s.p _ (getD_mem s.p i default hi)
        rw [finished_false_iff]
        intro h
        omega
      have hnext : Int32.preAfter Policy.SJF_P (n + 1) batch = some s' := by
        simp only [Int32.preAfter] at hs ⊢
        exact iterLoop_add preGuard (Int32.preBody srtfScan) 1 n _ s s' hs
          (by simp [iterLoop, hg, hs'])
      have hq := (hR _ (getD_mem s.p idx default hidx)).1
      have hw : wrap ((s.p.getD idx default).rt - 1) = (s.p.getD idx default).rt - 1 :=
        wrap_id _ (by omega) (by omega)
      have hrt' : (s'.p.getD idx default).rt = (s.p.getD idx default).rt - 1 ∧
          ∀ j, j ≠ idx → (s'.p.getD j default).rt = (s.p.getD j default).rt := by
        rcases preBody32_cases srtfScan s s' hs' with ⟨h, _⟩ | ⟨k, hk, hp⟩
        · rw [hsc] at h
          simp at h
        · rw [hsc] at hk
          simp only [Option.some.injEq] at hk
          subst hk
          rcases hp with ⟨_, _, c, t, w, e⟩ | ⟨_, _, e⟩
          · rw [e]
            exact ⟨by rw [getD_set_self _ _ _ _ hidx]; exact hw,
              fun j hj => by rw [getD_set_other _ _ _ _ _ (Ne.symm hj)]⟩
          · rw [e]
            exact ⟨by rw [getD_set_self _ _ _ _ hidx]; exact hw,
              fun j hj => by rw [getD_set_other _ _ _ _ _ (Ne.symm hj)]⟩
      have ht := preBody32_time srtfScan s s' hs'
      exact ⟨idx, s', hg, rfl, hs', hnext, ht,
        fun h => by rw [ht]; exact wrap_id _ (by omega) (by omega),
        hidx, hrt'.1, hrt'.2, hat, hrt, srtfScan_min s.p s.time idx hsc⟩

/-- Witness of C21 on the code: P1 (arrival 0, burst 2) and P2 (arrival 0,
burst 1) at the head of the first iteration. -/
theorem srtf_selection_int32_witness :
    (∀ x ∈ ([⟨0, 2, 0⟩, ⟨0, 1, 0⟩] : List Input), x.bt < INT_MAX) ∧
    Int32.preAfter Policy.SJF_P 0 [⟨0, 2, 0⟩, ⟨0, 1, 0⟩]
      = some (preInit (readProcs false true 0 [⟨0, 2, 0⟩, ⟨0, 1, 0⟩])) ∧
    ∃ idx s', preGuard (preInit (readProcs false true 0 [⟨0, 2, 0⟩, ⟨0, 1, 0⟩])) = true ∧
      srtfScan (preInit (readProcs false true 0 [⟨0, 2, 0⟩, ⟨0, 1, 0⟩])).p
        (preInit (readProcs false true 0 [⟨0, 2, 0⟩, ⟨0, 1, 0⟩])).time = some (some idx) ∧
      Int32.preBody srtfScan (preInit (readProcs false true 0 [⟨0, 2, 0⟩, ⟨0, 1, 0⟩]))
        = some s' :=
  ⟨by decide, rfl,
    (srtf_selection_int32 [⟨0, 2, 0⟩, ⟨0, 1, 0⟩] (by decide) 0
      (preInit (readProcs false true 0 [⟨0, 2, 0⟩, ⟨0, 1, 0⟩])) rfl
      ⟨0, by decide, by decide, by decide⟩).imp
      fun _ h => h.imp fun _ h' => ⟨h'.1, h'.2.1, h'.2.2.1⟩⟩

end Scheduling

namespace Scheduling

/-! ## The quantum and the segments of Round Robin on the 32-bit program (C8, C15) -/

theorem rrBody32_dispatch (tq : Int) (s : RRState) (idx : Nat) (h : rrDispatch s = some idx) :
    (Int32.rrBody tq s).gantt = s.gantt ++ [((s.p.getD idx default).pid, s.time)] ∧
    (Int32.rrBody tq s).time = wrap (s.time + min tq (s.p.getD idx default).rt) ∧
    (idx < s.p.length → ((Int32.rrBody tq s).p.getD idx default).rt
      = wrap ((s.p.getD idx default).rt - min tq (s.p.getD idx default).rt)) := by
  unfold rrDispatch at h
  cases hq : (rrEnqueue s.p s.time s.q s.inQ).1 with
  | nil => rw [hq] at h; simp at h
  | cons i rest =>
    rw [hq] at h
    simp only [List.head?_cons, Option.some.injEq] at h
    subst h
    unfold Int32.rrBody
    simp only [hq]
    split
    · exact ⟨rfl, rfl, fun hi => by simp only; rw [getD_set_self _ _ _ _ hi]⟩
    · exact ⟨rfl, rfl, fun hi => by
        simp only
        rw [getD_set_self _ _ _ _ (by rw [List.length_set]; exact hi)]⟩

theorem rrBody32_no_dispatch (tq : Int) (s : RRState) (h : rrDispatch s = none) :
    (Int32.rrBody tq s).gantt = s.gantt ∧ (Int32.rrBody tq s).p = s.p := by
  unfold rrDispatch at h
  cases hq : (rrEnqueue s.p s.time s.q s.inQ).1 with
  | nil => constructor <;> simp [Int32.rrBody, hq]
  | cons i rest => rw [hq] at h; simp at h

/-- C8 fails: with quantum 0 the batch (arrival 0, burst 1) is not
rejected; the loop is entered and its first iteration dispatches P1 for a
slice of length min(0, 1) = 0 and records the Gantt segment P1@0. -/
theorem roundRobin_quantum_zero_dispatches :
    rrGuard (rrInit (readProcs false true 0 [⟨0, 1, 0⟩])) = true ∧
    rrDispatch (rrInit (readProcs false true 0 [⟨0, 1, 0⟩])) = some 0 ∧
    (Int32.rrBody 0 (rrInit (readProcs false true 0 [⟨0, 1, 0⟩]))).gantt = [(1, 0)] ∧
    (Int32.rrAfter 1 [⟨0, 1, 0⟩] 0).map (fun s => s.gantt) = some [(1, 0)] := by
  decide

/-- C8 (amended): Round Robin does not check the quantum.  With a quantum
≤ 0 the loop is entered on every non-empty batch; its first iteration
finds a process at the front of the ready queue whenever a process with a
positive burst has arrived at time 0; and every iteration that finds a
process at the front of the ready queue records a Gantt segment for it at
the current clock value and executes the slice min(quantum, remaining
time): the clock advances by it and the remaining time drops by it, in
`int` arithmetic. -/
theorem roundRobin_quantum_unchecked (batch : List Input) (tq : Int) (htq : tq ≤ 0) :
    (batch ≠ [] → rrGuard (rrInit (readProcs false true 0 batch)) = true ∧
      Int32.rrAfter 1 batch tq
        = some (Int32.rrBody tq (rrInit (readProcs false true 0 batch)))) ∧
    ((∃ x ∈ batch, x.at_ ≤ 0 ∧ 0 < x.bt) →
      ∃ idx, rrDispatch (rrInit (readProcs false true 0 batch)) = some idx) ∧
    (∀ (s : RRState) (idx : Nat), rrDispatch s = some idx →
      (Int32.rrBody tq s).gantt = s.gantt ++ [((s.p.getD idx default).pid, s.time)] ∧
      (Int32.rrBody tq s).time = wrap (s.time + min tq (s.p.getD idx default).rt) ∧
      min tq (s.p.getD idx default).rt ≤ 0 ∧
      (idx < s.p.length → ((Int32.rrBody tq s).p.getD idx default).rt
        = wrap ((s.p.getD idx default).rt - min tq (s.p.getD idx default).rt))) := by
  refine ⟨fun hne => ?_, ?_, fun s idx h => ?_⟩
  · have hg : rrGuard (rrInit (readProcs false true 0 batch)) = true := by
      unfold rrGuard
      rw [decide_eq_true_iff]
      show 0 < (readProcs false true 0 batch).length
      rw [readProcs_length]
      exact List.length_pos.mpr hne
    refine ⟨hg, ?_⟩
    unfold Int32.rrAfter
    simp [iterLoop, hg]
  · rintro ⟨x, hx, hxa, hxb⟩
    obtain ⟨i, hi, e⟩ := List.getElem_of_mem hx
    have hl := readProcs_length false true batch 0
    obtain ⟨y, hy, _, h2, h3, _⟩ := readProcs_getD false true batch 0 i hi
    rw [List.getElem?_eq_getElem hi, e] at hy
    simp only [Option.some.injEq] at hy
    subst hy
    have hr := readProcs_rt false batch _ (getD_mem (readProcs false true 0 batch) i default
      (by rw [hl]; exact hi))
    have hc : rrCond (readProcs false true 0 batch) 0
        (List.replicate (readProcs false true 0 batch).length false) i = true := by
      rw [rrCond_iff]
      refine ⟨?_, by rw [h2]; exact hxa, by rw [hr, h3]; exact hxb⟩
      simp only [List.getD_eq_getElem?_getD, List.getElem?_replicate]
      split <;> rfl
    have hspec := (rrEnqueue_spec (readProcs false true 0 batch) 0 []
      (List.replicate (readProcs false true 0 batch).length false) (by simp)).1
    have hmem : i ∈ (rrEnqueue (readProcs false true 0 batch) 0 []
        (List.replicate (readProcs false true 0 batch).length false)).1 := by
      rw [hspec, List.nil_append, List.mem_filter, List.mem_range]
      exact ⟨by rw [hl]; exact hi, hc⟩
    unfold rrDispatch
    show ∃ idx, (rrEnqueue (readProcs false true 0 batch) 0 []
        (List.replicate (readProcs false true 0 batch).length false)).1.head? = some idx
    cases hq : (rrEnqueue (readProcs false true 0 batch) 0 []
        (List.replicate (readProcs false true 0 batch).length false)).1 with
    | nil => rw [hq] at hmem; simp at hmem
    | cons j rest => exact ⟨j, rfl⟩
  · obtain ⟨h1, h2, h3⟩ := rrBody32_dispatch tq s idx h
    exact ⟨h1, h2, le_trans (min_le_left _ _) htq, h3⟩

/-- Witness of the amended C8: quantum 0 on the batch (arrival 0,
burst 1). -/
theorem roundRobin_quantum_unchecked_witness :
    (0 : Int) ≤ 0 ∧ ([⟨0, 1, 0⟩] : List Input) ≠ [] ∧
    rrGuard (rrInit (readProcs false true 0 [⟨0, 1, 0⟩])) = true ∧
    Int32.rrAfter 1 [⟨0, 1, 0⟩] 0
      = some (Int32.rrBody 0 (rrInit (readProcs false true 0 [⟨0, 1, 0⟩]))) :=
  ⟨le_refl _, by simp,
    (roundRobin_quantum_unchecked [⟨0, 1, 0⟩] 0 (le_refl _)).1 (by simp)⟩

/-- C15 fails: on the valid batch of one process (arrival 0, burst 3) with
quantum 2, Round Robin records the two consecutive segments P1@0 and P1@2
for the contiguous run of P1 from 0 to 3. -/
theorem roundRobin_same_id_twice :
    ValidBatch [⟨0, 3, 0⟩] ∧
    (Int32.RoundRobin 2 [⟨0, 3, 0⟩] 2).map (fun r => (r.gantt, r.end_time))
      = some ([(1, 0), (1, 2)], 3) := by
  refine ⟨⟨by decide, by decide⟩, by decide⟩

/-- C15 (amended): Round Robin records one segment per dispatched slice,
with no merging.  For every batch, every quantum and every state `s` at the
head of the loop that is still running: the body leads to the head of the
next iteration; an iteration that finds the ready queue empty leaves the
Gantt vector as it is; an iteration that dispatches the process `idx`
appends the segment of that process at the current clock value, whatever
the last recorded segment is, so the Gantt vector grows by exactly one
segment and two consecutive segments may carry the same process id. -/
theorem roundRobin_segment_per_slice (batch : List Input) (tq : Int) (n : Nat) (s : RRState)
    (hs : Int32.rrAfter n batch tq = some s) (hg : rrGuard s = true) :
    Int32.rrAfter (n + 1) batch tq = some (Int32.rrBody tq s) ∧
    (rrDispatch s = none → (Int32.rrBody tq s).gantt = s.gantt) ∧
    (∀ idx, rrDispatch s = some idx →
      (Int32.rrBody tq s).gantt = s.gantt ++ [((s.p.getD idx default).pid, s.time)] ∧
      (Int32.rrBody tq s).gantt.length = s.gantt.length + 1) := by
  refine ⟨?_, fun h => (rrBody32_no_dispatch tq s h).1, fun idx h => ?_⟩
  · unfold Int32.rrAfter at hs ⊢
    exact iterLoop_add rrGuard _ 1 n _ s _ hs (by simp [iterLoop, hg])
  · have := (rrBody32_dispatch tq s idx h).1
    exact ⟨this, by rw [this]; simp⟩

/-- Witness of the amended C15: the batch (arrival 0, burst 3) with quantum
2 at the head of the second iteration, where P1, requeued after its first
slice (remaining time 1, clock 2), is dispatched again. -/
theorem roundRobin_segment_per_slice_witness :
    Int32.rrAfter 1 [⟨0, 3, 0⟩] 2
      = some ⟨[{ pid := 1, at_ := 0, bt := 3, rt := 1 }], [0], [true], [(1, 0)], 2, 0⟩ ∧
    Int32.rrAfter (1 + 1) [⟨0, 3, 0⟩] 2
      = some (Int32.rrBody 2
          ⟨[{ pid := 1, at_ := 0, bt := 3, rt := 1 }], [0], [true], [(1, 0)], 2, 0⟩) ∧
    (Int32.rrBody 2
        ⟨[{ pid := 1, at_ := 0, bt := 3, rt := 1 }], [0], [true], [(1, 0)], 2, 0⟩).gantt
      = [(1, 0)] ++ [(1, 2)] :=
  ⟨by decide,
    (roundRobin_segment_per_slice [⟨0, 3, 0⟩] 2 1
      ⟨[{ pid := 1, at_ := 0, bt := 3, rt := 1 }], [0], [true], [(1, 0)], 2, 0⟩
      (by decide) (by decide)).1,
    ((roundRobin_segment_per_slice [⟨0, 3, 0⟩] 2 1
      ⟨[{ pid := 1, at_ := 0, bt := 3, rt := 1 }], [0], [true], [(1, 0)], 2, 0⟩
      (by decide) (by decide)).2.2 0 (by decide)).1⟩

end Scheduling

namespace Scheduling

/-! ## The remaining times on the 32-bit program (C20) -/

theorem snapAfter_init (S : Sorter) (ch : Policy) (n k : Nat) (batch : List Input) (tq : Int)
    (sn : Snap) (h : snapAfter S ch (n + k) batch tq = some sn) :
    ∃ m, snapAfter S ch n batch tq = some m := by
  have key : ∀ {σ : Type} (guard : σ → Bool) (body : σ → Option σ) (s0 : σ) (g : σ → Snap),
      (iterLoop guard body (n + k) s0).map g = some sn →
      ∃ m, (iterLoop guard body n s0).map g = some m := by
    intro σ guard body s0 g h
    simp only [Option.map_eq_some'] at h
    obtain ⟨s, hs, _⟩ := h
    obtain ⟨m, hm⟩ := iterLoop_init guard body n k s0 s hs
    exact ⟨g m, by rw [hm]; rfl⟩
  cases ch with
  | FCFS =>
    simp only [snapAfter, fcfsAfter] at h ⊢
    split at h
    · rw [if_pos (by omega)]
      exact ⟨_, rfl⟩
    · simp at h
  | SJF_NP => exact key _ _ _ _ h
  | PRIO_NP => exact key _ _ _ _ h
  | SJF_P => exact key _ _ _ _ h
  | PRIO_P => exact key _ _ _ _ h
  | RR => exact key _ _ _ _ h

theorem snapAfter_zero_rows (S : Sorter) (ch : Policy) (batch : List Input) (tq : Int)
    (hv : ValidBatch batch)
    (hch : ch = Policy.SJF_P ∨ ch = Policy.PRIO_P ∨ ch = Policy.RR) (sn : Snap)
    (h : snapAfter S ch 0 batch tq = some sn) :
    sn.p.length = batch.length ∧ ∀ x ∈ sn.p, x.rt = x.bt ∧ 1 ≤ x.bt := by
  have key : ∀ a : Bool, (readProcs a true 0 batch).length = batch.length ∧
      ∀ x ∈ readProcs a true 0 batch, x.rt = x.bt ∧ 1 ≤ x.bt :=
    fun a => ⟨readProcs_length a true batch 0, fun x hx =>
      ⟨readProcs_rt a batch x hx, (read_ok a true batch hv x hx).2.2⟩⟩
  rcases hch with rfl | rfl | rfl
  · simp only [snapAfter, preAfter, iterLoop, Option.map_some', Option.some.injEq] at h
    subst h
    exact key false
  · simp only [snapAfter, preAfter, iterLoop, Option.map_some', Option.some.injEq] at h
    subst h
    exact key true
  · simp only [snapAfter, rrAfter, iterLoop, Option.map_some', Option.some.injEq] at h
    subst h
    exact key false

/-- C20 fails on the code: on the valid batch of one process (arrival 0,
burst 2147483647) SRTF never selects the process, whose remaining time is
not below the initial `mn = INT_MAX` of the scan: after any number of
iterations the loop is still running, the remaining time is still
2147483647 and no completion time has been written, and no report is ever
printed. -/
theorem srtf_completion_never_assigned :
    ValidBatch [⟨0, 2147483647, 0⟩] ∧
    (∀ n, ∃ s, Int32.preAfter Policy.SJF_P n [⟨0, 2147483647, 0⟩] = some s ∧
      s.p = [{ pid := 1, at_ := 0, bt := 2147483647, rt := 2147483647, ct := 0 }] ∧
      s.completed = 0) ∧
    ¬ ∃ S fuel r, Int32.runPolicy S Policy.SJF_P fuel [⟨0, 2147483647, 0⟩] 1 = some r := by
  refine ⟨⟨by decide, by decide⟩, ?_, ?_⟩
  · intro n
    induction n with
    | zero => exact ⟨_, rfl, rfl, rfl⟩
    | succ k ih =>
      obtain ⟨s, hs, hp, hc⟩ := ih
      have hg : preGuard s = true := by
        unfold preGuard
        rw [hp, hc]
        rfl
      have hscan : srtfScan s.p s.time = some none := by
        rw [hp]
        simp [srtfScan, srtfScanStep, List.range_succ, INT_MAX]
      have hbody : Int32.preBody srtfScan s = some { s with time := wrap (s.time + 1) } := by
        unfold Int32.preBody
        rw [hscan]
      refine ⟨{ s with time := wrap (s.time + 1) }, ?_, hp, hc⟩
      unfold Int32.preAfter at hs ⊢
      exact iterLoop_add preGuard (Int32.preBody srtfScan) 1 k _ s _ hs
        (by simp [iterLoop, hg, hbody])
  · rintro ⟨S, fuel, r, h⟩
    have := (int32_report_keys S _ _ 1 ⟨by decide, by decide⟩ fuel r h).1 (Or.inr rfl)
      ⟨0, 2147483647, 0⟩ (List.mem_singleton.mpr rfl)
    exact absurd this (by decide)

/-- C20, where the code meets it: in SRTF, Priority preemptive and Round
Robin run with 32-bit arithmetic, for every valid batch whose largest
arrival time plus the sum of its burst times is at most `INT_MAX` (quantum
at least 1 for Round Robin) and whose keys of the selection scan are below
`INT_MAX`, the loop leaves after some number `N` of iterations and the
report is printed.  Before the first iteration every remaining time equals
the burst time, which is at least 1; from the state after `n` iterations to
the state after `n + 1`, the remaining time of every process does not
increase and is not negative, a process whose remaining time is 0 is left
untouched, and the completion time is written only at an iteration that
takes the remaining time from positive to 0; at the end all remaining
times are 0; and for every process there is exactly one iteration that
takes its remaining time from positive to 0: the completion time is
written there, with the value of the clock after that iteration, and that
is the completion time of the report. -/
theorem remaining_time_discipline_int32 (S : Sorter) (ch : Policy) (batch : List Input)
    (tq : Int) (hv : ValidBatch batch) (hfit : FitsInt batch)
    (hch : ch = Policy.SJF_P ∨ ch = Policy.PRIO_P ∨ ch = Policy.RR)
    (htq : ch = Policy.RR → 1 ≤ tq)
    (hbt : ch = Policy.SJF_P → ∀ x ∈ batch, x.bt < INT_MAX)
    (hpr : ch = Policy.PRIO_P → ∀ x ∈ batch, x.pr < INT_MAX) :
    ∃ N r,
      (∀ k, Int32.runPolicy S ch ((maxAt batch + sumBt batch).toNat + k) batch tq = some r) ∧
      (∀ n, n ≤ N → ∃ sn, Int32.snapAfter S ch n batch tq = some sn) ∧
      (∀ sn, Int32.snapAfter S ch 0 batch tq = some sn →
        sn.p.length = batch.length ∧ ∀ x ∈ sn.p, x.rt = x.bt ∧ 1 ≤ x.bt) ∧
      (∀ sn, Int32.snapAfter S ch N batch tq = some sn →
        sn.p = r.rows ∧ ∀ x ∈ sn.p, x.rt = 0) ∧
      (∀ n sn sn', Int32.snapAfter S ch n batch tq = some sn →
        Int32.snapAfter S ch (n + 1) batch tq = some sn' →
        sn'.p.length = sn.p.length ∧ ∀ i, i < sn.p.length →
          0 ≤ (sn'.p.getD i default).rt ∧
          (sn'.p.getD i default).rt ≤ (sn.p.getD i default).rt ∧
          ((sn.p.getD i default).rt = 0 → sn'.p.getD i default = sn.p.getD i default) ∧
          (0 < (sn.p.getD i default).rt → (sn'.p.getD i default).rt = 0 →
            (sn'.p.getD i default).ct = sn'.time) ∧
          ((sn'.p.getD i default).ct ≠ (sn.p.getD i default).ct →
            0 < (sn.p.getD i default).rt ∧ (sn'.p.getD i default).rt = 0 ∧
              (sn'.p.getD i default).ct = sn'.time)) ∧
      (∀ i, i < batch.length →
        ∃ n, (n < N ∧ ∃ sn sn', Int32.snapAfter S ch n batch tq = some sn ∧
            Int32.snapAfter S ch (n + 1) batch tq = some sn' ∧
            0 < (sn.p.getD i default).rt ∧ (sn'.p.getD i default).rt = 0 ∧
            (sn'.p.getD i default).ct = sn'.time ∧
            (r.rows.getD i default).ct = sn'.time) ∧
          ∀ m, (m < N ∧ ∃ sn sn', Int32.snapAfter S ch m batch tq = some sn ∧
            Int32.snapAfter S ch (m + 1) batch tq = some sn' ∧
            0 < (sn.p.getD i default).rt ∧ (sn'.p.getD i default).rt = 0) → m = n) := by
  have hbt' : ch = Policy.SJF_NP ∨ ch = Policy.SJF_P → ∀ x ∈ batch, x.bt < INT_MAX := by
    intro h
    rcases h with h | h
    · rcases hch with e | e | e <;> rw [e] at h <;> cases h
    · exact hbt h
  have hpr' : ch = Policy.PRIO_NP ∨ ch = Policy.PRIO_P → ∀ x ∈ batch, x.pr < INT_MAX := by
    intro h
    rcases h with h | h
    · rcases hch with e | e | e <;> rw [e] at h <;> cases h
    · exact hpr h
  obtain ⟨hb1, hb2, _⟩ := runPolicy_int32 S ch batch tq hv hfit htq hbt' hpr'
  obtain ⟨r, hr, _, _, hrt0, _⟩ := terminates_within_bound S ch batch tq hv htq hbt' hpr'
  obtain ⟨N, sN, hsN, hpN, _, _⟩ := report_snap S ch _ batch tq r (hr 0)
  obtain ⟨_, hstep, _⟩ := remaining_time_discipline S ch batch tq hv hch htq
  have hdef : ∀ n, n ≤ N → ∃ sn, snapAfter S ch n batch tq = some sn := by
    intro n hn
    have e : N = n + (N - n) := by omega
    rw [e] at hsN
    exact snapAfter_init S ch n (N - n) batch tq sN hsN
  have hzero := snapAfter_zero_rows S ch batch tq hv hch
  have hend : ∀ sn, snapAfter S ch N batch tq = some sn →
      sn.p = r.rows ∧ ∀ x ∈ sn.p, x.rt = 0 := by
    intro sn h
    rw [hsN] at h
    simp only [Option.some.injEq] at h
    subst h
    exact ⟨hpN, fun x hx => hrt0 (by
      rcases hch with e | e | e
      · exact Or.inl e
      · exact Or.inr (Or.inl e)
      · exact Or.inr (Or.inr e)) x (hpN ▸ hx)⟩
  have honce := once_of_steps (fun n => snapAfter S ch n batch tq) N batch.length hdef hstep
    (fun sn h => ⟨(hzero sn h).1, fun x hx => by
      obtain ⟨h1, h2⟩ := (hzero sn h).2 x hx
      omega⟩)
    (fun sn h => (hend sn h).2)
  simp only [hb1, hb2]
  refine ⟨N, r, hr, hdef, hzero, hend, hstep, fun i hi => ?_⟩
  obtain ⟨n, ⟨hn, sn, sn', h1, h2, h3, h4, h5, h6⟩, huniq⟩ := honce i hi
  refine ⟨n, ⟨hn, sn, sn', h1, h2, h3, h4, h5, ?_⟩, huniq⟩
  have := h6 sN hsN
  rw [hpN] at this
  exact this

/-- Witness of C20 on the code: Round Robin with quantum 2 on the batch
(arrival 0, burst 3). -/
theorem remaining_time_discipline_int32_witness :
    ValidBatch [⟨0, 3, 0⟩] ∧ FitsInt [⟨0, 3, 0⟩] ∧
    ∃ N r,
      (∀ k, Int32.runPolicy insertionSorter Policy.RR
        ((maxAt [⟨0, 3, 0⟩] + sumBt [⟨0, 3, 0⟩]).toNat + k) [⟨0, 3, 0⟩] 2 = some r) ∧
      (∀ n, n ≤ N → ∃ sn, Int32.snapAfter insertionSorter Policy.RR n [⟨0, 3, 0⟩] 2 = some sn) ∧
      (∀ sn, Int32.snapAfter insertionSorter Policy.RR N [⟨0, 3, 0⟩] 2 = some sn →
        sn.p = r.rows ∧ ∀ x ∈ sn.p, x.rt = 0) :=
  ⟨⟨by decide, by decide⟩, by decide,
    (remaining_time_discipline_int32 insertionSorter Policy.RR [⟨0, 3, 0⟩] 2
      ⟨by decide, by decide⟩ (by decide) (Or.inr (Or.inr rfl)) (fun _ => by decide)
      (fun h => absurd h (by decide)) (fun h => absurd h (by decide))).imp
      fun _ h => h.imp fun _ h' => ⟨h'.1, h'.2.1, h'.2.2.2.1⟩⟩

end Scheduling

